import Mathlib

/-!
# collaborate-storage: sorted storage, positional edits and document history

A shallow embedding of `model/list.go`, `model/rpc.go`, `storage/storage.go`,
`storage/storage_item.go`, `storage/storage_ops.go`, `storage/doc_history.go`,
`storage/mock.go` and the request handlers and the worker of `service/server/service.go`,
followed by the properties proved about them.

Conventions of the embedding
* Go slices are Lean lists; the slice idioms `append(l, zero); copy(l[i+1:], l[i:]); l[i] = x`
  and `append(l[:i], l[i+1:]...)` are modelled step by step (`sliceInsert`, `sliceCut`).
* `*Item` pointers are addresses into an explicit object memory (`Storage.mem`), so that a
  write through a pointer is seen both through the by-id map and through the ordered list.
* A Go `panic` is the `Except.error` result carrying the panic message.
* `model.StorageValue` (int32) is only ever compared, never computed with, and is an `Int`.
* `uuid.UUID` is represented by its canonical textual form, which determines it.
* The library functions `uuid.Parse` and `time.Now`, whose code is not part of the
  repository, are parameters of the functions that call them.
* The library function `sort.Slice` is embedded from the Go standard library
  (`sort/slice.go`, `sort/zsortfunc.go`: the pattern-defeating quicksort of Go 1.19 and
  later), with the slice as a list and an explicit bound on the iterations of every loop.
  Its pseudo-random generator `xorshift.Next` is a parameter.
* Calls that share one history from several goroutines are interleaved step by step
  (`Shared.step`), with the mutex of the history as an explicit field.
-/

namespace Collab

/-! ## Go slice idioms -/

/-- Go `copy(l[d:], l[s:])` on two windows of the same slice (memmove semantics):
the first `min (len - d) (len - s)` cells from `d` on receive the old cells from `s` on. -/
def sliceCopy {α : Type} (l : List α) (d s : Nat) : List α :=
  let n := min (l.length - d) (l.length - s)
  l.take d ++ (l.drop s).take n ++ l.drop (d + n)

/-- The insertion idiom `l = append(l, zero); copy(l[i+1:], l[i:]); l[i] = x`. -/
def sliceInsert {α : Type} (l : List α) (i : Nat) (x zero : α) : List α :=
  let l1 := l ++ [zero]
  let l2 := sliceCopy l1 (i + 1) i
  l2.set i x

/-- The cut idiom `l = append(l[:i], l[i+1:]...)`. -/
def sliceCut {α : Type} (l : List α) (i : Nat) : List α :=
  l.take i ++ l.drop (i + 1)

/-! ## sort.Search (Go standard library) -/

/-- The loop of `sort.Search`: `for i < j { h := (i+j)/2; if !f(h) { i = h+1 } else { j = h } }`.
The first argument bounds the number of iterations. -/
def sortSearchLoop (f : Nat → Bool) : Nat → Nat → Nat → Nat
  | 0, i, _ => i
  | fuel + 1, i, j =>
    if i < j then
      let h := (i + j) / 2
      if !f h then sortSearchLoop f fuel (h + 1) j else sortSearchLoop f fuel i h
    else i

/-- Go `sort.Search(n, f)`: binary search on `[0, n)`; `n` iterations always suffice because
the interval shrinks at every step. -/
def sortSearch (n : Nat) (f : Nat → Bool) : Nat :=
  sortSearchLoop f n 0 n

/-!
## sort.Slice (Go standard library)

The functions of `sort/slice.go` and `sort/zsortfunc.go` of Go 1.19 and later, which sort by
pattern-defeating quicksort. The slice is a list and `data.Swap` returns the new list. The
`less` of the caller is a closure that reads the slice at two indices, so that `data.Less(i, j)`
applies `less` to the elements now at `i` and at `j`. Every loop has a bound on its
iterations that is large enough for the loop to end by its own condition. The pseudo-random
generator `xorshift.Next` is a parameter of the functions that consult it.
-/

/-- The call `data.Swap(i, j)`. -/
def swapAt {α : Type} [Inhabited α] (l : List α) (i j : Nat) : List α :=
  (l.set i (l.getD j default)).set j (l.getD i default)

/-- The call `data.Less(i, j)`. -/
def lessAt {α : Type} [Inhabited α] (less : α → α → Bool) (l : List α) (i j : Nat) : Bool :=
  less (l.getD i default) (l.getD j default)

/-- The inner loop of `insertionSortLessFunc`:
`for j := i; j > a && data.Less(j, j-1); j-- { data.Swap(j, j-1) }`. -/
def insertionInner {α : Type} [Inhabited α] (less : α → α → Bool) (a : Nat) :
    Nat → List α → List α
  | 0, l => l
  | j + 1, l =>
    if j + 1 > a ∧ lessAt less l (j + 1) j then insertionInner less a j (swapAt l (j + 1) j)
    else l

/-- The outer loop of `insertionSortLessFunc`: `for i := a + 1; i < b; i++`. The first
argument bounds the number of iterations. -/
def insertionOuter {α : Type} [Inhabited α] (less : α → α → Bool) (a b : Nat) :
    Nat → Nat → List α → List α
  | 0, _, l => l
  | fuel + 1, i, l =>
    if i < b then insertionOuter less a b fuel (i + 1) (insertionInner less a i l) else l

/-- The function `insertionSortLessFunc`: sorts `data[a:b]` by insertion. -/
def insertionSortLessFunc {α : Type} [Inhabited α] (less : α → α → Bool) (l : List α)
    (a b : Nat) : List α :=
  insertionOuter less a b (b - a) (a + 1) l

/-- The function `siftDownLessFunc`, from the node `root`; the first argument bounds the
number of iterations. -/
def siftDownLoop {α : Type} [Inhabited α] (less : α → α → Bool) (hi first : Nat) :
    Nat → Nat → List α → List α
  | 0, _, l => l
  | fuel + 1, root, l =>
    let child := 2 * root + 1
    if child ≥ hi then l
    else
      let child1 :=
        if child + 1 < hi ∧ lessAt less l (first + child) (first + child + 1) then child + 1
        else child
      if !lessAt less l (first + root) (first + child1) then l
      else siftDownLoop less hi first fuel child1 (swapAt l (first + root) (first + child1))

/-- The function `siftDownLessFunc` on the heap `data[first : first+hi]`, from the node `lo`. -/
def siftDownLessFunc {α : Type} [Inhabited α] (less : α → α → Bool) (l : List α)
    (lo hi first : Nat) : List α :=
  siftDownLoop less hi first hi lo l

/-- The first loop of `heapSortLessFunc`, `for i := (hi - 1) / 2; i >= 0; i--`, with `n`
iterations left, so that `i = n - 1`. -/
def heapBuild {α : Type} [Inhabited α] (less : α → α → Bool) (hi first : Nat) :
    Nat → List α → List α
  | 0, l => l
  | n + 1, l => heapBuild less hi first n (siftDownLessFunc less l n hi first)

/-- The second loop of `heapSortLessFunc`, `for i := hi - 1; i >= 0; i--`, with `n`
iterations left, so that `i = n - 1`. -/
def heapPop {α : Type} [Inhabited α] (less : α → α → Bool) (first : Nat) :
    Nat → List α → List α
  | 0, l => l
  | n + 1, l => heapPop less first n (siftDownLessFunc less (swapAt l first (first + n)) 0 n first)

/-- The function `heapSortLessFunc`. -/
def heapSortLessFunc {α : Type} [Inhabited α] (less : α → α → Bool) (l : List α)
    (a b : Nat) : List α :=
  let first := a
  let hi := b - a
  heapPop less first hi (heapBuild less hi first ((hi - 1) / 2 + 1) l)

/-- A scan `for i <= j && p(i) { i++ }` of the partition functions; the first argument
bounds the number of iterations. -/
def scanUp (p : Nat → Bool) (j : Nat) : Nat → Nat → Nat
  | 0, i => i
  | fuel + 1, i => if i ≤ j ∧ p i then scanUp p j fuel (i + 1) else i

/-- A scan `for i <= j && p(j) { j-- }` of the partition functions. The scans start with
`i ≥ 1`, so that `j` stays non-negative. -/
def scanDown (p : Nat → Bool) (i : Nat) : Nat → Nat
  | 0 => 0
  | j + 1 => if i ≤ j + 1 ∧ p (j + 1) then scanDown p i j else j + 1

/-- The main loop of `partitionLessFunc`:
`for { scan i up; scan j down; if i > j { break }; data.Swap(i, j); i++; j-- }`. -/
def partitionLoop {α : Type} [Inhabited α] (less : α → α → Bool) (a : Nat) :
    Nat → List α → Nat → Nat → List α × Nat × Nat
  | 0, l, i, j => (l, i, j)
  | fuel + 1, l, i, j =>
    let i1 := scanUp (fun k => lessAt less l k a) j (j + 1 - i) i
    let j1 := scanDown (fun k => !lessAt less l k a) i1 j
    if i1 > j1 then (l, i1, j1)
    else partitionLoop less a fuel (swapAt l i1 j1) (i1 + 1) (j1 - 1)

/-- The function `partitionLessFunc`: the list, the new pivot index and
`alreadyPartitioned`. -/
def partitionLessFunc {α : Type} [Inhabited α] (less : α → α → Bool) (l : List α)
    (a b pivot : Nat) : List α × Nat × Bool :=
  let l1 := swapAt l a pivot
  let i := scanUp (fun k => lessAt less l1 k a) (b - 1) (b - 1 + 1 - (a + 1)) (a + 1)
  let j := scanDown (fun k => !lessAt less l1 k a) i (b - 1)
  if i > j then (swapAt l1 j a, j, true)
  else
    let (l2, _, j2) := partitionLoop less a (b - a) (swapAt l1 i j) (i + 1) (j - 1)
    (swapAt l2 j2 a, j2, false)

/-- The loop of `partitionEqualLessFunc`. -/
def partitionEqualLoop {α : Type} [Inhabited α] (less : α → α → Bool) (a : Nat) :
    Nat → List α → Nat → Nat → List α × Nat
  | 0, l, i, _ => (l, i)
  | fuel + 1, l, i, j =>
    let i1 := scanUp (fun k => !lessAt less l a k) j (j + 1 - i) i
    let j1 := scanDown (fun k => lessAt less l a k) i1 j
    if i1 > j1 then (l, i1)
    else partitionEqualLoop less a fuel (swapAt l i1 j1) (i1 + 1) (j1 - 1)

/-- The function `partitionEqualLessFunc`: the list and the new pivot index. -/
def partitionEqualLessFunc {α : Type} [Inhabited α] (less : α → α → Bool) (l : List α)
    (a b pivot : Nat) : List α × Nat :=
  partitionEqualLoop less a (b - a) (swapAt l a pivot) (a + 1) (b - 1)

/-- The scan `for i < b && !data.Less(i, i-1) { i++ }` of `partialInsertionSortLessFunc`. -/
def scanSorted {α : Type} [Inhabited α] (less : α → α → Bool) (l : List α) (b : Nat) :
    Nat → Nat → Nat
  | 0, i => i
  | fuel + 1, i =>
    if i < b ∧ !lessAt less l i (i - 1) then scanSorted less l b fuel (i + 1) else i

/-- The loop `for j := i - 1; j >= 1; j-- { if !data.Less(j, j-1) { break }; data.Swap(j, j-1) }`
of `partialInsertionSortLessFunc`. -/
def shiftLeft {α : Type} [Inhabited α] (less : α → α → Bool) : Nat → List α → List α
  | 0, l => l
  | j + 1, l => if !lessAt less l (j + 1) j then l else shiftLeft less j (swapAt l (j + 1) j)

/-- The loop `for j := i + 1; j < b; j++ { if !data.Less(j, j-1) { break }; data.Swap(j, j-1) }`
of `partialInsertionSortLessFunc`. -/
def shiftRight {α : Type} [Inhabited α] (less : α → α → Bool) (b : Nat) :
    Nat → Nat → List α → List α
  | 0, _, l => l
  | fuel + 1, j, l =>
    if j < b then
      if !lessAt less l j (j - 1) then l
      else shiftRight less b fuel (j + 1) (swapAt l j (j - 1))
    else l

/-- The loop `for j := 0; j < maxSteps; j++` of `partialInsertionSortLessFunc`, with the
number of steps left. -/
def partialInsertionLoop {α : Type} [Inhabited α] (less : α → α → Bool) (a b : Nat) :
    Nat → List α → Nat → List α × Bool
  | 0, l, _ => (l, false)
  | steps + 1, l, i =>
    let i1 := scanSorted less l b (b - i) i
    if i1 = b then (l, true)
    else if b - a < 50 then (l, false)
    else
      let l1 := swapAt l i1 (i1 - 1)
      let l2 := if i1 - a ≥ 2 then shiftLeft less (i1 - 1) l1 else l1
      let l3 := if b - i1 ≥ 2 then shiftRight less b (b - i1) (i1 + 1) l2 else l2
      partialInsertionLoop less a b steps l3 i1

/-- The function `partialInsertionSortLessFunc`: the list and whether it is sorted. -/
def partialInsertionSortLessFunc {α : Type} [Inhabited α] (less : α → α → Bool) (l : List α)
    (a b : Nat) : List α × Bool :=
  partialInsertionLoop less a b 5 l (a + 1)

/-- The loop of `bits.Len`: the number of bits of `x`; the first argument bounds the number
of iterations. -/
def bitsLenLoop : Nat → Nat → Nat
  | 0, _ => 0
  | fuel + 1, x => if x = 0 then 0 else bitsLenLoop fuel (x / 2) + 1

/-- The function `bits.Len`. -/
def bitsLen (x : Nat) : Nat := bitsLenLoop x x

/-- The loop `for i := 0; i < 3; i++` of `breakPatternsLessFunc`, with the state of the
random generator. The method `xorshift.Next`, which replaces the state of the generator and
returns the new state, is the parameter `next`. -/
def breakPatternsLoop {α : Type} [Inhabited α] (next : Nat → Nat)
    (a length modulus idx : Nat) : Nat → Nat → Nat → List α → List α
  | 0, _, _, l => l
  | n + 1, i, random, l =>
    let random1 := next random
    let other0 := random1 &&& (modulus - 1)
    let other := if other0 ≥ length then other0 - length else other0
    breakPatternsLoop next a length modulus idx n (i + 1) random1
      (swapAt l (idx - 1 + i) (a + other))

/-- The function `breakPatternsLessFunc`: the generator starts from `xorshift(length)` and
the modulus is `nextPowerOfTwo(length) = 1 << bits.Len(length)`. -/
def breakPatternsLessFunc {α : Type} [Inhabited α] (next : Nat → Nat) (l : List α)
    (a b : Nat) : List α :=
  let length := b - a
  if length ≥ 8 then
    breakPatternsLoop next a length (2 ^ bitsLen length) (a + (length / 4) * 2 - 1) 3 0 length l
  else l

/-- The type `sortedHint`. -/
inductive SortedHint where
  | unknownHint
  | increasingHint
  | decreasingHint
deriving DecidableEq, Repr

/-- The function `order2LessFunc`, with the counter `swaps` passed through. -/
def order2LessFunc {α : Type} [Inhabited α] (less : α → α → Bool) (l : List α)
    (a b swaps : Nat) : Nat × Nat × Nat :=
  if lessAt less l b a then (b, a, swaps + 1) else (a, b, swaps)

/-- The function `medianLessFunc`: the index of the median and the counter. -/
def medianLessFunc {α : Type} [Inhabited α] (less : α → α → Bool) (l : List α)
    (a b c swaps : Nat) : Nat × Nat :=
  let (a1, b1, s1) := order2LessFunc less l a b swaps
  let (b2, _, s2) := order2LessFunc less l b1 c s1
  let (_, b3, s3) := order2LessFunc less l a1 b2 s2
  (b3, s3)

/-- The function `medianAdjacentLessFunc`. -/
def medianAdjacentLessFunc {α : Type} [Inhabited α] (less : α → α → Bool) (l : List α)
    (a swaps : Nat) : Nat × Nat :=
  medianLessFunc less l (a - 1) a (a + 1) swaps

/-- The function `choosePivotLessFunc`. -/
def choosePivotLessFunc {α : Type} [Inhabited α] (less : α → α → Bool) (l : List α)
    (a b : Nat) : Nat × SortedHint :=
  let len := b - a
  let i := a + len / 4 * 1
  let j := a + len / 4 * 2
  let k := a + len / 4 * 3
  let (j1, swaps) :=
    if len ≥ 8 then
      if len ≥ 50 then
        let (i1, s1) := medianAdjacentLessFunc less l i 0
        let (j1, s2) := medianAdjacentLessFunc less l j s1
        let (k1, s3) := medianAdjacentLessFunc less l k s2
        medianLessFunc less l i1 j1 k1 s3
      else medianLessFunc less l i j k 0
    else (j, 0)
  if swaps = 0 then (j1, .increasingHint)
  else if swaps = 12 then (j1, .decreasingHint)
  else (j1, .unknownHint)

/-- The loop of `reverseRangeLessFunc`: `for i < j { data.Swap(i, j); i++; j-- }`. -/
def reverseRangeLoop {α : Type} [Inhabited α] : Nat → Nat → Nat → List α → List α
  | 0, _, _, l => l
  | fuel + 1, i, j, l =>
    if i < j then reverseRangeLoop fuel (i + 1) (j - 1) (swapAt l i j) else l

/-- The function `reverseRangeLessFunc`. -/
def reverseRangeLessFunc {α : Type} [Inhabited α] (l : List α) (a b : Nat) : List α :=
  reverseRangeLoop (b - a) a (b - 1) l

/-- The statements of the loop body of `pdqsortLessFunc` between the two early returns and
the partition: `breakPatterns` with `limit--` after an unbalanced partition, the choice of the
pivot, the reversal on `decreasingHint`, and the partial insertion sort. The result is the
list, the pivot index, the limit, and whether the partial insertion sort found the segment
sorted. -/
def pdqsortPrepare {α : Type} [Inhabited α] (next : Nat → Nat) (less : α → α → Bool)
    (l : List α)
    (a b limit : Nat) (wasBalanced wasPartitioned : Bool) : List α × Nat × Nat × Bool :=
  let l1 := if !wasBalanced then breakPatternsLessFunc next l a b else l
  let limit1 := if !wasBalanced then limit - 1 else limit
  let chosen := choosePivotLessFunc less l1 a b
  let l2 := if chosen.2 = .decreasingHint then reverseRangeLessFunc l1 a b else l1
  let pivot := if chosen.2 = .decreasingHint then (b - 1) - (chosen.1 - a) else chosen.1
  let hint := if chosen.2 = .decreasingHint then SortedHint.increasingHint else chosen.2
  let tried :=
    if wasBalanced ∧ wasPartitioned ∧ hint = .increasingHint then
      partialInsertionSortLessFunc less l2 a b
    else (l2, false)
  (tried.1, pivot, limit1, tried.2)

/-- The function `pdqsortLessFunc`: the loop `for { ... }` with its recursive call; an
iteration of the loop on a new `a` or `b` is a call with these. The first argument bounds the
number of iterations and the depth of the recursion. -/
def pdqsortLessFunc {α : Type} [Inhabited α] (next : Nat → Nat) (less : α → α → Bool) :
    Nat → List α → Nat → Nat → Nat → Bool → Bool → List α
  | 0, l, _, _, _, _, _ => l
  | fuel + 1, l, a, b, limit, wasBalanced, wasPartitioned =>
    if b - a ≤ 12 then insertionSortLessFunc less l a b
    else if limit = 0 then heapSortLessFunc less l a b
    else
      let prep := pdqsortPrepare next less l a b limit wasBalanced wasPartitioned
      if prep.2.2.2 then prep.1
      else if a > 0 ∧ !lessAt less prep.1 (a - 1) prep.2.1 then
        let eq := partitionEqualLessFunc less prep.1 a b prep.2.1
        pdqsortLessFunc next less fuel eq.1 eq.2 b prep.2.2.1 wasBalanced wasPartitioned
      else
        let parted := partitionLessFunc less prep.1 a b prep.2.1
        if parted.2.1 - a < b - parted.2.1 then
          pdqsortLessFunc next less fuel
            (pdqsortLessFunc next less fuel parted.1 a parted.2.1 prep.2.2.1 true true)
            (parted.2.1 + 1) b prep.2.2.1 (decide (parted.2.1 - a ≥ (b - a) / 8)) parted.2.2
        else
          pdqsortLessFunc next less fuel
            (pdqsortLessFunc next less fuel parted.1 (parted.2.1 + 1) b prep.2.2.1 true true)
            a parted.2.1 prep.2.2.1 (decide (b - parted.2.1 ≥ (b - a) / 8)) parted.2.2

/-- The function `sort.Slice(x, less)`, with `less` on the elements that the closure of the
caller reads at the two indices: `pdqsort_func(lessSwap{less, swap}, 0, n, bits.Len(n))`. -/
def sortSlice {α : Type} [Inhabited α] (next : Nat → Nat) (less : α → α → Bool)
    (l : List α) : List α :=
  pdqsortLessFunc next less (l.length + 1) l 0 l.length (bitsLen l.length) true true

/-- What a sort function may do to the list while it works on `data[a:b]`: the length stays,
the list is rearranged, and nothing outside `[a, b)` moves. -/
def Frame {α : Type} [Inhabited α] (l l1 : List α) (a b : Nat) : Prop :=
  l1.length = l.length ∧ List.Perm l1 l ∧
    ∀ k, (k < a ∨ b ≤ k) → l1.getD k default = l.getD k default

/-- The segment `data[a:b]` is in ascending order: no element is `less` than an earlier
one. -/
def SortedSeg {α : Type} [Inhabited α] (less : α → α → Bool) (l : List α) (a b : Nat) : Prop :=
  ∀ i j, a ≤ i → i < j → j < b → less (l.getD j default) (l.getD i default) = false

/-- The requirement the documentation of `sort.Interface` puts on `less`: a transitive
ordering, `less` and its negation both transitive; no element is `less` than itself. -/
def IsStrictWeak {α : Type} (less : α → α → Bool) : Prop :=
  (∀ a, less a a = false) ∧
  (∀ a b c, less a b = true → less b c = true → less a c = true) ∧
  (∀ a b c, less a b = false → less b c = false → less a c = false)

/-- The heap property at node `k` of the heap `data[first : first+hi]`: the node is not less
than its children. -/
def HeapAt {α : Type} [Inhabited α] (less : α → α → Bool) (l : List α) (hi first k : Nat) :
    Prop :=
  ∀ c, (c = 2 * k + 1 ∨ c = 2 * k + 2) → c < hi →
    less (l.getD (first + k) default) (l.getD (first + c) default) = false

/-! ## model/common.go -/

abbrev ClientId := Nat

abbrev StorageValue := Int

abbrev OperationType := String

def InsertOperationType : OperationType := "insert"

def UpdateOperationType : OperationType := "update"

def DeleteOperationType : OperationType := "delete"

/-! ## model/list.go -/

structure ListItem where
  Id : String
  Value : StorageValue
deriving DecidableEq, Repr, Inhabited

abbrev StorageList := List ListItem

/-- The struct `model.ListOperation`; the field `Type` is spelled `Typ`. -/
structure ListOperation where
  Typ : OperationType
  Index : Int
  NewIndex : Int
  Id : String
  Value : StorageValue
deriving DecidableEq, Repr, Inhabited

/-- The message of `fmt.Errorf("op[%d] (%s): " + what, i, op.Type)`. -/
def opError (i : Nat) (t : OperationType) (what : String) : String :=
  "op[" ++ toString i ++ "] (" ++ t ++ "): " ++ what

/-- One iteration of the loop of `ApplyListOperations`: the `switch op.Type` applied to the
current list `l` for the operation at position `i`. -/
def applyListOperation (l : StorageList) (i : Nat) (op : ListOperation) :
    Except String StorageList :=
  if op.Typ = InsertOperationType then
    if op.Index < 0 then
      .error (opError i op.Typ "index: must be GTE 0")
    else if op.Index > (l.length : Int) then
      .error (opError i op.Typ "index: must be LTE than StorageList length")
    else
      .ok (sliceInsert l op.Index.toNat { Id := op.Id, Value := op.Value } default)
  else if op.Typ = UpdateOperationType then
    if op.Index < 0 then
      .error (opError i op.Typ "index: must be GTE 0")
    else if op.Index ≥ (l.length : Int) then
      .error (opError i op.Typ "index: must be LT than StorageList length")
    else if op.NewIndex < 0 then
      .error (opError i op.Typ "newIndex: must be GTE 0")
    else if op.NewIndex ≥ (l.length : Int) then
      .error (opError i op.Typ "newIndex: must be LT than StorageList length")
    else
      let id := (l.getD op.Index.toNat default).Id
      let l1 := sliceCut l op.Index.toNat
      .ok (sliceInsert l1 op.NewIndex.toNat { Id := id, Value := op.Value } default)
  else if op.Typ = DeleteOperationType then
    if op.Index < 0 then
      .error (opError i op.Typ "index: must be GTE 0")
    else if op.Index ≥ (l.length : Int) then
      .error (opError i op.Typ "index: must be LT than StorageList length")
    else
      .ok (sliceCut l op.Index.toNat)
  else
    .error (opError i op.Typ "unknown type")

/-- The `for i, op := range ops` loop of `ApplyListOperations`, started at index `i`. -/
def applyListOperationsFrom : StorageList → Nat → List ListOperation → Except String StorageList
  | l, _, [] => .ok l
  | l, i, op :: ops =>
    match applyListOperation l i op with
    | .error e => .error e
    | .ok l1 => applyListOperationsFrom l1 (i + 1) ops

/-- Client side `model.ApplyListOperations(l, ops...)`. -/
def ApplyListOperations (l : StorageList) (ops : List ListOperation) : Except String StorageList :=
  applyListOperationsFrom l 0 ops

/-! ## storage/storage_item.go -/

abbrev Time := Nat

/-- The type `uuid.UUID`, given by its canonical text. -/
structure UUID where
  text : String
deriving DecidableEq, Repr, Inhabited

/-- The method `uuid.UUID.String`. -/
def UUID.String (u : UUID) : String := u.text

structure Item where
  Id : UUID
  Value : StorageValue
  IsDeleted : Bool
  UpdatedBy : ClientId
  UpdatedAt : Time
deriving DecidableEq, Repr, Inhabited

def NewStorageItem (itemId : UUID) (itemValue : StorageValue) (clientId : ClientId)
    (timestamp : Time) : Item :=
  { Id := itemId, Value := itemValue, IsDeleted := false, UpdatedBy := clientId,
    UpdatedAt := timestamp }

/-! ## storage/storage.go -/

/-- The struct `Storage` together with the `Item` objects its pointers refer to.
A `*Item` is a natural number, the address of an `Item` object in the object memory `mem`
(objects are never freed: soft delete); `list` is the sorted view `[]*Item`, `idDataMatch` is
the Go map `map[string]*Item` as an association list. -/
structure Storage where
  mem : List Item
  list : List Nat
  idDataMatch : List (String × Nat)
deriving DecidableEq, Repr

/-- Reading through a pointer. -/
def Storage.deref (s : Storage) (p : Nat) : Item :=
  s.mem.getD p default

/-- Writing through a pointer. -/
def Storage.write (s : Storage) (p : Nat) (it : Item) : Storage :=
  { s with mem := s.mem.set p it }

/-- Map read `m[k]` with its `found` flag. -/
def mapLookup (m : List (String × Nat)) (k : String) : Option Nat :=
  m.lookup k

/-- Map assignment `m[k] = p`: overwrite the entry of `k`, or add one. -/
def mapStore (m : List (String × Nat)) (k : String) (p : Nat) : List (String × Nat) :=
  match m with
  | [] => [(k, p)]
  | (k1, p1) :: rest => if k1 = k then (k, p) :: rest else (k1, p1) :: mapStore rest k p

def NewStorage : Storage :=
  { mem := [], list := [], idDataMatch := [] }

/-- The loop of `Storage.Export`: `list = append(list, model.ListItem{...})` per list entry. -/
def exportLoop (s : Storage) : List Nat → StorageList → StorageList
  | [], list => list
  | item :: rest, list =>
    exportLoop s rest
      (list ++ [{ Id := (s.deref item).Id.String, Value := (s.deref item).Value }])

/-- The method `Storage.Export`; it returns the snapshot only, the receiver is not assigned. -/
def Storage.Export (s : Storage) : StorageList :=
  exportLoop s s.list []

/-- The method `findItemIdxLTTarget`: `sort.Search` for the first list position whose value
is at least the value of `item`. -/
def Storage.findItemIdxLTTarget (s : Storage) (item : Nat) : Nat :=
  sortSearch s.list.length
    (fun i => decide ((s.deref (s.list.getD i 0)).Value ≥ (s.deref item).Value))

/-- The method `findItemIdx`: from the lower bound of the value, scan right for the id. -/
def Storage.findItemIdx (s : Storage) (item : Nat) : Except String Nat :=
  let itemIdxPrev := s.findItemIdxLTTarget item
  if itemIdxPrev = s.list.length then
    .error "item not found: LT target"
  else
    match (List.range' itemIdxPrev (s.list.length - itemIdxPrev)).find?
        (fun i => decide ((s.deref (s.list.getD i 0)).Id = (s.deref item).Id)) with
    | some i => .ok i
    | none => .error "item not found: by id"

/-- The method `Storage.set`; the result is the new state and the returned `*ListOperation`.
The `0` passed to `sliceInsert` stands for the `nil` that is appended before the shift. -/
def Storage.set (s : Storage) (itemId : UUID) (itemValue : StorageValue) (clientId : ClientId)
    (timestamp : Time) : Except String (Storage × Option ListOperation) :=
  let itemIdStr := itemId.String
  match mapLookup s.idDataMatch itemIdStr with
  | none =>
    let item : Nat := s.mem.length
    let s1 : Storage :=
      { s with mem := s.mem ++ [NewStorageItem itemId itemValue clientId timestamp],
               idDataMatch := mapStore s.idDataMatch itemIdStr item }
    let itemIdxToInsert := s1.findItemIdxLTTarget item
    let s2 : Storage := { s1 with list := sliceInsert s1.list itemIdxToInsert item 0 }
    .ok (s2, some { Typ := InsertOperationType, Index := itemIdxToInsert, NewIndex := 0,
                    Id := itemId.String, Value := itemValue })
  | some item =>
    match s.findItemIdx item with
    | .error e => .error e
    | .ok itemIdxToCut =>
      let s1 : Storage := { s with list := sliceCut s.list itemIdxToCut }
      let s2 : Storage := s1.write item
        { s1.deref item with Value := itemValue, UpdatedBy := clientId, UpdatedAt := timestamp }
      let itemIdxToInsert := s2.findItemIdxLTTarget item
      let s3 : Storage := { s2 with list := sliceInsert s2.list itemIdxToInsert item 0 }
      .ok (s3, some { Typ := UpdateOperationType, Index := itemIdxToCut,
                      NewIndex := itemIdxToInsert, Id := itemIdStr, Value := itemValue })

/-- The method `Storage.delete`. -/
def Storage.delete (s : Storage) (itemId : UUID) (clientId : ClientId) (timestamp : Time) :
    Except String (Storage × Option ListOperation) :=
  let itemIdStr := itemId.String
  match mapLookup s.idDataMatch itemIdStr with
  | none => .ok (s, none)
  | some item =>
    if (s.deref item).IsDeleted then .ok (s, none)
    else
      let s1 : Storage := s.write item
        { s.deref item with IsDeleted := true, UpdatedBy := clientId, UpdatedAt := timestamp }
      match s1.findItemIdx item with
      | .error e => .error e
      | .ok itemIdx =>
        let s2 : Storage := { s1 with list := sliceCut s1.list itemIdx }
        .ok (s2, some { Typ := DeleteOperationType, Index := itemIdx, NewIndex := 0,
                        Id := itemIdStr, Value := 0 })

/-! ## storage/storage_ops.go -/

structure SetOperation where
  Id : UUID
  Value : StorageValue
  IsDeleted : Bool
  UpdatedBy : ClientId
  UpdatedAt : Time
deriving DecidableEq, Repr

structure DeleteOperation where
  Id : UUID
  DeletedBy : ClientId
  DeletedAt : Time
deriving DecidableEq, Repr

/-- The two implementations of the interface `StorageOperation`; a nil interface value is
`none` in `Option StorageOperation`. -/
inductive StorageOperation where
  | Set (o : SetOperation)
  | Delete (o : DeleteOperation)
deriving DecidableEq, Repr

/-- The method `Apply` of both implementations. -/
def StorageOperation.Apply (op : StorageOperation) (s : Storage) :
    Except String (Storage × Option ListOperation) :=
  match op with
  | .Set o => s.set o.Id o.Value o.UpdatedBy o.UpdatedAt
  | .Delete o => s.delete o.Id o.DeletedBy o.DeletedAt

/-- The loop of `Storage.ApplyOperations`, with the accumulated `listOps`. -/
def applyOperationsLoop : Storage → List ListOperation → List (Option StorageOperation) →
    Except String (Storage × List ListOperation)
  | s, listOps, [] => .ok (s, listOps)
  | s, listOps, none :: ops => applyOperationsLoop s listOps ops
  | s, listOps, some op :: ops =>
    match op.Apply s with
    | .error e => .error e
    | .ok (s1, none) => applyOperationsLoop s1 listOps ops
    | .ok (s1, some listOp) => applyOperationsLoop s1 (listOps ++ [listOp]) ops

/-- The method `Storage.ApplyOperations`. -/
def Storage.ApplyOperations (s : Storage) (ops : List (Option StorageOperation)) :
    Except String (Storage × List ListOperation) :=
  applyOperationsLoop s [] ops

/-! ## storage/doc_history.go -/

/-- Go `int` arithmetic: the 64-bit two's complement value of `x`. -/
def wrapInt (x : Int) : Int :=
  (x + 2 ^ 63) % 2 ^ 64 - 2 ^ 63

structure Document where
  Version : Int
  InputOperations : List (Option StorageOperation)
  OutputOperations : List ListOperation
deriving DecidableEq, Repr, Inhabited

/-- The struct `DocumentHistory`. Its methods are given as functions of one call at a time;
the embedded mutex is the field `lock` of `Shared`, where calls interleave. -/
structure DocumentHistory where
  documents : List Document
  storage : Storage
  latestVersion : Int
deriving DecidableEq, Repr

def NewDocumentHistory : DocumentHistory :=
  { documents := [], storage := NewStorage, latestVersion := 0 }

/-- The method `IsVersionValid`. -/
def DocumentHistory.IsVersionValid (h : DocumentHistory) (version : Int) : Bool :=
  decide (version < (h.documents.length : Int))

/-- The method `AddVersion`. -/
def DocumentHistory.AddVersion (h : DocumentHistory) (stOps : List (Option StorageOperation)) :
    Except String DocumentHistory :=
  if stOps.length = 0 then .ok h
  else
    match h.storage.ApplyOperations stOps with
    | .error e => .error e
    | .ok (storage1, listOps) =>
      let historyLen := h.documents.length
      let version : Int :=
        if historyLen > 0 then
          wrapInt ((h.documents.getD (historyLen - 1) default).Version + 1)
        else 0
      let newDoc : Document :=
        { Version := version, InputOperations := stOps, OutputOperations := listOps }
      let documents1 := h.documents ++ [newDoc]
      .ok { documents := documents1, storage := storage1,
            latestVersion := (documents1.length : Int) - 1 }

/-- The loop `for i := startVersion; i <= h.latestVersion; i++` of `GetOutputDiffWithLatest`;
indexing `h.documents[i]` outside the slice is the Go runtime panic. -/
def diffLoop (documents : List Document) (latestVersion : Int) :
    Nat → Int → List ListOperation → Except String (List ListOperation)
  | 0, _, diffOps => .ok diffOps
  | fuel + 1, i, diffOps =>
    if i ≤ latestVersion then
      if i < 0 ∨ i ≥ (documents.length : Int) then
        .error "runtime error: index out of range"
      else
        diffLoop documents latestVersion fuel (i + 1)
          (diffOps ++ (documents.getD i.toNat default).OutputOperations)
    else .ok diffOps

/-- The method `GetOutputDiffWithLatest`; the loop runs `latestVersion - startVersion + 1`
times when that is positive and not at all otherwise. -/
def DocumentHistory.GetOutputDiffWithLatest (h : DocumentHistory) (version : Int) :
    Except String (Int × List ListOperation) :=
  let startVersion := wrapInt (version + 1)
  if !h.IsVersionValid startVersion then .ok (version, [])
  else
    match diffLoop h.documents h.latestVersion (h.latestVersion - startVersion + 1).toNat
        startVersion [] with
    | .error e => .error e
    | .ok diffOps => .ok (h.latestVersion, diffOps)

/-- The method `GetOutputSnapshot`. -/
def DocumentHistory.GetOutputSnapshot (h : DocumentHistory) : Int × StorageList :=
  (h.latestVersion, h.storage.Export)

/-- The loop `for i := 0; i <= version; i++` of `BuildStorage`: the inputs of document `i`
are applied to the storage being built (the returned edits are dropped). -/
def buildStorageLoop (documents : List Document) (version : Int) :
    Nat → Int → Storage → Except String Storage
  | 0, _, storage => .ok storage
  | fuel + 1, i, storage =>
    if i ≤ version then
      if i < 0 ∨ i ≥ (documents.length : Int) then
        .error "runtime error: index out of range"
      else
        match storage.ApplyOperations (documents.getD i.toNat default).InputOperations with
        | .error e => .error e
        | .ok (storage1, _) => buildStorageLoop documents version fuel (i + 1) storage1
    else .ok storage

/-- The method `BuildStorage`; the result `none` is the returned `nil`. The loop runs
`version + 1` times when that is positive and not at all otherwise. -/
def DocumentHistory.BuildStorage (h : DocumentHistory) (version : Int) :
    Except String (Option Storage) :=
  if !h.IsVersionValid version then .ok none
  else
    match buildStorageLoop h.documents version (version + 1).toNat 0 NewStorage with
    | .error e => .error e
    | .ok storage => .ok (some storage)

/-! ## storage/storage_ops.go: constructors and accessors -/

/-- The method `time.Time.IsZero`; the zero instant is the time `0`. -/
def Time.IsZero (t : Time) : Bool := t == 0

/-- The function `NewSetOperation`. The library function `uuid.Parse` is the parameter
`parse`; its error text is wrapped as `fmt.Errorf("%s: invalid: %w", "itemId", err)`. -/
def NewSetOperation (parse : String → Except String UUID) (itemId : String)
    (itemValue : StorageValue) (clientId : ClientId) (timestamp : Time) :
    Except String SetOperation :=
  match parse itemId with
  | .error err => .error ("itemId: invalid: " ++ err)
  | .ok id =>
    if timestamp.IsZero then .error "timestamp: zero"
    else .ok { Id := id, Value := itemValue, IsDeleted := false, UpdatedBy := clientId,
               UpdatedAt := timestamp }

/-- The function `NewDeleteOperation`, with `uuid.Parse` as the parameter `parse`. -/
def NewDeleteOperation (parse : String → Except String UUID) (itemId : String)
    (clientId : ClientId) (timestamp : Time) : Except String DeleteOperation :=
  match parse itemId with
  | .error err => .error ("itemId: invalid: " ++ err)
  | .ok id =>
    if timestamp.IsZero then .error "timestamp: zero"
    else .ok { Id := id, DeletedBy := clientId, DeletedAt := timestamp }

/-- The method `GetTimestamp` of both implementations of `StorageOperation`. -/
def StorageOperation.GetTimestamp (op : StorageOperation) : Time :=
  match op with
  | .Set o => o.UpdatedAt
  | .Delete o => o.DeletedAt

/-- The method `GetId` of both implementations of `StorageOperation`. -/
def StorageOperation.GetId (op : StorageOperation) : UUID :=
  match op with
  | .Set o => o.Id
  | .Delete o => o.Id

/-! ## model/rpc.go -/

structure GetListSnapshotRequest where
  ClientId : ClientId
deriving DecidableEq, Repr

structure GetListSnapshotResponse where
  Version : Int
  Data : StorageList
deriving DecidableEq, Repr

/-- The struct `model.OperationRequest`; the field `Type` is spelled `Typ`. -/
structure OperationRequest where
  Typ : OperationType
  Id : String
  Value : StorageValue
deriving DecidableEq, Repr

structure UpdateListRequest where
  ClientId : ClientId
  Version : Int
  Operations : List OperationRequest
deriving DecidableEq, Repr

structure GetListUpdatesRequest where
  Version : Int
deriving DecidableEq, Repr

structure GetListUpdatesResponse where
  Version : Int
  Operations : List ListOperation
deriving DecidableEq, Repr

/-! ## service/server/service.go -/

/-- The state of `SortedListService` that the request handlers and the worker touch: the
document history and the batches waiting in the channel `opsCh`, oldest first. -/
structure SortedListService where
  docHistory : DocumentHistory
  opsCh : List (List StorageOperation)
deriving DecidableEq, Repr

/-- The method `GetList`: the service, the response object and the returned error (`none`
for `nil`). On the error path the response object is not written. -/
def SortedListService.GetList (s : SortedListService) (req : GetListSnapshotRequest)
    (res : GetListSnapshotResponse) :
    SortedListService × GetListSnapshotResponse × Option String :=
  if req.ClientId ≤ 0 then
    (s, res, some "ClientId: must be GT 0")
  else
    let (version, list) := s.docHistory.GetOutputSnapshot
    (s, { res with Version := version, Data := list }, none)

/-- The method `GetListUpdates` (the monitor call left out); a panic of
`GetOutputDiffWithLatest` is the `Except.error` result. -/
def SortedListService.GetListUpdates (s : SortedListService) (req : GetListUpdatesRequest)
    (res : GetListUpdatesResponse) :
    Except String (SortedListService × GetListUpdatesResponse × Option String) :=
  match s.docHistory.GetOutputDiffWithLatest req.Version with
  | .error e => .error e
  | .ok (version, listOps) =>
    .ok (s, { res with Version := version, Operations := listOps }, none)

/-- The message of `fmt.Errorf("updateOperation[%d] (%s): %w", i, reqOp.Type, err)`. -/
def updateOperationError (i : Nat) (t : OperationType) (err : String) : String :=
  "updateOperation[" ++ toString i ++ "] (" ++ t ++ "): " ++ err

/-- The validation loop of `UpdateList`, at position `i` with the operations converted so
far; the result is the whole batch or the error returned on the first bad operation. -/
def updateListLoop (parse : String → Except String UUID) (now : Time) (clientId : ClientId) :
    Nat → List OperationRequest → List StorageOperation → Except String (List StorageOperation)
  | _, [], storageOps => .ok storageOps
  | i, reqOp :: rest, storageOps =>
    if reqOp.Typ = InsertOperationType then
      match NewSetOperation parse reqOp.Id reqOp.Value clientId now with
      | .error err => .error (updateOperationError i reqOp.Typ err)
      | .ok storageOp =>
        updateListLoop parse now clientId (i + 1) rest (storageOps ++ [.Set storageOp])
    else if reqOp.Typ = UpdateOperationType then
      match NewSetOperation parse reqOp.Id reqOp.Value clientId now with
      | .error err => .error (updateOperationError i reqOp.Typ err)
      | .ok storageOp =>
        updateListLoop parse now clientId (i + 1) rest (storageOps ++ [.Set storageOp])
    else if reqOp.Typ = DeleteOperationType then
      match NewDeleteOperation parse reqOp.Id clientId now with
      | .error err => .error (updateOperationError i reqOp.Typ err)
      | .ok storageOp =>
        updateListLoop parse now clientId (i + 1) rest (storageOps ++ [.Delete storageOp])
    else
      .error ("unsupported updateOperation: " ++ reqOp.Typ)

/-- The method `UpdateList`, with the library function `uuid.Parse` and the clock reading
`time.Now().UTC()` as parameters: the service after the call and the returned error (`none`
for `nil`). The batch is sent to the channel only after every operation was converted. -/
def SortedListService.UpdateList (parse : String → Except String UUID) (now : Time)
    (s : SortedListService) (req : UpdateListRequest) : SortedListService × Option String :=
  match updateListLoop parse now req.ClientId 0 req.Operations [] with
  | .error err => (s, some err)
  | .ok storageOps => ({ s with opsCh := s.opsCh ++ [storageOps] }, none)

/-- The zero value of the element type, which `swapAt` and `lessAt` read at an index out
of range; the sort reads no such index. -/
instance : Inhabited StorageOperation :=
  ⟨.Delete { Id := { text := "" }, DeletedBy := 0, DeletedAt := 0 }⟩

/-- The sequence the worker passes to `AddVersion` at a tick: the queue sorted by
`sort.Slice` with `less(i, j) = queue[i].GetTimestamp().Before(queue[j].GetTimestamp())`.
The parameter `next` is the pseudo-random generator of the sort. -/
def committedSequence (next : Nat → Nat) (stOpsQueue : List StorageOperation) :
    List StorageOperation :=
  sortSlice next (fun a b => decide (a.GetTimestamp < b.GetTimestamp)) stOpsQueue

/-- The `case stOps := <-s.opsCh` branch of the worker: the oldest batch of the channel is
appended to the queue. -/
def workerReceive (s : SortedListService) (stOpsQueue : List StorageOperation) :
    SortedListService × List StorageOperation :=
  match s.opsCh with
  | [] => (s, stOpsQueue)
  | stOps :: rest => ({ s with opsCh := rest }, stOpsQueue ++ stOps)

/-- The `case <-handleCh` branch of the worker: sort the queue, commit it with `AddVersion`
and start an empty queue (the monitor call left out). -/
def workerTick (next : Nat → Nat) (s : SortedListService)
    (stOpsQueue : List StorageOperation) :
    Except String (SortedListService × List StorageOperation) :=
  match s.docHistory.AddVersion ((committedSequence next stOpsQueue).map some) with
  | .error e => .error e
  | .ok docHistory1 => .ok ({ s with docHistory := docHistory1 }, [])

/-! ## storage/mock.go -/

/-- The loop of `newStorageFromObjs`: `item := &objs[idx]` is the address `idx` of the object
memory that holds `objs`; the item is filed under the string of its id and appended to the
list. The first argument bounds the number of iterations. -/
def newStorageFromObjsLoop : Nat → Nat → Storage → Storage
  | 0, _, s => s
  | fuel + 1, idx, s =>
    if idx < s.mem.length then
      newStorageFromObjsLoop fuel (idx + 1)
        { s with idDataMatch := mapStore s.idDataMatch (s.deref idx).Id.String idx,
                 list := s.list ++ [idx] }
    else s

/-- The function `newStorageFromObjs`. -/
def newStorageFromObjs (objs : List Item) : Storage :=
  newStorageFromObjsLoop objs.length 0 { mem := objs, list := [], idDataMatch := [] }

/-- The function `NewDocHistoryFromFile` from the point where the file has been read and
decoded into `objs` (reading and decoding can only fail before anything is built). -/
def NewDocHistoryFromFile (objs : List Item) : DocumentHistory :=
  { documents := NewDocumentHistory.documents ++
      [{ Version := 0, InputOperations := [], OutputOperations := [] }],
    storage := newStorageFromObjs objs,
    latestVersion := NewDocumentHistory.latestVersion }

/-! ## Invariants of the storage -/

/-- Every pointer kept in the by-id map refers to an allocated `Item` object. -/
def Storage.PtrsValid (s : Storage) : Prop :=
  ∀ kp ∈ s.idDataMatch, kp.2 < s.mem.length

/-- Every pointer kept in the ordered list refers to an allocated `Item` object. -/
def Storage.ListValid (s : Storage) : Prop :=
  ∀ p ∈ s.list, p < s.mem.length

/-- Every by-id entry is filed under the canonical string of the id of its item. -/
def Storage.KeyOk (s : Storage) : Prop :=
  ∀ kp ∈ s.idDataMatch, (s.deref kp.2).Id.String = kp.1

/-- The ordered list is non-decreasing in `Value`. -/
def Storage.Sorted (s : Storage) : Prop :=
  (s.list.map (fun p => (s.deref p).Value)).Pairwise (fun a b => a ≤ b)

/-- Every item of the ordered list is the by-id entry of its id and is not deleted. -/
def Storage.ListInMap (s : Storage) : Prop :=
  ∀ p ∈ s.list,
    mapLookup s.idDataMatch (s.deref p).Id.String = some p ∧ (s.deref p).IsDeleted = false

/-- Every non-deleted by-id entry occurs at exactly one position of the ordered list. -/
def Storage.LiveInList (s : Storage) : Prop :=
  ∀ kp ∈ s.idDataMatch, (s.deref kp.2).IsDeleted = false → s.list.count kp.2 = 1

/-- The storage invariants: the list is sorted and is exactly the live by-id entries. -/
def Storage.Inv (s : Storage) : Prop :=
  s.PtrsValid ∧ s.KeyOk ∧ s.Sorted ∧ s.ListInMap ∧ s.LiveInList

instance (s : Storage) : Decidable s.PtrsValid := by
  unfold Storage.PtrsValid; infer_instance

instance (s : Storage) : Decidable s.ListValid := by
  unfold Storage.ListValid; infer_instance

instance (s : Storage) : Decidable s.KeyOk := by
  unfold Storage.KeyOk; infer_instance

instance (s : Storage) : Decidable s.Sorted := by
  unfold Storage.Sorted; infer_instance

instance (s : Storage) : Decidable s.ListInMap := by
  unfold Storage.ListInMap; infer_instance

instance (s : Storage) : Decidable s.LiveInList := by
  unfold Storage.LiveInList; infer_instance

instance (s : Storage) : Decidable s.Inv := by
  unfold Storage.Inv; infer_instance

/-- No key occurs twice in the by-id map, as in every Go map; the number of its entries is
then the number of its keys. -/
def Storage.KeysNodup (s : Storage) : Prop :=
  (s.idDataMatch.map Prod.fst).Nodup

instance (s : Storage) : Decidable s.KeysNodup := by
  unfold Storage.KeysNodup; infer_instance

/-- The items of the ordered list, read through their pointers, in list order. -/
def Storage.items (s : Storage) : List Item :=
  s.list.map s.deref

/-- The states reached from `NewStorage()` by calls of `ApplyOperations` that return. -/
inductive Storage.Reachable : Storage → Prop where
  | init : Storage.Reachable NewStorage
  | step (s s1 : Storage) (ops : List (Option StorageOperation)) (listOps : List ListOperation) :
      Storage.Reachable s → s.ApplyOperations ops = .ok (s1, listOps) → Storage.Reachable s1

/-- The histories reached from `NewDocumentHistory()` by calls of `AddVersion` that return. -/
inductive DocumentHistory.Reachable : DocumentHistory → Prop where
  | init : DocumentHistory.Reachable NewDocumentHistory
  | step (h h1 : DocumentHistory) (stOps : List (Option StorageOperation)) :
      DocumentHistory.Reachable h → h.AddVersion stOps = .ok h1 → DocumentHistory.Reachable h1

/-- The per-operation reading of `ApplyOperations`: each operation is applied, in input order,
to the state left by the previous ones, and its result (`none` for a nil operation or a
no-op) is recorded at its position. -/
def perOpResults : Storage → List (Option StorageOperation) →
    Except String (Storage × List (Option ListOperation))
  | s, [] => .ok (s, [])
  | s, none :: ops =>
    match perOpResults s ops with
    | .error e => .error e
    | .ok (s2, rs) => .ok (s2, none :: rs)
  | s, some op :: ops =>
    match op.Apply s with
    | .error e => .error e
    | .ok (s1, r) =>
      match perOpResults s1 ops with
      | .error e => .error e
      | .ok (s2, rs) => .ok (s2, r :: rs)

/-- Running `ApplyOperations` for `a` and then, on the state it leaves, for `b`. -/
def applyOperationsThen (s : Storage) (a b : List (Option StorageOperation)) :
    Except String (Storage × List ListOperation) :=
  match s.ApplyOperations a with
  | .error e => .error e
  | .ok (s1, e1) =>
    match s1.ApplyOperations b with
    | .error e => .error e
    | .ok (s2, e2) => .ok (s2, e1 ++ e2)

/-- The client view of the item behind a pointer, as `Export` builds it. -/
def Storage.view (s : Storage) (p : Nat) : ListItem :=
  { Id := (s.deref p).Id.String, Value := (s.deref p).Value }

/-- The `sort.Search` call of `findItemIdxLTTarget` on the bare list of values. -/
def lowerBoundIdx (vals : List StorageValue) (v : StorageValue) : Nat :=
  sortSearch vals.length (fun i => decide (vals.getD i 0 ≥ v))

/-- Position `idx` is the lower bound of `v` in `vals`: everything before it is smaller than
`v`, everything from it on is at least `v`. -/
def IsLowerBound (vals : List StorageValue) (v : StorageValue) (idx : Nat) : Prop :=
  idx ≤ vals.length ∧ (∀ x ∈ vals.take idx, x < v) ∧ (∀ x ∈ vals.drop idx, v ≤ x)

instance (vals : List StorageValue) (v : StorageValue) (idx : Nat) :
    Decidable (IsLowerBound vals v idx) := by
  unfold IsLowerBound; infer_instance

/-- The edits of a run of documents, in version order. -/
def outputsOf : List Document → List ListOperation
  | [] => []
  | d :: ds => d.OutputOperations ++ outputsOf ds

/-- The history `h1` is reached from `h` by calls of `AddVersion` that return. -/
inductive DocumentHistory.Steps : DocumentHistory → DocumentHistory → Prop where
  | refl (h : DocumentHistory) : DocumentHistory.Steps h h
  | step (h h1 h2 : DocumentHistory) (stOps : List (Option StorageOperation)) :
      DocumentHistory.Steps h h1 → h1.AddVersion stOps = .ok h2 → DocumentHistory.Steps h h2

/-- The history `h` is reached from one of the two constructors, `NewDocumentHistory()` or
`NewDocHistoryFromFile`, by calls of `AddVersion` that return. -/
def DocumentHistory.ReachableAny (h : DocumentHistory) : Prop :=
  NewDocumentHistory.Steps h ∨ ∃ objs, (NewDocHistoryFromFile objs).Steps h

/-- An operation that the client must reject on the list `l`: an insert with `Index < 0` or
`Index > len`, an update with `Index` or `NewIndex` outside `[0, len)`, a delete with `Index`
outside `[0, len)`, or a type other than insert, update and delete. -/
def opRejected (l : StorageList) (op : ListOperation) : Prop :=
  (op.Typ = InsertOperationType ∧ (op.Index < 0 ∨ op.Index > (l.length : Int))) ∨
  (op.Typ = UpdateOperationType ∧
    (op.Index < 0 ∨ op.Index ≥ (l.length : Int) ∨
      op.NewIndex < 0 ∨ op.NewIndex ≥ (l.length : Int))) ∨
  (op.Typ = DeleteOperationType ∧ (op.Index < 0 ∨ op.Index ≥ (l.length : Int))) ∨
  (op.Typ ≠ InsertOperationType ∧ op.Typ ≠ UpdateOperationType ∧
    op.Typ ≠ DeleteOperationType)

instance (l : StorageList) (op : ListOperation) : Decidable (opRejected l op) := by
  unfold opRejected; infer_instance

/-- Some operation of `ops` is rejected on the list that the operations before it produce
from `l`. -/
def someOpRejected (l : StorageList) (ops : List ListOperation) : Prop :=
  ∃ (pre : List ListOperation) (op : ListOperation) (post : List ListOperation)
    (l1 : StorageList),
    ops = pre ++ op :: post ∧ ApplyListOperations l pre = .ok l1 ∧ opRejected l1 op

/-- The documents `ds` record a run from the storage `s` to the storage `s1`: the inputs of
each document, applied by `ApplyOperations` to the storage the documents before it left,
return that document's outputs. -/
def Recorded : Storage → List Document → Storage → Prop
  | s, [], s1 => s1 = s
  | s, d :: ds, s1 =>
    ∃ s2, s.ApplyOperations d.InputOperations = .ok (s2, d.OutputOperations) ∧ Recorded s2 ds s1

/-! ## Goroutines calling `GetOutputSnapshot` and `AddVersion` -/

/-- The storage an aborted `Apply` leaves behind: `set` panics in the locator before it has
written anything, `delete` panics there after it has marked the item deleted. -/
def StorageOperation.applyAborted (op : StorageOperation) (s : Storage) : Storage :=
  match op with
  | .Set _ => s
  | .Delete o =>
    match mapLookup s.idDataMatch o.Id.String with
    | none => s
    | some item =>
      s.write item
        { s.deref item with IsDeleted := true, UpdatedBy := o.DeletedBy, UpdatedAt := o.DeletedAt }

/-- A goroutine that runs one call of `GetOutputSnapshot` or one call of `AddVersion`, given
by the point it has reached. `GetOutputSnapshot`: before `h.Lock()`; holding the lock; having
read `h.latestVersion` or having evaluated `h.storage.Export()` (Go does not fix which of the
two operands of the `return` is read first, the flag of `snapshotStart` picks the order);
having both; and returned, after the deferred `h.Unlock()`. `AddVersion`: before the length
test and `h.Lock()`; inside the loop of `ApplyOperations` with the edits collected so far and
the operations still to apply; after `h.documents = append(...)`; after the write of
`h.latestVersion`; returned, after the deferred `h.Unlock()`; and panicked. -/
inductive Goroutine where
  | snapshotStart (listFirst : Bool)
  | snapshotLocked (listFirst : Bool)
  | snapshotVersion (version : Int)
  | snapshotList (list : StorageList)
  | snapshotBoth (version : Int) (list : StorageList)
  | snapshotReturned (version : Int) (list : StorageList)
  | addStart (stOps : List (Option StorageOperation))
  | addApplying (stOps : List (Option StorageOperation)) (listOps : List ListOperation)
      (rest : List (Option StorageOperation))
  | addAppended
  | addVersioned
  | addReturned
  | addPanicked
deriving DecidableEq, Repr

/-- The goroutine is between its `h.Lock()` and its deferred `h.Unlock()`. -/
def Goroutine.holdsLock : Goroutine → Bool
  | .snapshotLocked _ => true
  | .snapshotVersion _ => true
  | .snapshotList _ => true
  | .snapshotBoth _ _ => true
  | .addApplying _ _ _ => true
  | .addAppended => true
  | .addVersioned => true
  | _ => false

/-- The goroutine has not started its call. -/
def Goroutine.atStart : Goroutine → Bool
  | .snapshotStart _ => true
  | .addStart _ => true
  | _ => false

/-- One `DocumentHistory` shared by goroutines: the history, the goroutine that holds its
mutex (`none` when it is free), whether a goroutine has panicked, and the goroutines. -/
structure Shared where
  hist : DocumentHistory
  lock : Option Nat
  panicked : Bool
  goroutines : List Goroutine
deriving DecidableEq, Repr

/-- Goroutine `i` takes its next step; the state is unchanged when it has returned, has
panicked, does not exist, or waits in `h.Lock()` for the mutex. A panic of `Apply` runs the
deferred `h.Unlock()` and leaves the storage as the aborted operation left it. -/
def Shared.step (c : Shared) (i : Nat) : Shared :=
  match c.goroutines[i]? with
  | none => c
  | some (.snapshotStart listFirst) =>
    if c.lock = none then
      { c with lock := some i, goroutines := c.goroutines.set i (.snapshotLocked listFirst) }
    else c
  | some (.snapshotLocked false) =>
    { c with goroutines := c.goroutines.set i (.snapshotVersion c.hist.latestVersion) }
  | some (.snapshotLocked true) =>
    { c with goroutines := c.goroutines.set i (.snapshotList c.hist.storage.Export) }
  | some (.snapshotVersion version) =>
    { c with goroutines := c.goroutines.set i (.snapshotBoth version c.hist.storage.Export) }
  | some (.snapshotList list) =>
    { c with goroutines := c.goroutines.set i (.snapshotBoth c.hist.latestVersion list) }
  | some (.snapshotBoth version list) =>
    { c with lock := none, goroutines := c.goroutines.set i (.snapshotReturned version list) }
  | some (.snapshotReturned _ _) => c
  | some (.addStart stOps) =>
    if stOps.length = 0 then { c with goroutines := c.goroutines.set i .addReturned }
    else if c.lock = none then
      { c with lock := some i, goroutines := c.goroutines.set i (.addApplying stOps [] stOps) }
    else c
  | some (.addApplying stOps listOps []) =>
    let historyLen := c.hist.documents.length
    let version : Int :=
      if historyLen > 0 then
        wrapInt ((c.hist.documents.getD (historyLen - 1) default).Version + 1)
      else 0
    let newDoc : Document :=
      { Version := version, InputOperations := stOps, OutputOperations := listOps }
    { c with hist := { c.hist with documents := c.hist.documents ++ [newDoc] },
             goroutines := c.goroutines.set i .addAppended }
  | some (.addApplying stOps listOps (none :: rest)) =>
    { c with goroutines := c.goroutines.set i (.addApplying stOps listOps rest) }
  | some (.addApplying stOps listOps (some op :: rest)) =>
    match op.Apply c.hist.storage with
    | .error _ =>
      { c with hist := { c.hist with storage := op.applyAborted c.hist.storage },
               lock := none, panicked := true,
               goroutines := c.goroutines.set i .addPanicked }
    | .ok (s1, none) =>
      { c with hist := { c.hist with storage := s1 },
               goroutines := c.goroutines.set i (.addApplying stOps listOps rest) }
    | .ok (s1, some listOp) =>
      { c with hist := { c.hist with storage := s1 },
               goroutines := c.goroutines.set i (.addApplying stOps (listOps ++ [listOp]) rest) }
  | some .addAppended =>
    { c with hist := { c.hist with latestVersion := (c.hist.documents.length : Int) - 1 },
             goroutines := c.goroutines.set i .addVersioned }
  | some .addVersioned =>
    { c with lock := none, goroutines := c.goroutines.set i .addReturned }
  | some .addReturned => c
  | some .addPanicked => c

/-- The state after the goroutines have taken steps in the order of `schedule`. -/
def Shared.run (c : Shared) (schedule : List Nat) : Shared :=
  schedule.foldl Shared.step c

/-- A state in which the mutex is free and no goroutine has started its call. -/
def Shared.Initial (c : Shared) : Prop :=
  c.lock = none ∧ c.panicked = false ∧ ∀ g ∈ c.goroutines, g.atStart = true

instance (c : Shared) : Decidable c.Initial := by
  unfold Shared.Initial; infer_instance

/-- The history `h` was the shared history at a point of the schedule at which the mutex was
free; if no goroutine had panicked by then, `h` is reached from the initial history by whole
`AddVersion` calls. -/
def Anchored (c0 : Shared) (schedule : List Nat) (h : DocumentHistory) : Prop :=
  ∃ pre post, schedule = pre ++ post ∧ (c0.run pre).lock = none ∧ (c0.run pre).hist = h ∧
    ((c0.run pre).panicked = false → c0.hist.Steps h)

/-- What a reader knows while it holds the mutex in the state `c`: the shared history is the
one of the point at which it took the free mutex. -/
def Held (c0 : Shared) (schedule : List Nat) (c : Shared) : Prop :=
  Anchored c0 schedule c.hist ∧ (c.panicked = false → c0.hist.Steps c.hist)

/-- What holds at each point of a call, in the state `c` reached by `schedule`. -/
def PhaseOk (c0 : Shared) (schedule : List Nat) (c : Shared) : Goroutine → Prop
  | .snapshotLocked _ => Held c0 schedule c
  | .snapshotVersion v => Held c0 schedule c ∧ v = c.hist.latestVersion
  | .snapshotList l => Held c0 schedule c ∧ l = c.hist.storage.Export
  | .snapshotBoth v l =>
    Held c0 schedule c ∧ v = c.hist.latestVersion ∧ l = c.hist.storage.Export
  | .snapshotReturned v l => ∃ h, Anchored c0 schedule h ∧ h.GetOutputSnapshot = (v, l)
  | .addApplying stOps listOps rest =>
    c.panicked = false → ∃ hc, c0.hist.Steps hc ∧ stOps.length ≠ 0 ∧
      c.hist.documents = hc.documents ∧
      applyOperationsLoop c.hist.storage listOps rest = hc.storage.ApplyOperations stOps
  | .addAppended =>
    c.panicked = false → ∃ hc stOps h1, c0.hist.Steps hc ∧ stOps.length ≠ 0 ∧
      hc.AddVersion stOps = .ok h1 ∧ c.hist.documents = h1.documents ∧
      c.hist.storage = h1.storage
  | .addVersioned => c.panicked = false → c0.hist.Steps c.hist
  | _ => True

/-- The invariant of interleaved runs: exactly the goroutine named by the mutex is between
its `Lock` and `Unlock`, every goroutine is in order for the point it has reached, and while
the mutex is free the shared history consists of whole `AddVersion` calls. -/
def RunInv (c0 : Shared) (schedule : List Nat) (c : Shared) : Prop :=
  (∀ (k : Nat) (g : Goroutine), c.goroutines[k]? = some g →
    (g.holdsLock = true ↔ c.lock = some k)) ∧
  (∀ (k : Nat) (g : Goroutine), c.goroutines[k]? = some g → PhaseOk c0 schedule c g) ∧
  (c.lock = none → c.panicked = false → c0.hist.Steps c.hist)

/-! ## The storage as a key-value map -/

/-- The value the storage holds for a key: the value of its by-id entry, unless there is no
entry or the entry is deleted. -/
def Storage.valueOf (s : Storage) (key : String) : Option StorageValue :=
  match mapLookup s.idDataMatch key with
  | none => none
  | some p => if (s.deref p).IsDeleted then none else some (s.deref p).Value

/-- Spec side: one operation on the naive last-writer-wins map. `Set(id, v)` stores `v` for
`id`, `Delete(id)` marks `id` removed, a nil operation does nothing. -/
def naiveStep (m : String → Option StorageValue) :
    Option StorageOperation → String → Option StorageValue
  | none => m
  | some (.Set o) => fun key => if key = o.Id.String then some o.Value else m key
  | some (.Delete o) => fun key => if key = o.Id.String then none else m key

/-- Spec side: the naive map after a sequence of operations on the empty map. -/
def naiveRun (ops : List (Option StorageOperation)) : String → Option StorageValue :=
  ops.foldl naiveStep (fun _ => none)

/-- The operation writes the key: it is a `Set` or a `Delete` of the id with that text. -/
def touches (key : String) : Option StorageOperation → Bool
  | none => false
  | some (.Set o) => o.Id.String == key
  | some (.Delete o) => o.Id.String == key

/-! ## Sample states and operations -/

def idA : UUID := { text := "00000000-0000-4000-8000-00000000000a" }

def idB : UUID := { text := "00000000-0000-4000-8000-00000000000b" }

def idC : UUID := { text := "00000000-0000-4000-8000-00000000000c" }

def idD : UUID := { text := "00000000-0000-4000-8000-00000000000d" }

/-- A storage with two live items `(b, 1)`, `(a, 5)` and the tombstone of `c`. -/
def sampleStorage : Storage :=
  { mem := [{ Id := idA, Value := 5, IsDeleted := false, UpdatedBy := 1, UpdatedAt := 1 },
            { Id := idB, Value := 1, IsDeleted := false, UpdatedBy := 1, UpdatedAt := 1 },
            { Id := idC, Value := 10, IsDeleted := true, UpdatedBy := 2, UpdatedAt := 2 }],
    list := [1, 0],
    idDataMatch := [(idA.String, 0), (idB.String, 1), (idC.String, 2)] }

/-- An update, a nil operation, a redundant delete, an insert and a delete. -/
def sampleOps : List (Option StorageOperation) :=
  [some (.Set { Id := idA, Value := 0, IsDeleted := false, UpdatedBy := 3, UpdatedAt := 3 }),
   none,
   some (.Delete { Id := idC, DeletedBy := 3, DeletedAt := 3 }),
   some (.Set { Id := idD, Value := 1, IsDeleted := false, UpdatedBy := 3, UpdatedAt := 3 }),
   some (.Delete { Id := idB, DeletedBy := 3, DeletedAt := 3 })]

/-- The state `sampleOps` leaves when applied to `sampleStorage`. -/
def sampleStorageAfter : Storage :=
  { mem := [{ Id := idA, Value := 0, IsDeleted := false, UpdatedBy := 3, UpdatedAt := 3 },
            { Id := idB, Value := 1, IsDeleted := true, UpdatedBy := 3, UpdatedAt := 3 },
            { Id := idC, Value := 10, IsDeleted := true, UpdatedBy := 2, UpdatedAt := 2 },
            { Id := idD, Value := 1, IsDeleted := false, UpdatedBy := 3, UpdatedAt := 3 }],
    list := [0, 3],
    idDataMatch := [(idA.String, 0), (idB.String, 1), (idC.String, 2), (idD.String, 3)] }

/-- The edits `sampleOps` emits when applied to `sampleStorage`. -/
def sampleEdits : List ListOperation :=
  [{ Typ := "update", Index := 1, NewIndex := 0, Id := idA.String, Value := 0 },
   { Typ := "insert", Index := 1, NewIndex := 0, Id := idD.String, Value := 1 },
   { Typ := "delete", Index := 2, NewIndex := 0, Id := idB.String, Value := 0 }]

/-- Three inserts into the empty storage, then an update, a delete and the same delete
again. -/
def sampleRun : List (Option StorageOperation) :=
  [some (.Set { Id := idA, Value := 5, IsDeleted := false, UpdatedBy := 1, UpdatedAt := 1 }),
   some (.Set { Id := idB, Value := 1, IsDeleted := false, UpdatedBy := 1, UpdatedAt := 1 }),
   some (.Set { Id := idC, Value := 10, IsDeleted := false, UpdatedBy := 1, UpdatedAt := 1 }),
   some (.Set { Id := idA, Value := 15, IsDeleted := false, UpdatedBy := 2, UpdatedAt := 2 }),
   some (.Delete { Id := idB, DeletedBy := 2, DeletedAt := 2 }),
   some (.Delete { Id := idB, DeletedBy := 3, DeletedAt := 3 })]

/-- The state `sampleRun` leaves when applied to `NewStorage`. -/
def sampleRunAfter : Storage :=
  { mem := [{ Id := idA, Value := 15, IsDeleted := false, UpdatedBy := 2, UpdatedAt := 2 },
            { Id := idB, Value := 1, IsDeleted := true, UpdatedBy := 2, UpdatedAt := 2 },
            { Id := idC, Value := 10, IsDeleted := false, UpdatedBy := 1, UpdatedAt := 1 }],
    list := [2, 0],
    idDataMatch := [(idA.String, 0), (idB.String, 1), (idC.String, 2)] }

/-- The edits `sampleRun` emits when applied to `NewStorage`. -/
def sampleRunEdits : List ListOperation :=
  [{ Typ := "insert", Index := 0, NewIndex := 0, Id := idA.String, Value := 5 },
   { Typ := "insert", Index := 0, NewIndex := 0, Id := idB.String, Value := 1 },
   { Typ := "insert", Index := 2, NewIndex := 0, Id := idC.String, Value := 10 },
   { Typ := "update", Index := 1, NewIndex := 2, Id := idA.String, Value := 15 },
   { Typ := "delete", Index := 0, NewIndex := 0, Id := idB.String, Value := 0 }]

/-- The first commit of the sample history: one insert. -/
def sampleCommit : List (Option StorageOperation) :=
  [some (.Set { Id := idA, Value := 5, IsDeleted := false, UpdatedBy := 1, UpdatedAt := 1 })]

/-- The history `NewDocumentHistory()` becomes by `AddVersion` of `sampleCommit`. -/
def sampleHistory : DocumentHistory :=
  { documents := [{ Version := 0, InputOperations := sampleCommit,
                    OutputOperations :=
                      [{ Typ := "insert", Index := 0, NewIndex := 0, Id := idA.String,
                         Value := 5 }] }],
    storage :=
      { mem := [{ Id := idA, Value := 5, IsDeleted := false, UpdatedBy := 1, UpdatedAt := 1 }],
        list := [0],
        idDataMatch := [(idA.String, 0)] },
    latestVersion := 0 }

/-- The second commit of the sample history: an insert and an update. -/
def sampleCommit2 : List (Option StorageOperation) :=
  [some (.Set { Id := idB, Value := 7, IsDeleted := false, UpdatedBy := 2, UpdatedAt := 2 }),
   some (.Set { Id := idA, Value := 9, IsDeleted := false, UpdatedBy := 2, UpdatedAt := 2 })]

/-- The history `sampleHistory` becomes by `AddVersion` of `sampleCommit2`. -/
def sampleHistory2 : DocumentHistory :=
  { documents :=
      [{ Version := 0, InputOperations := sampleCommit,
         OutputOperations :=
           [{ Typ := "insert", Index := 0, NewIndex := 0, Id := idA.String, Value := 5 }] },
       { Version := 1, InputOperations := sampleCommit2,
         OutputOperations :=
           [{ Typ := "insert", Index := 1, NewIndex := 0, Id := idB.String, Value := 7 },
            { Typ := "update", Index := 0, NewIndex := 1, Id := idA.String, Value := 9 }] }],
    storage :=
      { mem := [{ Id := idA, Value := 9, IsDeleted := false, UpdatedBy := 2, UpdatedAt := 2 },
                { Id := idB, Value := 7, IsDeleted := false, UpdatedBy := 2, UpdatedAt := 2 }],
        list := [1, 0],
        idDataMatch := [(idA.String, 0), (idB.String, 1)] },
    latestVersion := 1 }

/-- A client list of three items. -/
def sampleList : StorageList :=
  [{ Id := idB.String, Value := 1 }, { Id := idA.String, Value := 5 },
   { Id := idC.String, Value := 10 }]

/-- The items of a seed file: two items sorted by value. -/
def sampleObjs : List Item :=
  [{ Id := idB, Value := 1, IsDeleted := false, UpdatedBy := 0, UpdatedAt := 1 },
   { Id := idA, Value := 5, IsDeleted := false, UpdatedBy := 0, UpdatedAt := 1 }]

/-- The history `NewDocHistoryFromFile sampleObjs` becomes by `AddVersion` of
`sampleCommit2`. -/
def sampleSeeded2 : DocumentHistory :=
  { documents :=
      [{ Version := 0, InputOperations := [], OutputOperations := [] },
       { Version := 1, InputOperations := sampleCommit2,
         OutputOperations :=
           [{ Typ := "update", Index := 0, NewIndex := 1, Id := idB.String, Value := 7 },
            { Typ := "update", Index := 0, NewIndex := 1, Id := idA.String, Value := 9 }] }],
    storage :=
      { mem := [{ Id := idB, Value := 7, IsDeleted := false, UpdatedBy := 2, UpdatedAt := 2 },
                { Id := idA, Value := 9, IsDeleted := false, UpdatedBy := 2, UpdatedAt := 2 }],
        list := [0, 1],
        idDataMatch := [(idB.String, 0), (idA.String, 1)] },
    latestVersion := 1 }

/-- A storage in which the three live items share one value; `b` sits between `c` and
`a`. -/
def sampleTies : Storage :=
  { mem := [{ Id := idA, Value := 4, IsDeleted := false, UpdatedBy := 1, UpdatedAt := 1 },
            { Id := idB, Value := 4, IsDeleted := false, UpdatedBy := 1, UpdatedAt := 1 },
            { Id := idC, Value := 4, IsDeleted := false, UpdatedBy := 1, UpdatedAt := 1 },
            { Id := idD, Value := 2, IsDeleted := true, UpdatedBy := 2, UpdatedAt := 2 }],
    list := [2, 1, 0],
    idDataMatch := [(idA.String, 0), (idB.String, 1), (idC.String, 2), (idD.String, 3)] }

/-- An insert followed by the delete of the same id. -/
def sampleInsertDelete : List (Option StorageOperation) :=
  [some (.Set { Id := idA, Value := 5, IsDeleted := false, UpdatedBy := 1, UpdatedAt := 1 }),
   some (.Delete { Id := idA, DeletedBy := 1, DeletedAt := 2 })]

/-- The state `sampleInsertDelete` leaves when applied to `NewStorage`: the tombstone of
`a` and an empty list. -/
def sampleTombstoneOnly : Storage :=
  { mem := [{ Id := idA, Value := 5, IsDeleted := true, UpdatedBy := 1, UpdatedAt := 2 }],
    list := [],
    idDataMatch := [(idA.String, 0)] }

/-- A stand-in for `uuid.Parse` on sample inputs: a text of 36 characters is taken as the
canonical text of an id, every other text is refused. -/
def sampleParse (t : String) : Except String UUID :=
  if t.length = 36 then .ok { text := t } else .error "invalid UUID length"

/-- A service holding the sample history, with one batch waiting in the channel. -/
def sampleService : SortedListService :=
  { docHistory := sampleHistory,
    opsCh := [[.Delete { Id := idD, DeletedBy := 9, DeletedAt := 6 }]] }

/-- A request of client 3 with an insert, an update and a delete. -/
def sampleRequest : UpdateListRequest :=
  { ClientId := 3, Version := 0,
    Operations := [{ Typ := "insert", Id := idB.String, Value := 7 },
                   { Typ := "update", Id := idA.String, Value := 9 },
                   { Typ := "delete", Id := idC.String, Value := 0 }] }

/-- The service `sampleService` becomes by `UpdateList` of `sampleRequest` at time 7. -/
def sampleServiceAfter : SortedListService :=
  { docHistory := sampleHistory,
    opsCh := [[.Delete { Id := idD, DeletedBy := 9, DeletedAt := 6 }],
      [.Set { Id := idB, Value := 7, IsDeleted := false, UpdatedBy := 3, UpdatedAt := 7 },
       .Set { Id := idA, Value := 9, IsDeleted := false, UpdatedBy := 3, UpdatedAt := 7 },
       .Delete { Id := idC, DeletedBy := 3, DeletedAt := 7 }]] }

/-- A request whose first operation is good, whose second has a malformed id and whose third
has an unknown type. -/
def sampleBadRequest : UpdateListRequest :=
  { ClientId := 3, Version := 0,
    Operations := [{ Typ := "insert", Id := idB.String, Value := 7 },
                   { Typ := "update", Id := "not-a-uuid", Value := 9 },
                   { Typ := "move", Id := idC.String, Value := 0 }] }

/-- An operation of client 1, stamped 1, that sets `a` to `v`. -/
def sampleSetA (v : StorageValue) : StorageOperation :=
  .Set { Id := idA, Value := v, IsDeleted := false, UpdatedBy := 1, UpdatedAt := 1 }

/-- An operation of client 2, stamped 0, that sets `b` to 0. -/
def sampleSetB : StorageOperation :=
  .Set { Id := idB, Value := 0, IsDeleted := false, UpdatedBy := 2, UpdatedAt := 0 }

/-- Thirteen operations in arrival order: the batch of client 1 that sets `a` to 1, 2, ...,
12, every operation stamped 1, and then the operation of client 2, stamped 0. -/
def sampleLateQueue : List StorageOperation :=
  [sampleSetA 1, sampleSetA 2, sampleSetA 3, sampleSetA 4, sampleSetA 5, sampleSetA 6,
   sampleSetA 7, sampleSetA 8, sampleSetA 9, sampleSetA 10, sampleSetA 11, sampleSetA 12,
   sampleSetB]

/-- A goroutine calling `GetOutputSnapshot` and a goroutine calling `AddVersion` of
`sampleCommit2`, on the history `sampleHistory`. -/
def sampleShared : Shared :=
  { hist := sampleHistory, lock := none, panicked := false,
    goroutines := [.snapshotStart false, .addStart sampleCommit2] }

/-- A schedule in which the writer takes the mutex first and the reader keeps trying. -/
def sampleSchedule : List Nat := [1, 0, 1, 0, 1, 0, 1, 0, 1, 0, 1, 0, 0, 0, 0]

/-! # Properties -/

/-! ## Slice idioms as list operations -/

theorem sliceInsert_eq {α : Type} (l : List α) (i : Nat) (x z : α) (h : i ≤ l.length) :
    sliceInsert l i x z = l.take i ++ x :: l.drop i := by
  obtain ⟨a, b, rfl, rfl⟩ : ∃ a b, l = a ++ b ∧ a.length = i :=
    ⟨l.take i, l.drop i, (List.take_append_drop i l).symm, List.length_take_of_le h⟩
  have hn : min ((a ++ b ++ [z]).length - (a.length + 1)) ((a ++ b ++ [z]).length - a.length)
      = b.length := by
    simp only [List.length_append, List.length_singleton]; omega
  unfold sliceInsert sliceCopy
  simp only [hn]
  rw [List.append_assoc a b [z]]
  rw [List.take_append_eq_append_take, List.drop_append_eq_append_drop,
    List.drop_append_eq_append_drop]
  have ht : List.take (a.length + 1) a = a := List.take_of_length_le (by omega)
  have hd : List.drop (a.length + 1 + b.length) (a ++ (b ++ [z])) = [] :=
    List.drop_eq_nil_of_le (by simp only [List.length_append, List.length_singleton]; omega)
  rw [hd]
  cases b with
  | nil => simp [ht]
  | cons y b => simp [ht]

theorem length_sliceInsert {α : Type} (l : List α) (i : Nat) (x z : α) (h : i ≤ l.length) :
    (sliceInsert l i x z).length = l.length + 1 := by
  rw [sliceInsert_eq l i x z h]
  simp
  omega

theorem length_sliceCut {α : Type} (l : List α) (i : Nat) (h : i < l.length) :
    (sliceCut l i).length = l.length - 1 := by
  unfold sliceCut
  simp
  omega

theorem map_sliceCut {α β : Type} (f : α → β) (l : List α) (i : Nat) :
    (sliceCut l i).map f = sliceCut (l.map f) i := by
  unfold sliceCut
  simp [List.map_take, List.map_drop]

theorem sliceCut_sublist {α : Type} (l : List α) (i : Nat) : (sliceCut l i).Sublist l := by
  unfold sliceCut
  conv_rhs => rw [← List.take_append_drop i l]
  exact List.Sublist.append (List.Sublist.refl _) (List.drop_sublist_drop_left l (Nat.le_succ i))

/-! ## sort.Search finds the lower bound of a monotone predicate -/

theorem sortSearchLoop_spec (f : Nat → Bool) (n : Nat)
    (hmono : ∀ a b, a ≤ b → b < n → f a = true → f b = true) :
    ∀ fuel i j, j - i ≤ fuel → i ≤ j → j ≤ n →
      (∀ k, k < i → f k = false) → (∀ k, j ≤ k → k < n → f k = true) →
      sortSearchLoop f fuel i j ≤ n ∧
      (∀ k, k < sortSearchLoop f fuel i j → f k = false) ∧
      (∀ k, sortSearchLoop f fuel i j ≤ k → k < n → f k = true) := by
  intro fuel
  induction fuel with
  | zero =>
    intro i j hfuel hij hjn hlo hhi
    have : i = j := by omega
    subst this
    simp only [sortSearchLoop]
    exact ⟨hjn, hlo, hhi⟩
  | succ fuel ih =>
    intro i j hfuel hij hjn hlo hhi
    simp only [sortSearchLoop]
    by_cases hlt : i < j
    · simp only [hlt, if_true]
      have hh1 : i ≤ (i + j) / 2 := by omega
      have hh2 : (i + j) / 2 < j := by omega
      cases hf : f ((i + j) / 2) with
      | false =>
        simp only [Bool.not_false, if_true]
        apply ih ((i + j) / 2 + 1) j (by omega) (by omega) hjn _ hhi
        intro k hk
        cases hfk : f k with
        | false => rfl
        | true =>
          have := hmono k ((i + j) / 2) (by omega) (by omega) hfk
          rw [hf] at this
          exact absurd this (by simp)
      | true =>
        simp only [Bool.not_true, Bool.false_eq_true, if_false]
        apply ih i ((i + j) / 2) (by omega) hh1 (by omega) hlo
        intro k hk hkn
        exact hmono _ k hk hkn hf
    · simp only [hlt, if_false]
      have : i = j := by omega
      subst this
      exact ⟨hjn, hlo, hhi⟩

theorem sortSearch_spec (f : Nat → Bool) (n : Nat)
    (hmono : ∀ a b, a ≤ b → b < n → f a = true → f b = true) :
    sortSearch n f ≤ n ∧ (∀ k, k < sortSearch n f → f k = false) ∧
      (∀ k, sortSearch n f ≤ k → k < n → f k = true) := by
  unfold sortSearch
  exact sortSearchLoop_spec f n hmono n 0 n (by omega) (by omega) (le_refl n)
    (fun k hk => absurd hk (by omega)) (fun k hk hkn => absurd hkn (by omega))

theorem sortSearchLoop_le (f : Nat → Bool) :
    ∀ fuel i j, i ≤ j → sortSearchLoop f fuel i j ≤ j := by
  intro fuel
  induction fuel with
  | zero => intro i j h; simpa [sortSearchLoop] using h
  | succ fuel ih =>
    intro i j h
    simp only [sortSearchLoop]
    by_cases hlt : i < j
    · simp only [hlt, if_true]
      cases hf : f ((i + j) / 2) with
      | false =>
        simp only [Bool.not_false, if_true]
        exact ih _ _ (by omega)
      | true =>
        simp only [Bool.not_true, Bool.false_eq_true, if_false]
        exact le_trans (ih _ _ (by omega)) (by omega)
    · simpa [hlt] using h

theorem sortSearch_le (n : Nat) (f : Nat → Bool) : sortSearch n f ≤ n :=
  sortSearchLoop_le f n 0 n (Nat.zero_le n)

/-- A lower bound is unique. -/
theorem lowerBound_unique (f : Nat → Bool) (n r1 r2 : Nat) (h1 : r1 ≤ n) (h2 : r2 ≤ n)
    (lo1 : ∀ k, k < r1 → f k = false) (hi1 : ∀ k, r1 ≤ k → k < n → f k = true)
    (lo2 : ∀ k, k < r2 → f k = false) (hi2 : ∀ k, r2 ≤ k → k < n → f k = true) : r1 = r2 := by
  rcases Nat.lt_trichotomy r1 r2 with h | h | h
  · have a := lo2 r1 h
    have b := hi1 r1 (le_refl _) (by omega)
    rw [a] at b; exact absurd b (by simp)
  · exact h
  · have a := lo1 r2 h
    have b := hi2 r2 (le_refl _) (by omega)
    rw [a] at b; exact absurd b (by simp)

/-! ## Export, memory reads and writes -/

theorem exportLoop_eq (s : Storage) (l : List Nat) (acc : StorageList) :
    exportLoop s l acc = acc ++ l.map s.view := by
  induction l generalizing acc with
  | nil => simp [exportLoop]
  | cons p l ih => simp [exportLoop, ih, Storage.view]

theorem Export_eq_map (s : Storage) : s.Export = s.list.map s.view := by
  simp [Storage.Export, exportLoop_eq]

theorem deref_write_same (s : Storage) (p : Nat) (it : Item) (h : p < s.mem.length) :
    (s.write p it).deref p = it := by
  simp [Storage.write, Storage.deref, List.getD, h]

theorem deref_write_other (s : Storage) (p q : Nat) (it : Item) (h : q ≠ p) :
    (s.write p it).deref q = s.deref q := by
  simp [Storage.write, Storage.deref, List.getD, List.getElem?_set_ne (Ne.symm h)]

theorem deref_append_old (mem : List Item) (l : List Nat) (m : List (String × Nat))
    (l1 : List Nat) (m1 : List (String × Nat)) (it : Item) (q : Nat) (h : q < mem.length) :
    (Storage.mk (mem ++ [it]) l1 m1).deref q = (Storage.mk mem l m).deref q := by
  simp [Storage.deref, List.getD, List.getElem?_append_left h]

theorem deref_append_new (mem : List Item) (l1 : List Nat) (m1 : List (String × Nat))
    (it : Item) : (Storage.mk (mem ++ [it]) l1 m1).deref mem.length = it := by
  simp [Storage.deref, List.getD]

/-! ## The lower bound search on a sorted list -/

theorem sortSearchLoop_congr (f g : Nat → Bool) :
    ∀ fuel i j, (∀ k, k < j → f k = g k) →
      sortSearchLoop f fuel i j = sortSearchLoop g fuel i j := by
  intro fuel
  induction fuel with
  | zero => intro i j _; simp [sortSearchLoop]
  | succ fuel ih =>
    intro i j h
    simp only [sortSearchLoop]
    by_cases hlt : i < j
    · simp only [hlt, if_true]
      rw [h ((i + j) / 2) (by omega)]
      rw [ih ((i + j) / 2 + 1) j h, ih i ((i + j) / 2) (fun k hk => h k (by omega))]
    · simp only [hlt, if_false]

theorem findItemIdxLTTarget_eq (s : Storage) (item : Nat) :
    s.findItemIdxLTTarget item
      = lowerBoundIdx (s.list.map (fun p => (s.deref p).Value)) (s.deref item).Value := by
  unfold Storage.findItemIdxLTTarget lowerBoundIdx sortSearch
  rw [List.length_map]
  apply sortSearchLoop_congr
  intro k hk
  simp [List.getD, List.getElem?_map, List.getElem?_eq_getElem hk]

theorem lowerBoundIdx_le (vals : List StorageValue) (v : StorageValue) :
    lowerBoundIdx vals v ≤ vals.length :=
  sortSearch_le _ _

theorem pairwise_getD (vals : List StorageValue) (hs : vals.Pairwise (fun a b => a ≤ b))
    (a b : Nat) (hab : a ≤ b) (hb : b < vals.length) : vals.getD a 0 ≤ vals.getD b 0 := by
  have ha : a < vals.length := by omega
  rw [List.getD_eq_getElem _ _ ha, List.getD_eq_getElem _ _ hb]
  rcases Nat.lt_or_eq_of_le hab with h | h
  · exact (List.pairwise_iff_getElem.mp hs) a b ha hb h
  · subst h; exact le_refl _

theorem lowerBoundIdx_spec (vals : List StorageValue) (v : StorageValue)
    (hs : vals.Pairwise (fun a b => a ≤ b)) : IsLowerBound vals v (lowerBoundIdx vals v) := by
  obtain ⟨h1, h2, h3⟩ : lowerBoundIdx vals v ≤ vals.length ∧
      (∀ k, k < lowerBoundIdx vals v → decide (vals.getD k 0 ≥ v) = false) ∧
      (∀ k, lowerBoundIdx vals v ≤ k → k < vals.length → decide (vals.getD k 0 ≥ v) = true) :=
    sortSearch_spec (fun i => decide (vals.getD i 0 ≥ v)) vals.length (by
      intro a b hab hb ha
      simp only [ge_iff_le, decide_eq_true_eq] at ha ⊢
      exact le_trans ha (pairwise_getD vals hs a b hab hb))
  refine ⟨h1, ?_, ?_⟩
  · intro x hx
    obtain ⟨k, hk, rfl⟩ := List.mem_iff_getElem.mp hx
    simp only [List.length_take] at hk
    have hk1 : k < lowerBoundIdx vals v := by omega
    have := h2 k hk1
    simp only [ge_iff_le, decide_eq_false_iff_not, not_le] at this
    have hk2 : k < vals.length := by omega
    simpa [List.getD, List.getElem?_eq_getElem hk2, List.getElem_take] using this
  · intro x hx
    obtain ⟨k, hk, rfl⟩ := List.mem_iff_getElem.mp hx
    simp only [List.length_drop] at hk
    have := h3 (lowerBoundIdx vals v + k) (by omega) (by omega)
    simp only [ge_iff_le, decide_eq_true_eq] at this
    have hk2 : lowerBoundIdx vals v + k < vals.length := by omega
    simpa [List.getD, List.getElem?_eq_getElem hk2] using this

theorem isLowerBound_unique (vals : List StorageValue) (v : StorageValue) (i j : Nat)
    (hi : IsLowerBound vals v i) (hj : IsLowerBound vals v j) : i = j := by
  obtain ⟨hi1, hi2, hi3⟩ := hi
  obtain ⟨hj1, hj2, hj3⟩ := hj
  rcases Nat.lt_trichotomy i j with h | h | h
  · have a : vals[i] < v := hj2 _ (by
      rw [List.mem_take_iff_getElem]; exact ⟨i, by simp; omega, rfl⟩)
    have b : v ≤ vals[i] := hi3 _ (by
      rw [List.mem_drop_iff_getElem]; exact ⟨0, by simp; omega, by simp⟩)
    exact absurd a (not_lt.mpr b)
  · exact h
  · have a : vals[j] < v := hi2 _ (by
      rw [List.mem_take_iff_getElem]; exact ⟨j, by simp; omega, rfl⟩)
    have b : v ≤ vals[j] := hj3 _ (by
      rw [List.mem_drop_iff_getElem]; exact ⟨0, by simp; omega, by simp⟩)
    exact absurd a (not_lt.mpr b)

theorem pairwise_insert_lowerBound (vals : List StorageValue) (v : StorageValue) (idx : Nat)
    (hs : vals.Pairwise (fun a b => a ≤ b)) (hlb : IsLowerBound vals v idx) :
    (vals.take idx ++ v :: vals.drop idx).Pairwise (fun a b => a ≤ b) := by
  obtain ⟨_, h2, h3⟩ := hlb
  have hs1 := hs
  rw [← List.take_append_drop idx vals, List.pairwise_append] at hs1
  obtain ⟨ht, hd, htd⟩ := hs1
  rw [List.pairwise_append]
  refine ⟨ht, List.pairwise_cons.mpr ⟨h3, hd⟩, ?_⟩
  intro a ha b hb
  rcases List.mem_cons.mp hb with rfl | hb
  · exact le_of_lt (h2 a ha)
  · exact htd a ha b hb

/-! ## The by-id map -/

theorem mapLookup_mem (m : List (String × Nat)) (k : String) (p : Nat)
    (h : mapLookup m k = some p) : (k, p) ∈ m := by
  induction m with
  | nil => simp [mapLookup] at h
  | cons kp m ih =>
    obtain ⟨k1, p1⟩ := kp
    by_cases hk : k = k1
    · subst hk
      simp [mapLookup, List.lookup_cons] at h
      subst h
      simp
    · have hb : (k == k1) = false := by simpa using hk
      simp only [mapLookup, List.lookup_cons, hb] at h
      exact List.mem_cons_of_mem _ (ih h)

theorem mapLookup_none_not_mem (m : List (String × Nat)) (k : String)
    (h : mapLookup m k = none) (p : Nat) : (k, p) ∉ m := by
  induction m with
  | nil => simp
  | cons kp m ih =>
    obtain ⟨k1, p1⟩ := kp
    by_cases hk : k = k1
    · subst hk
      simp [mapLookup, List.lookup_cons] at h
    · have hb : (k == k1) = false := by simpa using hk
      simp only [mapLookup, List.lookup_cons, hb] at h
      intro hmem
      rcases List.mem_cons.mp hmem with heq | hmem
      · exact hk (by simpa using congrArg Prod.fst heq)
      · exact ih h hmem

theorem mapStore_of_lookup_none (m : List (String × Nat)) (k : String) (p : Nat)
    (h : mapLookup m k = none) : mapStore m k p = m ++ [(k, p)] := by
  induction m with
  | nil => simp [mapStore]
  | cons kp m ih =>
    obtain ⟨k1, p1⟩ := kp
    by_cases hk : k = k1
    · subst hk
      simp [mapLookup, List.lookup_cons] at h
    · have hb : (k == k1) = false := by simpa using hk
      simp only [mapLookup, List.lookup_cons, hb] at h
      have hk1 : ¬ k1 = k := fun e => hk e.symm
      simp [mapStore, hk1, ih h]

theorem mapLookup_append_of_some (m m1 : List (String × Nat)) (k : String) (p : Nat)
    (h : mapLookup m k = some p) : mapLookup (m ++ m1) k = some p := by
  induction m with
  | nil => simp [mapLookup] at h
  | cons kp m ih =>
    obtain ⟨k1, p1⟩ := kp
    by_cases hk : k = k1
    · subst hk
      simpa [mapLookup, List.lookup_cons] using h
    · have hb : (k == k1) = false := by simpa using hk
      simp only [mapLookup, List.lookup_cons, hb, List.cons_append] at h ⊢
      exact ih h

theorem mapLookup_append_of_none (m m1 : List (String × Nat)) (k : String)
    (h : mapLookup m k = none) : mapLookup (m ++ m1) k = mapLookup m1 k := by
  induction m with
  | nil => simp
  | cons kp m ih =>
    obtain ⟨k1, p1⟩ := kp
    by_cases hk : k = k1
    · subst hk
      simp [mapLookup, List.lookup_cons] at h
    · have hb : (k == k1) = false := by simpa using hk
      simp only [mapLookup, List.lookup_cons, hb, List.cons_append] at h ⊢
      exact ih h

theorem mapLookup_single (k k1 : String) (p : Nat) :
    mapLookup [(k, p)] k1 = if k1 = k then some p else none := by
  by_cases h : k1 = k
  · subst h; simp [mapLookup, List.lookup_cons]
  · have hb : (k1 == k) = false := by simpa using h
    simp [mapLookup, List.lookup_cons, hb, h]

/-! ## The locator `findItemIdx` -/

theorem find_range'_unique (P : Nat → Bool) :
    ∀ n a j, a ≤ j → j < a + n → P j = true →
      (∀ k, a ≤ k → k < a + n → P k = true → k = j) →
      (List.range' a n).find? P = some j := by
  intro n
  induction n with
  | zero => intro a j h1 h2; omega
  | succ n ih =>
    intro a j h1 h2 hP hu
    rw [List.range'_succ, List.find?_cons]
    cases hPa : P a with
    | true =>
      have := hu a (le_refl a) (by omega) hPa
      simp [this]
    | false =>
      have hne : a ≠ j := by
        intro e; subst e; rw [hP] at hPa; exact absurd hPa (by simp)
      simp only
      exact ih (a + 1) j (by omega) (by omega) hP
        (fun k hk1 hk2 hk => hu k (by omega) (by omega) hk)

theorem find_range'_none (P : Nat → Bool) (n a : Nat)
    (h : ∀ k, a ≤ k → k < a + n → P k = false) : (List.range' a n).find? P = none := by
  rw [List.find?_eq_none]
  intro x hx
  have := List.mem_range'_1.mp hx
  simp [h x this.1 this.2]

theorem findItemIdx_ok_imp (s : Storage) (item : Nat) (i : Nat)
    (h : s.findItemIdx item = .ok i) :
    i < s.list.length ∧ (s.deref (s.list.getD i 0)).Id = (s.deref item).Id ∧
      s.findItemIdxLTTarget item ≤ i := by
  unfold Storage.findItemIdx at h
  simp only at h
  split at h
  · cases h
  · split at h
    · rename_i j hj
      cases h
      have h1 := List.find?_some hj
      have h2 := List.mem_range'_1.mp (List.mem_of_find?_eq_some hj)
      simp only [decide_eq_true_eq] at h1
      exact ⟨by omega, h1, h2.1⟩
    · cases h

theorem findItemIdx_of_unique (s : Storage) (item : Nat) (i : Nat)
    (hlb : s.findItemIdxLTTarget item ≤ i) (hi : i < s.list.length)
    (hid : (s.deref (s.list.getD i 0)).Id = (s.deref item).Id)
    (hu : ∀ k, k < s.list.length → (s.deref (s.list.getD k 0)).Id = (s.deref item).Id → k = i) :
    s.findItemIdx item = .ok i := by
  unfold Storage.findItemIdx
  simp only
  have hne : ¬ s.findItemIdxLTTarget item = s.list.length := by omega
  rw [if_neg hne]
  rw [find_range'_unique _ (s.list.length - s.findItemIdxLTTarget item)
    (s.findItemIdxLTTarget item) i hlb (by omega) (by simpa using hid)
    (fun k _ hk2 hk => hu k (by omega) (by simpa using hk))]

theorem findItemIdxLTTarget_le_of_value (s : Storage) (item : Nat) (i : Nat) (hs : s.Sorted)
    (hi : i < s.list.length)
    (hv : (s.deref item).Value ≤ (s.deref (s.list.getD i 0)).Value) :
    s.findItemIdxLTTarget item ≤ i := by
  rw [findItemIdxLTTarget_eq]
  by_contra hcon
  have hlt : i < lowerBoundIdx (s.list.map (fun p => (s.deref p).Value)) (s.deref item).Value :=
    by omega
  obtain ⟨h1, h2, _⟩ := lowerBoundIdx_spec (s.list.map (fun p => (s.deref p).Value))
    (s.deref item).Value hs
  have hmem : (s.deref (s.list.getD i 0)).Value ∈
      (s.list.map (fun p => (s.deref p).Value)).take
        (lowerBoundIdx (s.list.map (fun p => (s.deref p).Value)) (s.deref item).Value) := by
    rw [List.mem_take_iff_getElem]
    refine ⟨i, by simp; omega, ?_⟩
    rw [List.getD_eq_getElem _ _ hi]
    simp
  exact absurd (h2 _ hmem) (not_lt.mpr hv)

theorem findItemIdxLTTarget_congr (s s1 : Storage) (item : Nat) (hl : s1.list = s.list)
    (hv : ∀ q, (s1.deref q).Value = (s.deref q).Value) :
    s1.findItemIdxLTTarget item = s.findItemIdxLTTarget item := by
  unfold Storage.findItemIdxLTTarget
  simp only [hl, hv]

theorem findItemIdx_congr (s s1 : Storage) (item : Nat) (hl : s1.list = s.list)
    (hv : ∀ q, (s1.deref q).Value = (s.deref q).Value)
    (hid : ∀ q, (s1.deref q).Id = (s.deref q).Id) :
    s1.findItemIdx item = s.findItemIdx item := by
  unfold Storage.findItemIdx
  simp only [findItemIdxLTTarget_congr s s1 item hl hv, hl, hid]

/-! ## What `set` and `delete` compute -/

theorem map_value_append_old (s : Storage) (it : Item) (l1 : List Nat)
    (m1 : List (String × Nat)) (l : List Nat) (hv : ∀ p ∈ l, p < s.mem.length) :
    l.map (fun p => ((Storage.mk (s.mem ++ [it]) l1 m1).deref p).Value)
      = l.map (fun p => (s.deref p).Value) := by
  apply List.map_congr_left
  intro p hp
  rw [deref_append_old s.mem s.list s.idDataMatch l1 m1 it p (hv p hp)]

/-- The result of `set` for an id that is not in the by-id map. -/
theorem set_new_eq (s : Storage) (itemId : UUID) (v : StorageValue) (c : ClientId) (t : Time)
    (hv : s.ListValid) (hnone : mapLookup s.idDataMatch itemId.String = none) :
    s.set itemId v c t = .ok
      ({ mem := s.mem ++ [NewStorageItem itemId v c t],
         list := s.list.take (lowerBoundIdx (s.list.map (fun p => (s.deref p).Value)) v)
           ++ s.mem.length ::
             s.list.drop (lowerBoundIdx (s.list.map (fun p => (s.deref p).Value)) v),
         idDataMatch := s.idDataMatch ++ [(itemId.String, s.mem.length)] },
       some { Typ := InsertOperationType,
              Index := (lowerBoundIdx (s.list.map (fun p => (s.deref p).Value)) v : Nat),
              NewIndex := 0, Id := itemId.String, Value := v }) := by
  unfold Storage.set
  simp only [hnone]
  rw [findItemIdxLTTarget_eq]
  simp only
  rw [map_value_append_old s _ _ _ s.list hv, deref_append_new]
  have hval : (NewStorageItem itemId v c t).Value = v := rfl
  rw [hval, sliceInsert_eq _ _ _ _ (by
    have := lowerBoundIdx_le (s.list.map (fun p => (s.deref p).Value)) v
    simpa using this), mapStore_of_lookup_none _ _ _ hnone]

/-- The result of `set` for an id that is in the by-id map, once the locator has returned. -/
theorem set_existing_eq (s : Storage) (itemId : UUID) (v : StorageValue) (c : ClientId)
    (t : Time) (item : Nat) (i : Nat)
    (hsome : mapLookup s.idDataMatch itemId.String = some item)
    (hfind : s.findItemIdx item = .ok i) (hp : item < s.mem.length)
    (hnot : item ∉ sliceCut s.list i) :
    s.set itemId v c t = .ok
      ({ mem := s.mem.set item { s.deref item with Value := v, UpdatedBy := c, UpdatedAt := t },
         list := (sliceCut s.list i).take
             (lowerBoundIdx ((sliceCut s.list i).map (fun p => (s.deref p).Value)) v)
           ++ item :: (sliceCut s.list i).drop
             (lowerBoundIdx ((sliceCut s.list i).map (fun p => (s.deref p).Value)) v),
         idDataMatch := s.idDataMatch },
       some { Typ := UpdateOperationType, Index := (i : Nat),
              NewIndex := (lowerBoundIdx ((sliceCut s.list i).map
                (fun p => (s.deref p).Value)) v : Nat),
              Id := itemId.String, Value := v }) := by
  unfold Storage.set
  simp only [hsome, hfind]
  rw [findItemIdxLTTarget_eq]
  have hd : ∀ l1 : List Nat, (Storage.mk s.mem l1 s.idDataMatch).deref item = s.deref item :=
    fun _ => rfl
  have hw : ∀ q, q ≠ item →
      ((Storage.mk s.mem (sliceCut s.list i) s.idDataMatch).write item
        { s.deref item with Value := v, UpdatedBy := c, UpdatedAt := t }).deref q
        = s.deref q := by
    intro q hq
    rw [deref_write_other _ _ _ _ hq]; rfl
  have hws : ((Storage.mk s.mem (sliceCut s.list i) s.idDataMatch).write item
        { s.deref item with Value := v, UpdatedBy := c, UpdatedAt := t }).deref item
        = { s.deref item with Value := v, UpdatedBy := c, UpdatedAt := t } :=
    deref_write_same _ _ _ hp
  have hmap : (sliceCut s.list i).map (fun p =>
      (((Storage.mk s.mem (sliceCut s.list i) s.idDataMatch).write item
        { s.deref item with Value := v, UpdatedBy := c, UpdatedAt := t }).deref p).Value)
      = (sliceCut s.list i).map (fun p => (s.deref p).Value) := by
    apply List.map_congr_left
    intro q hq
    rw [hw q (fun e => hnot (e ▸ hq))]
  simp only [hd]
  have hlist : ((Storage.mk s.mem (sliceCut s.list i) s.idDataMatch).write item
        { s.deref item with Value := v, UpdatedBy := c, UpdatedAt := t }).list
        = sliceCut s.list i := rfl
  rw [hlist, hmap, hws]
  simp only
  rw [sliceInsert_eq _ _ _ _ (by
    have := lowerBoundIdx_le ((sliceCut s.list i).map (fun p => (s.deref p).Value)) v
    simpa using this)]
  rfl

/-- Marking an item deleted changes neither its value nor its id, so the locator is not
affected by it. -/
theorem findItemIdx_mark_deleted (s : Storage) (item : Nat) (c : ClientId) (t : Time) :
    (s.write item
      { s.deref item with IsDeleted := true, UpdatedBy := c, UpdatedAt := t }).findItemIdx item
      = s.findItemIdx item := by
  apply findItemIdx_congr
  · rfl
  · intro q
    by_cases hq : q = item
    · subst hq
      by_cases hlt : q < s.mem.length
      · rw [deref_write_same _ _ _ hlt]
      · simp [Storage.write, Storage.deref, List.getD, List.set_eq_of_length_le (not_lt.mp hlt)]
    · rw [deref_write_other _ _ _ _ hq]
  · intro q
    by_cases hq : q = item
    · subst hq
      by_cases hlt : q < s.mem.length
      · rw [deref_write_same _ _ _ hlt]
      · simp [Storage.write, Storage.deref, List.getD, List.set_eq_of_length_le (not_lt.mp hlt)]
    · rw [deref_write_other _ _ _ _ hq]

/-- The result of `delete` for a live by-id entry, once the locator has returned. -/
theorem delete_live_eq (s : Storage) (itemId : UUID) (c : ClientId) (t : Time) (item : Nat)
    (i : Nat) (hsome : mapLookup s.idDataMatch itemId.String = some item)
    (hlive : (s.deref item).IsDeleted = false) (hfind : s.findItemIdx item = .ok i) :
    s.delete itemId c t = .ok
      ({ mem := s.mem.set item
           { s.deref item with IsDeleted := true, UpdatedBy := c, UpdatedAt := t },
         list := sliceCut s.list i,
         idDataMatch := s.idDataMatch },
       some { Typ := DeleteOperationType, Index := (i : Nat), NewIndex := 0,
              Id := itemId.String, Value := 0 }) := by
  unfold Storage.delete
  simp only [hsome, hlive]
  rw [findItemIdx_mark_deleted, hfind]
  rfl

/-- The locator can only fail or return: `delete` of a live entry aborts when it fails. -/
theorem delete_live_error (s : Storage) (itemId : UUID) (c : ClientId) (t : Time) (item : Nat)
    (e : String) (hsome : mapLookup s.idDataMatch itemId.String = some item)
    (hlive : (s.deref item).IsDeleted = false) (hfind : s.findItemIdx item = .error e) :
    s.delete itemId c t = .error e := by
  unfold Storage.delete
  simp only [hsome, hlive]
  rw [findItemIdx_mark_deleted, hfind]
  rfl

theorem delete_noop_eq (s : Storage) (itemId : UUID) (c : ClientId) (t : Time)
    (h : mapLookup s.idDataMatch itemId.String = none ∨
      ∃ item, mapLookup s.idDataMatch itemId.String = some item ∧
        (s.deref item).IsDeleted = true) :
    s.delete itemId c t = .ok (s, none) := by
  unfold Storage.delete
  rcases h with h | ⟨item, h1, h2⟩
  · simp only [h]
  · simp only [h1, h2, if_true]

/-! ## Cutting and inserting, up to permutation -/

theorem list_split_at {α : Type} (l : List α) (i : Nat) (hi : i < l.length) :
    l = l.take i ++ l[i] :: l.drop (i + 1) := by
  conv_lhs => rw [← List.take_append_drop i l]
  rw [List.drop_eq_getElem_cons hi]

theorem perm_cut {α : Type} (l : List α) (i : Nat) (hi : i < l.length) :
    List.Perm l (l[i] :: sliceCut l i) := by
  conv_lhs => rw [list_split_at l i hi]
  exact List.perm_middle

theorem perm_insert {α : Type} (l : List α) (i : Nat) (x : α) :
    List.Perm (l.take i ++ x :: l.drop i) (x :: l) := by
  have h : List.Perm (l.take i ++ x :: l.drop i) (x :: (l.take i ++ l.drop i)) :=
    List.perm_middle
  rwa [List.take_append_drop] at h

theorem not_mem_cut_of_nodup {α : Type} (l : List α) (i : Nat) (hi : i < l.length)
    (hnd : l.Nodup) : l[i] ∉ sliceCut l i := by
  have h := (perm_cut l i hi).nodup_iff.mp hnd
  exact (List.nodup_cons.mp h).1

theorem mem_cut_iff {α : Type} (l : List α) (i : Nat) (hi : i < l.length) (hnd : l.Nodup)
    (q : α) : q ∈ sliceCut l i ↔ q ∈ l ∧ q ≠ l[i] := by
  have hp := (perm_cut l i hi).mem_iff (a := q)
  constructor
  · intro h
    refine ⟨hp.mpr (List.mem_cons_of_mem _ h), ?_⟩
    intro e
    exact not_mem_cut_of_nodup l i hi hnd (e ▸ h)
  · intro ⟨h1, h2⟩
    rcases List.mem_cons.mp (hp.mp h1) with h | h
    · exact absurd h h2
    · exact h

/-! ## Consequences of the storage invariants -/

theorem Storage.Inv.listValid {s : Storage} (h : s.Inv) : s.ListValid := by
  obtain ⟨hpv, _, _, hlm, _⟩ := h
  intro p hp
  exact hpv (_, p) (mapLookup_mem _ _ _ (hlm p hp).1)

theorem Storage.Inv.nodup {s : Storage} (h : s.Inv) : s.list.Nodup := by
  obtain ⟨_, _, _, hlm, hll⟩ := h
  rw [List.nodup_iff_count_eq_one]
  intro p hp
  exact hll (_, p) (mapLookup_mem _ _ _ (hlm p hp).1) (hlm p hp).2

/-- Under the invariants the locator, when it returns, returns the position of the very
pointer the by-id map holds, and that item is live. -/
theorem Storage.Inv.locate {s : Storage} (h : s.Inv) (key : String) (item : Nat) (i : Nat)
    (hsome : mapLookup s.idDataMatch key = some item) (hfind : s.findItemIdx item = .ok i) :
    ∃ hi : i < s.list.length, s.list[i] = item ∧ (s.deref item).IsDeleted = false := by
  obtain ⟨hi, hid, _⟩ := findItemIdx_ok_imp s item i hfind
  obtain ⟨_, hko, _, hlm, _⟩ := h
  refine ⟨hi, ?_⟩
  rw [List.getD_eq_getElem _ _ hi] at hid
  have hq := hlm s.list[i] (List.getElem_mem hi)
  have hk := hko (key, item) (mapLookup_mem _ _ _ hsome)
  simp only at hk
  rw [hid, hk, hsome] at hq
  have e : item = s.list[i] := Option.some.inj hq.1
  refine ⟨e.symm, ?_⟩
  rw [e]; exact hq.2

/-- Under the invariants the locator finds every item of the list at its position. -/
theorem Storage.Inv.findItemIdx_getElem {s : Storage} (h : s.Inv) (i : Nat) (hi : i < s.list.length) :
    s.findItemIdx s.list[i] = .ok i := by
  have hnd := h.nodup
  obtain ⟨_, _, hso, hlm, _⟩ := h
  apply findItemIdx_of_unique
  · apply findItemIdxLTTarget_le_of_value s _ i hso hi
    rw [List.getD_eq_getElem _ _ hi]
  · exact hi
  · rw [List.getD_eq_getElem _ _ hi]
  · intro k hk hid
    rw [List.getD_eq_getElem _ _ hk] at hid
    have h1 := (hlm s.list[k] (List.getElem_mem hk)).1
    have h2 := (hlm s.list[i] (List.getElem_mem hi)).1
    rw [hid, h2] at h1
    exact (List.Nodup.getElem_inj_iff hnd).mp (Option.some.inj h1).symm

/-- Under the invariants a live by-id entry is in the list, and the locator returns its
position. -/
theorem Storage.Inv.findItemIdx_live {s : Storage} (h : s.Inv) (key : String) (item : Nat)
    (hsome : mapLookup s.idDataMatch key = some item)
    (hlive : (s.deref item).IsDeleted = false) :
    ∃ i, ∃ hi : i < s.list.length, s.list[i] = item ∧ s.findItemIdx item = .ok i := by
  have hc := h.2.2.2.2 (key, item) (mapLookup_mem _ _ _ hsome) hlive
  have hmem : item ∈ s.list := by
    by_contra hn
    rw [List.count_eq_zero_of_not_mem hn] at hc
    exact absurd hc (by decide)
  obtain ⟨i, hi, hget⟩ := List.mem_iff_getElem.mp hmem
  refine ⟨i, hi, hget, ?_⟩
  have := h.findItemIdx_getElem i hi
  rwa [hget] at this

/-! ## The invariants are kept by `set` and `delete` -/

theorem inv_set_new (s : Storage) (itemId : UUID) (v : StorageValue) (c : ClientId) (t : Time)
    (idx : Nat) (hinv : s.Inv) (hnone : mapLookup s.idDataMatch itemId.String = none)
    (hidx : IsLowerBound (s.list.map (fun p => (s.deref p).Value)) v idx) :
    (Storage.mk (s.mem ++ [NewStorageItem itemId v c t])
      (s.list.take idx ++ s.mem.length :: s.list.drop idx)
      (s.idDataMatch ++ [(itemId.String, s.mem.length)])).Inv := by
  have hlv := hinv.listValid
  obtain ⟨hpv, hko, hso, hlm, hll⟩ := hinv
  have hold : ∀ q, q < s.mem.length →
      (Storage.mk (s.mem ++ [NewStorageItem itemId v c t])
        (s.list.take idx ++ s.mem.length :: s.list.drop idx)
        (s.idDataMatch ++ [(itemId.String, s.mem.length)])).deref q = s.deref q :=
    fun q hq => deref_append_old s.mem s.list s.idDataMatch _ _ _ q hq
  have hnew : (Storage.mk (s.mem ++ [NewStorageItem itemId v c t])
        (s.list.take idx ++ s.mem.length :: s.list.drop idx)
        (s.idDataMatch ++ [(itemId.String, s.mem.length)])).deref s.mem.length
        = NewStorageItem itemId v c t := deref_append_new _ _ _ _
  have hperm := perm_insert s.list idx s.mem.length
  have hmnot : s.mem.length ∉ s.list := fun hm => absurd (hlv _ hm) (lt_irrefl _)
  refine ⟨?_, ?_, ?_, ?_, ?_⟩
  · intro kp hkp
    simp only [List.length_append, List.length_singleton]
    rcases List.mem_append.mp hkp with h | h
    · have hv : (kp.2 : Nat) < s.mem.length := hpv kp h
      omega
    · simp only [List.mem_singleton] at h
      subst h; simp
  · intro kp hkp
    rcases List.mem_append.mp hkp with h | h
    · rw [hold _ (hpv kp h)]; exact hko kp h
    · simp only [List.mem_singleton] at h
      subst h; rw [hnew]; rfl
  · unfold Storage.Sorted
    simp only [List.map_append, List.map_cons]
    rw [hnew]
    have e1 : (s.list.take idx).map (fun p =>
        ((Storage.mk (s.mem ++ [NewStorageItem itemId v c t])
          (s.list.take idx ++ s.mem.length :: s.list.drop idx)
          (s.idDataMatch ++ [(itemId.String, s.mem.length)])).deref p).Value)
        = (s.list.map (fun p => (s.deref p).Value)).take idx := by
      rw [← List.map_take]
      apply List.map_congr_left
      intro q hq
      rw [hold q (hlv q (List.mem_of_mem_take hq))]
    have e2 : (s.list.drop idx).map (fun p =>
        ((Storage.mk (s.mem ++ [NewStorageItem itemId v c t])
          (s.list.take idx ++ s.mem.length :: s.list.drop idx)
          (s.idDataMatch ++ [(itemId.String, s.mem.length)])).deref p).Value)
        = (s.list.map (fun p => (s.deref p).Value)).drop idx := by
      rw [← List.map_drop]
      apply List.map_congr_left
      intro q hq
      rw [hold q (hlv q (List.mem_of_mem_drop hq))]
    rw [e1, e2]
    exact pairwise_insert_lowerBound _ _ _ hso hidx
  · intro q hq
    rcases List.mem_cons.mp (hperm.mem_iff.mp hq) with h | h
    · subst h
      rw [hnew]
      refine ⟨?_, rfl⟩
      show mapLookup (s.idDataMatch ++ [(itemId.String, s.mem.length)]) itemId.String
        = some s.mem.length
      rw [mapLookup_append_of_none _ _ _ hnone, mapLookup_single]
      simp
    · rw [hold q (hlv q h)]
      exact ⟨mapLookup_append_of_some _ _ _ _ (hlm q h).1, (hlm q h).2⟩
  · intro kp hkp hlive
    show List.count kp.2 (s.list.take idx ++ s.mem.length :: s.list.drop idx) = 1
    rw [hperm.count_eq]
    rcases List.mem_append.mp hkp with h | h
    · have hv : (kp.2 : Nat) < s.mem.length := hpv kp h
      rw [hold _ hv] at hlive
      have hne : kp.2 ≠ s.mem.length := by omega
      rw [List.count_cons_of_ne hne]
      exact hll kp h hlive
    · simp only [List.mem_singleton] at h
      subst h
      simp [List.count_eq_zero_of_not_mem hmnot]

theorem deref_set_other (s : Storage) (item q : Nat) (it : Item) (l : List Nat)
    (m : List (String × Nat)) (h : q ≠ item) :
    (Storage.mk (s.mem.set item it) l m).deref q = s.deref q := by
  simp [Storage.deref, List.getD, List.getElem?_set_ne (Ne.symm h)]

theorem deref_set_same (s : Storage) (item : Nat) (it : Item) (l : List Nat)
    (m : List (String × Nat)) (h : item < s.mem.length) :
    (Storage.mk (s.mem.set item it) l m).deref item = it := by
  simp [Storage.deref, List.getD, h]

theorem inv_set_existing (s : Storage) (v : StorageValue) (c : ClientId) (t : Time)
    (item i idx : Nat) (hinv : s.Inv) (hi : i < s.list.length) (hget : s.list[i] = item)
    (hidx : IsLowerBound ((sliceCut s.list i).map (fun p => (s.deref p).Value)) v idx) :
    (Storage.mk
      (s.mem.set item { s.deref item with Value := v, UpdatedBy := c, UpdatedAt := t })
      ((sliceCut s.list i).take idx ++ item :: (sliceCut s.list i).drop idx)
      s.idDataMatch).Inv := by
  have hlv := hinv.listValid
  have hnd := hinv.nodup
  obtain ⟨hpv, hko, hso, hlm, hll⟩ := hinv
  have hmem : item ∈ s.list := hget ▸ List.getElem_mem hi
  have hvalid : item < s.mem.length := hlv item hmem
  have hother : ∀ q, q ≠ item →
      (Storage.mk
        (s.mem.set item { s.deref item with Value := v, UpdatedBy := c, UpdatedAt := t })
        ((sliceCut s.list i).take idx ++ item :: (sliceCut s.list i).drop idx)
        s.idDataMatch).deref q = s.deref q :=
    fun q hq => deref_set_other s item q _ _ _ hq
  have hsame : (Storage.mk
        (s.mem.set item { s.deref item with Value := v, UpdatedBy := c, UpdatedAt := t })
        ((sliceCut s.list i).take idx ++ item :: (sliceCut s.list i).drop idx)
        s.idDataMatch).deref item
        = { s.deref item with Value := v, UpdatedBy := c, UpdatedAt := t } :=
    deref_set_same s item _ _ _ hvalid
  have hId : ∀ q, ((Storage.mk
        (s.mem.set item { s.deref item with Value := v, UpdatedBy := c, UpdatedAt := t })
        ((sliceCut s.list i).take idx ++ item :: (sliceCut s.list i).drop idx)
        s.idDataMatch).deref q).Id = (s.deref q).Id := by
    intro q
    by_cases hq : q = item
    · subst hq; rw [hsame]
    · rw [hother q hq]
  have hDel : ∀ q, ((Storage.mk
        (s.mem.set item { s.deref item with Value := v, UpdatedBy := c, UpdatedAt := t })
        ((sliceCut s.list i).take idx ++ item :: (sliceCut s.list i).drop idx)
        s.idDataMatch).deref q).IsDeleted = (s.deref q).IsDeleted := by
    intro q
    by_cases hq : q = item
    · subst hq; rw [hsame]
    · rw [hother q hq]
  have hnot : item ∉ sliceCut s.list i := hget ▸ not_mem_cut_of_nodup s.list i hi hnd
  have hperm : List.Perm ((sliceCut s.list i).take idx ++ item :: (sliceCut s.list i).drop idx)
      s.list := by
    have h1 := perm_insert (sliceCut s.list i) idx item
    have h2 := perm_cut s.list i hi
    rw [hget] at h2
    exact h1.trans h2.symm
  refine ⟨?_, ?_, ?_, ?_, ?_⟩
  · intro kp hkp
    simp only [List.length_set]
    exact hpv kp hkp
  · intro kp hkp
    rw [hId]
    exact hko kp hkp
  · unfold Storage.Sorted
    simp only [List.map_append, List.map_cons]
    rw [hsame]
    have e1 : ((sliceCut s.list i).take idx).map (fun p =>
        ((Storage.mk
          (s.mem.set item { s.deref item with Value := v, UpdatedBy := c, UpdatedAt := t })
          ((sliceCut s.list i).take idx ++ item :: (sliceCut s.list i).drop idx)
          s.idDataMatch).deref p).Value)
        = ((sliceCut s.list i).map (fun p => (s.deref p).Value)).take idx := by
      rw [← List.map_take]
      apply List.map_congr_left
      intro q hq
      rw [hother q (fun e => hnot (e ▸ List.mem_of_mem_take hq))]
    have e2 : ((sliceCut s.list i).drop idx).map (fun p =>
        ((Storage.mk
          (s.mem.set item { s.deref item with Value := v, UpdatedBy := c, UpdatedAt := t })
          ((sliceCut s.list i).take idx ++ item :: (sliceCut s.list i).drop idx)
          s.idDataMatch).deref p).Value)
        = ((sliceCut s.list i).map (fun p => (s.deref p).Value)).drop idx := by
      rw [← List.map_drop]
      apply List.map_congr_left
      intro q hq
      rw [hother q (fun e => hnot (e ▸ List.mem_of_mem_drop hq))]
    rw [e1, e2]
    apply pairwise_insert_lowerBound _ _ _ _ hidx
    rw [map_sliceCut]
    exact List.Pairwise.sublist (sliceCut_sublist _ i) hso
  · intro q hq
    have hq1 : q ∈ s.list := hperm.mem_iff.mp hq
    rw [hId, hDel]
    exact hlm q hq1
  · intro kp hkp hlive
    show List.count kp.2
      ((sliceCut s.list i).take idx ++ item :: (sliceCut s.list i).drop idx) = 1
    rw [hperm.count_eq]
    rw [hDel] at hlive
    exact hll kp hkp hlive

theorem inv_delete (s : Storage) (c : ClientId) (t : Time) (item i : Nat) (hinv : s.Inv)
    (hi : i < s.list.length) (hget : s.list[i] = item) :
    (Storage.mk
      (s.mem.set item { s.deref item with IsDeleted := true, UpdatedBy := c, UpdatedAt := t })
      (sliceCut s.list i) s.idDataMatch).Inv := by
  have hlv := hinv.listValid
  have hnd := hinv.nodup
  obtain ⟨hpv, hko, hso, hlm, hll⟩ := hinv
  have hmem : item ∈ s.list := hget ▸ List.getElem_mem hi
  have hvalid : item < s.mem.length := hlv item hmem
  have hother : ∀ q, q ≠ item →
      (Storage.mk
        (s.mem.set item { s.deref item with IsDeleted := true, UpdatedBy := c, UpdatedAt := t })
        (sliceCut s.list i) s.idDataMatch).deref q = s.deref q :=
    fun q hq => deref_set_other s item q _ _ _ hq
  have hsame : (Storage.mk
        (s.mem.set item { s.deref item with IsDeleted := true, UpdatedBy := c, UpdatedAt := t })
        (sliceCut s.list i) s.idDataMatch).deref item
        = { s.deref item with IsDeleted := true, UpdatedBy := c, UpdatedAt := t } :=
    deref_set_same s item _ _ _ hvalid
  have hId : ∀ q, ((Storage.mk
        (s.mem.set item { s.deref item with IsDeleted := true, UpdatedBy := c, UpdatedAt := t })
        (sliceCut s.list i) s.idDataMatch).deref q).Id = (s.deref q).Id := by
    intro q
    by_cases hq : q = item
    · subst hq; rw [hsame]
    · rw [hother q hq]
  have hVal : ∀ q, ((Storage.mk
        (s.mem.set item { s.deref item with IsDeleted := true, UpdatedBy := c, UpdatedAt := t })
        (sliceCut s.list i) s.idDataMatch).deref q).Value = (s.deref q).Value := by
    intro q
    by_cases hq : q = item
    · subst hq; rw [hsame]
    · rw [hother q hq]
  have hcut : ∀ q, q ∈ sliceCut s.list i ↔ q ∈ s.list ∧ q ≠ item := by
    intro q
    rw [← hget]
    exact mem_cut_iff s.list i hi hnd q
  refine ⟨?_, ?_, ?_, ?_, ?_⟩
  · intro kp hkp
    simp only [List.length_set]
    exact hpv kp hkp
  · intro kp hkp
    rw [hId]
    exact hko kp hkp
  · unfold Storage.Sorted
    simp only [hVal]
    rw [map_sliceCut]
    exact List.Pairwise.sublist (sliceCut_sublist _ i) hso
  · intro q hq
    obtain ⟨hq1, hq2⟩ := (hcut q).mp hq
    rw [hother q hq2]
    exact hlm q hq1
  · intro kp hkp hlive
    show List.count kp.2 (sliceCut s.list i) = 1
    have hne : kp.2 ≠ item := by
      intro e
      rw [e, hsame] at hlive
      exact absurd hlive (by simp)
    rw [hother _ hne] at hlive
    have h1 := hll kp hkp hlive
    have h2 := (perm_cut s.list i hi).count_eq kp.2
    rw [hget, List.count_cons_of_ne hne] at h2
    rw [← h2]; exact h1

/-! ## Client side application of a single edit -/

theorem applyListOperation_insert (l : StorageList) (i idx : Nat) (n : Int) (id : String)
    (v : StorageValue) (h : idx ≤ l.length) :
    applyListOperation l i
        { Typ := InsertOperationType, Index := (idx : Nat), NewIndex := n, Id := id, Value := v }
      = .ok (l.take idx ++ { Id := id, Value := v } :: l.drop idx) := by
  unfold applyListOperation
  have h1 : ¬ ((idx : Int) < 0) := by omega
  have h2 : ¬ ((idx : Int) > (l.length : Int)) := by omega
  simp only [if_true, h1, h2, if_false, Int.toNat_ofNat]
  rw [sliceInsert_eq _ _ _ _ h]

theorem applyListOperation_update (l : StorageList) (i a b : Nat) (id : String)
    (v : StorageValue) (ha : a < l.length) (hb : b < l.length) :
    applyListOperation l i
        { Typ := UpdateOperationType, Index := (a : Nat), NewIndex := (b : Nat), Id := id,
          Value := v }
      = .ok ((sliceCut l a).take b ++ { Id := l[a].Id, Value := v } :: (sliceCut l a).drop b) := by
  unfold applyListOperation
  have h0 : ¬ (UpdateOperationType = InsertOperationType) := by decide
  have h1 : ¬ ((a : Int) < 0) := by omega
  have h2 : ¬ ((a : Int) ≥ (l.length : Int)) := by omega
  have h3 : ¬ ((b : Int) < 0) := by omega
  have h4 : ¬ ((b : Int) ≥ (l.length : Int)) := by omega
  simp only [h0, if_true, h1, h2, h3, h4, if_false, Int.toNat_ofNat]
  rw [sliceInsert_eq _ _ _ _ (by rw [length_sliceCut l a ha]; omega),
    List.getD_eq_getElem _ _ ha]

theorem applyListOperation_delete (l : StorageList) (i a : Nat) (n : Int) (id : String)
    (v : StorageValue) (ha : a < l.length) :
    applyListOperation l i
        { Typ := DeleteOperationType, Index := (a : Nat), NewIndex := n, Id := id, Value := v }
      = .ok (sliceCut l a) := by
  unfold applyListOperation
  have h0 : ¬ (DeleteOperationType = InsertOperationType) := by decide
  have h0' : ¬ (DeleteOperationType = UpdateOperationType) := by decide
  have h1 : ¬ ((a : Int) < 0) := by omega
  have h2 : ¬ ((a : Int) ≥ (l.length : Int)) := by omega
  simp only [h0, h0', if_true, h1, h2, if_false, Int.toNat_ofNat]

/-! ## One storage operation and the edit it emits -/

/-- What one `set` does to the exported list is what its edit does on the client. -/
theorem set_step (s : Storage) (itemId : UUID) (v : StorageValue) (c : ClientId) (t : Time)
    (s1 : Storage) (r : Option ListOperation) (hinv : s.Inv)
    (h : s.set itemId v c t = .ok (s1, r)) :
    s1.Inv ∧ ∃ op, r = some op ∧ ∀ i, applyListOperation s.Export i op = .ok s1.Export := by
  cases hl : mapLookup s.idDataMatch itemId.String with
  | none =>
    rw [set_new_eq s itemId v c t hinv.listValid hl] at h
    injection h with h
    injection h with hs hr
    have hlb := lowerBoundIdx_spec (s.list.map (fun p => (s.deref p).Value)) v hinv.2.2.1
    have hinv1 := inv_set_new s itemId v c t _ hinv hl hlb
    rw [hs] at hinv1
    refine ⟨hinv1, _, hr.symm, ?_⟩
    intro i
    rw [applyListOperation_insert _ _ _ _ _ _ (by
      rw [Export_eq_map, List.length_map]; simpa using hlb.1)]
    rw [← hs, Export_eq_map, Export_eq_map]
    simp only [List.map_append, List.map_cons, List.map_take, List.map_drop]
    have hlv := hinv.listValid
    have e : ∀ l : List Nat, (∀ p ∈ l, p ∈ s.list) →
        l.map (Storage.mk (s.mem ++ [NewStorageItem itemId v c t])
          (s.list.take (lowerBoundIdx (s.list.map (fun p => (s.deref p).Value)) v)
            ++ s.mem.length ::
              s.list.drop (lowerBoundIdx (s.list.map (fun p => (s.deref p).Value)) v))
          (s.idDataMatch ++ [(itemId.String, s.mem.length)])).view = l.map s.view := by
      intro l hl
      apply List.map_congr_left
      intro q hq
      unfold Storage.view
      rw [deref_append_old s.mem s.list s.idDataMatch _ _ _ q (hlv q (hl q hq))]
    rw [← List.map_take, ← List.map_drop, ← List.map_take, ← List.map_drop,
      e _ (fun p hp => List.mem_of_mem_take hp), e _ (fun p hp => List.mem_of_mem_drop hp)]
    unfold Storage.view
    rw [deref_append_new]
    rfl
  | some item =>
    cases hf : s.findItemIdx item with
    | error e =>
      unfold Storage.set at h
      simp only [hl, hf] at h
      cases h
    | ok i =>
      obtain ⟨hi, hget, hlive⟩ := hinv.locate itemId.String item i hl hf
      have hnd := hinv.nodup
      have hnot : item ∉ sliceCut s.list i := hget ▸ not_mem_cut_of_nodup s.list i hi hnd
      have hvalid : item < s.mem.length := hinv.listValid item (hget ▸ List.getElem_mem hi)
      rw [set_existing_eq s itemId v c t item i hl hf hvalid hnot] at h
      injection h with h
      injection h with hs hr
      have hsorted : ((sliceCut s.list i).map (fun p => (s.deref p).Value)).Pairwise
          (fun a b => a ≤ b) := by
        rw [map_sliceCut]
        exact List.Pairwise.sublist (sliceCut_sublist _ i) hinv.2.2.1
      have hlb := lowerBoundIdx_spec ((sliceCut s.list i).map (fun p => (s.deref p).Value)) v
        hsorted
      have hinv1 := inv_set_existing s v c t item i _ hinv hi hget hlb
      rw [hs] at hinv1
      refine ⟨hinv1, _, hr.symm, ?_⟩
      intro k
      have hlen : (sliceCut s.list i).length = s.list.length - 1 := length_sliceCut _ _ hi
      rw [applyListOperation_update _ _ _ _ _ _ (by rw [Export_eq_map, List.length_map]; exact hi)
        (by
          rw [Export_eq_map, List.length_map]
          have := hlb.1
          simp only [List.length_map] at this
          omega)]
      rw [← hs]
      simp only [Export_eq_map, List.getElem_map, ← map_sliceCut]
      simp only [List.map_append, List.map_cons, List.map_take, List.map_drop]
      have e : ∀ l : List Nat, (∀ p ∈ l, p ∈ sliceCut s.list i) →
          l.map (Storage.mk
            (s.mem.set item { s.deref item with Value := v, UpdatedBy := c, UpdatedAt := t })
            ((sliceCut s.list i).take
                (lowerBoundIdx ((sliceCut s.list i).map (fun p => (s.deref p).Value)) v)
              ++ item :: (sliceCut s.list i).drop
                (lowerBoundIdx ((sliceCut s.list i).map (fun p => (s.deref p).Value)) v))
            s.idDataMatch).view = l.map s.view := by
        intro l hl
        apply List.map_congr_left
        intro q hq
        unfold Storage.view
        rw [deref_set_other s item q _ _ _ (fun e => hnot (e ▸ hl q hq))]
      rw [← List.map_take, ← List.map_drop, ← List.map_take, ← List.map_drop,
        e _ (fun p hp => List.mem_of_mem_take hp), e _ (fun p hp => List.mem_of_mem_drop hp)]
      unfold Storage.view
      rw [deref_set_same s item _ _ _ hvalid, hget]

/-- What one `delete` does to the exported list is what its edit, if any, does on the
client. -/
theorem delete_step (s : Storage) (itemId : UUID) (c : ClientId) (t : Time)
    (s1 : Storage) (r : Option ListOperation) (hinv : s.Inv)
    (h : s.delete itemId c t = .ok (s1, r)) :
    s1.Inv ∧ ((r = none ∧ s1 = s) ∨
      ∃ op, r = some op ∧ ∀ i, applyListOperation s.Export i op = .ok s1.Export) := by
  cases hl : mapLookup s.idDataMatch itemId.String with
  | none =>
    rw [delete_noop_eq s itemId c t (Or.inl hl)] at h
    injection h with h
    injection h with hs hr
    subst hs
    exact ⟨hinv, Or.inl ⟨hr.symm, rfl⟩⟩
  | some item =>
    cases hd : (s.deref item).IsDeleted with
    | true =>
      rw [delete_noop_eq s itemId c t (Or.inr ⟨item, hl, hd⟩)] at h
      injection h with h
      injection h with hs hr
      subst hs
      exact ⟨hinv, Or.inl ⟨hr.symm, rfl⟩⟩
    | false =>
      obtain ⟨i, hi, hget, hf⟩ := hinv.findItemIdx_live itemId.String item hl hd
      rw [delete_live_eq s itemId c t item i hl hd hf] at h
      injection h with h
      injection h with hs hr
      have hnd := hinv.nodup
      have hnot : item ∉ sliceCut s.list i := hget ▸ not_mem_cut_of_nodup s.list i hi hnd
      have hinv1 := inv_delete s c t item i hinv hi hget
      rw [hs] at hinv1
      refine ⟨hinv1, Or.inr ⟨_, hr.symm, ?_⟩⟩
      intro k
      rw [applyListOperation_delete _ _ _ _ _ _
        (by rw [Export_eq_map, List.length_map]; exact hi)]
      rw [← hs]
      simp only [Export_eq_map, ← map_sliceCut]
      congr 1
      apply List.map_congr_left
      intro q hq
      unfold Storage.view
      rw [deref_set_other s item q _ _ _ (fun e => hnot (e ▸ hq))]

/-! ## `ApplyOperations` as a sequence of single operations -/

theorem applyOperationsLoop_acc (ops : List (Option StorageOperation)) :
    ∀ (s : Storage) (acc : List ListOperation),
      applyOperationsLoop s acc ops =
        match applyOperationsLoop s [] ops with
        | .error e => .error e
        | .ok (s1, out) => .ok (s1, acc ++ out) := by
  induction ops with
  | nil => intro s acc; simp [applyOperationsLoop]
  | cons o ops ih =>
    intro s acc
    cases o with
    | none =>
      simp only [applyOperationsLoop]
      exact ih s acc
    | some op =>
      simp only [applyOperationsLoop]
      cases hA : op.Apply s with
      | error e => rfl
      | ok res =>
        obtain ⟨s1, r⟩ := res
        cases r with
        | none =>
          simp only
          exact ih s1 acc
        | some lo =>
          simp only
          rw [ih s1 (acc ++ [lo]), ih s1 ([] ++ [lo])]
          cases applyOperationsLoop s1 [] ops with
          | error e => rfl
          | ok res2 =>
            obtain ⟨s2, out⟩ := res2
            simp

theorem applyOperations_nil (s : Storage) : s.ApplyOperations [] = .ok (s, []) := rfl

theorem applyOperations_cons_none (s : Storage) (ops : List (Option StorageOperation)) :
    s.ApplyOperations (none :: ops) = s.ApplyOperations ops := rfl

theorem applyOperations_cons_some (s : Storage) (op : StorageOperation)
    (ops : List (Option StorageOperation)) :
    s.ApplyOperations (some op :: ops) =
      match op.Apply s with
      | .error e => .error e
      | .ok (s1, r) =>
        match s1.ApplyOperations ops with
        | .error e => .error e
        | .ok (s2, out) => .ok (s2, r.toList ++ out) := by
  unfold Storage.ApplyOperations
  simp only [applyOperationsLoop]
  cases hA : op.Apply s with
  | error e => rfl
  | ok res =>
    obtain ⟨s1, r⟩ := res
    cases r with
    | none =>
      simp only
      cases applyOperationsLoop s1 [] ops with
      | error e => rfl
      | ok res2 => obtain ⟨s2, out⟩ := res2; simp
    | some lo =>
      simp only
      rw [applyOperationsLoop_acc ops s1 ([] ++ [lo])]
      cases applyOperationsLoop s1 [] ops with
      | error e => rfl
      | ok res2 => obtain ⟨s2, out⟩ := res2; simp

/-- One operation keeps the invariants, and its edit (if any) replays it on the client. -/
theorem apply_step (s : Storage) (op : StorageOperation) (s1 : Storage)
    (r : Option ListOperation) (hinv : s.Inv) (h : op.Apply s = .ok (s1, r)) :
    s1.Inv ∧ ∀ i, applyListOperationsFrom s.Export i r.toList = .ok s1.Export := by
  cases op with
  | Set o =>
    obtain ⟨h1, op1, hr, h2⟩ := set_step s o.Id o.Value o.UpdatedBy o.UpdatedAt s1 r hinv h
    subst hr
    refine ⟨h1, fun i => ?_⟩
    simp only [Option.toList, applyListOperationsFrom, h2 i]
  | Delete o =>
    obtain ⟨h1, h2⟩ := delete_step s o.Id o.DeletedBy o.DeletedAt s1 r hinv h
    refine ⟨h1, fun i => ?_⟩
    rcases h2 with ⟨hr, hs⟩ | ⟨op1, hr, h2⟩
    · subst hr; subst hs
      simp only [Option.toList, applyListOperationsFrom]
    · subst hr
      simp only [Option.toList, applyListOperationsFrom, h2 i]

theorem applyListOperationsFrom_append (a b : List ListOperation) :
    ∀ (l : StorageList) (i : Nat),
      applyListOperationsFrom l i (a ++ b) =
        match applyListOperationsFrom l i a with
        | .error e => .error e
        | .ok l1 => applyListOperationsFrom l1 (i + a.length) b := by
  induction a with
  | nil => intro l i; simp [applyListOperationsFrom]
  | cons op a ih =>
    intro l i
    simp only [List.cons_append, applyListOperationsFrom]
    cases applyListOperation l i op with
    | error e => rfl
    | ok l1 =>
      have e := ih l1 (i + 1)
      have : i + 1 + a.length = i + (a.length + 1) := by omega
      simp only [List.length_cons, this] at e ⊢
      exact e

/-- A returning `ApplyOperations` keeps the invariants and its edits replay it on the
client, whatever position the edits are counted from. -/
theorem applyOperations_replay (ops : List (Option StorageOperation)) :
    ∀ (s s1 : Storage) (out : List ListOperation), s.Inv →
      s.ApplyOperations ops = .ok (s1, out) →
      s1.Inv ∧ ∀ i, applyListOperationsFrom s.Export i out = .ok s1.Export := by
  induction ops with
  | nil =>
    intro s s1 out hinv h
    rw [applyOperations_nil] at h
    injection h with h
    injection h with hs ho
    subst hs; subst ho
    exact ⟨hinv, fun i => rfl⟩
  | cons o ops ih =>
    intro s s1 out hinv h
    cases o with
    | none =>
      rw [applyOperations_cons_none] at h
      exact ih s s1 out hinv h
    | some op =>
      rw [applyOperations_cons_some] at h
      cases hA : op.Apply s with
      | error e => rw [hA] at h; cases h
      | ok res =>
        obtain ⟨s2, r⟩ := res
        rw [hA] at h
        simp only at h
        cases hB : s2.ApplyOperations ops with
        | error e => rw [hB] at h; cases h
        | ok res2 =>
          obtain ⟨s3, out2⟩ := res2
          rw [hB] at h
          simp only at h
          injection h with h
          injection h with hs ho
          subst hs; subst ho
          obtain ⟨hinv2, hstep⟩ := apply_step s op s2 r hinv hA
          obtain ⟨hinv3, hrest⟩ := ih s2 s3 out2 hinv2 hB
          refine ⟨hinv3, fun i => ?_⟩
          rw [applyListOperationsFrom_append, hstep i]
          exact hrest _

theorem inv_NewStorage : NewStorage.Inv := by decide

theorem Storage.Reachable.inv {s : Storage} (h : s.Reachable) : s.Inv := by
  induction h with
  | init => exact inv_NewStorage
  | step s s1 ops listOps _ hstep ih => exact (applyOperations_replay ops s s1 listOps ih hstep).1

/-! ## Round trip and the invariants of reachable storages -/

theorem sampleOps_run : sampleStorage.ApplyOperations sampleOps
    = .ok (sampleStorageAfter, sampleEdits) := by rfl

theorem sampleRun_run : NewStorage.ApplyOperations sampleRun
    = .ok (sampleRunAfter, sampleRunEdits) := by rfl

theorem sampleRunAfter_reachable : sampleRunAfter.Reachable :=
  Storage.Reachable.step NewStorage sampleRunAfter sampleRun sampleRunEdits
    Storage.Reachable.init sampleRun_run

/-- C1. Round trip: for a storage `s` satisfying the storage invariants and a sequence `S` of
operations on which `ApplyOperations` returns, applying the returned edits to the export
taken before `S` succeeds and gives exactly the export taken after `S`. -/
theorem roundtrip_export (s s1 : Storage) (S : List (Option StorageOperation))
    (E : List ListOperation) (hinv : s.Inv) (h : s.ApplyOperations S = .ok (s1, E)) :
    ApplyListOperations s.Export E = .ok s1.Export :=
  (applyOperations_replay S s s1 E hinv h).2 0

theorem roundtrip_export_witness :
    sampleStorage.Inv ∧ sampleStorage.ApplyOperations sampleOps
      = .ok (sampleStorageAfter, sampleEdits) ∧
    ApplyListOperations sampleStorage.Export sampleEdits = .ok sampleStorageAfter.Export :=
  ⟨by decide, by rfl,
    roundtrip_export sampleStorage sampleStorageAfter sampleOps sampleEdits (by decide) (by rfl)⟩

theorem items_map_value (s : Storage) :
    s.items.map (fun it => it.Value) = s.list.map (fun p => (s.deref p).Value) := by
  simp [Storage.items]

/-- C3. Sortedness invariant: in every storage reached from `NewStorage()` by returning
`ApplyOperations` calls (sequences of set and delete), the items of the ordered list are
non-decreasing in `Value` and none of them has `IsDeleted = true`. -/
theorem sorted_invariant (s : Storage) (h : s.Reachable) :
    (s.items.map (fun it => it.Value)).Pairwise (fun a b => a ≤ b) ∧
      ∀ it ∈ s.items, it.IsDeleted = false := by
  obtain ⟨_, _, hso, hlm, _⟩ := h.inv
  refine ⟨?_, ?_⟩
  · rw [items_map_value]; exact hso
  · intro it hit
    obtain ⟨p, hp, rfl⟩ := List.mem_map.mp hit
    exact (hlm p hp).2

theorem sorted_invariant_witness :
    (sampleRunAfter.items.map (fun it => it.Value)).Pairwise (fun a b => a ≤ b) ∧
      ∀ it ∈ sampleRunAfter.items, it.IsDeleted = false :=
  sorted_invariant sampleRunAfter
    (Storage.Reachable.step NewStorage sampleRunAfter sampleRun sampleRunEdits
      Storage.Reachable.init (by rfl))

/-- C4. Index/map agreement: in every storage reached from `NewStorage()` by returning
`ApplyOperations` calls, every pointer of the ordered list is the by-id entry of the id of
its item and that item is not deleted; every by-id entry that is not deleted occurs at
exactly one position of the ordered list; and no id occurs twice in the list. -/
theorem agreement_invariant (s : Storage) (h : s.Reachable) :
    (∀ p ∈ s.list,
      mapLookup s.idDataMatch (s.deref p).Id.String = some p ∧ (s.deref p).IsDeleted = false) ∧
    (∀ k p, mapLookup s.idDataMatch k = some p → (s.deref p).IsDeleted = false →
      s.list.count p = 1) ∧
    (s.items.map (fun it => it.Id)).Nodup := by
  have hnd := h.inv.nodup
  obtain ⟨_, _, _, hlm, hll⟩ := h.inv
  refine ⟨hlm, ?_, ?_⟩
  · intro k p hk hlive
    exact hll (k, p) (mapLookup_mem _ _ _ hk) hlive
  · unfold Storage.items
    rw [List.map_map]
    apply List.Nodup.map_on _ hnd
    intro p hp q hq e
    simp only [Function.comp] at e
    have h1 := (hlm p hp).1
    have h2 := (hlm q hq).1
    rw [e, h2] at h1
    exact (Option.some.inj h1).symm

theorem agreement_invariant_witness :
    (∀ p ∈ sampleRunAfter.list,
      mapLookup sampleRunAfter.idDataMatch (sampleRunAfter.deref p).Id.String = some p ∧
        (sampleRunAfter.deref p).IsDeleted = false) ∧
    (∀ k p, mapLookup sampleRunAfter.idDataMatch k = some p →
      (sampleRunAfter.deref p).IsDeleted = false → sampleRunAfter.list.count p = 1) ∧
    (sampleRunAfter.items.map (fun it => it.Id)).Nodup :=
  agreement_invariant sampleRunAfter
    (Storage.Reachable.step NewStorage sampleRunAfter sampleRun sampleRunEdits
      Storage.Reachable.init (by rfl))

/-! ## The three effective operations -/

theorem mapLookup_append_single_ne (m : List (String × Nat)) (k k1 : String) (p : Nat)
    (h : k1 ≠ k) : mapLookup (m ++ [(k, p)]) k1 = mapLookup m k1 := by
  cases hl : mapLookup m k1 with
  | none => rw [mapLookup_append_of_none _ _ _ hl, mapLookup_single, if_neg h]
  | some q => exact mapLookup_append_of_some _ _ _ _ hl

theorem getElem?_unique_of_nodup (l : List Nat) (hnd : l.Nodup) (i k : Nat) (x : Nat)
    (hi : l[i]? = some x) (hk : l[k]? = some x) : k = i := by
  obtain ⟨hi1, hi2⟩ := List.getElem?_eq_some.mp hi
  obtain ⟨hk1, hk2⟩ := List.getElem?_eq_some.mp hk
  exact (List.Nodup.getElem_inj_iff hnd).mp (hk2.trans hi2.symm)

/-- C5. Set of an absent id: on a sorted storage (whose list pointers refer to allocated
items) `set` of an id that is not in the by-id map returns `Insert` with the id, the value
and the index `idx` that is the lower bound of the value (all items before `idx` are smaller,
all items from `idx` on are at least the value); afterwards the list is the old list with the
new item inserted at `idx`, the by-id map holds the new item under that id and is unchanged
at every other key. -/
theorem set_absent (s : Storage) (itemId : UUID) (v : StorageValue) (c : ClientId) (t : Time)
    (hs : s.Sorted) (hv : s.ListValid)
    (habs : mapLookup s.idDataMatch itemId.String = none) :
    ∃ (idx : Nat) (s1 : Storage),
      s.set itemId v c t = .ok (s1, some
        { Typ := InsertOperationType, Index := (idx : Nat), NewIndex := 0,
          Id := itemId.String, Value := v }) ∧
      IsLowerBound (s.items.map (fun it => it.Value)) v idx ∧
      s1.items = s.items.take idx ++ NewStorageItem itemId v c t :: s.items.drop idx ∧
      (∃ p, mapLookup s1.idDataMatch itemId.String = some p ∧
        s1.deref p = NewStorageItem itemId v c t) ∧
      (∀ k, k ≠ itemId.String → mapLookup s1.idDataMatch k = mapLookup s.idDataMatch k) := by
  refine ⟨lowerBoundIdx (s.list.map (fun p => (s.deref p).Value)) v, _,
    set_new_eq s itemId v c t hv habs, ?_, ?_, ?_, ?_⟩
  · rw [items_map_value]
    exact lowerBoundIdx_spec _ v hs
  · unfold Storage.items
    simp only [List.map_append, List.map_cons, ← List.map_take, ← List.map_drop]
    rw [deref_append_new]
    have e : ∀ l : List Nat, (∀ p ∈ l, p ∈ s.list) →
        l.map (Storage.mk (s.mem ++ [NewStorageItem itemId v c t])
          (s.list.take (lowerBoundIdx (s.list.map (fun p => (s.deref p).Value)) v)
            ++ s.mem.length ::
              s.list.drop (lowerBoundIdx (s.list.map (fun p => (s.deref p).Value)) v))
          (s.idDataMatch ++ [(itemId.String, s.mem.length)])).deref = l.map s.deref := by
      intro l hl
      apply List.map_congr_left
      intro q hq
      rw [deref_append_old s.mem s.list s.idDataMatch _ _ _ q (hv q (hl q hq))]
    rw [e _ (fun p hp => List.mem_of_mem_take hp), e _ (fun p hp => List.mem_of_mem_drop hp)]
  · refine ⟨s.mem.length, ?_, deref_append_new _ _ _ _⟩
    show mapLookup (s.idDataMatch ++ [(itemId.String, s.mem.length)]) itemId.String
      = some s.mem.length
    rw [mapLookup_append_of_none _ _ _ habs, mapLookup_single, if_pos rfl]
  · intro k hk
    exact mapLookup_append_single_ne _ _ _ _ hk

theorem set_absent_witness :
    ∃ (idx : Nat) (s1 : Storage),
      sampleStorage.set idD 1 3 3 = .ok (s1, some
        { Typ := InsertOperationType, Index := (idx : Nat), NewIndex := 0,
          Id := idD.String, Value := 1 }) ∧
      IsLowerBound (sampleStorage.items.map (fun it => it.Value)) 1 idx ∧
      s1.items = sampleStorage.items.take idx ++ NewStorageItem idD 1 3 3
        :: sampleStorage.items.drop idx ∧
      (∃ p, mapLookup s1.idDataMatch idD.String = some p ∧
        s1.deref p = NewStorageItem idD 1 3 3) ∧
      (∀ k, k ≠ idD.String →
        mapLookup s1.idDataMatch k = mapLookup sampleStorage.idDataMatch k) :=
  set_absent sampleStorage idD 1 3 3 (by decide) (by decide) (by decide)

/-- C6. Set of an existing live id: on a storage satisfying the invariants, `set` of an id
whose by-id entry `item` is not deleted returns `Update` with the id, the value, `Index`
the (only) position of the item before the call and `NewIndex` the lower bound of the value in
the list without that item; afterwards the list is the old list with the item cut from
`Index` and put back at `NewIndex` with the new value, author and timestamp; the list length
and the by-id map (so its key set) are unchanged. -/
theorem set_live (s : Storage) (itemId : UUID) (v : StorageValue) (c : ClientId) (t : Time)
    (item : Nat) (hinv : s.Inv) (hsome : mapLookup s.idDataMatch itemId.String = some item)
    (hlive : (s.deref item).IsDeleted = false) :
    ∃ (old_idx new_idx : Nat) (s1 : Storage),
      s.set itemId v c t = .ok (s1, some
        { Typ := UpdateOperationType, Index := (old_idx : Nat), NewIndex := (new_idx : Nat),
          Id := itemId.String, Value := v }) ∧
      s.list[old_idx]? = some item ∧ (∀ k, s.list[k]? = some item → k = old_idx) ∧
      IsLowerBound ((sliceCut s.items old_idx).map (fun it => it.Value)) v new_idx ∧
      s1.items = (sliceCut s.items old_idx).take new_idx
        ++ { s.deref item with Value := v, UpdatedBy := c, UpdatedAt := t }
          :: (sliceCut s.items old_idx).drop new_idx ∧
      s1.list.length = s.list.length ∧ s1.idDataMatch = s.idDataMatch := by
  obtain ⟨i, hi, hget, hf⟩ := hinv.findItemIdx_live itemId.String item hsome hlive
  have hnd := hinv.nodup
  have hnot : item ∉ sliceCut s.list i := hget ▸ not_mem_cut_of_nodup s.list i hi hnd
  have hvalid : item < s.mem.length := hinv.listValid item (hget ▸ List.getElem_mem hi)
  have hsorted : ((sliceCut s.list i).map (fun p => (s.deref p).Value)).Pairwise
      (fun a b => a ≤ b) := by
    rw [map_sliceCut]
    exact List.Pairwise.sublist (sliceCut_sublist _ i) hinv.2.2.1
  have hlb := lowerBoundIdx_spec ((sliceCut s.list i).map (fun p => (s.deref p).Value)) v
    hsorted
  have hgetq : s.list[i]? = some item := by rw [List.getElem?_eq_getElem hi, hget]
  refine ⟨i, lowerBoundIdx ((sliceCut s.list i).map (fun p => (s.deref p).Value)) v, _,
    set_existing_eq s itemId v c t item i hsome hf hvalid hnot, hgetq, ?_, ?_, ?_, ?_, rfl⟩
  · intro k hk
    exact getElem?_unique_of_nodup s.list hnd i k item hgetq hk
  · have e : (sliceCut s.items i).map (fun it => it.Value)
        = (sliceCut s.list i).map (fun p => (s.deref p).Value) := by
      unfold Storage.items
      rw [← map_sliceCut, List.map_map]
      rfl
    rw [e]
    exact hlb
  · unfold Storage.items
    simp only [List.map_append, List.map_cons, ← List.map_take, ← List.map_drop,
      ← map_sliceCut]
    rw [deref_set_same s item _ _ _ hvalid]
    have e : ∀ l : List Nat, (∀ p ∈ l, p ∈ sliceCut s.list i) →
        l.map (Storage.mk
          (s.mem.set item { s.deref item with Value := v, UpdatedBy := c, UpdatedAt := t })
          ((sliceCut s.list i).take
              (lowerBoundIdx ((sliceCut s.list i).map (fun p => (s.deref p).Value)) v)
            ++ item :: (sliceCut s.list i).drop
              (lowerBoundIdx ((sliceCut s.list i).map (fun p => (s.deref p).Value)) v))
          s.idDataMatch).deref = l.map s.deref := by
      intro l hl
      apply List.map_congr_left
      intro q hq
      rw [deref_set_other s item q _ _ _ (fun e => hnot (e ▸ hl q hq))]
    rw [e _ (fun p hp => List.mem_of_mem_take hp), e _ (fun p hp => List.mem_of_mem_drop hp)]
  · show ((sliceCut s.list i).take _ ++ item :: (sliceCut s.list i).drop _).length
      = s.list.length
    have h1 : (sliceCut s.list i).length = s.list.length - 1 := length_sliceCut _ _ hi
    have h2 := hlb.1
    simp only [List.length_map] at h2
    simp only [List.length_append, List.length_take, List.length_cons, List.length_drop]
    omega

theorem set_live_witness :
    ∃ (old_idx new_idx : Nat) (s1 : Storage),
      sampleStorage.set idA 0 3 3 = .ok (s1, some
        { Typ := UpdateOperationType, Index := (old_idx : Nat), NewIndex := (new_idx : Nat),
          Id := idA.String, Value := 0 }) ∧
      sampleStorage.list[old_idx]? = some 0 ∧
      (∀ k, sampleStorage.list[k]? = some 0 → k = old_idx) ∧
      IsLowerBound ((sliceCut sampleStorage.items old_idx).map (fun it => it.Value)) 0 new_idx ∧
      s1.items = (sliceCut sampleStorage.items old_idx).take new_idx
        ++ { sampleStorage.deref 0 with Value := 0, UpdatedBy := 3, UpdatedAt := 3 }
          :: (sliceCut sampleStorage.items old_idx).drop new_idx ∧
      s1.list.length = sampleStorage.list.length ∧
      s1.idDataMatch = sampleStorage.idDataMatch :=
  set_live sampleStorage idA 0 3 3 0 (by decide) (by decide) (by decide)

/-- C7. Delete of a live id: on a storage satisfying the invariants, `delete` of an id whose
by-id entry `item` is not deleted returns `Delete` with the id and `Index` the (only)
position of the item before the call; afterwards the list is the old list without that
position, the by-id map is unchanged (no key is lost, the id still leads to `item`) and the
item now has `IsDeleted = true` and the given author and timestamp. -/
theorem delete_live (s : Storage) (itemId : UUID) (c : ClientId) (t : Time) (item : Nat)
    (hinv : s.Inv) (hsome : mapLookup s.idDataMatch itemId.String = some item)
    (hlive : (s.deref item).IsDeleted = false) :
    ∃ (idx : Nat) (s1 : Storage),
      s.delete itemId c t = .ok (s1, some
        { Typ := DeleteOperationType, Index := (idx : Nat), NewIndex := 0,
          Id := itemId.String, Value := 0 }) ∧
      s.list[idx]? = some item ∧ (∀ k, s.list[k]? = some item → k = idx) ∧
      s1.items = sliceCut s.items idx ∧
      s1.idDataMatch = s.idDataMatch ∧
      mapLookup s1.idDataMatch itemId.String = some item ∧
      s1.deref item
        = { s.deref item with IsDeleted := true, UpdatedBy := c, UpdatedAt := t } := by
  obtain ⟨i, hi, hget, hf⟩ := hinv.findItemIdx_live itemId.String item hsome hlive
  have hnd := hinv.nodup
  have hnot : item ∉ sliceCut s.list i := hget ▸ not_mem_cut_of_nodup s.list i hi hnd
  have hvalid : item < s.mem.length := hinv.listValid item (hget ▸ List.getElem_mem hi)
  have hgetq : s.list[i]? = some item := by rw [List.getElem?_eq_getElem hi, hget]
  refine ⟨i, _, delete_live_eq s itemId c t item i hsome hlive hf, hgetq, ?_, ?_, rfl, hsome,
    deref_set_same s item _ _ _ hvalid⟩
  · intro k hk
    exact getElem?_unique_of_nodup s.list hnd i k item hgetq hk
  · unfold Storage.items
    rw [← map_sliceCut]
    apply List.map_congr_left
    intro q hq
    rw [deref_set_other s item q _ _ _ (fun e => hnot (e ▸ hq))]

theorem delete_live_witness :
    ∃ (idx : Nat) (s1 : Storage),
      sampleStorage.delete idB 3 3 = .ok (s1, some
        { Typ := DeleteOperationType, Index := (idx : Nat), NewIndex := 0,
          Id := idB.String, Value := 0 }) ∧
      sampleStorage.list[idx]? = some 1 ∧ (∀ k, sampleStorage.list[k]? = some 1 → k = idx) ∧
      s1.items = sliceCut sampleStorage.items idx ∧
      s1.idDataMatch = sampleStorage.idDataMatch ∧
      mapLookup s1.idDataMatch idB.String = some 1 ∧
      s1.deref 1
        = { sampleStorage.deref 1 with IsDeleted := true, UpdatedBy := 3, UpdatedAt := 3 } :=
  delete_live sampleStorage idB 3 3 1 (by decide) (by decide) (by decide)

/-! ## Redundant deletes, concatenation, export -/

/-- C8. Redundant delete is a no-op: `delete` of an id that is absent from the by-id map or
whose entry is already deleted returns no edit and leaves the whole storage (list, by-id map
and every item, so also the author and timestamp of the tombstone) unchanged; and after any
returning `delete` of an id (in a storage whose by-id pointers refer to allocated items)
a second `delete` of that id is such a no-op, so the two emit at most one edit. -/
theorem delete_redundant (s : Storage) (itemId : UUID) (c : ClientId) (t : Time) :
    ((mapLookup s.idDataMatch itemId.String = none ∨
        ∃ item, mapLookup s.idDataMatch itemId.String = some item ∧
          (s.deref item).IsDeleted = true) →
      s.delete itemId c t = .ok (s, none)) ∧
    (s.PtrsValid → ∀ (s1 : Storage) (r : Option ListOperation) (c1 : ClientId) (t1 : Time),
      s.delete itemId c t = .ok (s1, r) → s1.delete itemId c1 t1 = .ok (s1, none)) := by
  refine ⟨delete_noop_eq s itemId c t, ?_⟩
  intro hpv s1 r c1 t1 h
  cases hl : mapLookup s.idDataMatch itemId.String with
  | none =>
    rw [delete_noop_eq s itemId c t (Or.inl hl)] at h
    injection h with h
    injection h with hs hr
    subst hs
    exact delete_noop_eq s itemId c1 t1 (Or.inl hl)
  | some item =>
    cases hd : (s.deref item).IsDeleted with
    | true =>
      rw [delete_noop_eq s itemId c t (Or.inr ⟨item, hl, hd⟩)] at h
      injection h with h
      injection h with hs hr
      subst hs
      exact delete_noop_eq s itemId c1 t1 (Or.inr ⟨item, hl, hd⟩)
    | false =>
      cases hf : s.findItemIdx item with
      | error e =>
        rw [delete_live_error s itemId c t item e hl hd hf] at h
        cases h
      | ok i =>
        rw [delete_live_eq s itemId c t item i hl hd hf] at h
        injection h with h
        injection h with hs hr
        subst hs
        apply delete_noop_eq
        refine Or.inr ⟨item, hl, ?_⟩
        rw [deref_set_same s item _ _ _ (hpv (_, item) (mapLookup_mem _ _ _ hl))]

theorem delete_redundant_witness :
    sampleStorage.delete idC 3 3 = .ok (sampleStorage, none) ∧
    (∀ (s1 : Storage) (r : Option ListOperation),
      sampleStorage.delete idB 3 3 = .ok (s1, r) → s1.delete idB 4 4 = .ok (s1, none)) :=
  ⟨(delete_redundant sampleStorage idC 3 3).1 (Or.inr ⟨2, by decide, by decide⟩),
    fun s1 r h => (delete_redundant sampleStorage idB 3 3).2 (by decide) s1 r 4 4 h⟩

theorem length_reduceOption_eq_countP (rs : List (Option ListOperation)) :
    rs.reduceOption.length = rs.countP Option.isSome := by
  induction rs with
  | nil => rfl
  | cons r rs ih =>
    cases r with
    | none => simpa [List.reduceOption_cons_of_none] using ih
    | some x => simp [List.reduceOption_cons_of_some, ih]

theorem applyOperations_eq_perOp (ops : List (Option StorageOperation)) :
    ∀ s : Storage, s.ApplyOperations ops =
      match perOpResults s ops with
      | .error e => .error e
      | .ok (s1, rs) => .ok (s1, rs.reduceOption) := by
  induction ops with
  | nil => intro s; rfl
  | cons o ops ih =>
    intro s
    cases o with
    | none =>
      rw [applyOperations_cons_none, ih s]
      simp only [perOpResults]
      cases perOpResults s ops with
      | error e => rfl
      | ok res => obtain ⟨s2, rs⟩ := res; simp [List.reduceOption_cons_of_none]
    | some op =>
      rw [applyOperations_cons_some]
      simp only [perOpResults]
      cases op.Apply s with
      | error e => rfl
      | ok res =>
        obtain ⟨s1, r⟩ := res
        simp only
        rw [ih s1]
        cases perOpResults s1 ops with
        | error e => rfl
        | ok res2 =>
          obtain ⟨s2, rs⟩ := res2
          cases r with
          | none => simp [List.reduceOption_cons_of_none]
          | some x => simp [List.reduceOption_cons_of_some]

theorem perOpResults_length (ops : List (Option StorageOperation)) :
    ∀ (s s1 : Storage) (rs : List (Option ListOperation)),
      perOpResults s ops = .ok (s1, rs) → rs.length = ops.length := by
  induction ops with
  | nil =>
    intro s s1 rs h
    simp only [perOpResults] at h
    injection h with h
    injection h with _ hr
    subst hr; rfl
  | cons o ops ih =>
    intro s s1 rs h
    cases o with
    | none =>
      simp only [perOpResults] at h
      cases hp : perOpResults s ops with
      | error e => rw [hp] at h; cases h
      | ok res =>
        obtain ⟨s2, rs2⟩ := res
        rw [hp] at h
        injection h with h
        injection h with _ hr
        subst hr
        simp [ih s s2 rs2 hp]
    | some op =>
      simp only [perOpResults] at h
      cases hA : op.Apply s with
      | error e => rw [hA] at h; cases h
      | ok res =>
        obtain ⟨s2, r⟩ := res
        rw [hA] at h
        simp only at h
        cases hp : perOpResults s2 ops with
        | error e => rw [hp] at h; cases h
        | ok res2 =>
          obtain ⟨s3, rs2⟩ := res2
          rw [hp] at h
          injection h with h
          injection h with _ hr
          subst hr
          simp [ih s2 s3 rs2 hp]

theorem applyOperations_append (a b : List (Option StorageOperation)) :
    ∀ s : Storage, s.ApplyOperations (a ++ b) = applyOperationsThen s a b := by
  induction a with
  | nil =>
    intro s
    unfold applyOperationsThen
    rw [applyOperations_nil]
    simp only [List.nil_append]
    cases s.ApplyOperations b with
    | error e => rfl
    | ok res => obtain ⟨s2, e2⟩ := res; simp
  | cons o a ih =>
    intro s
    cases o with
    | none =>
      rw [List.cons_append, applyOperations_cons_none, ih s]
      unfold applyOperationsThen
      rw [applyOperations_cons_none]
    | some op =>
      rw [List.cons_append, applyOperations_cons_some]
      unfold applyOperationsThen
      rw [applyOperations_cons_some]
      cases op.Apply s with
      | error e => rfl
      | ok res =>
        obtain ⟨s1, r⟩ := res
        simp only
        rw [ih s1]
        unfold applyOperationsThen
        cases s1.ApplyOperations a with
        | error e => rfl
        | ok res2 =>
          obtain ⟨s2, e1⟩ := res2
          simp only
          cases s2.ApplyOperations b with
          | error e => rfl
          | ok res3 => obtain ⟨s3, e2⟩ := res3; simp

/-- C9. `ApplyOperations` is the order-preserving concatenation of the per-operation results:
its result is the state left by applying every operation in input order, each to the state
left by the previous ones, with the edits of the operations in that order, nil operations and
no-op deletes contributing nothing (and it aborts exactly when one of them aborts); so when
it returns, the number of edits is the number of operations that produced one; and
`ApplyOperations(a ++ b)` is `ApplyOperations(a)` followed by `ApplyOperations(b)` on the
state it leaves. -/
theorem applyOperations_concat (s : Storage) (ops a b : List (Option StorageOperation)) :
    (s.ApplyOperations ops =
      match perOpResults s ops with
      | .error e => .error e
      | .ok (s1, rs) => .ok (s1, rs.reduceOption)) ∧
    (∀ (s1 : Storage) (out : List ListOperation), s.ApplyOperations ops = .ok (s1, out) →
      ∃ rs, perOpResults s ops = .ok (s1, rs) ∧ rs.length = ops.length ∧
        out = rs.reduceOption ∧ out.length = rs.countP Option.isSome) ∧
    s.ApplyOperations (a ++ b) = applyOperationsThen s a b := by
  refine ⟨applyOperations_eq_perOp ops s, ?_, applyOperations_append a b s⟩
  intro s1 out h
  rw [applyOperations_eq_perOp ops s] at h
  cases hp : perOpResults s ops with
  | error e => rw [hp] at h; cases h
  | ok res =>
    obtain ⟨s2, rs⟩ := res
    rw [hp] at h
    injection h with h
    injection h with hs ho
    subst hs; subst ho
    exact ⟨rs, rfl, perOpResults_length ops s s2 rs hp, rfl, length_reduceOption_eq_countP rs⟩

theorem applyOperations_concat_witness :
    sampleStorage.ApplyOperations (sampleOps ++ sampleRun)
      = applyOperationsThen sampleStorage sampleOps sampleRun :=
  (applyOperations_concat sampleStorage sampleOps sampleOps sampleRun).2.2

/-- C10. `Export` is a snapshot in index order: the returned list has the length of the
ordered list and its `i`-th element is the canonical string of the id and the value of the
`i`-th item of the ordered list. (`Export` returns the snapshot only: the storage it reads
is not part of its result.) -/
theorem export_snapshot (s : Storage) :
    s.Export.length = s.list.length ∧
    (∀ i (hi : i < s.list.length), s.Export[i]? = some
      { Id := (s.deref s.list[i]).Id.String, Value := (s.deref s.list[i]).Value }) ∧
    s.Export = s.items.map (fun it => { Id := it.Id.String, Value := it.Value }) := by
  refine ⟨?_, ?_, ?_⟩
  · rw [Export_eq_map, List.length_map]
  · intro i hi
    rw [Export_eq_map, List.getElem?_map, List.getElem?_eq_getElem hi]
    rfl
  · rw [Export_eq_map]
    unfold Storage.items
    rw [List.map_map]
    rfl

theorem export_snapshot_witness :
    sampleStorage.Export = [{ Id := idB.String, Value := 1 }, { Id := idA.String, Value := 5 }] ∧
    sampleStorage.Export
      = sampleStorage.items.map (fun it => { Id := it.Id.String, Value := it.Value }) :=
  ⟨by decide, (export_snapshot sampleStorage).2.2⟩

/-! ## Document history -/

/-- C2 at a fresh history. `NewDocumentHistory()` reports version 0 with the empty list; the
first `AddVersion` commits document 0 and `latestVersion` is still 0; the snapshot is now
`[(a, 5)]`, yet `GetOutputDiffWithLatest(0)` is `(0, [])`, and applying no edits to the
snapshot taken at version 0 before the commit leaves it empty. -/
theorem diff_replay_fresh_history :
    NewDocumentHistory.GetOutputSnapshot = (0, []) ∧
    NewDocumentHistory.AddVersion sampleCommit = .ok sampleHistory ∧
    sampleHistory.GetOutputSnapshot = (0, [{ Id := idA.String, Value := 5 }]) ∧
    sampleHistory.GetOutputDiffWithLatest 0 = .ok (0, []) ∧
    ApplyListOperations NewDocumentHistory.GetOutputSnapshot.2 [] = .ok [] ∧
    ApplyListOperations NewDocumentHistory.GetOutputSnapshot.2 []
      ≠ .ok sampleHistory.GetOutputSnapshot.2 := by
  refine ⟨by rfl, by rfl, by rfl, by rfl, by rfl, ?_⟩
  intro h
  have h2 : ([] : StorageList) = [{ Id := idA.String, Value := 5 }] := Except.ok.inj h
  cases h2

/-! ## Diff replay for histories with a committed document -/

theorem wrapInt_eq (x : Int) (h1 : -(2 ^ 63) ≤ x) (h2 : x < 2 ^ 63) : wrapInt x = x := by
  unfold wrapInt
  omega

theorem outputsOf_append (a b : List Document) :
    outputsOf (a ++ b) = outputsOf a ++ outputsOf b := by
  induction a with
  | nil => rfl
  | cons d a ih => simp [outputsOf, ih]

/-- What a returning `AddVersion` does. -/
theorem addVersion_ok (h h1 : DocumentHistory) (stOps : List (Option StorageOperation))
    (hA : h.AddVersion stOps = .ok h1) :
    (stOps = [] ∧ h1 = h) ∨
    ∃ (s1 : Storage) (out : List ListOperation) (d : Document),
      h.storage.ApplyOperations stOps = .ok (s1, out) ∧ d.OutputOperations = out ∧
      d.InputOperations = stOps ∧
      h1.documents = h.documents ++ [d] ∧ h1.storage = s1 ∧
      h1.latestVersion = (h.documents.length : Int) := by
  unfold DocumentHistory.AddVersion at hA
  by_cases h0 : stOps.length = 0
  · rw [if_pos h0] at hA
    injection hA with hA
    exact Or.inl ⟨List.length_eq_zero.mp h0, hA.symm⟩
  · rw [if_neg h0] at hA
    cases hB : h.storage.ApplyOperations stOps with
    | error e => rw [hB] at hA; cases hA
    | ok res =>
      obtain ⟨s1, out⟩ := res
      rw [hB] at hA
      simp only at hA
      injection hA with hA
      subst hA
      refine Or.inr ⟨s1, out, _, rfl, rfl, rfl, rfl, rfl, ?_⟩
      simp

/-- Along returning `AddVersion` calls the documents only grow, the storage keeps its
invariants, and the edits of the new documents replay the storage changes on the client. -/
theorem steps_replay (h0 h : DocumentHistory) (hinv : h0.storage.Inv)
    (hlat : h0.latestVersion = (h0.documents.length : Int) - 1) (hs : h0.Steps h) :
    h.storage.Inv ∧ h.latestVersion = (h.documents.length : Int) - 1 ∧
    ∃ newDocs, h.documents = h0.documents ++ newDocs ∧
      ∀ i, applyListOperationsFrom h0.storage.Export i (outputsOf newDocs)
        = .ok h.storage.Export := by
  induction hs with
  | refl => exact ⟨hinv, hlat, [], by simp, fun i => rfl⟩
  | step h1 h2 stOps _ hA ih =>
    obtain ⟨hinv1, hlat1, newDocs, hdocs, hrep⟩ := ih
    rcases addVersion_ok h1 h2 stOps hA with ⟨_, he⟩ | ⟨s1, out, d, hB, hd, _, hdoc2, hst, hl2⟩
    · subst he
      exact ⟨hinv1, hlat1, newDocs, hdocs, hrep⟩
    · obtain ⟨hinv2, hrep2⟩ := applyOperations_replay stOps h1.storage s1 out hinv1 hB
      refine ⟨hst ▸ hinv2, ?_, newDocs ++ [d], ?_, ?_⟩
      · rw [hl2, hdoc2]
        simp
      · rw [hdoc2, hdocs, List.append_assoc]
      · intro i
        rw [outputsOf_append, applyListOperationsFrom_append, hrep i]
        simp only [outputsOf, List.append_nil, hd, hst]
        exact hrep2 _

theorem diffLoop_eq (docs : List Document) :
    ∀ (fuel start : Nat) (acc : List ListOperation), start ≤ docs.length →
      docs.length - start ≤ fuel →
      diffLoop docs ((docs.length : Int) - 1) fuel (start : Nat) acc
        = .ok (acc ++ outputsOf (docs.drop start)) := by
  intro fuel
  induction fuel with
  | zero =>
    intro start acc h1 h2
    have : docs.drop start = [] := List.drop_eq_nil_of_le (by omega)
    simp [diffLoop, this, outputsOf]
  | succ fuel ih =>
    intro start acc h1 h2
    simp only [diffLoop]
    by_cases hlt : start < docs.length
    · have c1 : ((start : Nat) : Int) ≤ (docs.length : Int) - 1 := by omega
      have c2 : ¬ (((start : Nat) : Int) < 0 ∨ ((start : Nat) : Int) ≥ (docs.length : Int)) := by
        omega
      rw [if_pos c1, if_neg c2]
      have e := ih (start + 1) (acc ++ (docs.getD start default).OutputOperations)
        (by omega) (by omega)
      simp only [Int.toNat_ofNat]
      have hc : ((start : Nat) : Int) + 1 = ((start + 1 : Nat) : Int) := by omega
      rw [hc, e, List.drop_eq_getElem_cons hlt, List.getD_eq_getElem _ _ hlt]
      simp [outputsOf]
    · have c1 : ¬ (((start : Nat) : Int) ≤ (docs.length : Int) - 1) := by omega
      rw [if_neg c1]
      have : docs.drop start = [] := List.drop_eq_nil_of_le (by omega)
      simp [this, outputsOf]

/-- Diff replay holds from every history state that has a committed document: if the snapshot
`(u, L_u)` was taken at `h0`, whose documents are `0 .. u`, and `h` is reached from `h0` by
returning `AddVersion` calls, then `GetOutputDiffWithLatest(u)` on `h` returns the latest
version with edits that turn `L_u` into the snapshot of `h`. -/
theorem diff_replay_committed (h0 h : DocumentHistory) (hinv : h0.storage.Inv)
    (hne : h0.documents ≠ [])
    (hlat : h0.latestVersion = (h0.documents.length : Int) - 1) (hs : h0.Steps h)
    (hb : (h.documents.length : Int) < 2 ^ 63) :
    ∃ ops, h.GetOutputDiffWithLatest h0.GetOutputSnapshot.1
        = .ok (h.GetOutputSnapshot.1, ops) ∧
      ApplyListOperations h0.GetOutputSnapshot.2 ops = .ok h.GetOutputSnapshot.2 := by
  obtain ⟨_, hlat1, newDocs, hdocs, hrep⟩ := steps_replay h0 h hinv hlat hs
  have hlen0 : 0 < h0.documents.length := List.length_pos.mpr hne
  have hlen : h.documents.length = h0.documents.length + newDocs.length := by
    rw [hdocs, List.length_append]
  refine ⟨outputsOf newDocs, ?_, hrep 0⟩
  unfold DocumentHistory.GetOutputDiffWithLatest DocumentHistory.GetOutputSnapshot
    DocumentHistory.IsVersionValid
  simp only
  have hw : wrapInt (h0.latestVersion + 1) = ((h0.documents.length : Nat) : Int) := by
    rw [wrapInt_eq _ (by omega) (by omega), hlat]
    omega
  rw [hw]
  by_cases hnew : newDocs = []
  · subst hnew
    have hd : h.documents.length = h0.documents.length := by simpa using hlen
    have c : ¬ (((h0.documents.length : Nat) : Int) < (h.documents.length : Int)) := by omega
    simp only [c, decide_False, Bool.not_false, if_true, outputsOf]
    rw [hlat1, hlat, hd]
  · have hpos : 0 < newDocs.length := List.length_pos.mpr hnew
    have c : ((h0.documents.length : Nat) : Int) < (h.documents.length : Int) := by omega
    simp only [c, decide_True, Bool.not_true, Bool.false_eq_true, if_false]
    rw [hlat1, diffLoop_eq h.documents _ h0.documents.length [] (by omega) (by omega)]
    simp only [List.nil_append]
    rw [hdocs, List.drop_left]

theorem diff_replay_committed_witness :
    ∃ ops, sampleHistory2.GetOutputDiffWithLatest sampleHistory.GetOutputSnapshot.1
        = .ok (sampleHistory2.GetOutputSnapshot.1, ops) ∧
      ApplyListOperations sampleHistory.GetOutputSnapshot.2 ops
        = .ok sampleHistory2.GetOutputSnapshot.2 :=
  diff_replay_committed sampleHistory sampleHistory2 (by decide) (by decide) (by decide)
    (DocumentHistory.Steps.step sampleHistory sampleHistory sampleHistory2 sampleCommit2
      (DocumentHistory.Steps.refl sampleHistory) (by rfl))
    (by decide)

/-! ## Client side `ApplyListOperations` -/

theorem sliceCut_eq_eraseIdx {α : Type} (l : List α) (i : Nat) : sliceCut l i = l.eraseIdx i := by
  unfold sliceCut
  rw [List.eraseIdx_eq_take_drop_succ]

theorem applyListOperations_single (l : StorageList) (op : ListOperation) :
    ApplyListOperations l [op] = applyListOperation l 0 op := by
  unfold ApplyListOperations
  simp only [applyListOperationsFrom]
  cases applyListOperation l 0 op with
  | error e => rfl
  | ok l1 => rfl

/-- C11. Client insert: for every list `l` and every insert operation with
`0 ≤ Index ≤ len(l)`, `ApplyListOperations(l, op)` succeeds and returns the items of `l`
before `Index`, then `(op.Id, op.Value)`, then the items of `l` from `Index` on; the result
has length `len(l) + 1`, `Index = 0` prepends and `Index = len(l)` appends. -/
theorem client_insert (l : StorageList) (op : ListOperation)
    (ht : op.Typ = InsertOperationType) (h0 : 0 ≤ op.Index)
    (h1 : op.Index ≤ (l.length : Int)) :
    ∃ r, ApplyListOperations l [op] = .ok r ∧
      r = l.take op.Index.toNat ++ { Id := op.Id, Value := op.Value } :: l.drop op.Index.toNat ∧
      r.length = l.length + 1 ∧
      (op.Index = 0 → r = { Id := op.Id, Value := op.Value } :: l) ∧
      (op.Index = (l.length : Int) → r = l ++ [{ Id := op.Id, Value := op.Value }]) := by
  obtain ⟨n, hn⟩ := Int.eq_ofNat_of_zero_le h0
  have hnl : n ≤ l.length := by omega
  have hop : op =
      { Typ := InsertOperationType, Index := (n : Nat), NewIndex := op.NewIndex,
        Id := op.Id, Value := op.Value } := by
    cases op
    simp only at ht hn
    subst ht; subst hn
    rfl
  refine ⟨_, ?_, rfl, ?_, ?_, ?_⟩
  · rw [applyListOperations_single, hop, applyListOperation_insert l 0 n _ _ _ hnl]
    simp
  · rw [hn]
    simp only [Int.toNat_ofNat, List.length_append, List.length_take, List.length_cons,
      List.length_drop]
    omega
  · intro hz
    rw [hz]
    simp
  · intro hz
    rw [hz]
    simp

theorem client_insert_witness :
    ∃ r, ApplyListOperations sampleList
        [{ Typ := InsertOperationType, Index := 3, NewIndex := 0, Id := idD.String,
           Value := 12 }] = .ok r ∧
      r = sampleList.take 3 ++ { Id := idD.String, Value := 12 } :: sampleList.drop 3 ∧
      r.length = sampleList.length + 1 ∧
      ((3 : Int) = 0 → r = { Id := idD.String, Value := 12 } :: sampleList) ∧
      ((3 : Int) = (sampleList.length : Int) →
        r = sampleList ++ [{ Id := idD.String, Value := 12 }]) :=
  client_insert sampleList
    { Typ := InsertOperationType, Index := 3, NewIndex := 0, Id := idD.String, Value := 12 }
    rfl (by decide) (by decide)

/-- C12. Client update: for every list `l` and every update operation with
`0 ≤ Index < len(l)` and `0 ≤ NewIndex < len(l)`, `ApplyListOperations(l, op)` succeeds and
returns the list obtained by removing `l[Index]` and inserting `(l[Index].Id, op.Value)` at
position `NewIndex` of the shortened list; the result has length `len(l)`, the inserted
element keeps the id of the removed one whatever `op.Id` is, and removing it again gives the
shortened list, so all other elements keep their relative order. -/
theorem client_update (l : StorageList) (op : ListOperation)
    (ht : op.Typ = UpdateOperationType) (h0 : 0 ≤ op.Index) (h1 : op.Index < (l.length : Int))
    (h2 : 0 ≤ op.NewIndex) (h3 : op.NewIndex < (l.length : Int)) :
    ∃ (x : ListItem) (r : StorageList),
      l[op.Index.toNat]? = some x ∧
      ApplyListOperations l [op] = .ok r ∧
      r = (l.eraseIdx op.Index.toNat).take op.NewIndex.toNat
        ++ { Id := x.Id, Value := op.Value } :: (l.eraseIdx op.Index.toNat).drop op.NewIndex.toNat ∧
      r.length = l.length ∧
      r[op.NewIndex.toNat]? = some { Id := x.Id, Value := op.Value } ∧
      r.eraseIdx op.NewIndex.toNat = l.eraseIdx op.Index.toNat := by
  obtain ⟨a, ha⟩ := Int.eq_ofNat_of_zero_le h0
  obtain ⟨b, hb⟩ := Int.eq_ofNat_of_zero_le h2
  have hal : a < l.length := by omega
  have hbl : b < l.length := by omega
  have hop : op =
      { Typ := UpdateOperationType, Index := (a : Nat), NewIndex := (b : Nat),
        Id := op.Id, Value := op.Value } := by
    cases op
    simp only at ht ha hb
    subst ht; subst ha; subst hb
    rfl
  have hlen : (l.eraseIdx a).length = l.length - 1 := by
    rw [← sliceCut_eq_eraseIdx]; exact length_sliceCut l a hal
  have hbe : b ≤ (l.eraseIdx a).length := by omega
  have htake : ((l.eraseIdx a).take b).length = b := List.length_take_of_le hbe
  refine ⟨l[a], _, ?_, ?_, rfl, ?_, ?_, ?_⟩
  · rw [ha]
    simp only [Int.toNat_ofNat]
    exact List.getElem?_eq_getElem hal
  · rw [applyListOperations_single, hop, applyListOperation_update l 0 a b _ _ hal hbl]
    simp only [Int.toNat_ofNat, sliceCut_eq_eraseIdx]
  · rw [ha, hb]
    simp only [Int.toNat_ofNat, List.length_append, List.length_take, List.length_cons,
      List.length_drop]
    omega
  · rw [ha, hb]
    simp only [Int.toNat_ofNat]
    rw [List.getElem?_append_right (by omega), htake]
    simp
  · rw [ha, hb]
    simp only [Int.toNat_ofNat]
    rw [List.eraseIdx_append_of_length_le (by omega), htake]
    simp

theorem client_update_witness :
    ∃ (x : ListItem) (r : StorageList),
      sampleList[(1 : Int).toNat]? = some x ∧
      ApplyListOperations sampleList
        [{ Typ := UpdateOperationType, Index := 1, NewIndex := 2, Id := idD.String,
           Value := 15 }] = .ok r ∧
      r = (sampleList.eraseIdx (1 : Int).toNat).take (2 : Int).toNat
        ++ { Id := x.Id, Value := 15 } :: (sampleList.eraseIdx (1 : Int).toNat).drop
          (2 : Int).toNat ∧
      r.length = sampleList.length ∧
      r[(2 : Int).toNat]? = some { Id := x.Id, Value := 15 } ∧
      r.eraseIdx (2 : Int).toNat = sampleList.eraseIdx (1 : Int).toNat :=
  client_update sampleList
    { Typ := UpdateOperationType, Index := 1, NewIndex := 2, Id := idD.String, Value := 15 }
    rfl (by decide) (by decide) (by decide) (by decide)

/-! ## Rejection and composition of edits -/

theorem toOption_eq_some_iff {α : Type} (x : Except String α) (r : α) :
    x.toOption = some r ↔ x = .ok r := by
  cases x with
  | error e => simp [Except.toOption]
  | ok a => simp [Except.toOption]

theorem toOption_eq_none_iff {α : Type} (x : Except String α) :
    x.toOption = none ↔ ∃ e, x = .error e := by
  cases x with
  | error e => simp [Except.toOption]
  | ok a => simp [Except.toOption]

/-- The position of an operation only shows in the error message. -/
theorem applyListOperation_index (l : StorageList) (i j : Nat) (op : ListOperation) :
    (applyListOperation l i op).toOption = (applyListOperation l j op).toOption := by
  unfold applyListOperation
  split_ifs <;> rfl

theorem applyListOperationsFrom_index (ops : List ListOperation) :
    ∀ (l : StorageList) (i j : Nat),
      (applyListOperationsFrom l i ops).toOption = (applyListOperationsFrom l j ops).toOption := by
  induction ops with
  | nil => intro l i j; rfl
  | cons op ops ih =>
    intro l i j
    simp only [applyListOperationsFrom]
    have h := applyListOperation_index l i j op
    cases h1 : applyListOperation l i op with
    | error e =>
      cases h2 : applyListOperation l j op with
      | error e2 => rfl
      | ok l2 => rw [h1, h2] at h; simp [Except.toOption] at h
    | ok l1 =>
      cases h2 : applyListOperation l j op with
      | error e2 => rw [h1, h2] at h; simp [Except.toOption] at h
      | ok l2 =>
        rw [h1, h2] at h
        simp only [Except.toOption, Option.some.injEq] at h
        subst h
        exact ih l1 (i + 1) (j + 1)

theorem applyListOperationsFrom_ok_index (ops : List ListOperation) (l r : StorageList)
    (i j : Nat) (h : applyListOperationsFrom l i ops = .ok r) :
    applyListOperationsFrom l j ops = .ok r := by
  rw [← toOption_eq_some_iff] at h ⊢
  rw [← h]
  exact applyListOperationsFrom_index ops l j i

theorem applyListOperation_ok_index (op : ListOperation) (l r : StorageList)
    (i j : Nat) (h : applyListOperation l i op = .ok r) : applyListOperation l j op = .ok r := by
  rw [← toOption_eq_some_iff] at h ⊢
  rw [← h]
  exact applyListOperation_index l j i op

/-- One operation is refused exactly when it is a rejected one. -/
theorem applyListOperation_error_iff (l : StorageList) (i : Nat) (op : ListOperation) :
    (∃ e, applyListOperation l i op = .error e) ↔ opRejected l op := by
  have d1 : InsertOperationType ≠ UpdateOperationType := by decide
  have d2 : InsertOperationType ≠ DeleteOperationType := by decide
  have d3 : UpdateOperationType ≠ DeleteOperationType := by decide
  unfold applyListOperation opRejected
  by_cases t1 : op.Typ = InsertOperationType
  · have t2 : op.Typ ≠ UpdateOperationType := fun e => d1 (t1.symm.trans e)
    have t3 : op.Typ ≠ DeleteOperationType := fun e => d2 (t1.symm.trans e)
    simp only [t1, if_true, true_and, d1, d2, false_and, false_or, ne_eq, not_true_eq_false,
      or_false]
    split_ifs with c1 c2
    · simp [c1]
    · simp [c2]
    · simp [c1, c2]
  · by_cases t2 : op.Typ = UpdateOperationType
    · simp only [t2, d1.symm, d3, if_false, if_true, true_and, false_and, false_or, ne_eq,
        not_true_eq_false, and_false, or_false]
      split_ifs with c1 c2 c3 c4
      · simp [c1]
      · simp [c2]
      · simp [c3]
      · simp [c4]
      · simp [c1, c2, c3, c4]
    · by_cases t3 : op.Typ = DeleteOperationType
      · simp only [t3, d2.symm, d3.symm, if_false, if_true, true_and, false_and, false_or,
          ne_eq, not_true_eq_false, and_false, or_false]
        split_ifs with c1 c2
        · simp [c1]
        · simp [c2]
        · simp [c1, c2]
      · simp [t1, t2, t3]

theorem applyListOperationsFrom_error_iff (ops : List ListOperation) :
    ∀ (l : StorageList) (i : Nat),
      (∃ e, applyListOperationsFrom l i ops = .error e) ↔ someOpRejected l ops := by
  induction ops with
  | nil =>
    intro l i
    constructor
    · rintro ⟨e, h⟩
      simp [applyListOperationsFrom] at h
    · rintro ⟨pre, op, post, l1, h, _⟩
      simp at h
  | cons o ops ih =>
    intro l i
    simp only [applyListOperationsFrom]
    constructor
    · rintro ⟨e, h⟩
      cases h1 : applyListOperation l i o with
      | error e1 =>
        exact ⟨[], o, ops, l, rfl, rfl, (applyListOperation_error_iff l i o).mp ⟨e1, h1⟩⟩
      | ok l1 =>
        rw [h1] at h
        obtain ⟨pre, op, post, l2, hs, hpre, hrej⟩ := (ih l1 (i + 1)).mp ⟨e, h⟩
        refine ⟨o :: pre, op, post, l2, by rw [hs]; rfl, ?_, hrej⟩
        unfold ApplyListOperations at hpre ⊢
        simp only [applyListOperationsFrom]
        rw [applyListOperation_ok_index o l l1 i 0 h1]
        exact applyListOperationsFrom_ok_index pre l1 l2 0 1 hpre
    · rintro ⟨pre, op, post, l2, hs, hpre, hrej⟩
      cases pre with
      | nil =>
        simp only [List.nil_append, List.cons.injEq] at hs
        obtain ⟨ho, _⟩ := hs
        subst ho
        unfold ApplyListOperations at hpre
        simp only [applyListOperationsFrom, Except.ok.injEq] at hpre
        subst hpre
        obtain ⟨e, he⟩ := (applyListOperation_error_iff l i o).mpr hrej
        exact ⟨e, by rw [he]⟩
      | cons o1 pre =>
        simp only [List.cons_append, List.cons.injEq] at hs
        obtain ⟨ho, hs⟩ := hs
        subst ho
        unfold ApplyListOperations at hpre
        simp only [applyListOperationsFrom] at hpre
        cases h1 : applyListOperation l 0 o with
        | error e1 => rw [h1] at hpre; cases hpre
        | ok l1 =>
          rw [h1] at hpre
          rw [applyListOperation_ok_index o l l1 0 i h1]
          exact (ih l1 (i + 1)).mpr
            ⟨pre, op, post, l2, hs, applyListOperationsFrom_ok_index pre l1 l2 1 0 hpre, hrej⟩

/-- C13. `ApplyListOperations` fails exactly on out-of-range or unknown operations: it returns
an error (the result then carries no list) if and only if some operation, read against the
list produced by the operations before it, is an insert with `Index < 0` or `Index > len`, an
update with `Index` or `NewIndex` outside `[0, len)`, a delete with `Index` outside
`[0, len)`, or has a type other than insert, update and delete; otherwise it succeeds. -/
theorem applyListOperations_fails_iff (l : StorageList) (ops : List ListOperation) :
    ((∃ e, ApplyListOperations l ops = .error e) ↔ someOpRejected l ops) ∧
    ((∃ r, ApplyListOperations l ops = .ok r) ↔ ¬ someOpRejected l ops) := by
  have h := applyListOperationsFrom_error_iff ops l 0
  refine ⟨h, ?_⟩
  rw [← h]
  unfold ApplyListOperations
  cases applyListOperationsFrom l 0 ops with
  | error e => simp
  | ok r => simp

theorem applyListOperations_fails_iff_witness :
    (∃ e, ApplyListOperations sampleList
      [{ Typ := DeleteOperationType, Index := 2, NewIndex := 0, Id := idC.String, Value := 0 },
       { Typ := UpdateOperationType, Index := 1, NewIndex := 2, Id := idA.String,
         Value := 15 }] = .error e) ∧
    (∃ r, ApplyListOperations sampleList
      [{ Typ := DeleteOperationType, Index := 2, NewIndex := 0, Id := idC.String, Value := 0 },
       { Typ := UpdateOperationType, Index := 1, NewIndex := 1, Id := idA.String,
         Value := 15 }] = .ok r) :=
  ⟨(applyListOperations_fails_iff sampleList _).1.mpr
      ⟨[{ Typ := DeleteOperationType, Index := 2, NewIndex := 0, Id := idC.String, Value := 0 }],
        { Typ := UpdateOperationType, Index := 1, NewIndex := 2, Id := idA.String, Value := 15 },
        [], sampleList.take 2, rfl, by rfl, by decide⟩,
    ⟨_, by rfl⟩⟩

/-- C14. Diffs compose left to right: the outcome of `ApplyListOperations(l, a ++ b)` is the
outcome of `ApplyListOperations` with `b` on the result of `ApplyListOperations(l, a)`, an
error in either stage being an error of the whole; and `ApplyListOperations(l)` with no
operations returns `l`. -/
theorem applyListOperations_compose (l : StorageList) (a b : List ListOperation) :
    (ApplyListOperations l (a ++ b)).toOption
      = (ApplyListOperations l a).toOption.bind
          (fun l1 => (ApplyListOperations l1 b).toOption) ∧
    ((∃ e, ApplyListOperations l (a ++ b) = .error e) ↔
      ((∃ e, ApplyListOperations l a = .error e) ∨
        ∃ l1, ApplyListOperations l a = .ok l1 ∧ ∃ e, ApplyListOperations l1 b = .error e)) ∧
    ApplyListOperations l [] = .ok l := by
  have key : (ApplyListOperations l (a ++ b)).toOption
      = (ApplyListOperations l a).toOption.bind
          (fun l1 => (ApplyListOperations l1 b).toOption) := by
    unfold ApplyListOperations
    rw [applyListOperationsFrom_append]
    cases applyListOperationsFrom l 0 a with
    | error e => rfl
    | ok l1 =>
      simp only [Except.toOption, Option.some_bind]
      exact applyListOperationsFrom_index b l1 _ 0
  refine ⟨key, ?_, rfl⟩
  rw [← toOption_eq_none_iff, key]
  cases ha : ApplyListOperations l a with
  | error e => simp [Except.toOption]
  | ok l1 =>
    rw [show (Except.ok l1 : Except String StorageList).toOption = some l1 from rfl,
      Option.some_bind, toOption_eq_none_iff]
    constructor
    · intro h
      exact Or.inr ⟨l1, rfl, h⟩
    · rintro (⟨e, he⟩ | ⟨l2, h2, he⟩)
      · cases he
      · injection h2 with h2
        subst h2
        exact he

/-! ## `AddVersion` -/

theorem getLast?_eq_getD (docs : List Document) (dl : Document)
    (h : docs.getLast? = some dl) : docs.getD (docs.length - 1) default = dl := by
  rw [List.getLast?_eq_getElem?] at h
  simp [List.getD, h]

/-- The history a returning `AddVersion` with operations builds. -/
theorem addVersion_eq (h : DocumentHistory) (ops : List (Option StorageOperation))
    (s1 : Storage) (out : List ListOperation) (hne : ops ≠ [])
    (hok : h.storage.ApplyOperations ops = .ok (s1, out)) :
    h.AddVersion ops = .ok
      { documents := h.documents ++
          [{ Version :=
               if h.documents.length > 0 then
                 wrapInt ((h.documents.getD (h.documents.length - 1) default).Version + 1)
               else 0,
             InputOperations := ops, OutputOperations := out }],
        storage := s1,
        latestVersion := (h.documents.length : Int) } := by
  have hlen : ¬ ops.length = 0 := fun e => hne (List.length_eq_zero.mp e)
  unfold DocumentHistory.AddVersion
  rw [if_neg hlen, hok]
  simp

/-- C15. `AddVersion` with a non-empty list of operations appends exactly one document: when
`ApplyOperations` on the storage of the history returns (a list of edits that may be empty,
when every operation was a no-op), `AddVersion` returns a history whose documents are the
old ones, unchanged, plus one new document with the given operations as `InputOperations`,
the edits of `ApplyOperations` as `OutputOperations` and the `Version` of the previous last
document plus one in Go `int` arithmetic (0 when there was no document); its storage is the
one `ApplyOperations` left and `latestVersion` is the index of the new document. When
`ApplyOperations` aborts, so does `AddVersion`. -/
theorem addVersion_appends (h : DocumentHistory) (ops : List (Option StorageOperation))
    (hne : ops ≠ []) :
    (∀ e, h.storage.ApplyOperations ops = .error e → h.AddVersion ops = .error e) ∧
    (∀ s1 out, h.storage.ApplyOperations ops = .ok (s1, out) →
      ∃ (h1 : DocumentHistory) (d : Document),
        h.AddVersion ops = .ok h1 ∧ h1.documents = h.documents ++ [d] ∧
        d.InputOperations = ops ∧ d.OutputOperations = out ∧
        (∀ dl, h.documents.getLast? = some dl → d.Version = wrapInt (dl.Version + 1)) ∧
        (∀ dl, h.documents.getLast? = some dl → -(2 ^ 63) ≤ dl.Version + 1 →
          dl.Version + 1 < 2 ^ 63 → d.Version = dl.Version + 1) ∧
        (h.documents = [] → d.Version = 0) ∧
        h1.storage = s1 ∧
        h1.latestVersion = (h1.documents.length : Int) - 1 ∧
        (∀ i, i < h.documents.length → h1.documents[i]? = h.documents[i]?)) := by
  have hlen : ¬ ops.length = 0 := fun e => hne (List.length_eq_zero.mp e)
  refine ⟨?_, ?_⟩
  · intro e he
    unfold DocumentHistory.AddVersion
    rw [if_neg hlen, he]
  · intro s1 out hok
    have hver : ∀ dl, h.documents.getLast? = some dl →
        (if h.documents.length > 0 then
          wrapInt ((h.documents.getD (h.documents.length - 1) default).Version + 1)
        else 0) = wrapInt (dl.Version + 1) := by
      intro dl hdl
      have hpos : h.documents.length > 0 := by
        cases hd : h.documents with
        | nil => rw [hd] at hdl; simp at hdl
        | cons d ds => simp
      rw [if_pos hpos, getLast?_eq_getD _ _ hdl]
    refine ⟨_, (⟨if h.documents.length > 0 then
          wrapInt ((h.documents.getD (h.documents.length - 1) default).Version + 1)
        else 0, ops, out⟩ : Document),
      addVersion_eq h ops s1 out hne hok, ?_, ?_, ?_, hver, ?_, ?_, ?_, ?_, ?_⟩
    · rfl
    · rfl
    · rfl
    · intro dl hdl h1 h2
      show (if h.documents.length > 0 then
          wrapInt ((h.documents.getD (h.documents.length - 1) default).Version + 1)
        else 0) = dl.Version + 1
      rw [hver dl hdl, wrapInt_eq _ h1 h2]
    · intro hnil
      show (if h.documents.length > 0 then
          wrapInt ((h.documents.getD (h.documents.length - 1) default).Version + 1)
        else 0) = 0
      rw [hnil]
      rfl
    · rfl
    · simp
    · intro i hi
      exact List.getElem?_append_left hi

theorem addVersion_appends_witness :
    ∃ (h1 : DocumentHistory) (d : Document),
      sampleHistory.AddVersion
        [none, some (.Delete { Id := idD, DeletedBy := 4, DeletedAt := 4 })] = .ok h1 ∧
      h1.documents = sampleHistory.documents ++ [d] ∧
      d.InputOperations = [none, some (.Delete { Id := idD, DeletedBy := 4, DeletedAt := 4 })] ∧
      d.OutputOperations = [] ∧
      (∀ dl, sampleHistory.documents.getLast? = some dl →
        d.Version = wrapInt (dl.Version + 1)) ∧
      (∀ dl, sampleHistory.documents.getLast? = some dl → -(2 ^ 63) ≤ dl.Version + 1 →
        dl.Version + 1 < 2 ^ 63 → d.Version = dl.Version + 1) ∧
      (sampleHistory.documents = [] → d.Version = 0) ∧
      h1.storage = sampleHistory.storage ∧
      h1.latestVersion = (h1.documents.length : Int) - 1 ∧
      (∀ i, i < sampleHistory.documents.length →
        h1.documents[i]? = sampleHistory.documents[i]?) :=
  (addVersion_appends sampleHistory
    [none, some (.Delete { Id := idD, DeletedBy := 4, DeletedAt := 4 })] (by decide)).2
    sampleHistory.storage [] (by rfl)

/-- C16. `AddVersion` with an empty list of operations is a no-op: it returns the history
unchanged (documents, `latestVersion` and the storage with its list, by-id map and items). -/
theorem addVersion_empty (h : DocumentHistory) : h.AddVersion [] = .ok h := by
  unfold DocumentHistory.AddVersion
  rfl

/-! ## Shape of the reachable histories -/

theorem addVersion_cases (h h1 : DocumentHistory) (stOps : List (Option StorageOperation))
    (hA : h.AddVersion stOps = .ok h1) :
    h1 = h ∨ ∃ (s1 : Storage) (out : List ListOperation),
      h1 = { documents := h.documents ++
               [{ Version :=
                    if h.documents.length > 0 then
                      wrapInt ((h.documents.getD (h.documents.length - 1) default).Version + 1)
                    else 0,
                  InputOperations := stOps, OutputOperations := out }],
             storage := s1,
             latestVersion := (h.documents.length : Int) } := by
  by_cases hne : stOps = []
  · subst hne
    rw [addVersion_empty] at hA
    injection hA with hA
    exact Or.inl hA.symm
  · cases hB : h.storage.ApplyOperations stOps with
    | error e =>
      rw [(addVersion_appends h stOps hne).1 e hB] at hA
      cases hA
    | ok res =>
      obtain ⟨s1, out⟩ := res
      rw [addVersion_eq h stOps s1 out hne hB] at hA
      injection hA with hA
      exact Or.inr ⟨s1, out, hA.symm⟩

theorem steps_length_le (h0 h : DocumentHistory) (hs : h0.Steps h) :
    h0.documents.length ≤ h.documents.length := by
  induction hs with
  | refl => exact le_refl _
  | step h1 h2 stOps _ hA ih =>
    rcases addVersion_cases h1 h2 stOps hA with he | ⟨s1, out, he⟩
    · rw [he]; exact ih
    · rw [he]
      simp only [List.length_append, List.length_singleton]
      omega

/-- Along returning `AddVersion` calls either nothing was committed or the history has a
document and `latestVersion` is the index of the last one. -/
theorem steps_latest (h0 h : DocumentHistory) (hs : h0.Steps h) :
    h = h0 ∨ (h.documents ≠ [] ∧ h.latestVersion = (h.documents.length : Int) - 1) := by
  induction hs with
  | refl => exact Or.inl rfl
  | step h1 h2 stOps _ hA ih =>
    rcases addVersion_cases h1 h2 stOps hA with he | ⟨s1, out, he⟩
    · rw [he]; exact ih
    · right
      rw [he]
      refine ⟨by simp, ?_⟩
      simp

theorem reachableAny_latest (h : DocumentHistory) (hr : h.ReachableAny) :
    h = NewDocumentHistory ∨
      (h.documents ≠ [] ∧ h.latestVersion = (h.documents.length : Int) - 1) := by
  rcases hr with hs | ⟨objs, hs⟩
  · exact steps_latest _ _ hs
  · rcases steps_latest _ _ hs with he | hp
    · right
      rw [he]
      exact ⟨by simp [NewDocHistoryFromFile], by
        simp [NewDocHistoryFromFile, NewDocumentHistory]⟩
    · exact Or.inr hp

/-- Dense numbering is kept by `AddVersion` as long as the number of documents fits a Go
`int`. -/
theorem steps_dense (h0 h : DocumentHistory) (hs : h0.Steps h)
    (hd0 : ∀ i (hi : i < h0.documents.length), h0.documents[i].Version = (i : Int)) :
    (h.documents.length : Int) < 2 ^ 63 →
      ∀ i (hi : i < h.documents.length), h.documents[i].Version = (i : Int) := by
  induction hs with
  | refl => intro _; exact hd0
  | step h1 h2 stOps _ hA ih =>
    intro hb
    rcases addVersion_cases h1 h2 stOps hA with he | ⟨s1, out, he⟩
    · subst he; exact ih hb
    · subst he
      have hb1 : ((h1.documents.length : Nat) : Int) + 1 < 2 ^ 63 := by
        simp only [List.length_append, List.length_singleton] at hb
        omega
      have ih1 := ih (by omega)
      intro i hi
      simp only [List.length_append, List.length_singleton] at hi
      by_cases hlt : i < h1.documents.length
      · simp only [List.getElem_append_left hlt]
        exact ih1 i hlt
      · have hi2 : i = h1.documents.length := by omega
        subst hi2
        simp only [List.getElem_append_right (le_refl _), Nat.sub_self, List.getElem_cons_zero]
        by_cases hpos : h1.documents.length > 0
        · rw [if_pos hpos]
          have hl : h1.documents.length - 1 < h1.documents.length := by omega
          rw [List.getD_eq_getElem _ _ hl, ih1 _ hl, wrapInt_eq _ (by omega) (by omega)]
          omega
        · rw [if_neg hpos]
          omega

/-! ## `GetOutputDiffWithLatest`, `IsVersionValid` and the version numbers -/

/-- The contract of `GetOutputDiffWithLatest` for the client versions `0 ≤ v < 2^63 - 1`: in
every history reached from a constructor, a version
`v ≥ latest` is echoed with no edits and a version `v < latest` gets the latest version and
the edits of the documents `v + 1 .. latest` in version order. -/
theorem getOutputDiff_contract (h : DocumentHistory) (hr : h.ReachableAny)
    (v : Int) (h0 : 0 ≤ v) (h1 : v < 2 ^ 63 - 1) :
    (v ≥ h.latestVersion → h.GetOutputDiffWithLatest v = .ok (v, [])) ∧
    (v < h.latestVersion → h.GetOutputDiffWithLatest v
      = .ok (h.latestVersion, outputsOf (h.documents.drop (v.toNat + 1)))) := by
  have hw : wrapInt (v + 1) = v + 1 := wrapInt_eq _ (by omega) (by omega)
  have hshape : (h.documents = [] ∧ h.latestVersion = 0) ∨
      (h.documents ≠ [] ∧ h.latestVersion = (h.documents.length : Int) - 1) := by
    rcases reachableAny_latest h hr with he | hp
    · left; rw [he]; exact ⟨rfl, rfl⟩
    · exact Or.inr hp
  unfold DocumentHistory.GetOutputDiffWithLatest DocumentHistory.IsVersionValid
  simp only [hw]
  rcases hshape with ⟨hnil, hl⟩ | ⟨hne, hl⟩
  · have c : ¬ (v + 1 < ((h.documents.length : Nat) : Int)) := by
      rw [hnil]; simp only [List.length_nil]; omega
    refine ⟨fun _ => ?_, fun hlt => absurd hlt (by omega)⟩
    simp only [c, decide_False, Bool.not_false, if_true]
  · have hpos : 0 < h.documents.length := List.length_pos.mpr hne
    refine ⟨?_, ?_⟩
    · intro hge
      have c : ¬ (v + 1 < ((h.documents.length : Nat) : Int)) := by omega
      simp only [c, decide_False, Bool.not_false, if_true]
    · intro hlt
      have c : v + 1 < ((h.documents.length : Nat) : Int) := by omega
      simp only [c, decide_True, Bool.not_true, Bool.false_eq_true, if_false]
      have hcast : v + 1 = ((v.toNat + 1 : Nat) : Int) := by omega
      rw [hl, hcast, diffLoop_eq h.documents _ (v.toNat + 1) [] (by omega) (by omega)]
      simp only [List.nil_append]

theorem getOutputDiff_contract_witness :
    (1 ≥ sampleSeeded2.latestVersion → sampleSeeded2.GetOutputDiffWithLatest 1 = .ok (1, [])) ∧
    (0 < sampleSeeded2.latestVersion → sampleSeeded2.GetOutputDiffWithLatest 0
      = .ok (sampleSeeded2.latestVersion,
          outputsOf (sampleSeeded2.documents.drop ((0 : Int).toNat + 1)))) :=
  ⟨(getOutputDiff_contract sampleSeeded2
      (Or.inr ⟨sampleObjs, DocumentHistory.Steps.step _ _ _ sampleCommit2
        (DocumentHistory.Steps.refl _) (by rfl)⟩) 1 (by decide) (by decide)).1,
    (getOutputDiff_contract sampleSeeded2
      (Or.inr ⟨sampleObjs, DocumentHistory.Steps.step _ _ _ sampleCommit2
        (DocumentHistory.Steps.refl _) (by rfl)⟩) 0 (by decide) (by decide)).2⟩

/-- C17 at the largest client version. For the client version `2^63 - 1`, which is not below
`latest`, `version + 1` wraps to `-2^63`, `IsVersionValid` accepts it, and the loop indexes
`documents` at `-2^63`: the call aborts instead of returning `(2^63 - 1, [])`. -/
theorem getOutputDiff_max_version :
    sampleSeeded2.ReachableAny ∧ (9223372036854775807 : Int) ≥ sampleSeeded2.latestVersion ∧
    wrapInt (9223372036854775807 + 1) = -9223372036854775808 ∧
    sampleSeeded2.IsVersionValid (-9223372036854775808) = true ∧
    sampleSeeded2.GetOutputDiffWithLatest 9223372036854775807
      = .error "runtime error: index out of range" ∧
    sampleSeeded2.GetOutputDiffWithLatest 9223372036854775807
      ≠ .ok (9223372036854775807, []) := by
  refine ⟨Or.inr ⟨sampleObjs, DocumentHistory.Steps.step _ _ _ sampleCommit2
      (DocumentHistory.Steps.refl _) (by rfl)⟩, by decide, by decide, by decide, by rfl, ?_⟩
  intro h
  have e : sampleSeeded2.GetOutputDiffWithLatest 9223372036854775807
      = .error "runtime error: index out of range" := by rfl
  rw [e] at h
  cases h

/-- What `IsVersionValid` computes: the version is below the number of documents. In a
history with a committed document where `latestVersion` is the last index, this is
`0 ≤ v ≤ latest` for the versions `v ≥ 0`. -/
theorem isVersionValid_iff (h : DocumentHistory) (v : Int) :
    (h.IsVersionValid v = true ↔ v < (h.documents.length : Int)) ∧
    (h.latestVersion = (h.documents.length : Int) - 1 → 0 ≤ v →
      (h.IsVersionValid v = true ↔ 0 ≤ v ∧ v ≤ h.latestVersion)) := by
  unfold DocumentHistory.IsVersionValid
  refine ⟨by simp, ?_⟩
  intro hl h0
  simp only [decide_eq_true_eq]
  omega

/-- C18 at a negative version. `IsVersionValid(-1)` is true although `0 ≤ -1` is false,
in a history with one document (`latest = 0`); and in the fresh history, where
`latest = 0`, `IsVersionValid(0)` is false although `0 ≤ 0 ≤ latest`. -/
theorem isVersionValid_negative :
    sampleHistory.latestVersion = 0 ∧ sampleHistory.IsVersionValid (-1) = true ∧
    ¬ ((0 : Int) ≤ -1 ∧ (-1 : Int) ≤ sampleHistory.latestVersion) ∧
    NewDocumentHistory.latestVersion = 0 ∧ NewDocumentHistory.IsVersionValid 0 = false ∧
    ((0 : Int) ≤ 0 ∧ (0 : Int) ≤ NewDocumentHistory.latestVersion) := by
  refine ⟨rfl, by decide, by decide, rfl, by decide, by decide⟩

/-- C19. Dense version numbering: in every history reached from `NewDocumentHistory()` or
from a seed built by `NewDocHistoryFromFile` by returning `AddVersion` calls (the number of
documents fitting a Go `int`), the document at index `i` has `Version = i`, so the versions
are exactly `0, 1, …, len(documents) − 1`. -/
theorem dense_versions (h : DocumentHistory) (hr : h.ReachableAny)
    (hb : (h.documents.length : Int) < 2 ^ 63) :
    (∀ i (hi : i < h.documents.length), h.documents[i].Version = (i : Int)) ∧
    h.documents.map (fun d => d.Version)
      = (List.range h.documents.length).map Int.ofNat := by
  have hd : ∀ i (hi : i < h.documents.length), h.documents[i].Version = (i : Int) := by
    rcases hr with hs | ⟨objs, hs⟩
    · exact steps_dense _ _ hs (fun i hi => absurd hi (by simp [NewDocumentHistory])) hb
    · refine steps_dense _ _ hs ?_ hb
      intro i hi
      simp only [NewDocHistoryFromFile, NewDocumentHistory, List.nil_append,
        List.length_singleton] at hi
      have hi0 : i = 0 := by omega
      subst hi0
      rfl
  refine ⟨hd, ?_⟩
  apply List.ext_getElem
  · simp
  · intro i h1 h2
    simp only [List.getElem_map, List.getElem_range]
    exact hd i (by simpa using h1)

theorem dense_versions_witness :
    (∀ i (hi : i < sampleSeeded2.documents.length),
      sampleSeeded2.documents[i].Version = (i : Int)) ∧
    sampleSeeded2.documents.map (fun d => d.Version)
      = (List.range sampleSeeded2.documents.length).map Int.ofNat :=
  dense_versions sampleSeeded2
    (Or.inr ⟨sampleObjs, DocumentHistory.Steps.step _ _ _ sampleCommit2
      (DocumentHistory.Steps.refl _) (by rfl)⟩) (by decide)

/-- Where `latestVersion` does track the length: in every history reached from a seed built
by `NewDocHistoryFromFile`, and in every history reached from `NewDocumentHistory()` that
has a document, `latestVersion = len(documents) − 1`. -/
theorem latest_tracks_length (h : DocumentHistory) (hr : h.ReachableAny)
    (hne : h.documents ≠ []) : h.latestVersion = (h.documents.length : Int) - 1 := by
  rcases reachableAny_latest h hr with he | hp
  · rw [he] at hne
    exact absurd rfl hne
  · exact hp.2

theorem latest_tracks_length_witness :
    sampleHistory2.latestVersion = (sampleHistory2.documents.length : Int) - 1 :=
  latest_tracks_length sampleHistory2
    (Or.inl (DocumentHistory.Steps.step _ _ _ sampleCommit2
      (DocumentHistory.Steps.step _ _ _ sampleCommit (DocumentHistory.Steps.refl _) (by rfl))
      (by rfl))) (by decide)

/-- C20 at the fresh history. `NewDocumentHistory()` has no document and `latestVersion = 0`,
while `len(documents) − 1 = −1`; `AddVersion()` with no operations leaves it so. -/
theorem latest_fresh_history :
    NewDocumentHistory.ReachableAny ∧ NewDocumentHistory.latestVersion = 0 ∧
    (NewDocumentHistory.documents.length : Int) - 1 = -1 ∧
    NewDocumentHistory.latestVersion ≠ (NewDocumentHistory.documents.length : Int) - 1 ∧
    NewDocumentHistory.AddVersion [] = .ok NewDocumentHistory :=
  ⟨Or.inl (DocumentHistory.Steps.refl _), rfl, by decide, by decide, by rfl⟩


/-! ## The locator on live and on tombstoned entries -/

/-- Under the invariants a tombstoned by-id entry has no item of its id in the list. -/
theorem Storage.Inv.tombstone_not_listed {s : Storage} (h : s.Inv) (key : String) (item : Nat)
    (hsome : mapLookup s.idDataMatch key = some item)
    (hdel : (s.deref item).IsDeleted = true) :
    ∀ k, k < s.list.length → (s.deref (s.list.getD k 0)).Id ≠ (s.deref item).Id := by
  obtain ⟨_, hko, _, hlm, _⟩ := h
  intro k hk hid
  rw [List.getD_eq_getElem _ _ hk] at hid
  have hq := hlm s.list[k] (List.getElem_mem hk)
  have hkey := hko (key, item) (mapLookup_mem _ _ _ hsome)
  simp only at hkey
  rw [hid, hkey, hsome] at hq
  have e : item = s.list[k] := Option.some.inj hq.1
  rw [← e, hdel] at hq
  exact absurd hq.2 (by simp)

theorem findItemIdx_error_of_absent (s : Storage) (item : Nat)
    (hno : ∀ k, k < s.list.length → (s.deref (s.list.getD k 0)).Id ≠ (s.deref item).Id) :
    ∃ e, s.findItemIdx item = .error e ∧
      (e = "item not found: LT target" ∨ e = "item not found: by id") := by
  unfold Storage.findItemIdx
  simp only
  by_cases hlb : s.findItemIdxLTTarget item = s.list.length
  · rw [if_pos hlb]
    exact ⟨_, rfl, Or.inl rfl⟩
  · rw [if_neg hlb]
    rw [find_range'_none _ _ _ (fun k _ hk2 => by
      have hle : s.findItemIdxLTTarget item ≤ s.list.length := by
        rw [findItemIdxLTTarget_eq]
        have := lowerBoundIdx_le (s.list.map (fun p => (s.deref p).Value)) (s.deref item).Value
        simpa using this
      have := hno k (by omega)
      simpa using this)]
    exact ⟨_, rfl, Or.inr rfl⟩

/-- C23. Set on a tombstoned id always fails: in a storage satisfying the invariants, for an
id whose by-id entry `item` is deleted, the item is at no position of the ordered list, the
locator `findItemIdx` fails with one of its two panics, and `set` of that id, with any value,
author and timestamp, aborts with that panic instead of returning an edit. -/
theorem set_tombstoned_fails (s : Storage) (itemId : UUID) (v : StorageValue) (c : ClientId)
    (t : Time) (item : Nat) (hinv : s.Inv)
    (hsome : mapLookup s.idDataMatch itemId.String = some item)
    (hdel : (s.deref item).IsDeleted = true) :
    item ∉ s.list ∧
    ∃ e, s.findItemIdx item = .error e ∧ s.set itemId v c t = .error e ∧
      (e = "item not found: LT target" ∨ e = "item not found: by id") := by
  refine ⟨?_, ?_⟩
  · intro hmem
    have := (hinv.2.2.2.1 item hmem).2
    rw [hdel] at this
    exact absurd this (by simp)
  · obtain ⟨e, he, hmsg⟩ := findItemIdx_error_of_absent s item
      (hinv.tombstone_not_listed itemId.String item hsome hdel)
    refine ⟨e, he, ?_, hmsg⟩
    unfold Storage.set
    simp only [hsome, he]

theorem set_tombstoned_fails_witness :
    2 ∉ sampleStorage.list ∧
    ∃ e, sampleStorage.findItemIdx 2 = .error e ∧ sampleStorage.set idC 3 4 4 = .error e ∧
      (e = "item not found: LT target" ∨ e = "item not found: by id") :=
  set_tombstoned_fails sampleStorage idC 3 4 4 2 (by decide) (by decide) (by decide)

/-- C30. The locator is correct under the invariants: for an item that is in the by-id map
and not deleted, `findItemIdx` returns (it does not panic) the position `i` of the item in
the ordered list, the item at `i` has the id of the item, and no other position holds an
item of that id, however many items share the value of the item. -/
theorem locator_correct (s : Storage) (key : String) (item : Nat) (hinv : s.Inv)
    (hsome : mapLookup s.idDataMatch key = some item)
    (hlive : (s.deref item).IsDeleted = false) :
    ∃ i, s.findItemIdx item = .ok i ∧ s.list[i]? = some item ∧
      (s.items[i]?.map (fun it => it.Id)) = some (s.deref item).Id ∧
      ∀ k it, s.items[k]? = some it → it.Id = (s.deref item).Id → k = i := by
  obtain ⟨i, hi, hget, hf⟩ := hinv.findItemIdx_live key item hsome hlive
  have hnd := hinv.nodup
  refine ⟨i, hf, by rw [List.getElem?_eq_getElem hi, hget], ?_, ?_⟩
  · unfold Storage.items
    rw [List.getElem?_map, List.getElem?_eq_getElem hi, hget]
    rfl
  · intro k it hk hid
    unfold Storage.items at hk
    rw [List.getElem?_map] at hk
    cases hq : s.list[k]? with
    | none => rw [hq] at hk; simp at hk
    | some q =>
      rw [hq] at hk
      simp only [Option.map_some', Option.some.injEq] at hk
      obtain ⟨hk1, hk2⟩ := List.getElem?_eq_some.mp hq
      have hlm := (hinv.2.2.2.1 q (hk2 ▸ List.getElem_mem hk1)).1
      have hlm2 := (hinv.2.2.2.1 item (hget ▸ List.getElem_mem hi)).1
      rw [hk, hid, hlm2] at hlm
      have e : item = q := Option.some.inj hlm
      subst e
      exact getElem?_unique_of_nodup s.list hnd i k item
        (by rw [List.getElem?_eq_getElem hi, hget]) hq

theorem locator_correct_witness :
    ∃ i, sampleTies.findItemIdx 1 = .ok i ∧ sampleTies.list[i]? = some 1 ∧
      (sampleTies.items[i]?.map (fun it => it.Id)) = some (sampleTies.deref 1).Id ∧
      ∀ k it, sampleTies.items[k]? = some it → it.Id = (sampleTies.deref 1).Id → k = i :=
  locator_correct sampleTies idB.String 1 (by decide) (by decide) (by decide)

/-! ## Which operations can abort -/

/-- On a storage satisfying the invariants an operation returns unless it is a set of an id
whose by-id entry is deleted. -/
theorem apply_returns (s : Storage) (op : StorageOperation) (hinv : s.Inv)
    (hnot : ∀ o item, op = .Set o → mapLookup s.idDataMatch o.Id.String = some item →
      (s.deref item).IsDeleted = false) :
    ∃ s1 r, op.Apply s = .ok (s1, r) := by
  cases op with
  | Set o =>
    show ∃ s1 r, s.set o.Id o.Value o.UpdatedBy o.UpdatedAt = .ok (s1, r)
    cases hl : mapLookup s.idDataMatch o.Id.String with
    | none => exact ⟨_, _, set_new_eq s o.Id o.Value o.UpdatedBy o.UpdatedAt hinv.listValid hl⟩
    | some item =>
      have hlive := hnot o item rfl hl
      obtain ⟨i, hi, hget, hf⟩ := hinv.findItemIdx_live o.Id.String item hl hlive
      have hnd := hinv.nodup
      have hnotin : item ∉ sliceCut s.list i := hget ▸ not_mem_cut_of_nodup s.list i hi hnd
      have hvalid : item < s.mem.length := hinv.listValid item (hget ▸ List.getElem_mem hi)
      exact ⟨_, _, set_existing_eq s o.Id o.Value o.UpdatedBy o.UpdatedAt item i hl hf hvalid
        hnotin⟩
  | Delete o =>
    show ∃ s1 r, s.delete o.Id o.DeletedBy o.DeletedAt = .ok (s1, r)
    cases hl : mapLookup s.idDataMatch o.Id.String with
    | none => exact ⟨_, _, delete_noop_eq s o.Id o.DeletedBy o.DeletedAt (Or.inl hl)⟩
    | some item =>
      cases hd : (s.deref item).IsDeleted with
      | true =>
        exact ⟨_, _, delete_noop_eq s o.Id o.DeletedBy o.DeletedAt (Or.inr ⟨item, hl, hd⟩)⟩
      | false =>
        obtain ⟨i, hi, hget, hf⟩ := hinv.findItemIdx_live o.Id.String item hl hd
        exact ⟨_, _, delete_live_eq s o.Id o.DeletedBy o.DeletedAt item i hl hd hf⟩

theorem apply_returns_witness :
    ∃ s1 r, (StorageOperation.Delete { Id := idC, DeletedBy := 5, DeletedAt := 5 }).Apply
      sampleStorage = .ok (s1, r) :=
  apply_returns sampleStorage _ (by decide) (fun o item h => by cases h)

/-- C22 after a delete. `Set(a, 5)` and `Delete(a)` applied to `NewStorage()` return and
leave the tombstone of `a` with an empty list; a further `Set(a, 7)` finds the id in the
by-id map, the locator panics, and so do `Apply` and `ApplyOperations`; likewise
`AddVersion` of that set panics on the history that committed the insert and the delete. -/
theorem apply_after_delete_aborts :
    NewStorage.ApplyOperations sampleInsertDelete
      = .ok (sampleTombstoneOnly,
          [{ Typ := "insert", Index := 0, NewIndex := 0, Id := idA.String, Value := 5 },
           { Typ := "delete", Index := 0, NewIndex := 0, Id := idA.String, Value := 0 }]) ∧
    sampleTombstoneOnly.Reachable ∧
    (StorageOperation.Set
        { Id := idA, Value := 7, IsDeleted := false, UpdatedBy := 2, UpdatedAt := 3 }).Apply
      sampleTombstoneOnly = .error "item not found: LT target" ∧
    sampleTombstoneOnly.ApplyOperations
      [some (.Set { Id := idA, Value := 7, IsDeleted := false, UpdatedBy := 2,
                    UpdatedAt := 3 })]
      = .error "item not found: LT target" ∧
    ∃ h1, NewDocumentHistory.AddVersion sampleInsertDelete = .ok h1 ∧
      h1.AddVersion
        [some (.Set { Id := idA, Value := 7, IsDeleted := false, UpdatedBy := 2,
                      UpdatedAt := 3 })]
        = .error "item not found: LT target" := by
  refine ⟨by rfl, ?_, by rfl, by rfl, _, by rfl, by rfl⟩
  exact Storage.Reachable.step NewStorage sampleTombstoneOnly sampleInsertDelete _
    Storage.Reachable.init (by rfl)

/-! ## Size of the list against the by-id map -/

theorem mapLookup_none_key_not_mem (m : List (String × Nat)) (k : String)
    (h : mapLookup m k = none) : k ∉ m.map Prod.fst := by
  intro hk
  obtain ⟨kp, hkp, hfst⟩ := List.mem_map.mp hk
  obtain ⟨k1, p1⟩ := kp
  simp only at hfst
  subst hfst
  exact mapLookup_none_not_mem m k1 h p1 hkp

/-- A returning `set` leaves the by-id map alone or appends one entry under a new key. -/
theorem set_map (s s1 : Storage) (itemId : UUID) (v : StorageValue) (c : ClientId) (t : Time)
    (r : Option ListOperation) (h : s.set itemId v c t = .ok (s1, r)) :
    s1.idDataMatch = s.idDataMatch ∨
      (mapLookup s.idDataMatch itemId.String = none ∧
        s1.idDataMatch = s.idDataMatch ++ [(itemId.String, s.mem.length)]) := by
  unfold Storage.set at h
  cases hl : mapLookup s.idDataMatch itemId.String with
  | none =>
    simp only [hl, Except.ok.injEq, Prod.mk.injEq] at h
    right
    refine ⟨rfl, ?_⟩
    rw [← h.1]
    exact mapStore_of_lookup_none _ _ _ hl
  | some item =>
    simp only [hl] at h
    cases hf : s.findItemIdx item with
    | error e => simp [hf] at h
    | ok i =>
      simp only [hf, Except.ok.injEq, Prod.mk.injEq] at h
      left
      rw [← h.1]
      rfl

/-- A returning `delete` leaves the by-id map alone. -/
theorem delete_map (s s1 : Storage) (itemId : UUID) (c : ClientId) (t : Time)
    (r : Option ListOperation) (h : s.delete itemId c t = .ok (s1, r)) :
    s1.idDataMatch = s.idDataMatch := by
  unfold Storage.delete at h
  cases hl : mapLookup s.idDataMatch itemId.String with
  | none =>
    simp only [hl, Except.ok.injEq, Prod.mk.injEq] at h
    rw [← h.1]
  | some item =>
    simp only [hl] at h
    split at h
    · simp only [Except.ok.injEq, Prod.mk.injEq] at h
      rw [← h.1]
    · split at h
      · simp at h
      · simp only [Except.ok.injEq, Prod.mk.injEq] at h
        rw [← h.1]
        rfl

theorem apply_keys (op : StorageOperation) (s s1 : Storage) (r : Option ListOperation)
    (hk : s.KeysNodup) (h : op.Apply s = .ok (s1, r)) : s1.KeysNodup := by
  unfold Storage.KeysNodup at hk ⊢
  cases op with
  | Set o =>
    rcases set_map s s1 o.Id o.Value o.UpdatedBy o.UpdatedAt r h with e | ⟨hn, e⟩
    · rw [e]; exact hk
    · rw [e, List.map_append, List.nodup_append]
      refine ⟨hk, by simp, ?_⟩
      intro a ha hb
      simp only [List.map_cons, List.map_nil, List.mem_singleton] at hb
      subst hb
      exact mapLookup_none_key_not_mem _ _ hn ha
  | Delete o =>
    rw [delete_map s s1 o.Id o.DeletedBy o.DeletedAt r h]
    exact hk

theorem applyOperations_keys (ops : List (Option StorageOperation)) :
    ∀ (s s1 : Storage) (out : List ListOperation), s.KeysNodup →
      s.ApplyOperations ops = .ok (s1, out) → s1.KeysNodup := by
  induction ops with
  | nil =>
    intro s s1 out hk h
    rw [applyOperations_nil] at h
    simp only [Except.ok.injEq, Prod.mk.injEq] at h
    rw [← h.1]; exact hk
  | cons o ops ih =>
    intro s s1 out hk h
    cases o with
    | none =>
      rw [applyOperations_cons_none] at h
      exact ih s s1 out hk h
    | some op =>
      rw [applyOperations_cons_some] at h
      cases ha : op.Apply s with
      | error e => rw [ha] at h; simp at h
      | ok pr =>
        obtain ⟨s2, r⟩ := pr
        rw [ha] at h
        simp only at h
        cases hb : s2.ApplyOperations ops with
        | error e => rw [hb] at h; simp at h
        | ok pr2 =>
          obtain ⟨s3, out2⟩ := pr2
          rw [hb] at h
          simp only [Except.ok.injEq, Prod.mk.injEq] at h
          rw [← h.1]
          exact ih s2 s3 out2 (apply_keys op s s2 r hk ha) hb

theorem Storage.Reachable.keysNodup {s : Storage} (h : s.Reachable) : s.KeysNodup := by
  induction h with
  | init => simp [Storage.KeysNodup, NewStorage]
  | step s s1 ops listOps _ hstep ih => exact applyOperations_keys ops s s1 listOps ih hstep

/-- Under the invariants the ordered list is, up to order, the pointers of the live by-id
entries. -/
theorem list_perm_live (s : Storage) (hinv : s.Inv) (hk : s.KeysNodup) :
    List.Perm s.list
      ((s.idDataMatch.filter (fun kp => !(s.deref kp.2).IsDeleted)).map Prod.snd) := by
  have hnd := hinv.nodup
  obtain ⟨_, hkey, _, hlm, hll⟩ := hinv
  have hm : s.idDataMatch.Nodup := List.Nodup.of_map Prod.fst hk
  rw [List.perm_ext_iff_of_nodup hnd]
  · intro p
    constructor
    · intro hp
      have h1 := hlm p hp
      exact List.mem_map.mpr ⟨(_, p), List.mem_filter.mpr ⟨mapLookup_mem _ _ _ h1.1,
        by simp [h1.2]⟩, rfl⟩
    · intro hp
      obtain ⟨kp, hkp, e⟩ := List.mem_map.mp hp
      obtain ⟨hin, hlive⟩ := List.mem_filter.mp hkp
      have hc := hll kp hin (by simpa using hlive)
      rw [e] at hc
      exact List.count_pos_iff.mp (by rw [hc]; exact Nat.one_pos)
  · refine List.Nodup.map_on ?_ (hm.filter _)
    intro a ha b hb e
    have h1 := hkey a (List.mem_filter.mp ha).1
    have h2 := hkey b (List.mem_filter.mp hb).1
    rw [e] at h1
    exact Prod.ext (h1.symm.trans h2) e

/-- C28. In every storage reached from `NewStorage()` by calls of `ApplyOperations` that
return, the by-id map holds each key once, the ordered list is never longer than the by-id
map, and the two have the same size exactly when no by-id entry is a tombstone. -/
theorem list_le_map (s : Storage) (h : s.Reachable) :
    s.KeysNodup ∧ s.list.length ≤ s.idDataMatch.length ∧
    (s.list.length = s.idDataMatch.length ↔
      ∀ kp ∈ s.idDataMatch, (s.deref kp.2).IsDeleted = false) := by
  have hk := h.keysNodup
  have hp := (list_perm_live s h.inv hk).length_eq
  rw [List.length_map] at hp
  refine ⟨hk, ?_, ?_⟩
  · rw [hp]; exact List.length_filter_le _ _
  · rw [hp]
    constructor
    · intro e kp hkp
      have hs := (List.filter_sublist (p := fun kp => !(s.deref kp.2).IsDeleted)
        s.idDataMatch).eq_of_length e
      have := (List.filter_eq_self.mp hs) kp hkp
      simpa using this
    · intro hall
      have : s.idDataMatch.filter (fun kp => !(s.deref kp.2).IsDeleted) = s.idDataMatch :=
        List.filter_eq_self.mpr (fun kp hkp => by simp [hall kp hkp])
      rw [this]

theorem list_le_map_witness :
    sampleTombstoneOnly.KeysNodup ∧
    sampleTombstoneOnly.list.length ≤ sampleTombstoneOnly.idDataMatch.length ∧
    (sampleTombstoneOnly.list.length = sampleTombstoneOnly.idDataMatch.length ↔
      ∀ kp ∈ sampleTombstoneOnly.idDataMatch,
        (sampleTombstoneOnly.deref kp.2).IsDeleted = false) :=
  list_le_map sampleTombstoneOnly
    (Storage.Reachable.step NewStorage sampleTombstoneOnly sampleInsertDelete _
      Storage.Reachable.init (by rfl))

/-! ## `BuildStorage` -/

theorem recorded_snoc (ds : List Document) (d : Document) :
    ∀ (s s1 s2 : Storage), Recorded s ds s1 →
      s1.ApplyOperations d.InputOperations = .ok (s2, d.OutputOperations) →
      Recorded s (ds ++ [d]) s2 := by
  induction ds with
  | nil =>
    intro s s1 s2 h hA
    simp only [Recorded] at h
    subst h
    exact ⟨s2, hA, rfl⟩
  | cons d0 ds ih =>
    intro s s1 s2 h hA
    obtain ⟨s3, h3, hr⟩ := h
    exact ⟨s3, h3, ih s3 s1 s2 hr hA⟩

theorem recorded_split (ds : List Document) :
    ∀ (s s1 : Storage) (n : Nat), Recorded s ds s1 →
      ∃ sn, Recorded s (ds.take n) sn ∧ Recorded sn (ds.drop n) s1 := by
  induction ds with
  | nil =>
    intro s s1 n h
    simp only [Recorded] at h
    subst h
    exact ⟨s1, by simp [Recorded], by simp [Recorded]⟩
  | cons d ds ih =>
    intro s s1 n h
    cases n with
    | zero => exact ⟨s, by simp [Recorded], by simpa using h⟩
    | succ n =>
      obtain ⟨s2, h2, hr⟩ := h
      obtain ⟨sn, ha, hb⟩ := ih s2 s1 n hr
      exact ⟨sn, ⟨s2, h2, ha⟩, by simpa using hb⟩

/-- A recorded run keeps the invariants, and its outputs replay it on the exported list. -/
theorem recorded_replay (ds : List Document) :
    ∀ (s s1 : Storage), s.Inv → Recorded s ds s1 →
      s1.Inv ∧ ∀ i, applyListOperationsFrom s.Export i (outputsOf ds) = .ok s1.Export := by
  induction ds with
  | nil =>
    intro s s1 hinv h
    simp only [Recorded] at h
    subst h
    exact ⟨hinv, fun i => rfl⟩
  | cons d ds ih =>
    intro s s1 hinv h
    obtain ⟨s2, h2, hr⟩ := h
    obtain ⟨hinv2, hrep2⟩ := applyOperations_replay _ s s2 _ hinv h2
    obtain ⟨hinv1, hrep1⟩ := ih s2 s1 hinv2 hr
    refine ⟨hinv1, fun i => ?_⟩
    simp only [outputsOf]
    rw [applyListOperationsFrom_append, hrep2 i]
    exact hrep1 _

/-- Along returning `AddVersion` calls the documents stay a record of the storage's run. -/
theorem steps_recorded (s0 : Storage) (h0 h : DocumentHistory)
    (hr : Recorded s0 h0.documents h0.storage) (hs : h0.Steps h) :
    Recorded s0 h.documents h.storage := by
  induction hs with
  | refl => exact hr
  | step h1 h2 stOps _ hA ih =>
    rcases addVersion_ok h1 h2 stOps hA with ⟨_, he⟩ | ⟨s1, out, d, hB, hd, hi, hdoc2, hst, _⟩
    · subst he; exact ih
    · rw [hdoc2, hst]
      exact recorded_snoc _ d s0 h1.storage s1 ih (by rw [hi, hd]; exact hB)

/-- The loop of `BuildStorage` runs through a recorded run. -/
theorem buildStorageLoop_recorded (docs : List Document) (v : Nat) (hv : v < docs.length)
    (sv : Storage) :
    ∀ (fuel i : Nat) (st : Storage), i ≤ v + 1 → v + 1 - i ≤ fuel →
      Recorded st ((docs.take (v + 1)).drop i) sv →
      buildStorageLoop docs (v : Int) fuel (i : Int) st = .ok sv := by
  intro fuel
  induction fuel with
  | zero =>
    intro i st hi hf hr
    have e : i = v + 1 := by omega
    subst e
    rw [List.drop_of_length_le (by simp)] at hr
    simp only [Recorded] at hr
    subst hr
    rfl
  | succ fuel ih =>
    intro i st hi hf hr
    unfold buildStorageLoop
    by_cases hle : (i : Int) ≤ (v : Int)
    · have hiv : i ≤ v := by exact_mod_cast hle
      have hil : i < (docs.take (v + 1)).length := by
        rw [List.length_take]; omega
      rw [if_pos hle, if_neg (by omega)]
      rw [List.drop_eq_getElem_cons hil] at hr
      obtain ⟨s2, h2, hr2⟩ := hr
      have hget : (docs.getD (i : Int).toNat default) = (docs.take (v + 1))[i] := by
        rw [Int.toNat_ofNat, List.getD_eq_getElem _ _ (by omega), List.getElem_take]
      rw [hget, h2]
      simp only
      have := ih (i + 1) s2 (by omega) (by omega) hr2
      rw [Nat.cast_add, Nat.cast_one] at this
      exact this
    · have e : i = v + 1 := by omega
      subst e
      rw [if_neg hle]
      rw [List.drop_of_length_le (by simp)] at hr
      simp only [Recorded] at hr
      subst hr
      rfl

/-- Input replay agrees with output replay on histories grown from the empty history. For
every history reached from `NewDocumentHistory()` by returning `AddVersion` calls and every
`v` below the number of documents, `BuildStorage(0)` and `BuildStorage(v)` return storages
`s0` and `sv` that keep the invariants, and applying the outputs of documents `1 .. v` to the
export of `s0` gives the export of `sv`; for the last document `sv` is the history's own
storage. -/
theorem buildStorage_replay (h : DocumentHistory) (hs : NewDocumentHistory.Steps h) (v : Nat)
    (hv : v < h.documents.length) :
    ∃ s0 sv, h.BuildStorage 0 = .ok (some s0) ∧ h.BuildStorage (v : Int) = .ok (some sv) ∧
      sv.Inv ∧
      ApplyListOperations s0.Export (outputsOf ((h.documents.take (v + 1)).drop 1))
        = .ok sv.Export ∧
      (v + 1 = h.documents.length → sv = h.storage) := by
  have hrec : Recorded NewStorage h.documents h.storage :=
    steps_recorded NewStorage NewDocumentHistory h rfl hs
  obtain ⟨sv, hpre, hpost⟩ := recorded_split h.documents NewStorage h.storage (v + 1) hrec
  obtain ⟨s0, hfirst, hrest⟩ := recorded_split (h.documents.take (v + 1)) NewStorage sv 1 hpre
  have hvalid : ∀ w : Nat, w < h.documents.length → h.IsVersionValid (w : Int) = true := by
    intro w hw
    simp only [DocumentHistory.IsVersionValid, decide_eq_true_eq]
    exact_mod_cast hw
  have hbuild : ∀ (w : Nat) (sw : Storage), w < h.documents.length →
      Recorded NewStorage (h.documents.take (w + 1)) sw →
      h.BuildStorage (w : Int) = .ok (some sw) := by
    intro w sw hw hr
    unfold DocumentHistory.BuildStorage
    rw [hvalid w hw]
    have := buildStorageLoop_recorded h.documents w hw sw ((w : Int) + 1).toNat 0 NewStorage
      (by omega) (by omega) (by simpa using hr)
    simp only [Nat.cast_zero] at this
    simp only [Bool.not_true, Bool.false_eq_true, if_false, this]
  have h0 : 0 < h.documents.length := by omega
  have hinv0 := (recorded_replay _ NewStorage s0 inv_NewStorage hfirst).1
  obtain ⟨hinvv, hrep⟩ := recorded_replay _ s0 sv hinv0 hrest
  refine ⟨s0, sv, ?_, hbuild v sv hv hpre, hinvv, hrep 0, ?_⟩
  · have := hbuild 0 s0 h0 (by
      rw [List.take_take] at hfirst
      simpa using hfirst)
    simpa using this
  · intro e
    rw [List.drop_of_length_le (by omega)] at hpost
    simp only [Recorded] at hpost
    exact hpost.symm

theorem buildStorage_replay_witness :
    ∃ s0 sv, sampleHistory2.BuildStorage 0 = .ok (some s0) ∧
      sampleHistory2.BuildStorage ((1 : Nat) : Int) = .ok (some sv) ∧
      sv.Inv ∧
      ApplyListOperations s0.Export (outputsOf ((sampleHistory2.documents.take (1 + 1)).drop 1))
        = .ok sv.Export ∧
      (1 + 1 = sampleHistory2.documents.length → sv = sampleHistory2.storage) :=
  buildStorage_replay sampleHistory2
    (DocumentHistory.Steps.step _ sampleHistory _ sampleCommit2
      (DocumentHistory.Steps.step _ NewDocumentHistory _ sampleCommit
        (DocumentHistory.Steps.refl _) (by rfl)) (by rfl))
    1 (by decide)

/-- C21 on a seeded history. `NewDocHistoryFromFile` of the two items `(b, 1)` and `(a, 5)`
has version 0 valid and the snapshot `[(b, 1), (a, 5)]` at version 0, but `BuildStorage(0)`
replays the empty inputs of document 0 onto an empty storage and returns the empty storage,
whose export is the empty list. For the invalid version `-1` `BuildStorage` returns the empty
storage, not nil. After `AddVersion` of `Set(a, 5)` on that history, `BuildStorage(1)` exports
`[(a, 5)]`, while the outputs of document 1 applied to the version-0 snapshot give
`[(b, 1), (a, 5)]`, the export of the history's storage. -/
theorem buildStorage_ignores_seed :
    (NewDocHistoryFromFile sampleObjs).IsVersionValid 0 = true ∧
    (NewDocHistoryFromFile sampleObjs).GetOutputSnapshot
      = (0, [{ Id := idB.String, Value := 1 }, { Id := idA.String, Value := 5 }]) ∧
    (NewDocHistoryFromFile sampleObjs).BuildStorage 0 = .ok (some NewStorage) ∧
    NewStorage.Export = [] ∧
    ApplyListOperations (NewDocHistoryFromFile sampleObjs).storage.Export
      (outputsOf (((NewDocHistoryFromFile sampleObjs).documents.take (0 + 1)).drop 1))
      = .ok [{ Id := idB.String, Value := 1 }, { Id := idA.String, Value := 5 }] ∧
    (NewDocHistoryFromFile sampleObjs).BuildStorage (-1) = .ok (some NewStorage) ∧
    ∃ h1 s1, (NewDocHistoryFromFile sampleObjs).AddVersion sampleCommit = .ok h1 ∧
      h1.IsVersionValid 1 = true ∧
      h1.BuildStorage 1 = .ok (some s1) ∧
      s1.Export = [{ Id := idA.String, Value := 5 }] ∧
      ApplyListOperations (NewDocHistoryFromFile sampleObjs).storage.Export
        (outputsOf ((h1.documents.take (1 + 1)).drop 1))
        = .ok [{ Id := idB.String, Value := 1 }, { Id := idA.String, Value := 5 }] ∧
      h1.storage.Export = [{ Id := idB.String, Value := 1 }, { Id := idA.String, Value := 5 }] := by
  refine ⟨by rfl, by rfl, by rfl, by rfl, by rfl, by rfl, _, _, by rfl, by rfl, by rfl, by rfl,
    by rfl, by rfl⟩

/-! ## The request handlers `GetList` and `UpdateList` -/

theorem newSetOperation_ok (parse : String → Except String UUID) (itemId : String)
    (v : StorageValue) (c : ClientId) (t : Time) (o : SetOperation)
    (h : NewSetOperation parse itemId v c t = .ok o) :
    ∃ id, parse itemId = .ok id ∧ t.IsZero = false ∧
      o = { Id := id, Value := v, IsDeleted := false, UpdatedBy := c, UpdatedAt := t } := by
  unfold NewSetOperation at h
  cases hp : parse itemId with
  | error e => simp [hp] at h
  | ok id =>
    simp only [hp] at h
    cases hz : t.IsZero with
    | true => simp [hz] at h
    | false =>
      simp only [hz, Bool.false_eq_true, if_false, Except.ok.injEq] at h
      exact ⟨id, rfl, rfl, h.symm⟩

theorem newDeleteOperation_ok (parse : String → Except String UUID) (itemId : String)
    (c : ClientId) (t : Time) (o : DeleteOperation)
    (h : NewDeleteOperation parse itemId c t = .ok o) :
    ∃ id, parse itemId = .ok id ∧ t.IsZero = false ∧
      o = { Id := id, DeletedBy := c, DeletedAt := t } := by
  unfold NewDeleteOperation at h
  cases hp : parse itemId with
  | error e => simp [hp] at h
  | ok id =>
    simp only [hp] at h
    cases hz : t.IsZero with
    | true => simp [hz] at h
    | false =>
      simp only [hz, Bool.false_eq_true, if_false, Except.ok.injEq] at h
      exact ⟨id, rfl, rfl, h.symm⟩

theorem newSetOperation_isOk (parse : String → Except String UUID) (itemId : String)
    (v : StorageValue) (c : ClientId) (t : Time) (hz : t.IsZero = false) :
    (∃ e, NewSetOperation parse itemId v c t = .error e) ↔ ∃ e, parse itemId = .error e := by
  unfold NewSetOperation
  cases hp : parse itemId with
  | error e => simp
  | ok id => simp [hz]

theorem newDeleteOperation_isOk (parse : String → Except String UUID) (itemId : String)
    (c : ClientId) (t : Time) (hz : t.IsZero = false) :
    (∃ e, NewDeleteOperation parse itemId c t = .error e) ↔ ∃ e, parse itemId = .error e := by
  unfold NewDeleteOperation
  cases hp : parse itemId with
  | error e => simp
  | ok id => simp [hz]

/-- What the validation loop of `UpdateList` returns when it returns a batch: the operations
converted so far followed by one operation per request operation, in order. -/
theorem updateListLoop_ok (parse : String → Except String UUID) (now : Time) (c : ClientId)
    (ops : List OperationRequest) :
    ∀ (i : Nat) (acc batch : List StorageOperation),
      updateListLoop parse now c i ops acc = .ok batch →
      ∃ new, batch = acc ++ new ∧
        List.Forall₂ (fun (reqOp : OperationRequest) (op : StorageOperation) =>
          ∃ id, parse reqOp.Id = .ok id ∧
            (((reqOp.Typ = InsertOperationType ∨ reqOp.Typ = UpdateOperationType) ∧
              op = .Set { Id := id, Value := reqOp.Value, IsDeleted := false,
                          UpdatedBy := c, UpdatedAt := now }) ∨
             (reqOp.Typ = DeleteOperationType ∧
              op = .Delete { Id := id, DeletedBy := c, DeletedAt := now }))) ops new := by
  induction ops with
  | nil =>
    intro i acc batch h
    simp only [updateListLoop, Except.ok.injEq] at h
    exact ⟨[], by simp [h], List.Forall₂.nil⟩
  | cons reqOp rest ih =>
    intro i acc batch h
    unfold updateListLoop at h
    by_cases h1 : reqOp.Typ = InsertOperationType
    · rw [if_pos h1] at h
      cases hn : NewSetOperation parse reqOp.Id reqOp.Value c now with
      | error e => simp [hn] at h
      | ok o =>
        simp only [hn] at h
        obtain ⟨new, hb, hf⟩ := ih _ _ _ h
        obtain ⟨id, hp, _, ho⟩ := newSetOperation_ok _ _ _ _ _ _ hn
        exact ⟨.Set o :: new, by simp [hb],
          List.Forall₂.cons ⟨id, hp, Or.inl ⟨Or.inl h1, by rw [ho]⟩⟩ hf⟩
    · rw [if_neg h1] at h
      by_cases h2 : reqOp.Typ = UpdateOperationType
      · rw [if_pos h2] at h
        cases hn : NewSetOperation parse reqOp.Id reqOp.Value c now with
        | error e => simp [hn] at h
        | ok o =>
          simp only [hn] at h
          obtain ⟨new, hb, hf⟩ := ih _ _ _ h
          obtain ⟨id, hp, _, ho⟩ := newSetOperation_ok _ _ _ _ _ _ hn
          exact ⟨.Set o :: new, by simp [hb],
            List.Forall₂.cons ⟨id, hp, Or.inl ⟨Or.inr h2, by rw [ho]⟩⟩ hf⟩
      · rw [if_neg h2] at h
        by_cases h3 : reqOp.Typ = DeleteOperationType
        · rw [if_pos h3] at h
          cases hn : NewDeleteOperation parse reqOp.Id c now with
          | error e => simp [hn] at h
          | ok o =>
            simp only [hn] at h
            obtain ⟨new, hb, hf⟩ := ih _ _ _ h
            obtain ⟨id, hp, _, ho⟩ := newDeleteOperation_ok _ _ _ _ _ hn
            exact ⟨.Delete o :: new, by simp [hb],
              List.Forall₂.cons ⟨id, hp, Or.inr ⟨h3, by rw [ho]⟩⟩ hf⟩
        · rw [if_neg h3] at h
          simp at h

/-- When the validation loop of `UpdateList` returns an error, the clock being non-zero. -/
theorem updateListLoop_error_iff (parse : String → Except String UUID) (now : Time)
    (c : ClientId) (hz : now.IsZero = false) (ops : List OperationRequest) :
    ∀ (i : Nat) (acc : List StorageOperation),
      (∃ e, updateListLoop parse now c i ops acc = .error e) ↔
      ∃ reqOp ∈ ops,
        (reqOp.Typ ≠ InsertOperationType ∧ reqOp.Typ ≠ UpdateOperationType ∧
          reqOp.Typ ≠ DeleteOperationType) ∨ ∃ e, parse reqOp.Id = .error e := by
  induction ops with
  | nil => intro i acc; simp [updateListLoop]
  | cons reqOp rest ih =>
    intro i acc
    rw [List.exists_mem_cons_iff]
    unfold updateListLoop
    by_cases h1 : reqOp.Typ = InsertOperationType
    · rw [if_pos h1]
      cases hn : NewSetOperation parse reqOp.Id reqOp.Value c now with
      | error e =>
        have := (newSetOperation_isOk parse reqOp.Id reqOp.Value c now hz).mp ⟨e, hn⟩
        exact ⟨fun _ => Or.inl (Or.inr this), fun _ => ⟨_, rfl⟩⟩
      | ok o =>
        obtain ⟨id, hp, _, _⟩ := newSetOperation_ok _ _ _ _ _ _ hn
        simp only [ih, h1, hp]
        simp
    · rw [if_neg h1]
      by_cases h2 : reqOp.Typ = UpdateOperationType
      · rw [if_pos h2]
        cases hn : NewSetOperation parse reqOp.Id reqOp.Value c now with
        | error e =>
          have := (newSetOperation_isOk parse reqOp.Id reqOp.Value c now hz).mp ⟨e, hn⟩
          exact ⟨fun _ => Or.inl (Or.inr this), fun _ => ⟨_, rfl⟩⟩
        | ok o =>
          obtain ⟨id, hp, _, _⟩ := newSetOperation_ok _ _ _ _ _ _ hn
          simp only [ih, h2, hp]
          simp
      · rw [if_neg h2]
        by_cases h3 : reqOp.Typ = DeleteOperationType
        · rw [if_pos h3]
          cases hn : NewDeleteOperation parse reqOp.Id c now with
          | error e =>
            have := (newDeleteOperation_isOk parse reqOp.Id c now hz).mp ⟨e, hn⟩
            exact ⟨fun _ => Or.inl (Or.inr this), fun _ => ⟨_, rfl⟩⟩
          | ok o =>
            obtain ⟨id, hp, _, _⟩ := newDeleteOperation_ok _ _ _ _ _ hn
            simp only [ih, h3, hp]
            simp
        · rw [if_neg h3]
          exact ⟨fun _ => Or.inl (Or.inl ⟨h1, h2, h3⟩), fun _ => ⟨_, rfl⟩⟩

/-- C24. UpdateList conversion: when `UpdateList` accepts a request (returns no error), the
service is unchanged but for one batch appended to the channel; the batch has one storage
operation per request operation, in the same order; an insert and an update request
operation both become `Set` of the parsed id and the value, by the request's client at the
time `now`, and a delete becomes `Delete` of the parsed id by that client at `now`; every
operation of the batch carries the timestamp `now`. -/
theorem updateList_conversion (parse : String → Except String UUID) (now : Time)
    (s s1 : SortedListService) (req : UpdateListRequest)
    (h : s.UpdateList parse now req = (s1, none)) :
    ∃ batch, s1 = { s with opsCh := s.opsCh ++ [batch] } ∧
      batch.length = req.Operations.length ∧
      List.Forall₂ (fun (reqOp : OperationRequest) (op : StorageOperation) =>
        ∃ id, parse reqOp.Id = .ok id ∧
          (((reqOp.Typ = InsertOperationType ∨ reqOp.Typ = UpdateOperationType) ∧
            op = .Set { Id := id, Value := reqOp.Value, IsDeleted := false,
                        UpdatedBy := req.ClientId, UpdatedAt := now }) ∨
           (reqOp.Typ = DeleteOperationType ∧
            op = .Delete { Id := id, DeletedBy := req.ClientId, DeletedAt := now })))
        req.Operations batch ∧
      ∀ op ∈ batch, op.GetTimestamp = now := by
  unfold SortedListService.UpdateList at h
  cases hl : updateListLoop parse now req.ClientId 0 req.Operations [] with
  | error e => simp [hl] at h
  | ok batch =>
    simp only [hl, Prod.mk.injEq, and_true] at h
    obtain ⟨new, hb, hf⟩ := updateListLoop_ok parse now req.ClientId req.Operations 0 [] batch hl
    rw [List.nil_append] at hb
    subst hb
    refine ⟨batch, h.symm, hf.length_eq.symm, hf, ?_⟩
    intro op hop
    obtain ⟨i, hi, rfl⟩ := List.getElem_of_mem hop
    have hi2 : i < req.Operations.length := by rw [hf.length_eq]; exact hi
    obtain ⟨id, _, hcase⟩ := List.Forall₂.get hf hi2 hi
    simp only [List.get_eq_getElem] at hcase
    rcases hcase with ⟨_, e⟩ | ⟨_, e⟩
    · rw [e]; rfl
    · rw [e]; rfl

theorem updateList_conversion_witness :
    sampleService.UpdateList sampleParse 7 sampleRequest = (sampleServiceAfter, none) ∧
    ∃ batch, sampleServiceAfter = { sampleService with opsCh := sampleService.opsCh ++ [batch] } ∧
      batch.length = sampleRequest.Operations.length ∧
      List.Forall₂ (fun (reqOp : OperationRequest) (op : StorageOperation) =>
        ∃ id, sampleParse reqOp.Id = .ok id ∧
          (((reqOp.Typ = InsertOperationType ∨ reqOp.Typ = UpdateOperationType) ∧
            op = .Set { Id := id, Value := reqOp.Value, IsDeleted := false,
                        UpdatedBy := sampleRequest.ClientId, UpdatedAt := 7 }) ∨
           (reqOp.Typ = DeleteOperationType ∧
            op = .Delete { Id := id, DeletedBy := sampleRequest.ClientId, DeletedAt := 7 })))
        sampleRequest.Operations batch ∧
      ∀ op ∈ batch, op.GetTimestamp = 7 :=
  ⟨by rfl,
    updateList_conversion sampleParse 7 sampleService sampleServiceAfter sampleRequest (by rfl)⟩

/-- C25. UpdateList rejects a bad batch atomically: with a non-zero server time,
`UpdateList` returns an error exactly when some operation of the request has a type other
than insert, update and delete, or an id that `uuid.Parse` refuses; and whenever it returns
an error the service, its channel included, is as it was before the call. -/
theorem updateList_rejects (parse : String → Except String UUID) (now : Time)
    (s : SortedListService) (req : UpdateListRequest) (hz : now.IsZero = false) :
    ((s.UpdateList parse now req).2 ≠ none ↔
      ∃ reqOp ∈ req.Operations,
        (reqOp.Typ ≠ InsertOperationType ∧ reqOp.Typ ≠ UpdateOperationType ∧
          reqOp.Typ ≠ DeleteOperationType) ∨ ∃ e, parse reqOp.Id = .error e) ∧
    ((s.UpdateList parse now req).2 ≠ none → (s.UpdateList parse now req).1 = s) := by
  rw [← updateListLoop_error_iff parse now req.ClientId hz req.Operations 0 []]
  unfold SortedListService.UpdateList
  cases hl : updateListLoop parse now req.ClientId 0 req.Operations [] with
  | error e => simp
  | ok batch => simp

theorem updateList_rejects_witness :
    Time.IsZero 7 = false ∧
    (sampleService.UpdateList sampleParse 7 sampleBadRequest).2
      = some "updateOperation[1] (update): itemId: invalid: invalid UUID length" ∧
    (((sampleService.UpdateList sampleParse 7 sampleBadRequest).2 ≠ none ↔
      ∃ reqOp ∈ sampleBadRequest.Operations,
        (reqOp.Typ ≠ InsertOperationType ∧ reqOp.Typ ≠ UpdateOperationType ∧
          reqOp.Typ ≠ DeleteOperationType) ∨ ∃ e, sampleParse reqOp.Id = .error e) ∧
    ((sampleService.UpdateList sampleParse 7 sampleBadRequest).2 ≠ none →
      (sampleService.UpdateList sampleParse 7 sampleBadRequest).1 = sampleService)) :=
  ⟨by rfl, by rfl, updateList_rejects sampleParse 7 sampleService sampleBadRequest (by rfl)⟩

/-- C26. `GetList` returns an error exactly when the client id is 0; for every other client
id it returns no error and writes into the response the pair of `GetOutputSnapshot`, the
latest version and the export of the current storage; in both cases the service, and so the
history, is left unchanged, and on the error path the response is not written. -/
theorem getList_contract (s : SortedListService) (req : GetListSnapshotRequest)
    (res : GetListSnapshotResponse) :
    ((s.GetList req res).2.2 ≠ none ↔ req.ClientId = 0) ∧
    (req.ClientId ≠ 0 →
      s.GetList req res
        = (s, { Version := s.docHistory.latestVersion,
                Data := s.docHistory.storage.Export }, none)) ∧
    (req.ClientId = 0 → (s.GetList req res).2.1 = res) ∧
    (s.GetList req res).1 = s := by
  unfold SortedListService.GetList
  by_cases h : req.ClientId = 0
  · simp [h]
  · have h2 : ¬ req.ClientId ≤ 0 := fun hle => h (Nat.le_zero.mp hle)
    simp only [if_neg h2, h]
    simp [DocumentHistory.GetOutputSnapshot]

/-! ## sort.Slice: swaps, frames and sorted segments -/

theorem length_swapAt {α : Type} [Inhabited α] (l : List α) (i j : Nat) :
    (swapAt l i j).length = l.length := by
  simp [swapAt]

theorem getD_swapAt {α : Type} [Inhabited α] (l : List α) (i j k : Nat) (hi : i < l.length)
    (hj : j < l.length) :
    (swapAt l i j).getD k default =
      if k = j then l.getD i default else if k = i then l.getD j default
      else l.getD k default := by
  unfold swapAt
  simp only [List.getD_eq_getElem?_getD, List.getElem?_set, List.length_set]
  by_cases h1 : k = j
  · subst h1
    simp [hj]
  · by_cases h2 : k = i
    · subst h2
      simp [hi, Ne.symm h1, h1]
    · simp [h1, h2, Ne.symm h1, Ne.symm h2]

theorem perm_swapAt {α : Type} [Inhabited α] [DecidableEq α] (l : List α) (i j : Nat)
    (hi : i < l.length) (hj : j < l.length) : List.Perm (swapAt l i j) l := by
  rw [List.perm_iff_count]
  intro x
  unfold swapAt
  rw [List.getD_eq_getElem _ _ hi, List.getD_eq_getElem _ _ hj]
  rw [List.count_set _ _ _ _ (by simpa using hj), List.count_set _ _ _ _ hi]
  have e : ∀ (h : j < (l.set i l[j]).length), (l.set i l[j])[j] = l[j] := by
    intro h
    by_cases h1 : i = j
    · subst h1; simp
    · simp [List.getElem_set_ne h1]
  rw [e]
  have h1 : (if l[i] == x then 1 else 0) ≤ l.count x := by
    split
    · rename_i h
      have : l[i] = x := by simpa using h
      exact List.count_pos_iff.mpr (this ▸ List.getElem_mem hi)
    · exact Nat.zero_le _
  omega


theorem frame_refl {α : Type} [Inhabited α] (l : List α) (a b : Nat) : Frame l l a b :=
  ⟨rfl, List.Perm.refl _, fun _ _ => rfl⟩

theorem frame_trans {α : Type} [Inhabited α] {l l1 l2 : List α} {a b : Nat}
    (h1 : Frame l l1 a b) (h2 : Frame l1 l2 a b) : Frame l l2 a b :=
  ⟨h2.1.trans h1.1, h2.2.1.trans h1.2.1, fun k hk => (h2.2.2 k hk).trans (h1.2.2 k hk)⟩

theorem frame_mono {α : Type} [Inhabited α] {l l1 : List α} {a b a1 b1 : Nat}
    (h : Frame l l1 a1 b1) (ha : a ≤ a1) (hb : b1 ≤ b) : Frame l l1 a b :=
  ⟨h.1, h.2.1, fun k hk => h.2.2 k (by omega)⟩

theorem frame_swap {α : Type} [Inhabited α] [DecidableEq α] (l : List α) (a b i j : Nat)
    (hb : b ≤ l.length) (hi1 : a ≤ i) (hi2 : i < b) (hj1 : a ≤ j) (hj2 : j < b) :
    Frame l (swapAt l i j) a b := by
  refine ⟨length_swapAt l i j, perm_swapAt l i j (by omega) (by omega), ?_⟩
  intro k hk
  rw [getD_swapAt l i j k (by omega) (by omega), if_neg (by omega), if_neg (by omega)]

theorem mem_seg_iff {α : Type} [Inhabited α] (l : List α) (a b : Nat) (hb : b ≤ l.length)
    (x : α) :
    x ∈ (l.take b).drop a ↔ ∃ k, a ≤ k ∧ k < b ∧ l.getD k default = x := by
  constructor
  · intro hx
    obtain ⟨k, hk, e⟩ := List.mem_iff_getElem.mp hx
    simp only [List.length_drop, List.length_take] at hk
    have hk2 : a + k < b := by omega
    refine ⟨a + k, by omega, hk2, ?_⟩
    rw [List.getD_eq_getElem _ _ (by omega)]
    rw [← e]
    simp [List.getElem_drop, List.getElem_take]
  · rintro ⟨k, hk1, hk2, e⟩
    rw [List.getD_eq_getElem _ _ (by omega)] at e
    refine List.mem_iff_getElem.mpr ⟨k - a, by simp; omega, ?_⟩
    rw [← e]
    simp only [List.getElem_drop, List.getElem_take]
    congr 1
    omega

theorem take_eq_of_getD {α : Type} [Inhabited α] (l l1 : List α) (a : Nat)
    (hlen : l1.length = l.length) (h : ∀ k, k < a → l1.getD k default = l.getD k default) :
    l1.take a = l.take a := by
  apply List.ext_getElem
  · simp [hlen]
  · intro k h1 h2
    simp only [List.length_take] at h1 h2
    have := h k (by omega)
    rw [List.getD_eq_getElem _ _ (by omega), List.getD_eq_getElem _ _ (by omega)] at this
    simpa [List.getElem_take] using this

theorem drop_eq_of_getD {α : Type} [Inhabited α] (l l1 : List α) (b : Nat)
    (hlen : l1.length = l.length) (h : ∀ k, b ≤ k → l1.getD k default = l.getD k default) :
    l1.drop b = l.drop b := by
  apply List.ext_getElem
  · simp [hlen]
  · intro k h1 h2
    simp only [List.length_drop] at h1 h2
    have := h (b + k) (by omega)
    rw [List.getD_eq_getElem _ _ (by omega), List.getD_eq_getElem _ _ (by omega)] at this
    simpa [List.getElem_drop] using this

theorem seg_split {α : Type} (l : List α) (a b : Nat) (hab : a ≤ b) :
    l = l.take a ++ ((l.take b).drop a ++ l.drop b) := by
  conv_lhs => rw [← List.take_append_drop b l]
  conv_lhs => rw [← List.take_append_drop a (l.take b)]
  rw [List.take_take, Nat.min_eq_left hab, List.append_assoc]

/-- The elements of `data[a:b]` after a framed step are those before it. -/
theorem frame_seg_perm {α : Type} [Inhabited α] {l l1 : List α} {a b : Nat}
    (h : Frame l l1 a b) (hab : a ≤ b) :
    List.Perm ((l1.take b).drop a) ((l.take b).drop a) := by
  obtain ⟨hlen, hperm, hout⟩ := h
  have e1 := take_eq_of_getD l l1 a hlen (fun k hk => hout k (Or.inl hk))
  have e2 := drop_eq_of_getD l l1 b hlen (fun k hk => hout k (Or.inr hk))
  rw [seg_split l a b hab, seg_split l1 a b hab, e1, e2] at hperm
  exact (List.perm_append_right_iff _).mp ((List.perm_append_left_iff _).mp hperm)

/-- A property of all elements of `data[a:b]` survives a framed step. -/
theorem frame_forall {α : Type} [Inhabited α] {l l1 : List α} {a b : Nat}
    (h : Frame l l1 a b) (hb : b ≤ l.length) (P : α → Prop)
    (hP : ∀ k, a ≤ k → k < b → P (l.getD k default)) :
    ∀ k, a ≤ k → k < b → P (l1.getD k default) := by
  intro k hk1 hk2
  have hab : a ≤ b := by omega
  have hm : l1.getD k default ∈ (l1.take b).drop a :=
    (mem_seg_iff l1 a b (by rw [h.1]; exact hb) _).mpr ⟨k, hk1, hk2, rfl⟩
  have hm2 := (frame_seg_perm h hab).mem_iff.mp hm
  obtain ⟨k1, h1, h2, e⟩ := (mem_seg_iff l a b hb _).mp hm2
  rw [← e]
  exact hP k1 h1 h2

/-! ## sort.Slice: the order and insertion sort -/

theorem IsStrictWeak.asymm {α : Type} {less : α → α → Bool} (hw : IsStrictWeak less)
    {x y : α} (h : less x y = true) : less y x = false := by
  cases hyx : less y x with
  | false => rfl
  | true =>
    have := hw.2.1 x y x h hyx
    rw [hw.1 x] at this
    cases this

theorem IsStrictWeak.le_trans {α : Type} {less : α → α → Bool} (hw : IsStrictWeak less)
    {x y z : α} (h1 : less y x = false) (h2 : less z y = false) : less z x = false :=
  hw.2.2 z y x h2 h1

theorem IsStrictWeak.lt_of_lt_of_le {α : Type} {less : α → α → Bool} (hw : IsStrictWeak less)
    {x y z : α} (h1 : less x y = true) (h2 : less z y = false) : less x z = true := by
  cases hxz : less x z with
  | true => rfl
  | false =>
    have := hw.2.2 x z y hxz h2
    rw [h1] at this
    cases this

theorem IsStrictWeak.lt_of_le_of_lt {α : Type} {less : α → α → Bool} (hw : IsStrictWeak less)
    {x y z : α} (h1 : less y x = false) (h2 : less y z = true) : less x z = true := by
  cases hxz : less x z with
  | true => rfl
  | false =>
    have := hw.2.2 y x z h1 hxz
    rw [h2] at this
    cases this

/-- A segment whose neighbours are in order is in ascending order. -/
theorem sortedSeg_of_adjacent {α : Type} [Inhabited α] {less : α → α → Bool}
    (hw : IsStrictWeak less) (l : List α) (a b : Nat)
    (h : ∀ k, a ≤ k → k + 1 < b → less (l.getD (k + 1) default) (l.getD k default) = false) :
    SortedSeg less l a b := by
  intro i j hai hij hjb
  obtain ⟨d, rfl⟩ : ∃ d, j = i + 1 + d := ⟨j - i - 1, by omega⟩
  induction d with
  | zero => exact h i hai hjb
  | succ d ih =>
    have h1 := ih (by omega) (by omega)
    have h2 := h (i + 1 + d) (by omega) (by omega)
    exact hw.le_trans h1 h2

theorem sortedSeg_mono {α : Type} [Inhabited α] {less : α → α → Bool} {l : List α}
    {a b a1 b1 : Nat} (h : SortedSeg less l a b) (ha : a ≤ a1) (hb : b1 ≤ b) :
    SortedSeg less l a1 b1 :=
  fun i j h1 h2 h3 => h i j (by omega) h2 (by omega)

/-- The inner loop of insertion sort moves the element at `j` down to its place. -/
theorem insertionInner_spec {α : Type} [Inhabited α] [DecidableEq α] {less : α → α → Bool}
    (hw : IsStrictWeak less) (a i : Nat) :
    ∀ (j : Nat) (l : List α), a ≤ j → j ≤ i → i < l.length →
      (∀ k, a ≤ k → k < i → k + 1 ≠ j →
        less (l.getD (k + 1) default) (l.getD k default) = false) →
      (a < j → j < i → less (l.getD (j + 1) default) (l.getD (j - 1) default) = false) →
      Frame l (insertionInner less a j l) a (i + 1) ∧
      SortedSeg less (insertionInner less a j l) a (i + 1) := by
  intro j
  induction j with
  | zero =>
    intro l ha _ hi hadj _
    have ha0 : a = 0 := by omega
    subst ha0
    refine ⟨frame_refl _ _ _, sortedSeg_of_adjacent hw l 0 (i + 1) ?_⟩
    intro k _ hk
    exact hadj k (Nat.zero_le _) (by omega) (by omega)
  | succ j ih =>
    intro l ha hji hi hadj hgap
    unfold insertionInner
    by_cases hc : j + 1 > a ∧ lessAt less l (j + 1) j
    · rw [if_pos hc]
      obtain ⟨hja, hlt⟩ := hc
      unfold lessAt at hlt
      have hsw : ∀ k, (swapAt l (j + 1) j).getD k default =
          if k = j then l.getD (j + 1) default else if k = j + 1 then l.getD j default
          else l.getD k default := fun k => getD_swapAt l (j + 1) j k (by omega) (by omega)
      have hfr : Frame l (swapAt l (j + 1) j) a (i + 1) :=
        frame_swap l a (i + 1) (j + 1) j (by omega) (by omega) (by omega) (by omega) (by omega)
      obtain ⟨f1, s1⟩ := ih (swapAt l (j + 1) j) (by omega) (by omega)
        (by rw [length_swapAt]; exact hi)
        (by
          intro k hk1 hk2 hk3
          rw [hsw (k + 1), hsw k]
          by_cases e1 : k = j
          · subst e1
            rw [if_neg (by omega), if_pos rfl, if_pos rfl]
            exact hw.asymm hlt
          · by_cases e2 : k = j + 1
            · subst e2
              rw [if_neg (by omega), if_neg (by omega), if_neg (by omega), if_pos rfl]
              exact hgap (by omega) (by omega)
            · rw [if_neg (by omega), if_neg (by omega), if_neg e1, if_neg e2]
              exact hadj k hk1 hk2 (by omega))
        (by
          intro h1 h2
          rw [hsw (j + 1), hsw (j - 1), if_neg (by omega), if_pos rfl, if_neg (by omega),
            if_neg (by omega)]
          have := hadj (j - 1) (by omega) (by omega) (by omega)
          rwa [Nat.sub_add_cancel (by omega)] at this)
      exact ⟨frame_trans hfr f1, s1⟩
    · rw [if_neg hc]
      refine ⟨frame_refl _ _ _, sortedSeg_of_adjacent hw l a (i + 1) ?_⟩
      intro k hk1 hk2
      by_cases e : k + 1 = j + 1
      · have hk : k = j := by omega
        subst hk
        have : ¬ (lessAt less l (k + 1) k = true) := fun h => hc ⟨by omega, h⟩
        unfold lessAt at this
        simpa using this
      · exact hadj k hk1 (by omega) e

theorem insertionOuter_spec {α : Type} [Inhabited α] [DecidableEq α] {less : α → α → Bool}
    (hw : IsStrictWeak less) (a b : Nat) :
    ∀ (fuel i : Nat) (l : List α), a < i → b ≤ l.length → b ≤ i + fuel →
      SortedSeg less l a i →
      Frame l (insertionOuter less a b fuel i l) a b ∧
      SortedSeg less (insertionOuter less a b fuel i l) a b := by
  intro fuel
  induction fuel with
  | zero =>
    intro i l _ _ hf hs
    exact ⟨frame_refl _ _ _, sortedSeg_mono hs (Nat.le_refl _) (by omega)⟩
  | succ fuel ih =>
    intro i l hai hb hf hs
    unfold insertionOuter
    by_cases hib : i < b
    · rw [if_pos hib]
      obtain ⟨f1, s1⟩ := insertionInner_spec hw a i i l (by omega) (Nat.le_refl _) (by omega)
        (fun k hk1 hk2 _ => hs k (k + 1) hk1 (by omega) (by omega))
        (fun _ h => absurd h (Nat.lt_irrefl _))
      obtain ⟨f2, s2⟩ := ih (i + 1) (insertionInner less a i l) (by omega)
        (by rw [f1.1]; exact hb) (by omega) s1
      exact ⟨frame_trans (frame_mono f1 (Nat.le_refl _) (by omega)) f2, s2⟩
    · rw [if_neg hib]
      exact ⟨frame_refl _ _ _, sortedSeg_mono hs (Nat.le_refl _) (by omega)⟩

/-- Insertion sort puts `data[a:b]` in ascending order and moves nothing else. -/
theorem insertionSort_spec {α : Type} [Inhabited α] [DecidableEq α] {less : α → α → Bool}
    (hw : IsStrictWeak less) (l : List α) (a b : Nat) (hb : b ≤ l.length) :
    Frame l (insertionSortLessFunc less l a b) a b ∧
    SortedSeg less (insertionSortLessFunc less l a b) a b := by
  unfold insertionSortLessFunc
  exact insertionOuter_spec hw a b (b - a) (a + 1) l (by omega) hb (by omega)
    (fun i j h1 h2 h3 => by omega)

/-! ## sort.Slice: the partition -/

theorem scanUp_spec (p : Nat → Bool) (j : Nat) :
    ∀ (fuel i : Nat), j + 1 - i ≤ fuel →
      i ≤ scanUp p j fuel i ∧ (i ≤ j + 1 → scanUp p j fuel i ≤ j + 1) ∧
      (∀ k, i ≤ k → k < scanUp p j fuel i → p k = true) ∧
      (scanUp p j fuel i ≤ j → p (scanUp p j fuel i) = false) := by
  intro fuel
  induction fuel with
  | zero =>
    intro i hf
    unfold scanUp
    exact ⟨Nat.le_refl _, fun h => h, fun k h1 h2 => by omega, fun h => by omega⟩
  | succ fuel ih =>
    intro i hf
    unfold scanUp
    by_cases hc : i ≤ j ∧ p i = true
    · rw [if_pos hc]
      obtain ⟨h1, h2, h3, h4⟩ := ih (i + 1) (by omega)
      refine ⟨by omega, fun _ => h2 (by omega), ?_, h4⟩
      intro k hk1 hk2
      by_cases e : k = i
      · subst e; exact hc.2
      · exact h3 k (by omega) hk2
    · rw [if_neg hc]
      refine ⟨Nat.le_refl _, fun h => h, fun k h1 h2 => by omega, ?_⟩
      intro h
      cases hp : p i with
      | false => rfl
      | true => exact absurd ⟨h, hp⟩ hc

theorem scanDown_spec (p : Nat → Bool) (i : Nat) (hi : 1 ≤ i) :
    ∀ (j : Nat),
      scanDown p i j ≤ j ∧ (i ≤ j + 1 → i ≤ scanDown p i j + 1) ∧
      (∀ k, scanDown p i j < k → k ≤ j → p k = true) ∧
      (i ≤ scanDown p i j → p (scanDown p i j) = false) := by
  intro j
  induction j with
  | zero =>
    unfold scanDown
    exact ⟨Nat.le_refl _, fun h => h, fun k h1 h2 => by omega, fun h => by omega⟩
  | succ j ih =>
    unfold scanDown
    by_cases hc : i ≤ j + 1 ∧ p (j + 1) = true
    · rw [if_pos hc]
      obtain ⟨h1, h2, h3, h4⟩ := ih
      refine ⟨by omega, fun _ => h2 hc.1, ?_, h4⟩
      intro k hk1 hk2
      by_cases e : k = j + 1
      · subst e; exact hc.2
      · exact h3 k hk1 (by omega)
    · rw [if_neg hc]
      refine ⟨Nat.le_refl _, fun h => h, fun k h1 h2 => by omega, ?_⟩
      intro h
      cases hp : p (j + 1) with
      | false => rfl
      | true => exact absurd ⟨h, hp⟩ hc

/-- The main loop of the partition: on leaving, everything in `(a, j]` is less than the
pivot at `a` and nothing in `(j, b)` is. -/
theorem partitionLoop_spec {α : Type} [Inhabited α] [DecidableEq α] (less : α → α → Bool)
    (a b : Nat) (P : α) :
    ∀ (fuel : Nat) (l : List α) (i j : Nat), a < i → j < b → b ≤ l.length → i ≤ j + 1 →
      j + 1 - i < fuel → l.getD a default = P →
      (∀ k, a < k → k < i → less (l.getD k default) P = true) →
      (∀ k, j < k → k < b → less (l.getD k default) P = false) →
      Frame l (partitionLoop less a fuel l i j).1 (a + 1) b ∧
      a ≤ (partitionLoop less a fuel l i j).2.2 ∧
      (partitionLoop less a fuel l i j).2.2 < b ∧
      (∀ k, a < k → k ≤ (partitionLoop less a fuel l i j).2.2 →
        less ((partitionLoop less a fuel l i j).1.getD k default) P = true) ∧
      (∀ k, (partitionLoop less a fuel l i j).2.2 < k → k < b →
        less ((partitionLoop less a fuel l i j).1.getD k default) P = false) := by
  intro fuel
  induction fuel with
  | zero => intro l i j _ _ _ _ hf; omega
  | succ fuel ih =>
    intro l i j hai hjb hb hij hf hP hlo hhi
    unfold partitionLoop
    dsimp only
    obtain ⟨u1, u2, u3, u4⟩ := scanUp_spec (fun k => lessAt less l k a) j (j + 1 - i) i
      (Nat.le_refl _)
    generalize scanUp (fun k => lessAt less l k a) j (j + 1 - i) i = i1 at u1 u2 u3 u4 ⊢
    have u2 := u2 hij
    obtain ⟨d1, d2, d3, d4⟩ := scanDown_spec (fun k => !lessAt less l k a) i1 (by omega) j
    generalize scanDown (fun k => !lessAt less l k a) i1 j = j1 at d1 d2 d3 d4 ⊢
    have d2 := d2 u2
    have hlo1 : ∀ k, a < k → k < i1 → less (l.getD k default) P = true := by
      intro k hk1 hk2
      by_cases e : k < i
      · exact hlo k hk1 e
      · have := u3 k (by omega) hk2
        unfold lessAt at this
        rwa [hP] at this
    have hhi1 : ∀ k, j1 < k → k < b → less (l.getD k default) P = false := by
      intro k hk1 hk2
      by_cases e : j < k
      · exact hhi k e hk2
      · have := d3 k hk1 (by omega)
        simp only [Bool.not_eq_true'] at this
        unfold lessAt at this
        rwa [hP] at this
    by_cases hc : i1 > j1
    · rw [if_pos hc]
      dsimp only
      refine ⟨frame_refl _ _ _, by omega, by omega, ?_, hhi1⟩
      intro k hk1 hk2
      exact hlo1 k hk1 (by omega)
    · rw [if_neg hc]
      have hi1 : less (l.getD i1 default) P = false := by
        have := u4 (by omega)
        unfold lessAt at this
        rwa [hP] at this
      have hj1 : less (l.getD j1 default) P = true := by
        have := d4 (by omega)
        simp only [Bool.not_eq_false'] at this
        unfold lessAt at this
        rwa [hP] at this
      have hne : i1 ≠ j1 := by
        intro e
        rw [e, hj1] at hi1
        cases hi1
      have hsw : ∀ k, (swapAt l i1 j1).getD k default =
          if k = j1 then l.getD i1 default else if k = i1 then l.getD j1 default
          else l.getD k default := fun k => getD_swapAt l i1 j1 k (by omega) (by omega)
      have hfr : Frame l (swapAt l i1 j1) (a + 1) b :=
        frame_swap l (a + 1) b i1 j1 hb (by omega) (by omega) (by omega) (by omega)
      obtain ⟨f, r1, r2, r3, r4⟩ := ih (swapAt l i1 j1) (i1 + 1) (j1 - 1) (by omega) (by omega)
        (by rw [length_swapAt]; exact hb) (by omega) (by omega)
        (by rw [hsw a, if_neg (by omega), if_neg (by omega)]; exact hP)
        (by
          intro k hk1 hk2
          rw [hsw k, if_neg (by omega)]
          by_cases e : k = i1
          · rw [if_pos e]; exact hj1
          · rw [if_neg e]; exact hlo1 k hk1 (by omega))
        (by
          intro k hk1 hk2
          rw [hsw k]
          by_cases e : k = j1
          · rw [if_pos e]; exact hi1
          · rw [if_neg e, if_neg (by omega)]; exact hhi1 k (by omega) hk2)
      exact ⟨frame_trans hfr f, r1, r2, r3, r4⟩

theorem partitionLessFunc_eq {α : Type} [Inhabited α] (less : α → α → Bool)
    (l : List α) (a b pivot : Nat) :
    (partitionLessFunc less l a b pivot).1
      = swapAt (partitionLoop less a (b - a + 1) (swapAt l a pivot) (a + 1) (b - 1)).1
          (partitionLoop less a (b - a + 1) (swapAt l a pivot) (a + 1) (b - 1)).2.2 a ∧
    (partitionLessFunc less l a b pivot).2.1
      = (partitionLoop less a (b - a + 1) (swapAt l a pivot) (a + 1) (b - 1)).2.2 := by
  have step : ∀ (fuel : Nat) (l1 : List α) (i j : Nat),
      partitionLoop less a (fuel + 1) l1 i j =
        if scanUp (fun k => lessAt less l1 k a) j (j + 1 - i) i >
            scanDown (fun k => !lessAt less l1 k a)
              (scanUp (fun k => lessAt less l1 k a) j (j + 1 - i) i) j then
          (l1, scanUp (fun k => lessAt less l1 k a) j (j + 1 - i) i,
            scanDown (fun k => !lessAt less l1 k a)
              (scanUp (fun k => lessAt less l1 k a) j (j + 1 - i) i) j)
        else
          partitionLoop less a fuel
            (swapAt l1 (scanUp (fun k => lessAt less l1 k a) j (j + 1 - i) i)
              (scanDown (fun k => !lessAt less l1 k a)
                (scanUp (fun k => lessAt less l1 k a) j (j + 1 - i) i) j))
            (scanUp (fun k => lessAt less l1 k a) j (j + 1 - i) i + 1)
            (scanDown (fun k => !lessAt less l1 k a)
              (scanUp (fun k => lessAt less l1 k a) j (j + 1 - i) i) j - 1) := by
    intro fuel l1 i j
    rfl
  rw [step]
  unfold partitionLessFunc
  dsimp only
  split <;> exact ⟨rfl, rfl⟩

/-- The function `partitionLessFunc` on `data[a:b]` with the pivot at `pivot`: the pivot value
ends at the returned index, everything before it in the segment is less than the pivot and
nothing after it is. -/
theorem partition_spec {α : Type} [Inhabited α] [DecidableEq α] (less : α → α → Bool)
    (l : List α) (a b pivot : Nat) (hp1 : a ≤ pivot) (hp2 : pivot < b) (hb : b ≤ l.length) :
    Frame l (partitionLessFunc less l a b pivot).1 a b ∧
    a ≤ (partitionLessFunc less l a b pivot).2.1 ∧
    (partitionLessFunc less l a b pivot).2.1 < b ∧
    (partitionLessFunc less l a b pivot).1.getD (partitionLessFunc less l a b pivot).2.1 default
      = l.getD pivot default ∧
    (∀ k, a ≤ k → k < (partitionLessFunc less l a b pivot).2.1 →
      less ((partitionLessFunc less l a b pivot).1.getD k default) (l.getD pivot default)
        = true) ∧
    (∀ k, (partitionLessFunc less l a b pivot).2.1 < k → k < b →
      less ((partitionLessFunc less l a b pivot).1.getD k default) (l.getD pivot default)
        = false) := by
  have hsw0 : ∀ k, (swapAt l a pivot).getD k default =
      if k = pivot then l.getD a default else if k = a then l.getD pivot default
      else l.getD k default := fun k => getD_swapAt l a pivot k (by omega) (by omega)
  have hP : (swapAt l a pivot).getD a default = l.getD pivot default := by
    rw [hsw0 a]
    by_cases e : a = pivot
    · rw [if_pos e, e]
    · rw [if_neg e, if_pos rfl]
  have hf0 : Frame l (swapAt l a pivot) a b :=
    frame_swap l a b a pivot hb (Nat.le_refl _) (by omega) hp1 hp2
  have hb1 : b ≤ (swapAt l a pivot).length := by rw [length_swapAt]; exact hb
  obtain ⟨f, r1, r2, r3, r4⟩ := partitionLoop_spec less a b (l.getD pivot default)
    (b - a + 1) (swapAt l a pivot) (a + 1) (b - 1) (by omega) (by omega) hb1 (by omega)
    (by omega) hP (fun k h1 h2 => by omega) (fun k h1 h2 => by omega)
  obtain ⟨e1, e2⟩ := partitionLessFunc_eq less l a b pivot
  rw [e1, e2]
  generalize (partitionLoop less a (b - a + 1) (swapAt l a pivot) (a + 1) (b - 1)).1 = l2
    at f r3 r4 ⊢
  generalize (partitionLoop less a (b - a + 1) (swapAt l a pivot) (a + 1) (b - 1)).2.2 = j2
    at r1 r2 r3 r4 ⊢
  have hl2 : b ≤ l2.length := by rw [f.1]; exact hb1
  have ha2 : l2.getD a default = l.getD pivot default := by
    rw [f.2.2 a (Or.inl (Nat.lt_succ_self a))]; exact hP
  have hsw : ∀ k, (swapAt l2 j2 a).getD k default =
      if k = a then l2.getD j2 default else if k = j2 then l2.getD a default
      else l2.getD k default := fun k => getD_swapAt l2 j2 a k (by omega) (by omega)
  refine ⟨?_, r1, r2, ?_, ?_, ?_⟩
  · exact frame_trans (frame_trans hf0 (frame_mono f (Nat.le_succ a) (Nat.le_refl b)))
      (frame_swap l2 a b j2 a hl2 r1 r2 (Nat.le_refl _) (by omega))
  · rw [hsw j2]
    by_cases e : j2 = a
    · rw [if_pos e, e]; exact ha2
    · rw [if_neg e, if_pos rfl]; exact ha2
  · intro k hk1 hk2
    rw [hsw k]
    by_cases e : k = a
    · rw [if_pos e]
      exact r3 j2 (by omega) (Nat.le_refl _)
    · rw [if_neg e, if_neg (by omega)]
      exact r3 k (by omega) (by omega)
  · intro k hk1 hk2
    rw [hsw k, if_neg (by omega), if_neg (by omega)]
    exact r4 k hk1 hk2

/-- The loop of `partitionEqualLessFunc`: on leaving at `i`, the pivot at `a` is less than
nothing in `(a, i)` and less than everything in `[i, b)`. -/
theorem partitionEqualLoop_spec {α : Type} [Inhabited α] [DecidableEq α] (less : α → α → Bool)
    (a b : Nat) (P : α) :
    ∀ (fuel : Nat) (l : List α) (i j : Nat), a < i → j < b → b ≤ l.length → i ≤ j + 1 →
      j + 1 - i < fuel → l.getD a default = P →
      (∀ k, a < k → k < i → less P (l.getD k default) = false) →
      (∀ k, j < k → k < b → less P (l.getD k default) = true) →
      Frame l (partitionEqualLoop less a fuel l i j).1 (a + 1) b ∧
      a < (partitionEqualLoop less a fuel l i j).2 ∧
      (partitionEqualLoop less a fuel l i j).2 ≤ b ∧
      (∀ k, a < k → k < (partitionEqualLoop less a fuel l i j).2 →
        less P ((partitionEqualLoop less a fuel l i j).1.getD k default) = false) ∧
      (∀ k, (partitionEqualLoop less a fuel l i j).2 ≤ k → k < b →
        less P ((partitionEqualLoop less a fuel l i j).1.getD k default) = true) := by
  intro fuel
  induction fuel with
  | zero => intro l i j _ _ _ _ hf; omega
  | succ fuel ih =>
    intro l i j hai hjb hb hij hf hP hlo hhi
    unfold partitionEqualLoop
    dsimp only
    obtain ⟨u1, u2, u3, u4⟩ := scanUp_spec (fun k => !lessAt less l a k) j (j + 1 - i) i
      (Nat.le_refl _)
    generalize scanUp (fun k => !lessAt less l a k) j (j + 1 - i) i = i1 at u1 u2 u3 u4 ⊢
    have u2 := u2 hij
    obtain ⟨d1, d2, d3, d4⟩ := scanDown_spec (fun k => lessAt less l a k) i1 (by omega) j
    generalize scanDown (fun k => lessAt less l a k) i1 j = j1 at d1 d2 d3 d4 ⊢
    have d2 := d2 u2
    have hlo1 : ∀ k, a < k → k < i1 → less P (l.getD k default) = false := by
      intro k hk1 hk2
      by_cases e : k < i
      · exact hlo k hk1 e
      · have := u3 k (by omega) hk2
        simp only [Bool.not_eq_true'] at this
        unfold lessAt at this
        rwa [hP] at this
    have hhi1 : ∀ k, j1 < k → k < b → less P (l.getD k default) = true := by
      intro k hk1 hk2
      by_cases e : j < k
      · exact hhi k e hk2
      · have := d3 k hk1 (by omega)
        unfold lessAt at this
        rwa [hP] at this
    by_cases hc : i1 > j1
    · rw [if_pos hc]
      dsimp only
      refine ⟨frame_refl _ _ _, by omega, by omega, hlo1, ?_⟩
      intro k hk1 hk2
      exact hhi1 k (by omega) hk2
    · rw [if_neg hc]
      have hi1 : less P (l.getD i1 default) = true := by
        have := u4 (by omega)
        simp only [Bool.not_eq_false'] at this
        unfold lessAt at this
        rwa [hP] at this
      have hj1 : less P (l.getD j1 default) = false := by
        have := d4 (by omega)
        unfold lessAt at this
        rwa [hP] at this
      have hne : i1 ≠ j1 := by
        intro e
        rw [e, hj1] at hi1
        cases hi1
      have hsw : ∀ k, (swapAt l i1 j1).getD k default =
          if k = j1 then l.getD i1 default else if k = i1 then l.getD j1 default
          else l.getD k default := fun k => getD_swapAt l i1 j1 k (by omega) (by omega)
      have hfr : Frame l (swapAt l i1 j1) (a + 1) b :=
        frame_swap l (a + 1) b i1 j1 hb (by omega) (by omega) (by omega) (by omega)
      obtain ⟨f, r1, r2, r3, r4⟩ := ih (swapAt l i1 j1) (i1 + 1) (j1 - 1) (by omega) (by omega)
        (by rw [length_swapAt]; exact hb) (by omega) (by omega)
        (by rw [hsw a, if_neg (by omega), if_neg (by omega)]; exact hP)
        (by
          intro k hk1 hk2
          rw [hsw k, if_neg (by omega)]
          by_cases e : k = i1
          · rw [if_pos e]; exact hj1
          · rw [if_neg e]; exact hlo1 k hk1 (by omega))
        (by
          intro k hk1 hk2
          rw [hsw k]
          by_cases e : k = j1
          · rw [if_pos e]; exact hi1
          · rw [if_neg e, if_neg (by omega)]; exact hhi1 k (by omega) hk2)
      exact ⟨frame_trans hfr f, r1, r2, r3, r4⟩

/-- The function `partitionEqualLessFunc` on `data[a:b]`: the pivot is less than nothing in
`[a, mid)` and less than everything in `[mid, b)`, and `mid > a`. -/
theorem partitionEqual_spec {α : Type} [Inhabited α] [DecidableEq α] {less : α → α → Bool}
    (hw : IsStrictWeak less) (l : List α) (a b pivot : Nat) (hp1 : a ≤ pivot) (hp2 : pivot < b)
    (hb : b ≤ l.length) :
    Frame l (partitionEqualLessFunc less l a b pivot).1 a b ∧
    a < (partitionEqualLessFunc less l a b pivot).2 ∧
    (partitionEqualLessFunc less l a b pivot).2 ≤ b ∧
    (∀ k, a ≤ k → k < (partitionEqualLessFunc less l a b pivot).2 →
      less (l.getD pivot default) ((partitionEqualLessFunc less l a b pivot).1.getD k default)
        = false) ∧
    (∀ k, (partitionEqualLessFunc less l a b pivot).2 ≤ k → k < b →
      less (l.getD pivot default) ((partitionEqualLessFunc less l a b pivot).1.getD k default)
        = true) := by
  have hsw0 : ∀ k, (swapAt l a pivot).getD k default =
      if k = pivot then l.getD a default else if k = a then l.getD pivot default
      else l.getD k default := fun k => getD_swapAt l a pivot k (by omega) (by omega)
  have hP : (swapAt l a pivot).getD a default = l.getD pivot default := by
    rw [hsw0 a]
    by_cases e : a = pivot
    · rw [if_pos e, e]
    · rw [if_neg e, if_pos rfl]
  have hf0 : Frame l (swapAt l a pivot) a b :=
    frame_swap l a b a pivot hb (Nat.le_refl _) (by omega) hp1 hp2
  have hb1 : b ≤ (swapAt l a pivot).length := by rw [length_swapAt]; exact hb
  obtain ⟨f, r1, r2, r3, r4⟩ := partitionEqualLoop_spec less a b (l.getD pivot default)
    (b - a) (swapAt l a pivot) (a + 1) (b - 1) (by omega) (by omega) hb1 (by omega)
    (by omega) hP (fun k h1 h2 => by omega) (fun k h1 h2 => by omega)
  unfold partitionEqualLessFunc
  refine ⟨frame_trans hf0 (frame_mono f (Nat.le_succ a) (Nat.le_refl b)), r1, r2, ?_, r4⟩
  intro k hk1 hk2
  by_cases e : k = a
  · subst e
    rw [f.2.2 k (Or.inl (Nat.lt_succ_self k)), hP]
    exact hw.1 _
  · exact r3 k (by omega) hk2

/-! ## sort.Slice: the steps that only rearrange -/

theorem reverseRangeLoop_frame {α : Type} [Inhabited α] [DecidableEq α] (a b : Nat) :
    ∀ (fuel i j : Nat) (l : List α), a ≤ i → j < b → b ≤ l.length →
      Frame l (reverseRangeLoop fuel i j l) a b := by
  intro fuel
  induction fuel with
  | zero => intro i j l _ _ _; exact frame_refl _ _ _
  | succ fuel ih =>
    intro i j l hi hj hb
    unfold reverseRangeLoop
    by_cases hc : i < j
    · rw [if_pos hc]
      exact frame_trans (frame_swap l a b i j hb hi (by omega) (by omega) hj)
        (ih (i + 1) (j - 1) _ (by omega) (by omega) (by rw [length_swapAt]; exact hb))
    · rw [if_neg hc]
      exact frame_refl _ _ _

theorem reverseRange_frame {α : Type} [Inhabited α] [DecidableEq α] (l : List α) (a b : Nat)
    (hab : a < b) (hb : b ≤ l.length) : Frame l (reverseRangeLessFunc l a b) a b :=
  reverseRangeLoop_frame a b (b - a) a (b - 1) l (Nat.le_refl _) (by omega) hb

theorem bitsLenLoop_bound : ∀ (fuel x : Nat), x ≤ fuel → 1 ≤ x →
    2 ^ bitsLenLoop fuel x ≤ 2 * x := by
  intro fuel
  induction fuel with
  | zero => intro x h1 h2; omega
  | succ fuel ih =>
    intro x h1 h2
    unfold bitsLenLoop
    rw [if_neg (by omega)]
    by_cases hx : x / 2 = 0
    · have : bitsLenLoop fuel (x / 2) = 0 := by
        rw [hx]
        cases fuel <;> simp [bitsLenLoop]
      rw [this]
      omega
    · have := ih (x / 2) (by omega) (by omega)
      rw [Nat.pow_succ]
      omega

theorem breakPatternsLoop_frame {α : Type} [Inhabited α] [DecidableEq α] (next : Nat → Nat)
    (a b length modulus idx : Nat) (hlen : a + length = b) (hmod : modulus ≤ 2 * length)
    (hmod1 : 1 ≤ modulus) (h1 : a + 1 ≤ idx) (h2 : idx + 1 < b) :
    ∀ (n i random : Nat) (l : List α), i + n ≤ 3 → b ≤ l.length →
      Frame l (breakPatternsLoop next a length modulus idx n i random l) a b := by
  intro n
  induction n with
  | zero => intro i random l _ _; exact frame_refl _ _ _
  | succ n ih =>
    intro i random l hin hb
    unfold breakPatternsLoop
    dsimp only
    have hand : next random &&& (modulus - 1) ≤ modulus - 1 := Nat.and_le_right
    refine frame_trans (frame_swap l a b _ _ hb (by omega) (by omega) (by omega) ?_)
      (ih (i + 1) _ _ (by omega) (by rw [length_swapAt]; exact hb))
    split <;> omega

theorem breakPatterns_frame {α : Type} [Inhabited α] [DecidableEq α] (next : Nat → Nat)
    (l : List α) (a b : Nat) (hab : a ≤ b) (hb : b ≤ l.length) :
    Frame l (breakPatternsLessFunc next l a b) a b := by
  unfold breakPatternsLessFunc
  dsimp only
  by_cases hc : b - a ≥ 8
  · rw [if_pos hc]
    have hm := bitsLenLoop_bound (b - a) (b - a) (Nat.le_refl _) (by omega)
    exact breakPatternsLoop_frame next a b (b - a) (2 ^ bitsLen (b - a)) (a + (b - a) / 4 * 2 - 1)
      (by omega) hm (Nat.one_le_two_pow) (by omega) (by omega) 3 0 (b - a) l (by omega) hb
  · rw [if_neg hc]
    exact frame_refl _ _ _

theorem order2_mem {α : Type} [Inhabited α] (less : α → α → Bool) (l : List α)
    (x y s : Nat) :
    ((order2LessFunc less l x y s).1 = x ∧ (order2LessFunc less l x y s).2.1 = y) ∨
    ((order2LessFunc less l x y s).1 = y ∧ (order2LessFunc less l x y s).2.1 = x) := by
  unfold order2LessFunc
  split
  · exact Or.inr ⟨rfl, rfl⟩
  · exact Or.inl ⟨rfl, rfl⟩

theorem median_mem {α : Type} [Inhabited α] (less : α → α → Bool) (l : List α)
    (x y z s : Nat) :
    (medianLessFunc less l x y z s).1 = x ∨ (medianLessFunc less l x y z s).1 = y ∨
      (medianLessFunc less l x y z s).1 = z := by
  unfold medianLessFunc
  dsimp only
  have o1 := order2_mem less l x y s
  generalize order2LessFunc less l x y s = r1 at o1 ⊢
  have o2 := order2_mem less l r1.2.1 z r1.2.2
  generalize order2LessFunc less l r1.2.1 z r1.2.2 = r2 at o2 ⊢
  have o3 := order2_mem less l r1.1 r2.1 r2.2.2
  generalize order2LessFunc less l r1.1 r2.1 r2.2.2 = r3 at o3 ⊢
  rcases o1 with ⟨a1, a2⟩ | ⟨a1, a2⟩ <;> rcases o2 with ⟨b1, b2⟩ | ⟨b1, b2⟩ <;>
    rcases o3 with ⟨c1, c2⟩ | ⟨c1, c2⟩ <;> simp_all

/-- The index `choosePivotLessFunc` returns lies in the segment. -/
theorem choosePivot_bounds {α : Type} [Inhabited α] (less : α → α → Bool) (l : List α)
    (a b : Nat) (hlen : 8 ≤ b - a) :
    a ≤ (choosePivotLessFunc less l a b).1 ∧ (choosePivotLessFunc less l a b).1 < b := by
  have key : ∀ (r : Nat × Nat), (a ≤ r.1 ∧ r.1 < b) →
      a ≤ (if r.2 = 0 then (r.1, SortedHint.increasingHint)
        else if r.2 = 12 then (r.1, SortedHint.decreasingHint)
        else (r.1, SortedHint.unknownHint)).1 ∧
      (if r.2 = 0 then (r.1, SortedHint.increasingHint)
        else if r.2 = 12 then (r.1, SortedHint.decreasingHint)
        else (r.1, SortedHint.unknownHint)).1 < b := by
    intro r hr
    split
    · exact hr
    · split <;> exact hr
  unfold choosePivotLessFunc
  dsimp only
  rw [if_pos hlen]
  by_cases h50 : b - a ≥ 50
  · rw [if_pos h50]
    apply key
    unfold medianAdjacentLessFunc
    have m1 := median_mem less l (a + (b - a) / 4 * 1 - 1) (a + (b - a) / 4 * 1)
      (a + (b - a) / 4 * 1 + 1) 0
    generalize medianLessFunc less l (a + (b - a) / 4 * 1 - 1) (a + (b - a) / 4 * 1)
      (a + (b - a) / 4 * 1 + 1) 0 = r1 at m1 ⊢
    have m2 := median_mem less l (a + (b - a) / 4 * 2 - 1) (a + (b - a) / 4 * 2)
      (a + (b - a) / 4 * 2 + 1) r1.2
    generalize medianLessFunc less l (a + (b - a) / 4 * 2 - 1) (a + (b - a) / 4 * 2)
      (a + (b - a) / 4 * 2 + 1) r1.2 = r2 at m2 ⊢
    have m3 := median_mem less l (a + (b - a) / 4 * 3 - 1) (a + (b - a) / 4 * 3)
      (a + (b - a) / 4 * 3 + 1) r2.2
    generalize medianLessFunc less l (a + (b - a) / 4 * 3 - 1) (a + (b - a) / 4 * 3)
      (a + (b - a) / 4 * 3 + 1) r2.2 = r3 at m3 ⊢
    have m4 := median_mem less l r1.1 r2.1 r3.1 r3.2
    generalize medianLessFunc less l r1.1 r2.1 r3.1 r3.2 = r4 at m4 ⊢
    omega
  · rw [if_neg h50]
    apply key
    have m := median_mem less l (a + (b - a) / 4 * 1) (a + (b - a) / 4 * 2)
      (a + (b - a) / 4 * 3) 0
    generalize medianLessFunc less l (a + (b - a) / 4 * 1) (a + (b - a) / 4 * 2)
      (a + (b - a) / 4 * 3) 0 = r at m ⊢
    omega

/-! ## sort.Slice: the partial insertion sort -/

theorem scanSorted_spec {α : Type} [Inhabited α] (less : α → α → Bool) (l : List α) (b : Nat) :
    ∀ (fuel i : Nat), b - i ≤ fuel →
      i ≤ scanSorted less l b fuel i ∧ (i ≤ b → scanSorted less l b fuel i ≤ b) ∧
      (∀ k, i ≤ k → k < scanSorted less l b fuel i →
        less (l.getD k default) (l.getD (k - 1) default) = false) ∧
      (scanSorted less l b fuel i < b →
        less (l.getD (scanSorted less l b fuel i) default)
          (l.getD (scanSorted less l b fuel i - 1) default) = true) := by
  intro fuel
  induction fuel with
  | zero =>
    intro i hf
    unfold scanSorted
    exact ⟨Nat.le_refl _, fun h => h, fun k h1 h2 => by omega, fun h => by omega⟩
  | succ fuel ih =>
    intro i hf
    unfold scanSorted
    by_cases hc : i < b ∧ (!lessAt less l i (i - 1)) = true
    · rw [if_pos hc]
      obtain ⟨h1, h2, h3, h4⟩ := ih (i + 1) (by omega)
      refine ⟨by omega, fun _ => h2 (by omega), ?_, h4⟩
      intro k hk1 hk2
      by_cases e : k = i
      · subst e
        have := hc.2
        simp only [Bool.not_eq_true'] at this
        exact this
      · exact h3 k (by omega) hk2
    · rw [if_neg hc]
      refine ⟨Nat.le_refl _, fun h => h, fun k h1 h2 => by omega, ?_⟩
      intro h
      cases hp : less (l.getD i default) (l.getD (i - 1) default) with
      | true => rfl
      | false =>
        exfalso
        apply hc
        refine ⟨h, ?_⟩
        unfold lessAt
        rw [hp]
        rfl

/-- Below an element that is not less than `data[a-1]`, the shift to the left of
`partialInsertionSortLessFunc` stops at `a`, as the inner loop of insertion sort does. -/
theorem shiftLeft_eq {α : Type} [Inhabited α] (less : α → α → Bool) (a : Nat) :
    ∀ (j : Nat) (l : List α), a ≤ j → j < l.length →
      (0 < a → less (l.getD j default) (l.getD (a - 1) default) = false) →
      shiftLeft less j l = insertionInner less a j l := by
  intro j
  induction j with
  | zero => intro l _ _ _; rfl
  | succ j ih =>
    intro l ha hj hlow
    unfold shiftLeft insertionInner
    by_cases hja : j + 1 > a
    · by_cases hlt : lessAt less l (j + 1) j = true
      · rw [if_neg (by simp [hlt]), if_pos ⟨hja, hlt⟩]
        apply ih _ (by omega) (by rw [length_swapAt]; omega)
        intro h0
        rw [getD_swapAt l (j + 1) j j (by omega) (by omega), if_pos rfl,
          getD_swapAt l (j + 1) j (a - 1) (by omega) (by omega), if_neg (by omega),
          if_neg (by omega)]
        exact hlow h0
      · rw [if_pos (by simp [hlt]), if_neg (fun h => hlt h.2)]
    · have e : a = j + 1 := by omega
      have h0 := hlow (by omega)
      rw [e, Nat.add_sub_cancel] at h0
      have hlt : lessAt less l (j + 1) j = false := h0
      rw [if_pos (by simp [hlt]), if_neg (fun h => hja h.1)]

theorem shiftRight_frame {α : Type} [Inhabited α] [DecidableEq α] (less : α → α → Bool)
    (lo b : Nat) :
    ∀ (fuel j : Nat) (l : List α), lo < j → b ≤ l.length →
      Frame l (shiftRight less b fuel j l) lo b := by
  intro fuel
  induction fuel with
  | zero => intro j l _ _; exact frame_refl _ _ _
  | succ fuel ih =>
    intro j l hj hb
    unfold shiftRight
    by_cases hjb : j < b
    · rw [if_pos hjb]
      split
      · exact frame_refl _ _ _
      · exact frame_trans (frame_swap l lo b j (j - 1) hb (by omega) hjb (by omega) (by omega))
          (ih (j + 1) _ (by omega) (by rw [length_swapAt]; exact hb))
    · rw [if_neg hjb]
      exact frame_refl _ _ _

/-- The steps of `partialInsertionSortLessFunc` keep `data[a:i]` in order; when the scan
reaches `b` the whole segment is in order. -/
theorem partialInsertionLoop_spec {α : Type} [Inhabited α] [DecidableEq α]
    {less : α → α → Bool} (hw : IsStrictWeak less) (a b : Nat) :
    ∀ (steps : Nat) (l : List α) (i : Nat), a < i → i ≤ b → b ≤ l.length →
      (0 < a → ∀ k, a ≤ k → k < b →
        less (l.getD k default) (l.getD (a - 1) default) = false) →
      SortedSeg less l a i →
      Frame l (partialInsertionLoop less a b steps l i).1 a b ∧
      ((partialInsertionLoop less a b steps l i).2 = true →
        SortedSeg less (partialInsertionLoop less a b steps l i).1 a b) := by
  intro steps
  induction steps with
  | zero =>
    intro l i _ _ _ _ _
    exact ⟨frame_refl _ _ _, fun h => by cases h⟩
  | succ steps ih =>
    intro l i hai hib hb hlow hs
    unfold partialInsertionLoop
    dsimp only
    obtain ⟨u1, u2, u3, u4⟩ := scanSorted_spec less l b (b - i) i (Nat.le_refl _)
    generalize scanSorted less l b (b - i) i = i1 at u1 u2 u3 u4 ⊢
    have u2 := u2 hib
    have hs1 : SortedSeg less l a i1 := by
      apply sortedSeg_of_adjacent hw
      intro k hk1 hk2
      by_cases e : k + 1 < i
      · exact hs k (k + 1) hk1 (by omega) e
      · have := u3 (k + 1) (by omega) hk2
        rwa [Nat.add_sub_cancel] at this
    by_cases hc : i1 = b
    · rw [if_pos hc]
      exact ⟨frame_refl _ _ _, fun _ => hc ▸ hs1⟩
    · rw [if_neg hc]
      by_cases h50 : b - a < 50
      · rw [if_pos h50]
        exact ⟨frame_refl _ _ _, fun h => by cases h⟩
      · rw [if_neg h50]
        have hi1 : i1 < b := by omega
        have hlt := u4 hi1
        have hsw : ∀ k, (swapAt l i1 (i1 - 1)).getD k default =
            if k = i1 - 1 then l.getD i1 default else if k = i1 then l.getD (i1 - 1) default
            else l.getD k default :=
          fun k => getD_swapAt l i1 (i1 - 1) k (by omega) (by omega)
        have f1 : Frame l (swapAt l i1 (i1 - 1)) a b :=
          frame_swap l a b i1 (i1 - 1) hb (by omega) hi1 (by omega) (by omega)
        -- the shift to the left
        have hleft : Frame (swapAt l i1 (i1 - 1))
              (if i1 - a ≥ 2 then shiftLeft less (i1 - 1) (swapAt l i1 (i1 - 1))
                else swapAt l i1 (i1 - 1)) a i1 ∧
            SortedSeg less
              (if i1 - a ≥ 2 then shiftLeft less (i1 - 1) (swapAt l i1 (i1 - 1))
                else swapAt l i1 (i1 - 1)) a i1 := by
          by_cases h2 : i1 - a ≥ 2
          · rw [if_pos h2]
            rw [shiftLeft_eq less a (i1 - 1) _ (by omega) (by rw [length_swapAt]; omega) (by
              intro h0
              rw [hsw (i1 - 1), if_pos rfl, hsw (a - 1), if_neg (by omega), if_neg (by omega)]
              exact hlow h0 i1 (by omega) hi1)]
            have := insertionInner_spec hw a (i1 - 1) (i1 - 1) (swapAt l i1 (i1 - 1)) (by omega)
              (Nat.le_refl _) (by rw [length_swapAt]; omega)
              (by
                intro k hk1 hk2 hk3
                rw [hsw (k + 1), hsw k, if_neg (by omega), if_neg (by omega), if_neg (by omega),
                  if_neg (by omega)]
                exact hs1 k (k + 1) hk1 (by omega) (by omega))
              (fun _ h => absurd h (Nat.lt_irrefl _))
            rw [Nat.sub_add_cancel (by omega)] at this
            exact this
          · rw [if_neg h2]
            exact ⟨frame_refl _ _ _, fun p q h1 h2 h3 => by omega⟩
        generalize (if i1 - a ≥ 2 then shiftLeft less (i1 - 1) (swapAt l i1 (i1 - 1))
                else swapAt l i1 (i1 - 1)) = l2 at hleft ⊢
        obtain ⟨f2, s2⟩ := hleft
        have hb2 : b ≤ l2.length := by rw [f2.1, length_swapAt]; exact hb
        have f3 : Frame l2 (if b - i1 ≥ 2 then shiftRight less b (b - i1) (i1 + 1) l2 else l2)
            i1 b := by
          split
          · exact shiftRight_frame less i1 b (b - i1) (i1 + 1) l2 (by omega) hb2
          · exact frame_refl _ _ _
        generalize (if b - i1 ≥ 2 then shiftRight less b (b - i1) (i1 + 1) l2 else l2) = l3
          at f3 ⊢
        have f13 : Frame l l3 a b :=
          frame_trans (frame_trans f1 (frame_mono f2 (Nat.le_refl _) (by omega)))
            (frame_mono f3 (by omega) (Nat.le_refl _))
        have s3 : SortedSeg less l3 a i1 := by
          intro p q h1 h2 h3
          rw [f3.2.2 p (Or.inl (by omega)), f3.2.2 q (Or.inl h3)]
          exact s2 p q h1 h2 h3
        have hlow3 : 0 < a → ∀ k, a ≤ k → k < b →
            less (l3.getD k default) (l3.getD (a - 1) default) = false := by
          intro h0
          rw [f13.2.2 (a - 1) (Or.inl (by omega))]
          exact frame_forall f13 hb (fun x => less x (l.getD (a - 1) default) = false)
            (hlow h0)
        obtain ⟨f4, s4⟩ := ih l3 i1 (by omega) u2 (by rw [f13.1]; exact hb) hlow3 s3
        exact ⟨frame_trans f13 f4, s4⟩

/-- The function `partialInsertionSortLessFunc`: it only rearranges `data[a:b]`, and when it
reports the segment sorted, it is. -/
theorem partialInsertionSort_spec {α : Type} [Inhabited α] [DecidableEq α]
    {less : α → α → Bool} (hw : IsStrictWeak less) (l : List α) (a b : Nat) (hab : a < b)
    (hb : b ≤ l.length)
    (hlow : 0 < a → ∀ k, a ≤ k → k < b →
      less (l.getD k default) (l.getD (a - 1) default) = false) :
    Frame l (partialInsertionSortLessFunc less l a b).1 a b ∧
    ((partialInsertionSortLessFunc less l a b).2 = true →
      SortedSeg less (partialInsertionSortLessFunc less l a b).1 a b) :=
  partialInsertionLoop_spec hw a b 5 l (a + 1) (by omega) (by omega) hb hlow
    (fun p q h1 h2 h3 => by omega)

/-! ## sort.Slice: heap sort -/

/-- The function `siftDownLessFunc`: when the heap property holds everywhere from `lo` on but
at `root`, and the parent of `root` is not less than the children of `root`, it holds
everywhere from `lo` on afterwards. -/
theorem siftDownLoop_spec {α : Type} [Inhabited α] [DecidableEq α] {less : α → α → Bool}
    (hw : IsStrictWeak less) (hi first lo : Nat) :
    ∀ (fuel root : Nat) (l : List α), lo ≤ root → hi - root ≤ fuel → first + hi ≤ l.length →
      (∀ k, lo ≤ k → k < hi → k ≠ root → HeapAt less l hi first k) →
      (∀ p, lo ≤ p → p < hi → (root = 2 * p + 1 ∨ root = 2 * p + 2) →
        ∀ c, (c = 2 * root + 1 ∨ c = 2 * root + 2) → c < hi →
          less (l.getD (first + p) default) (l.getD (first + c) default) = false) →
      Frame l (siftDownLoop less hi first fuel root l) (first + root) (first + hi) ∧
      (∀ k, lo ≤ k → k < hi → HeapAt less (siftDownLoop less hi first fuel root l) hi first k) := by
  intro fuel
  induction fuel with
  | zero =>
    intro root l hlo hf hlen h1 h2
    refine ⟨frame_refl _ _ _, ?_⟩
    intro k hk1 hk2
    exact h1 k hk1 hk2 (by omega)
  | succ fuel ih =>
    intro root l hlo hf hlen h1 h2
    unfold siftDownLoop
    dsimp only
    by_cases hch : 2 * root + 1 ≥ hi
    · rw [if_pos hch]
      refine ⟨frame_refl _ _ _, ?_⟩
      intro k hk1 hk2
      by_cases e : k = root
      · subst e
        intro c hc hc2
        omega
      · exact h1 k hk1 hk2 e
    · rw [if_neg hch]
      -- the larger child
      obtain ⟨child1, hdef, hc1, hc2, hbig⟩ : ∃ child1,
          (if 2 * root + 1 + 1 < hi ∧
              lessAt less l (first + (2 * root + 1)) (first + (2 * root + 1) + 1) = true
            then 2 * root + 1 + 1 else 2 * root + 1) = child1 ∧
          (child1 = 2 * root + 1 ∨ child1 = 2 * root + 2) ∧ child1 < hi ∧
          ∀ c, (c = 2 * root + 1 ∨ c = 2 * root + 2) → c < hi →
            less (l.getD (first + child1) default) (l.getD (first + c) default) = false := by
        by_cases hcc : 2 * root + 1 + 1 < hi ∧
            lessAt less l (first + (2 * root + 1)) (first + (2 * root + 1) + 1) = true
        · rw [if_pos hcc]
          refine ⟨_, rfl, Or.inr rfl, hcc.1, ?_⟩
          intro c hc _
          rcases hc with e | e
          · subst e
            exact hw.asymm hcc.2
          · subst e
            exact hw.1 _
        · rw [if_neg hcc]
          refine ⟨_, rfl, Or.inl rfl, by omega, ?_⟩
          intro c hc hc2
          rcases hc with e | e
          · subst e
            exact hw.1 _
          · subst e
            cases hl : lessAt less l (first + (2 * root + 1)) (first + (2 * root + 1) + 1) with
            | true => exact absurd ⟨hc2, hl⟩ hcc
            | false => exact hl
      rw [hdef]
      by_cases hlt : lessAt less l (first + root) (first + child1) = true
      · rw [if_neg (by simp [hlt])]
        unfold lessAt at hlt
        have hsw : ∀ k, (swapAt l (first + root) (first + child1)).getD k default =
            if k = first + child1 then l.getD (first + root) default
            else if k = first + root then l.getD (first + child1) default
            else l.getD k default :=
          fun k => getD_swapAt l (first + root) (first + child1) k (by omega) (by omega)
        obtain ⟨f, hp⟩ := ih child1 (swapAt l (first + root) (first + child1)) (by omega)
          (by omega) (by rw [length_swapAt]; exact hlen)
          (by
            intro k hk1 hk2 hk3 c hc hch2
            rw [hsw (first + k), hsw (first + c), if_neg (by omega)]
            by_cases e : k = root
            · subst e
              rw [if_pos rfl]
              by_cases e2 : c = child1
              · subst e2
                rw [if_pos rfl]
                exact hw.asymm hlt
              · rw [if_neg (by omega), if_neg (by omega)]
                exact hbig c hc hch2
            · rw [if_neg (by omega), if_neg (by omega)]
              by_cases e3 : c = root
              · subst e3
                rw [if_pos rfl]
                exact h2 k hk1 hk2 hc child1 hc1 hc2
              · rw [if_neg (by omega)]
                exact h1 k hk1 hk2 e c hc hch2)
          (by
            intro p hp1 hp2 hp3 c hc hch2
            have e : p = root := by omega
            subst e
            rw [hsw (first + p), hsw (first + c), if_neg (by omega), if_pos rfl,
              if_neg (by omega), if_neg (by omega)]
            exact h1 child1 (by omega) hc2 (by omega) c hc hch2)
        exact ⟨frame_trans
          (frame_swap l (first + root) (first + hi) _ _ hlen (Nat.le_refl _) (by omega)
            (by omega) (by omega))
          (frame_mono f (by omega) (Nat.le_refl _)), hp⟩
      · rw [if_pos (by simp [hlt])]
        refine ⟨frame_refl _ _ _, ?_⟩
        intro k hk1 hk2
        by_cases e : k = root
        · subst e
          intro c hc hch2
          have hle : less (l.getD (first + k) default) (l.getD (first + child1) default)
              = false := by
            unfold lessAt at hlt
            simpa using hlt
          exact hw.le_trans (hbig c hc hch2) hle
        · exact h1 k hk1 hk2 e

theorem heapBuild_spec {α : Type} [Inhabited α] [DecidableEq α] {less : α → α → Bool}
    (hw : IsStrictWeak less) (hi first : Nat) :
    ∀ (n : Nat) (l : List α), first + hi ≤ l.length →
      (∀ k, n ≤ k → k < hi → HeapAt less l hi first k) →
      Frame l (heapBuild less hi first n l) first (first + hi) ∧
      (∀ k, k < hi → HeapAt less (heapBuild less hi first n l) hi first k) := by
  intro n
  induction n with
  | zero =>
    intro l _ h
    exact ⟨frame_refl _ _ _, fun k hk => h k (Nat.zero_le _) hk⟩
  | succ n ih =>
    intro l hlen h
    unfold heapBuild siftDownLessFunc
    obtain ⟨f1, p1⟩ := siftDownLoop_spec hw hi first n hi n l (Nat.le_refl _) (by omega) hlen
      (fun k hk1 hk2 hk3 => h k (by omega) hk2)
      (fun p hp1 hp2 hp3 => by omega)
    obtain ⟨f2, p2⟩ := ih (siftDownLoop less hi first hi n l) (by rw [f1.1]; exact hlen) p1
    exact ⟨frame_trans (frame_mono f1 (by omega) (Nat.le_refl _)) f2, p2⟩

/-- In a heap no node is greater than the root. -/
theorem heap_root_max {α : Type} [Inhabited α] {less : α → α → Bool}
    (hw : IsStrictWeak less) (l : List α) (n first : Nat)
    (h : ∀ k, k < n → HeapAt less l n first k) :
    ∀ k, k < n → less (l.getD first default) (l.getD (first + k) default) = false := by
  intro k
  induction k using Nat.strong_induction_on with
  | _ k ih =>
    intro hk
    by_cases e : k = 0
    · subst e
      exact hw.1 _
    · have hp := ih ((k - 1) / 2) (by omega) (by omega)
      have hc := h ((k - 1) / 2) (by omega) k (by omega) hk
      exact hw.le_trans hc hp

theorem heapPop_spec {α : Type} [Inhabited α] [DecidableEq α] {less : α → α → Bool}
    (hw : IsStrictWeak less) (hi first : Nat) :
    ∀ (n : Nat) (l : List α), n ≤ hi → first + hi ≤ l.length →
      (∀ k, k < n → HeapAt less l n first k) →
      SortedSeg less l (first + n) (first + hi) →
      (∀ p q, p < n → n ≤ q → q < hi →
        less (l.getD (first + q) default) (l.getD (first + p) default) = false) →
      Frame l (heapPop less first n l) first (first + hi) ∧
      SortedSeg less (heapPop less first n l) first (first + hi) := by
  intro n
  induction n with
  | zero =>
    intro l _ _ _ hs _
    exact ⟨frame_refl _ _ _, hs⟩
  | succ n ih =>
    intro l hn hlen hheap hs hcross
    unfold heapPop siftDownLessFunc
    have hmax := heap_root_max hw l (n + 1) first hheap
    have hsw : ∀ k, (swapAt l first (first + n)).getD k default =
        if k = first + n then l.getD first default
        else if k = first then l.getD (first + n) default
        else l.getD k default :=
      fun k => getD_swapAt l first (first + n) k (by omega) (by omega)
    have f0 : Frame l (swapAt l first (first + n)) first (first + hi) :=
      frame_swap l first (first + hi) first (first + n) hlen (Nat.le_refl _) (by omega)
        (by omega) (by omega)
    have hlen1 : first + hi ≤ (swapAt l first (first + n)).length := by
      rw [length_swapAt]; exact hlen
    obtain ⟨f1, p1⟩ := siftDownLoop_spec hw n first 0 n 0 (swapAt l first (first + n))
      (Nat.le_refl _) (by omega) (by omega)
      (by
        intro k _ hk2 hk3 c hc hc2
        rw [hsw (first + k), hsw (first + c), if_neg (by omega), if_neg (by omega),
          if_neg (by omega), if_neg (by omega)]
        exact hheap k (by omega) c hc (by omega))
      (fun p hp1 hp2 hp3 => by omega)
    rw [Nat.add_zero] at f1
    generalize siftDownLoop less n first n 0 (swapAt l first (first + n)) = l2 at f1 p1 ⊢
    have hout : ∀ k, first + n ≤ k → l2.getD k default
        = (swapAt l first (first + n)).getD k default := fun k hk => f1.2.2 k (Or.inr hk)
    have hsw2 : ∀ k, first + n ≤ k → l2.getD k default =
        if k = first + n then l.getD first default else l.getD k default := by
      intro k hk
      rw [hout k hk, hsw k]
      by_cases e : k = first + n
      · rw [if_pos e, if_pos e]
      · rw [if_neg e, if_neg e, if_neg (by omega)]
    obtain ⟨f2, s2⟩ := ih l2 (by omega) (by rw [f1.1]; exact hlen1)
      (fun k hk => p1 k (Nat.zero_le _) hk)
      (by
        intro i j h1 h2 h3
        rw [hsw2 i h1, hsw2 j (by omega), if_neg (by omega)]
        by_cases e : i = first + n
        · rw [if_pos e]
          have := hcross 0 (j - first) (by omega) (by omega) (by omega)
          rw [Nat.add_zero, Nat.add_sub_cancel' (by omega)] at this
          exact this
        · rw [if_neg e]
          exact hs i j (by omega) h2 h3)
      (by
        intro p q hp hq1 hq2
        rw [hout (first + q) (by omega)]
        have hall : ∀ k, first ≤ k → k < first + n →
            less ((swapAt l first (first + n)).getD (first + q) default)
              ((swapAt l first (first + n)).getD k default) = false := by
          intro k hk1 hk2
          have eq1 : (swapAt l first (first + n)).getD (first + q) default =
              if q = n then l.getD first default else l.getD (first + q) default := by
            rw [hsw (first + q)]
            by_cases e : q = n
            · rw [if_pos (by omega), if_pos e]
            · rw [if_neg (by omega), if_neg (by omega), if_neg e]
          have ek1 : (swapAt l first (first + n)).getD k default =
              if k = first then l.getD (first + n) default else l.getD k default := by
            rw [hsw k, if_neg (by omega)]
          rw [eq1, ek1]
          by_cases eq : q = n
          · rw [if_pos eq]
            by_cases ek : k = first
            · rw [if_pos ek]
              exact hmax n (by omega)
            · rw [if_neg ek]
              have := hmax (k - first) (by omega)
              rwa [Nat.add_sub_cancel' hk1] at this
          · rw [if_neg eq]
            by_cases ek : k = first
            · rw [if_pos ek]
              exact hcross n q (by omega) (by omega) hq2
            · rw [if_neg ek]
              have := hcross (k - first) q (by omega) (by omega) hq2
              rwa [Nat.add_sub_cancel' hk1] at this
        exact frame_forall f1 (by omega)
          (fun x => less ((swapAt l first (first + n)).getD (first + q) default) x = false)
          hall (first + p) (by omega) (by omega))
    exact ⟨frame_trans (frame_trans f0 (frame_mono f1 (Nat.le_refl _) (by omega))) f2, s2⟩

/-- Heap sort puts `data[a:b]` in ascending order and moves nothing else. -/
theorem heapSort_spec {α : Type} [Inhabited α] [DecidableEq α] {less : α → α → Bool}
    (hw : IsStrictWeak less) (l : List α) (a b : Nat) (hab : a ≤ b) (hb : b ≤ l.length) :
    Frame l (heapSortLessFunc less l a b) a b ∧
    SortedSeg less (heapSortLessFunc less l a b) a b := by
  unfold heapSortLessFunc
  dsimp only
  have e : a + (b - a) = b := by omega
  obtain ⟨f1, p1⟩ := heapBuild_spec hw (b - a) a ((b - a - 1) / 2 + 1) l (by omega)
    (fun k hk1 hk2 c hc hc2 => by omega)
  obtain ⟨f2, s2⟩ := heapPop_spec hw (b - a) a (b - a) _ (Nat.le_refl _)
    (by rw [f1.1]; omega) p1 (fun i j h1 h2 h3 => by omega) (fun p q h1 h2 h3 => by omega)
  rw [e] at f1 f2 s2
  exact ⟨frame_trans f1 f2, s2⟩

/-! ## sort.Slice: the pattern-defeating quicksort -/

/-- The bound `data[a-1]` from below on `data[a:b]` survives a framed step. -/
theorem lower_of_frame {α : Type} [Inhabited α] {less : α → α → Bool} {l l1 : List α}
    {a b : Nat} (f : Frame l l1 a b) (hb : b ≤ l.length)
    (hlow : 0 < a → ∀ k, a ≤ k → k < b →
      less (l.getD k default) (l.getD (a - 1) default) = false) :
    0 < a → ∀ k, a ≤ k → k < b →
      less (l1.getD k default) (l1.getD (a - 1) default) = false := by
  intro h0
  rw [f.2.2 (a - 1) (Or.inl (by omega))]
  exact frame_forall f hb (fun x => less x (l.getD (a - 1) default) = false) (hlow h0)

theorem pdqsortPrepare_spec {α : Type} [Inhabited α] [DecidableEq α] (next : Nat → Nat)
    {less : α → α → Bool} (hw : IsStrictWeak less) (l : List α) (a b limit : Nat) (wb wp : Bool)
    (hlen : 12 < b - a) (hb : b ≤ l.length)
    (hlow : 0 < a → ∀ k, a ≤ k → k < b →
      less (l.getD k default) (l.getD (a - 1) default) = false) :
    Frame l (pdqsortPrepare next less l a b limit wb wp).1 a b ∧
    a ≤ (pdqsortPrepare next less l a b limit wb wp).2.1 ∧
    (pdqsortPrepare next less l a b limit wb wp).2.1 < b ∧
    ((pdqsortPrepare next less l a b limit wb wp).2.2.2 = true →
      SortedSeg less (pdqsortPrepare next less l a b limit wb wp).1 a b) := by
  unfold pdqsortPrepare
  dsimp only
  have f1 : Frame l (if (!wb) = true then breakPatternsLessFunc next l a b else l) a b := by
    split
    · exact breakPatterns_frame next l a b (by omega) hb
    · exact frame_refl _ _ _
  generalize (if (!wb) = true then breakPatternsLessFunc next l a b else l) = l1 at f1 ⊢
  have hb1 : b ≤ l1.length := by rw [f1.1]; exact hb
  have cb := choosePivot_bounds less l1 a b (by omega)
  generalize choosePivotLessFunc less l1 a b = chosen at cb ⊢
  have f2 : Frame l1
      (if chosen.2 = SortedHint.decreasingHint then reverseRangeLessFunc l1 a b else l1) a b := by
    split
    · exact reverseRange_frame l1 a b (by omega) hb1
    · exact frame_refl _ _ _
  generalize (if chosen.2 = SortedHint.decreasingHint then reverseRangeLessFunc l1 a b
    else l1) = l2 at f2 ⊢
  have f12 := frame_trans f1 f2
  have hb2 : b ≤ l2.length := by rw [f12.1]; exact hb
  have hlow2 := lower_of_frame f12 hb hlow
  have hpiv : a ≤ (if chosen.2 = SortedHint.decreasingHint then b - 1 - (chosen.1 - a)
        else chosen.1) ∧
      (if chosen.2 = SortedHint.decreasingHint then b - 1 - (chosen.1 - a)
        else chosen.1) < b := by
    split <;> omega
  generalize (if chosen.2 = SortedHint.decreasingHint then SortedHint.increasingHint
    else chosen.2) = hint
  have hab : a < b := by omega
  refine ⟨?_, hpiv.1, hpiv.2, ?_⟩
  · by_cases hc : wb = true ∧ wp = true ∧ hint = SortedHint.increasingHint
    · rw [if_pos hc]
      exact frame_trans f12 (partialInsertionSort_spec hw l2 a b hab hb2 hlow2).1
    · rw [if_neg hc]
      exact f12
  · by_cases hc : wb = true ∧ wp = true ∧ hint = SortedHint.increasingHint
    · rw [if_pos hc]
      exact (partialInsertionSort_spec hw l2 a b hab hb2 hlow2).2
    · rw [if_neg hc]
      intro h
      cases h

/-- A segment partitioned around `data[mid]` whose two sides are in order is in order. -/
theorem sortedSeg_of_partition {α : Type} [Inhabited α] {less : α → α → Bool}
    (hw : IsStrictWeak less) (r : List α) (a mid b : Nat) (P : α)
    (hP : r.getD mid default = P)
    (hl : SortedSeg less r a mid) (hr : SortedSeg less r (mid + 1) b)
    (hlt : ∀ k, a ≤ k → k < mid → less (r.getD k default) P = true)
    (hge : ∀ k, mid < k → k < b → less (r.getD k default) P = false) :
    SortedSeg less r a b := by
  intro i j h1 h2 h3
  by_cases hj : j < mid
  · exact hl i j h1 h2 hj
  · by_cases hi : mid < i
    · exact hr i j (by omega) h2 h3
    · by_cases ei : i = mid
      · subst ei
        rw [hP]
        exact hge j (by omega) h3
      · have hi2 : less (r.getD i default) P = true := hlt i h1 (by omega)
        by_cases ej : j = mid
        · subst ej
          rw [hP]
          exact hw.asymm hi2
        · exact hw.asymm (hw.lt_of_lt_of_le hi2 (hge j (by omega) h3))

/-- The function `pdqsortLessFunc` puts `data[a:b]` in ascending order and moves nothing
else, when `data[a-1]`, if there is one, is not above any element of the segment. -/
theorem pdqsort_spec {α : Type} [Inhabited α] [DecidableEq α] (next : Nat → Nat)
    {less : α → α → Bool} (hw : IsStrictWeak less) :
    ∀ (fuel : Nat) (l : List α) (a b limit : Nat) (wb wp : Bool), a ≤ b → b ≤ l.length →
      b - a < fuel →
      (0 < a → ∀ k, a ≤ k → k < b →
        less (l.getD k default) (l.getD (a - 1) default) = false) →
      Frame l (pdqsortLessFunc next less fuel l a b limit wb wp) a b ∧
      SortedSeg less (pdqsortLessFunc next less fuel l a b limit wb wp) a b := by
  intro fuel
  induction fuel with
  | zero => intro l a b limit wb wp _ _ hf; omega
  | succ fuel ih =>
    intro l a b limit wb wp hab hb hf hlow
    unfold pdqsortLessFunc
    by_cases h12 : b - a ≤ 12
    · rw [if_pos h12]
      exact insertionSort_spec hw l a b hb
    · rw [if_neg h12]
      by_cases hlim : limit = 0
      · rw [if_pos hlim]
        exact heapSort_spec hw l a b hab hb
      · rw [if_neg hlim]
        dsimp only
        obtain ⟨f0, hp1, hp2, hsorted⟩ := pdqsortPrepare_spec next hw l a b limit wb wp (by omega)
          hb hlow
        generalize pdqsortPrepare next less l a b limit wb wp = prep at f0 hp1 hp2 hsorted ⊢
        have hb3 : b ≤ prep.1.length := by rw [f0.1]; exact hb
        have hlow3 := lower_of_frame f0 hb hlow
        by_cases hs : prep.2.2.2 = true
        · rw [if_pos hs]
          exact ⟨f0, hsorted hs⟩
        · rw [if_neg hs]
          by_cases heq : a > 0 ∧ (!lessAt less prep.1 (a - 1) prep.2.1) = true
          · rw [if_pos heq]
            obtain ⟨ha0, hnl⟩ := heq
            have hnl : less (prep.1.getD (a - 1) default) (prep.1.getD prep.2.1 default)
                = false := by
              simp only [Bool.not_eq_true'] at hnl
              exact hnl
            obtain ⟨f4, m1, m2, q1, q2⟩ := partitionEqual_spec hw prep.1 a b prep.2.1 hp1 hp2 hb3
            generalize partitionEqualLessFunc less prep.1 a b prep.2.1 = pe at f4 m1 m2 q1 q2 ⊢
            have hb4 : b ≤ pe.1.length := by rw [f4.1]; exact hb3
            have hlow4 := lower_of_frame f4 hb3 hlow3
            have h4a : pe.1.getD (a - 1) default = prep.1.getD (a - 1) default :=
              f4.2.2 (a - 1) (Or.inl (by omega))
            obtain ⟨f5, s5⟩ := ih pe.1 pe.2 b prep.2.2.1 wb wp m2 hb4 (by omega) (by
              intro _ k hk1 hk2
              have h1 := q1 (pe.2 - 1) (by omega) (by omega)
              have h2 := q2 k hk1 hk2
              cases hc : less (pe.1.getD k default) (pe.1.getD (pe.2 - 1) default) with
              | false => rfl
              | true =>
                have := hw.2.1 _ _ _ h2 hc
                rw [h1] at this
                cases this)
            refine ⟨frame_trans (frame_trans f0 f4) (frame_mono f5 (by omega) (Nat.le_refl _)),
              ?_⟩
            intro i j h1 h2 h3
            by_cases hi : pe.2 ≤ i
            · exact s5 i j hi h2 h3
            · rw [f5.2.2 i (Or.inl (by omega))]
              by_cases hj : j < pe.2
              · rw [f5.2.2 j (Or.inl hj)]
                have e1 : less (prep.1.getD (a - 1) default) (pe.1.getD i default) = false :=
                  hw.le_trans (q1 i h1 (by omega)) hnl
                have e2 := hlow4 ha0 j (by omega) h3
                rw [h4a] at e2
                exact hw.le_trans e1 e2
              · have e1 := q1 i h1 (by omega)
                have e2 := frame_forall f5 hb4
                  (fun x => less (prep.1.getD prep.2.1 default) x = true) q2 j (by omega) h3
                exact hw.asymm (hw.lt_of_le_of_lt e1 e2)
          · rw [if_neg heq]
            obtain ⟨f4, m1, m2, hP, q1, q2⟩ := partition_spec less prep.1 a b prep.2.1 hp1 hp2 hb3
            generalize partitionLessFunc less prep.1 a b prep.2.1 = pt at f4 m1 m2 hP q1 q2 ⊢
            have hb4 : b ≤ pt.1.length := by rw [f4.1]; exact hb3
            have hlow4 := lower_of_frame f4 hb3 hlow3
            have f04 := frame_trans f0 f4
            by_cases hside : pt.2.1 - a < b - pt.2.1
            · rw [if_pos hside]
              obtain ⟨f5, s5⟩ := ih pt.1 a pt.2.1 prep.2.2.1 true true m1 (by omega) (by omega)
                (fun h0 k hk1 hk2 => hlow4 h0 k hk1 (by omega))
              generalize pdqsortLessFunc next less fuel pt.1 a pt.2.1 prep.2.2.1 true true = r1
                at f5 s5 ⊢
              have hr1 : ∀ k, pt.2.1 ≤ k → r1.getD k default = pt.1.getD k default :=
                fun k hk => f5.2.2 k (Or.inr hk)
              have hb5 : b ≤ r1.length := by rw [f5.1]; exact hb4
              obtain ⟨f6, s6⟩ := ih r1 (pt.2.1 + 1) b prep.2.2.1
                (decide (pt.2.1 - a ≥ (b - a) / 8)) pt.2.2 (by omega) hb5 (by omega) (by
                  intro _ k hk1 hk2
                  rw [Nat.add_sub_cancel, hr1 k (by omega), hr1 pt.2.1 (Nat.le_refl _), hP]
                  exact q2 k (by omega) hk2)
              generalize pdqsortLessFunc next less fuel r1 (pt.2.1 + 1) b prep.2.2.1
                (decide (pt.2.1 - a ≥ (b - a) / 8)) pt.2.2 = r2 at f6 s6 ⊢
              have hr2 : ∀ k, k < pt.2.1 + 1 → r2.getD k default = r1.getD k default :=
                fun k hk => f6.2.2 k (Or.inl hk)
              refine ⟨frame_trans f04 (frame_trans (frame_mono f5 (Nat.le_refl _) (by omega))
                (frame_mono f6 (by omega) (Nat.le_refl _))), ?_⟩
              refine sortedSeg_of_partition hw r2 a pt.2.1 b (prep.1.getD prep.2.1 default)
                (by rw [hr2 _ (by omega), hr1 _ (Nat.le_refl _), hP]) ?_ s6 ?_ ?_
              · intro i j h1 h2 h3
                rw [hr2 i (by omega), hr2 j (by omega)]
                exact s5 i j h1 h2 h3
              · intro k hk1 hk2
                rw [hr2 k (by omega)]
                exact frame_forall f5 (by omega)
                  (fun x => less x (prep.1.getD prep.2.1 default) = true) q1 k hk1 hk2
              · intro k hk1 hk2
                exact frame_forall f6 hb5
                  (fun x => less x (prep.1.getD prep.2.1 default) = false)
                  (fun k1 h1 h2 => by rw [hr1 k1 (by omega)]; exact q2 k1 (by omega) h2)
                  k (by omega) hk2
            · rw [if_neg hside]
              obtain ⟨f5, s5⟩ := ih pt.1 (pt.2.1 + 1) b prep.2.2.1 true true (by omega) hb4
                (by omega) (by
                  intro _ k hk1 hk2
                  rw [Nat.add_sub_cancel, hP]
                  exact q2 k (by omega) hk2)
              generalize pdqsortLessFunc next less fuel pt.1 (pt.2.1 + 1) b prep.2.2.1 true true = r1
                at f5 s5 ⊢
              have hr1 : ∀ k, k < pt.2.1 + 1 → r1.getD k default = pt.1.getD k default :=
                fun k hk => f5.2.2 k (Or.inl hk)
              have hb5 : b ≤ r1.length := by rw [f5.1]; exact hb4
              obtain ⟨f6, s6⟩ := ih r1 a pt.2.1 prep.2.2.1
                (decide (b - pt.2.1 ≥ (b - a) / 8)) pt.2.2 m1 (by omega) (by omega) (by
                  intro h0 k hk1 hk2
                  rw [hr1 k (by omega), hr1 (a - 1) (by omega)]
                  exact hlow4 h0 k hk1 (by omega))
              generalize pdqsortLessFunc next less fuel r1 a pt.2.1 prep.2.2.1
                (decide (b - pt.2.1 ≥ (b - a) / 8)) pt.2.2 = r2 at f6 s6 ⊢
              have hr2 : ∀ k, pt.2.1 ≤ k → r2.getD k default = r1.getD k default :=
                fun k hk => f6.2.2 k (Or.inr hk)
              refine ⟨frame_trans f04 (frame_trans (frame_mono f5 (by omega) (Nat.le_refl _))
                (frame_mono f6 (Nat.le_refl _) (by omega))), ?_⟩
              refine sortedSeg_of_partition hw r2 a pt.2.1 b (prep.1.getD prep.2.1 default)
                (by rw [hr2 _ (Nat.le_refl _), hr1 _ (by omega), hP]) s6 ?_ ?_ ?_
              · intro i j h1 h2 h3
                rw [hr2 i (by omega), hr2 j (by omega)]
                exact s5 i j h1 h2 h3
              · intro k hk1 hk2
                exact frame_forall f6 (by omega)
                  (fun x => less x (prep.1.getD prep.2.1 default) = true)
                  (fun k1 h1 h2 => by rw [hr1 k1 (by omega)]; exact q1 k1 h1 h2)
                  k hk1 hk2
              · intro k hk1 hk2
                rw [hr2 k (by omega)]
                exact frame_forall f5 hb4
                  (fun x => less x (prep.1.getD prep.2.1 default) = false)
                  (fun k1 h1 h2 => q2 k1 (by omega) h2) k (by omega) hk2

/-- The function `sort.Slice` returns a rearrangement of the slice in ascending order, for
every `less` that meets the requirement of `sort.Interface`. -/
theorem sortSlice_spec {α : Type} [Inhabited α] [DecidableEq α] (next : Nat → Nat)
    {less : α → α → Bool} (hw : IsStrictWeak less) (l : List α) :
    List.Perm (sortSlice next less l) l ∧
    (sortSlice next less l).Pairwise (fun x y => less y x = false) := by
  unfold sortSlice
  obtain ⟨f, s⟩ := pdqsort_spec next hw (l.length + 1) l 0 l.length (bitsLen l.length) true true
    (Nat.zero_le _) (Nat.le_refl _) (by omega) (fun h => absurd h (Nat.lt_irrefl 0))
  refine ⟨f.2.1, ?_⟩
  rw [List.pairwise_iff_getElem]
  intro i j hi hj hij
  have := s i j (Nat.zero_le _) hij (by rw [← f.1]; exact hj)
  rwa [List.getD_eq_getElem _ _ hi, List.getD_eq_getElem _ _ hj] at this

/-! ## sort.Slice: runs that do not consult the random generator -/

/-- On a segment of at most twelve elements `pdqsortLessFunc` is the insertion sort. -/
theorem pdqsort_small {α : Type} [Inhabited α] (next : Nat → Nat) (less : α → α → Bool)
    (fuel : Nat) (l : List α) (a b limit : Nat) (wb wp : Bool) (h : b - a ≤ 12) :
    pdqsortLessFunc next less (fuel + 1) l a b limit wb wp = insertionSortLessFunc less l a b := by
  rw [pdqsortLessFunc, if_pos h]

/-- After a balanced partition `breakPatternsLessFunc` is not called, so that the generator
is not consulted before the partition. -/
theorem pdqsortPrepare_balanced {α : Type} [Inhabited α] (next1 next2 : Nat → Nat)
    (less : α → α → Bool) (l : List α) (a b limit : Nat) (wp : Bool) :
    pdqsortPrepare next1 less l a b limit true wp
      = pdqsortPrepare next2 less l a b limit true wp := rfl

/-- A call of `pdqsortLessFunc` on `data[0:b]` that partitions once, into two parts of at
most twelve elements, returns the same slice whatever the generator is. -/
theorem pdqsort_once {α : Type} [Inhabited α] (next1 next2 : Nat → Nat)
    (less : α → α → Bool) (fuel : Nat) (l : List α) (b limit : Nat) (wp : Bool)
    (h12 : ¬ b - 0 ≤ 12) (hl : ¬ limit = 0)
    (hs : (pdqsortPrepare next2 less l 0 b limit true wp).2.2.2 = false)
    (hleft : (partitionLessFunc less (pdqsortPrepare next2 less l 0 b limit true wp).1 0 b
      (pdqsortPrepare next2 less l 0 b limit true wp).2.1).2.1 - 0 ≤ 12)
    (hright : b - ((partitionLessFunc less (pdqsortPrepare next2 less l 0 b limit true wp).1
      0 b (pdqsortPrepare next2 less l 0 b limit true wp).2.1).2.1 + 1) ≤ 12) :
    pdqsortLessFunc next1 less (fuel + 2) l 0 b limit true wp
      = pdqsortLessFunc next2 less (fuel + 2) l 0 b limit true wp := by
  have step : ∀ nx : Nat → Nat, pdqsortLessFunc nx less (fuel + 2) l 0 b limit true wp
      = if (partitionLessFunc less (pdqsortPrepare next2 less l 0 b limit true wp).1 0 b
            (pdqsortPrepare next2 less l 0 b limit true wp).2.1).2.1 - 0
          < b - (partitionLessFunc less (pdqsortPrepare next2 less l 0 b limit true wp).1 0 b
            (pdqsortPrepare next2 less l 0 b limit true wp).2.1).2.1 then
          insertionSortLessFunc less
            (insertionSortLessFunc less
              (partitionLessFunc less (pdqsortPrepare next2 less l 0 b limit true wp).1 0 b
                (pdqsortPrepare next2 less l 0 b limit true wp).2.1).1 0
              (partitionLessFunc less (pdqsortPrepare next2 less l 0 b limit true wp).1 0 b
                (pdqsortPrepare next2 less l 0 b limit true wp).2.1).2.1)
            ((partitionLessFunc less (pdqsortPrepare next2 less l 0 b limit true wp).1 0 b
              (pdqsortPrepare next2 less l 0 b limit true wp).2.1).2.1 + 1) b
        else
          insertionSortLessFunc less
            (insertionSortLessFunc less
              (partitionLessFunc less (pdqsortPrepare next2 less l 0 b limit true wp).1 0 b
                (pdqsortPrepare next2 less l 0 b limit true wp).2.1).1
              ((partitionLessFunc less (pdqsortPrepare next2 less l 0 b limit true wp).1 0 b
                (pdqsortPrepare next2 less l 0 b limit true wp).2.1).2.1 + 1) b)
            0 (partitionLessFunc less (pdqsortPrepare next2 less l 0 b limit true wp).1 0 b
              (pdqsortPrepare next2 less l 0 b limit true wp).2.1).2.1 := by
    intro nx
    rw [pdqsortLessFunc, if_neg h12, if_neg hl]
    dsimp only
    rw [pdqsortPrepare_balanced nx next2, hs]
    rw [if_neg (by decide), if_neg (fun h => absurd h.1 (Nat.lt_irrefl 0))]
    generalize partitionLessFunc less (pdqsortPrepare next2 less l 0 b limit true wp).1 0 b
      (pdqsortPrepare next2 less l 0 b limit true wp).2.1 = pt at hleft hright ⊢
    by_cases hside : pt.2.1 - 0 < b - pt.2.1
    · rw [if_pos hside, if_pos hside, pdqsort_small nx less fuel pt.1 0 pt.2.1 _ true true hleft,
        pdqsort_small nx less fuel _ (pt.2.1 + 1) b _ _ _ hright]
    · rw [if_neg hside, if_neg hside,
        pdqsort_small nx less fuel pt.1 (pt.2.1 + 1) b _ true true hright,
        pdqsort_small nx less fuel _ 0 pt.2.1 _ _ _ hleft]
  rw [step next1, step next2]

/-! ## sort.Slice: the insertion sort keeps the order of equal elements -/

theorem swapAt_adjacent_zero {α : Type} [Inhabited α] (x y : α) (t : List α) :
    swapAt (x :: y :: t) 1 0 = y :: x :: t := by
  simp [swapAt]

theorem swapAt_adjacent_succ {α : Type} [Inhabited α] (x : α) (t : List α) (j : Nat) :
    swapAt (x :: t) (j + 1 + 1) (j + 1) = x :: swapAt t (j + 1) j := by
  simp [swapAt]

/-- A swap of two neighbours that do not both pass a filter does not change what passes. -/
theorem filter_swapAt_adjacent {α : Type} [Inhabited α] (p : α → Bool) :
    ∀ (l : List α) (j : Nat), j + 1 < l.length →
      ¬ (p (l.getD (j + 1) default) = true ∧ p (l.getD j default) = true) →
      (swapAt l (j + 1) j).filter p = l.filter p := by
  intro l
  induction l with
  | nil => intro j hj; simp at hj
  | cons x t ih =>
    intro j hj hp
    cases j with
    | zero =>
      cases t with
      | nil => simp at hj
      | cons y t =>
        rw [swapAt_adjacent_zero]
        simp only [List.getD_cons_succ, List.getD_cons_zero] at hp
        cases hx : p x <;> cases hy : p y <;> simp_all [List.filter_cons]
    | succ j =>
      rw [swapAt_adjacent_succ]
      simp only [List.getD_cons_succ] at hp
      have := ih j (by simpa using hj) hp
      simp only [List.filter_cons, this]

theorem insertionInner_filter {α : Type} [Inhabited α] (less : α → α → Bool) (p : α → Bool)
    (hless : ∀ x y, less x y = true → ¬ (p x = true ∧ p y = true)) (a : Nat) :
    ∀ (j : Nat) (l : List α), j < l.length →
      (insertionInner less a j l).length = l.length ∧
      (insertionInner less a j l).filter p = l.filter p := by
  intro j
  induction j with
  | zero => intro l _; exact ⟨rfl, rfl⟩
  | succ j ih =>
    intro l hj
    unfold insertionInner
    by_cases hc : j + 1 > a ∧ lessAt less l (j + 1) j = true
    · rw [if_pos hc]
      obtain ⟨h1, h2⟩ := ih (swapAt l (j + 1) j) (by rw [length_swapAt]; omega)
      refine ⟨by rw [h1, length_swapAt], ?_⟩
      rw [h2]
      exact filter_swapAt_adjacent p l j hj (hless _ _ hc.2)
    · rw [if_neg hc]
      exact ⟨rfl, rfl⟩

theorem insertionOuter_filter {α : Type} [Inhabited α] (less : α → α → Bool) (p : α → Bool)
    (hless : ∀ x y, less x y = true → ¬ (p x = true ∧ p y = true)) (a b : Nat) :
    ∀ (fuel i : Nat) (l : List α), b ≤ l.length →
      (insertionOuter less a b fuel i l).filter p = l.filter p := by
  intro fuel
  induction fuel with
  | zero => intro i l _; rfl
  | succ fuel ih =>
    intro i l hb
    unfold insertionOuter
    by_cases hc : i < b
    · rw [if_pos hc]
      obtain ⟨h1, h2⟩ := insertionInner_filter less p hless a i l (by omega)
      rw [ih (i + 1) _ (by rw [h1]; exact hb), h2]
    · rw [if_neg hc]

/-- The function `sort.Slice` keeps the order of the elements that pass a filter which no
two elements, one `less` than the other, both pass, when the slice has at most twelve
elements: it is then sorted by insertion. -/
theorem sortSlice_short_filter {α : Type} [Inhabited α] (next : Nat → Nat)
    (less : α → α → Bool) (p : α → Bool)
    (hless : ∀ x y, less x y = true → ¬ (p x = true ∧ p y = true)) (l : List α)
    (h : l.length ≤ 12) : (sortSlice next less l).filter p = l.filter p := by
  unfold sortSlice
  rw [pdqsort_small next less l.length l 0 l.length _ true true (by omega)]
  exact insertionOuter_filter less p hless 0 l.length _ _ l (Nat.le_refl _)

/-! ## The commit order at a tick -/

/-- The `less` the worker passes to `sort.Slice` meets the requirement of `sort.Interface`. -/
theorem timestamp_less_order :
    IsStrictWeak (fun (a b : StorageOperation) => decide (a.GetTimestamp < b.GetTimestamp)) := by
  refine ⟨fun a => by simp, fun a b c h1 h2 => ?_, fun a b c h1 h2 => ?_⟩
  · simp only [decide_eq_true_eq] at h1 h2 ⊢
    exact Nat.lt_trans h1 h2
  · simp only [decide_eq_false_iff_not, Nat.not_lt] at h1 h2 ⊢
    exact Nat.le_trans h2 h1

/-- C27, amended. Commit order at a tick: for every buffer of accumulated storage operations
(and whatever the pseudo-random generator of `sort.Slice` returns), the tick passes to
`AddVersion` the sequence `committedSequence`, which is a permutation of the buffer and is
sorted by timestamp ascending; when the buffer holds at most twelve operations, the
operations with equal timestamps keep their arrival order. -/
theorem commit_order (next : Nat → Nat) (s : SortedListService)
    (stOpsQueue : List StorageOperation) :
    workerTick next s stOpsQueue
      = (s.docHistory.AddVersion ((committedSequence next stOpsQueue).map some)).map
          (fun h1 => ({ s with docHistory := h1 }, [])) ∧
    List.Perm (committedSequence next stOpsQueue) stOpsQueue ∧
    (committedSequence next stOpsQueue).Pairwise
      (fun a b => a.GetTimestamp ≤ b.GetTimestamp) ∧
    (stOpsQueue.length ≤ 12 → ∀ t : Time,
      (committedSequence next stOpsQueue).filter (fun op => op.GetTimestamp = t)
        = stOpsQueue.filter (fun op => op.GetTimestamp = t)) := by
  obtain ⟨hperm, hsorted⟩ := sortSlice_spec next timestamp_less_order stOpsQueue
  refine ⟨?_, hperm, ?_, ?_⟩
  · unfold workerTick
    cases s.docHistory.AddVersion ((committedSequence next stOpsQueue).map some) <;> rfl
  · refine hsorted.imp ?_
    intro a b h
    simpa using h
  · intro hlen t
    refine sortSlice_short_filter next _ (fun op => decide (op.GetTimestamp = t)) ?_
      stOpsQueue hlen
    intro x y hxy hp
    simp only [decide_eq_true_eq] at hxy hp
    rw [hp.1, hp.2] at hxy
    exact Nat.lt_irrefl _ hxy

/-- The call of `pdqsort_func` that `sort.Slice` makes on the buffer `sampleLateQueue`. -/
theorem committedSequence_sampleLateQueue (next : Nat → Nat) :
    committedSequence next sampleLateQueue
      = pdqsortLessFunc next
          (fun (a b : StorageOperation) => decide (a.GetTimestamp < b.GetTimestamp))
          (12 + 2) sampleLateQueue 0 13 (bitsLen 13) true true := by
  unfold committedSequence sortSlice
  rfl

/-- On the buffer `sampleLateQueue` the sort partitions once, into parts of one and of eleven
operations, and does not consult the pseudo-random generator. -/
theorem pdqsort_sampleLateQueue (next : Nat → Nat) :
    pdqsortLessFunc next
        (fun (a b : StorageOperation) => decide (a.GetTimestamp < b.GetTimestamp))
        (12 + 2) sampleLateQueue 0 13 (bitsLen 13) true true
      = pdqsortLessFunc id
        (fun (a b : StorageOperation) => decide (a.GetTimestamp < b.GetTimestamp))
        (12 + 2) sampleLateQueue 0 13 (bitsLen 13) true true := by
  apply pdqsort_once
  · decide
  · decide
  · decide
  · decide
  · decide

/-- C27 as stated fails: the sort is not stable. On the buffer `sampleLateQueue`, in which the
batch of client 1 that sets `a` to 1, 2, ..., 12 (every operation stamped 1) is followed by
one operation stamped 0, the tick commits the operations of the batch in the order 7, 3, 4,
5, 6, 1, 8, 9, 10, 11, 12, 2, whatever the pseudo-random generator returns: the operations
stamped 1 do not keep their arrival order. -/
theorem commit_order_not_stable :
    (∀ next : Nat → Nat, committedSequence next sampleLateQueue
      = [sampleSetB, sampleSetA 7, sampleSetA 3, sampleSetA 4, sampleSetA 5, sampleSetA 6,
         sampleSetA 1, sampleSetA 8, sampleSetA 9, sampleSetA 10, sampleSetA 11,
         sampleSetA 12, sampleSetA 2]) ∧
    (∀ next : Nat → Nat,
      (committedSequence next sampleLateQueue).filter (fun op => op.GetTimestamp = 1)
        ≠ sampleLateQueue.filter (fun op => op.GetTimestamp = 1)) := by
  have e : ∀ next : Nat → Nat, committedSequence next sampleLateQueue
      = [sampleSetB, sampleSetA 7, sampleSetA 3, sampleSetA 4, sampleSetA 5, sampleSetA 6,
         sampleSetA 1, sampleSetA 8, sampleSetA 9, sampleSetA 10, sampleSetA 11,
         sampleSetA 12, sampleSetA 2] := by
    intro next
    rw [committedSequence_sampleLateQueue next, pdqsort_sampleLateQueue next]
    decide
  refine ⟨e, fun next => ?_⟩
  rw [e next]
  decide

/-! ## Interleaved runs of `GetOutputSnapshot` and `AddVersion` -/

theorem run_snoc (c0 : Shared) (sched : List Nat) (i : Nat) :
    c0.run (sched ++ [i]) = (c0.run sched).step i := by
  simp [Shared.run, List.foldl_append]

theorem anchored_mono (c0 : Shared) (sched : List Nat) (i : Nat) (h : DocumentHistory)
    (ha : Anchored c0 sched h) : Anchored c0 (sched ++ [i]) h := by
  obtain ⟨pre, post, e, h1, h2, h3⟩ := ha
  exact ⟨pre, post ++ [i], by rw [e, List.append_assoc], h1, h2, h3⟩

theorem held_mono (c0 : Shared) (sched : List Nat) (i : Nat) (c c1 : Shared)
    (hh : Held c0 sched c) (e1 : c1.hist = c.hist) (e2 : c1.panicked = c.panicked) :
    Held c0 (sched ++ [i]) c1 := by
  unfold Held at hh ⊢
  rw [e1, e2]
  exact ⟨anchored_mono _ _ _ _ hh.1, hh.2⟩

/-- What a goroutine knows stays true while the others step: a goroutine that holds the mutex
sees the history untouched, and the others know nothing about the current history. -/
theorem phaseOk_mono (c0 : Shared) (sched : List Nat) (i : Nat) (c c1 : Shared) (g : Goroutine)
    (hp : PhaseOk c0 sched c g)
    (hframe : g.holdsLock = true → c1.hist = c.hist ∧ c1.panicked = c.panicked) :
    PhaseOk c0 (sched ++ [i]) c1 g := by
  cases g with
  | snapshotStart b => trivial
  | snapshotLocked b =>
    obtain ⟨e1, e2⟩ := hframe rfl
    exact held_mono _ _ _ _ _ hp e1 e2
  | snapshotVersion v =>
    obtain ⟨e1, e2⟩ := hframe rfl
    simp only [PhaseOk] at hp ⊢
    exact ⟨held_mono _ _ _ _ _ hp.1 e1 e2, by rw [e1]; exact hp.2⟩
  | snapshotList l =>
    obtain ⟨e1, e2⟩ := hframe rfl
    simp only [PhaseOk] at hp ⊢
    exact ⟨held_mono _ _ _ _ _ hp.1 e1 e2, by rw [e1]; exact hp.2⟩
  | snapshotBoth v l =>
    obtain ⟨e1, e2⟩ := hframe rfl
    simp only [PhaseOk] at hp ⊢
    exact ⟨held_mono _ _ _ _ _ hp.1 e1 e2, by rw [e1]; exact hp.2⟩
  | snapshotReturned v l =>
    obtain ⟨h, ha, he⟩ := hp
    exact ⟨h, anchored_mono _ _ _ _ ha, he⟩
  | addStart stOps => trivial
  | addApplying stOps listOps rest =>
    obtain ⟨e1, e2⟩ := hframe rfl
    simp only [PhaseOk] at hp ⊢
    rw [e1, e2]; exact hp
  | addAppended =>
    obtain ⟨e1, e2⟩ := hframe rfl
    simp only [PhaseOk] at hp ⊢
    rw [e1, e2]; exact hp
  | addVersioned =>
    obtain ⟨e1, e2⟩ := hframe rfl
    simp only [PhaseOk] at hp ⊢
    rw [e1, e2]; exact hp
  | addReturned => trivial
  | addPanicked => trivial

theorem inv_stay (c0 c : Shared) (sched : List Nat) (i : Nat) (hinv : RunInv c0 sched c) :
    RunInv c0 (sched ++ [i]) c :=
  ⟨hinv.1, fun k g hk => phaseOk_mono c0 sched i c c g (hinv.2.1 k g hk) (fun _ => ⟨rfl, rfl⟩),
    hinv.2.2⟩

/-- One step of goroutine `i` keeps the invariant, given what the step does to the mutex, to
the goroutines that do not step, and to the goroutine that steps. -/
theorem inv_update (c0 c c1 : Shared) (sched : List Nat) (i : Nat) (g g1 : Goroutine)
    (hinv : RunInv c0 sched c) (hg : c.goroutines[i]? = some g)
    (hgs : c1.goroutines = c.goroutines.set i g1)
    (hlock : g1.holdsLock = true ↔ c1.lock = some i)
    (hothers : ∀ k, k ≠ i → (c.lock = some k ↔ c1.lock = some k))
    (hframe : ∀ k, k ≠ i → c.lock = some k → c1.hist = c.hist ∧ c1.panicked = c.panicked)
    (hphase : PhaseOk c0 (sched ++ [i]) c1 g1)
    (hfree : c1.lock = none → c1.panicked = false → c0.hist.Steps c1.hist) :
    RunInv c0 (sched ++ [i]) c1 := by
  obtain ⟨hA, hB, _⟩ := hinv
  obtain ⟨hi, _⟩ := List.getElem?_eq_some.mp hg
  refine ⟨?_, ?_, hfree⟩
  · intro k gk hk
    rw [hgs] at hk
    by_cases hki : k = i
    · subst hki
      rw [List.getElem?_set_self hi] at hk
      injection hk with hk
      subst hk
      exact hlock
    · rw [List.getElem?_set_ne (Ne.symm hki)] at hk
      exact (hA k gk hk).trans (hothers k hki)
  · intro k gk hk
    rw [hgs] at hk
    by_cases hki : k = i
    · subst hki
      rw [List.getElem?_set_self hi] at hk
      injection hk with hk
      subst hk
      exact hphase
    · rw [List.getElem?_set_ne (Ne.symm hki)] at hk
      exact phaseOk_mono c0 sched i c c1 gk (hB k gk hk)
        (fun hh => hframe k hki ((hA k gk hk).mp hh))

/-- A step that takes the free mutex and leaves the history alone. -/
theorem inv_acquire (c0 c c1 : Shared) (sched : List Nat) (i : Nat) (g g1 : Goroutine)
    (hinv : RunInv c0 sched c) (hg : c.goroutines[i]? = some g)
    (hgs : c1.goroutines = c.goroutines.set i g1)
    (hfree : c.lock = none) (hl1 : c1.lock = some i) (hh : g1.holdsLock = true)
    (hphase : PhaseOk c0 (sched ++ [i]) c1 g1) :
    RunInv c0 (sched ++ [i]) c1 := by
  refine inv_update c0 c c1 sched i g g1 hinv hg hgs ?_ ?_ ?_ hphase ?_
  · exact ⟨fun _ => hl1, fun _ => hh⟩
  · intro k hk
    rw [hfree, hl1]
    exact ⟨fun h => (by cases h), fun h => absurd (Option.some.inj h).symm hk⟩
  · intro k _ h
    rw [hfree] at h
    cases h
  · intro h
    rw [hl1] at h
    cases h

/-- A step of the goroutine that holds the mutex and keeps it. -/
theorem inv_inside (c0 c c1 : Shared) (sched : List Nat) (i : Nat) (g g1 : Goroutine)
    (hinv : RunInv c0 sched c) (hg : c.goroutines[i]? = some g)
    (hgs : c1.goroutines = c.goroutines.set i g1)
    (hh0 : g.holdsLock = true) (hl1 : c1.lock = c.lock) (hh : g1.holdsLock = true)
    (hphase : PhaseOk c0 (sched ++ [i]) c1 g1) :
    RunInv c0 (sched ++ [i]) c1 := by
  have hl : c.lock = some i := (hinv.1 i g hg).mp hh0
  refine inv_update c0 c c1 sched i g g1 hinv hg hgs ?_ ?_ ?_ hphase ?_
  · exact ⟨fun _ => by rw [hl1, hl], fun _ => hh⟩
  · intro k _
    rw [hl1]
  · intro k hk h
    rw [hl] at h
    exact absurd (Option.some.inj h).symm hk
  · intro h
    rw [hl1, hl] at h
    cases h

/-- A step of the goroutine that holds the mutex and releases it. -/
theorem inv_release (c0 c c1 : Shared) (sched : List Nat) (i : Nat) (g g1 : Goroutine)
    (hinv : RunInv c0 sched c) (hg : c.goroutines[i]? = some g)
    (hgs : c1.goroutines = c.goroutines.set i g1)
    (hh0 : g.holdsLock = true) (hl1 : c1.lock = none) (hh : g1.holdsLock = false)
    (hphase : PhaseOk c0 (sched ++ [i]) c1 g1)
    (hfree : c1.panicked = false → c0.hist.Steps c1.hist) :
    RunInv c0 (sched ++ [i]) c1 := by
  have hl : c.lock = some i := (hinv.1 i g hg).mp hh0
  refine inv_update c0 c c1 sched i g g1 hinv hg hgs ?_ ?_ ?_ hphase (fun _ => hfree)
  · rw [hl1, hh]
    exact ⟨fun h => (by cases h), fun h => by cases h⟩
  · intro k hk
    rw [hl, hl1]
    exact ⟨fun h => absurd (Option.some.inj h).symm hk, fun h => by cases h⟩
  · intro k hk h
    rw [hl] at h
    exact absurd (Option.some.inj h).symm hk

theorem addVersion_latest (hc h1 : DocumentHistory) (stOps : List (Option StorageOperation))
    (hne : stOps.length ≠ 0) (hA : hc.AddVersion stOps = .ok h1) :
    h1.latestVersion = (h1.documents.length : Int) - 1 := by
  rcases addVersion_ok hc h1 stOps hA with ⟨he, _⟩ | ⟨_, _, d, _, _, _, hdoc, _, hl⟩
  · subst he
    exact absurd rfl hne
  · rw [hl, hdoc]
    simp

/-- Every step of every goroutine keeps the invariant of interleaved runs. -/
theorem step_inv (c0 c : Shared) (sched : List Nat) (i : Nat) (hrun : c0.run sched = c)
    (hinv : RunInv c0 sched c) : RunInv c0 (sched ++ [i]) (c.step i) := by
  have hA := hinv.1
  have hB := hinv.2.1
  have hC := hinv.2.2
  unfold Shared.step
  cases hg : c.goroutines[i]? with
  | none => exact inv_stay c0 c sched i hinv
  | some g =>
    have hp := hB i g hg
    cases g with
    | snapshotStart b =>
      simp only
      by_cases hl : c.lock = none
      · rw [if_pos hl]
        refine inv_acquire c0 c _ sched i _ (.snapshotLocked b) hinv hg rfl hl rfl rfl ?_
        exact ⟨⟨sched, [i], rfl, by rw [hrun]; exact hl, by rw [hrun],
          fun hpn => hC hl (by rw [hrun] at hpn; exact hpn)⟩, fun hpn => hC hl hpn⟩
      · rw [if_neg hl]
        exact inv_stay c0 c sched i hinv
    | snapshotLocked b =>
      cases b with
      | false =>
        exact inv_inside c0 c _ sched i _ (.snapshotVersion c.hist.latestVersion) hinv hg rfl
          rfl rfl rfl ⟨held_mono _ _ _ _ _ hp rfl rfl, rfl⟩
      | true =>
        exact inv_inside c0 c _ sched i _ (.snapshotList c.hist.storage.Export) hinv hg rfl
          rfl rfl rfl ⟨held_mono _ _ _ _ _ hp rfl rfl, rfl⟩
    | snapshotVersion v =>
      exact inv_inside c0 c _ sched i _ (.snapshotBoth v c.hist.storage.Export) hinv hg rfl
        rfl rfl rfl ⟨held_mono _ _ _ _ _ hp.1 rfl rfl, hp.2, rfl⟩
    | snapshotList l =>
      exact inv_inside c0 c _ sched i _ (.snapshotBoth c.hist.latestVersion l) hinv hg rfl
        rfl rfl rfl ⟨held_mono _ _ _ _ _ hp.1 rfl rfl, rfl, hp.2⟩
    | snapshotBoth v l =>
      obtain ⟨hh, hv, hl⟩ := hp
      refine inv_release c0 c _ sched i _ (.snapshotReturned v l) hinv hg rfl rfl rfl rfl ?_ hh.2
      exact ⟨c.hist, anchored_mono _ _ _ _ hh.1, by
        rw [hv, hl]; rfl⟩
    | snapshotReturned v l => exact inv_stay c0 c sched i hinv
    | addStart stOps =>
      simp only
      by_cases hlen : stOps.length = 0
      · rw [if_pos hlen]
        have hnl : ∀ k, c.lock = some k → k ≠ i := by
          intro k hk hki
          subst hki
          have := (hA k _ hg).mpr hk
          simp [Goroutine.holdsLock] at this
        refine inv_update c0 c _ sched i _ .addReturned hinv hg rfl ?_ (fun k _ => Iff.rfl)
          (fun k _ _ => ⟨rfl, rfl⟩) trivial hC
        exact ⟨fun h => (by cases h), fun h => absurd rfl (hnl i h)⟩
      · rw [if_neg hlen]
        by_cases hl : c.lock = none
        · rw [if_pos hl]
          refine inv_acquire c0 c _ sched i _ (.addApplying stOps [] stOps) hinv hg rfl hl rfl
            rfl ?_
          intro hpn
          exact ⟨c.hist, hC hl hpn, hlen, rfl, rfl⟩
        · rw [if_neg hl]
          exact inv_stay c0 c sched i hinv
    | addApplying stOps listOps rest =>
      cases rest with
      | nil =>
        refine inv_inside c0 c _ sched i _ .addAppended hinv hg rfl rfl rfl rfl ?_
        intro hpn
        obtain ⟨hc, hst, hne, hdocs, hloop⟩ := hp hpn
        have hne2 : stOps ≠ [] := fun e => hne (by rw [e]; rfl)
        have hok : hc.storage.ApplyOperations stOps = .ok (c.hist.storage, listOps) := by
          rw [← hloop]; rfl
        refine ⟨hc, stOps, _, hst, hne, addVersion_eq hc stOps _ _ hne2 hok, ?_, rfl⟩
        simp only [hdocs]
      | cons o rest =>
        cases o with
        | none =>
          refine inv_inside c0 c _ sched i _ (.addApplying stOps listOps rest) hinv hg rfl rfl
            rfl rfl ?_
          intro hpn
          obtain ⟨hc, hst, hne, hdocs, hloop⟩ := hp hpn
          exact ⟨hc, hst, hne, hdocs, by rw [← hloop]; rfl⟩
        | some op =>
          simp only
          cases hap : op.Apply c.hist.storage with
          | error e =>
            simp only
            exact inv_release c0 c _ sched i _ .addPanicked hinv hg rfl rfl rfl rfl trivial
              (fun h => by cases h)
          | ok pr =>
            obtain ⟨s1, r⟩ := pr
            cases r with
            | none =>
              refine inv_inside c0 c _ sched i _ (.addApplying stOps listOps rest) hinv hg rfl
                rfl rfl rfl ?_
              intro hpn
              obtain ⟨hc, hst, hne, hdocs, hloop⟩ := hp hpn
              refine ⟨hc, hst, hne, hdocs, ?_⟩
              rw [← hloop]
              simp only [applyOperationsLoop, hap]
            | some listOp =>
              refine inv_inside c0 c _ sched i _
                (.addApplying stOps (listOps ++ [listOp]) rest) hinv hg rfl rfl rfl rfl ?_
              intro hpn
              obtain ⟨hc, hst, hne, hdocs, hloop⟩ := hp hpn
              refine ⟨hc, hst, hne, hdocs, ?_⟩
              rw [← hloop]
              simp only [applyOperationsLoop, hap]
    | addAppended =>
      refine inv_inside c0 c _ sched i _ .addVersioned hinv hg rfl rfl rfl rfl ?_
      intro hpn
      obtain ⟨hc, stOps, h1, hst, hne, hadd, hdocs, hstor⟩ := hp hpn
      have hlat := addVersion_latest hc h1 stOps hne hadd
      have e : ({ c.hist with latestVersion := (c.hist.documents.length : Int) - 1 } :
          DocumentHistory) = h1 := by
        cases h1
        simp only at hdocs hstor hlat
        simp only [DocumentHistory.mk.injEq]
        exact ⟨hdocs, hstor, by rw [hlat, hdocs]⟩
      show c0.hist.Steps { c.hist with latestVersion := (c.hist.documents.length : Int) - 1 }
      rw [e]
      exact DocumentHistory.Steps.step _ hc h1 stOps hst hadd
    | addVersioned =>
      exact inv_release c0 c _ sched i _ .addReturned hinv hg rfl rfl rfl rfl trivial hp
    | addReturned => exact inv_stay c0 c sched i hinv
    | addPanicked => exact inv_stay c0 c sched i hinv

theorem run_inv (c0 : Shared) (h0 : c0.Initial) (sched : List Nat) :
    RunInv c0 sched (c0.run sched) := by
  induction sched using List.reverseRecOn with
  | nil =>
    obtain ⟨hl, hpn, hst⟩ := h0
    refine ⟨?_, ?_, fun _ _ => DocumentHistory.Steps.refl _⟩
    · intro k g hk
      have hs := hst g (List.getElem?_mem hk)
      show g.holdsLock = true ↔ c0.lock = some k
      rw [hl]
      cases g <;> simp [Goroutine.holdsLock, Goroutine.atStart] at hs ⊢
    · intro k g hk
      have hs := hst g (List.getElem?_mem hk)
      cases g <;> simp [Goroutine.atStart] at hs <;> trivial
  | append_singleton sched i ih =>
    rw [run_snoc]
    exact step_inv c0 _ sched i rfl ih

/-- C29. Snapshot atomicity under concurrency: goroutines that call `GetOutputSnapshot` and
`AddVersion` on one shared history start with the mutex free and take their steps in any
interleaving. Whenever a `GetOutputSnapshot` call has returned the pair `(v, l)`, there is a
point of the schedule at which the mutex was free, so that no `AddVersion` was between its
`Lock` and `Unlock`, and the shared history had `v` as latest version and `l` as exported
list; if no goroutine had panicked by then, that history consists of the initial history
and whole `AddVersion` calls. -/
theorem snapshot_atomic (c0 : Shared) (h0 : c0.Initial) (schedule : List Nat) (i : Nat)
    (v : Int) (l : StorageList)
    (hret : (c0.run schedule).goroutines[i]? = some (.snapshotReturned v l)) :
    ∃ pre post, schedule = pre ++ post ∧ (c0.run pre).lock = none ∧
      (c0.run pre).hist.GetOutputSnapshot = (v, l) ∧
      ((c0.run pre).panicked = false → c0.hist.Steps (c0.run pre).hist) := by
  obtain ⟨h, ⟨pre, post, e, hl, hh, hs⟩, hsnap⟩ := (run_inv c0 h0 schedule).2.1 i _ hret
  exact ⟨pre, post, e, hl, by rw [hh]; exact hsnap, by rw [hh]; exact hs⟩

theorem snapshot_atomic_witness :
    sampleShared.Initial ∧
    (sampleShared.run sampleSchedule).goroutines[0]?
      = some (.snapshotReturned 1
          [{ Id := idB.String, Value := 7 }, { Id := idA.String, Value := 9 }]) ∧
    ∃ pre post, sampleSchedule = pre ++ post ∧ (sampleShared.run pre).lock = none ∧
      (sampleShared.run pre).hist.GetOutputSnapshot
        = (1, [{ Id := idB.String, Value := 7 }, { Id := idA.String, Value := 9 }]) ∧
      ((sampleShared.run pre).panicked = false →
        sampleShared.hist.Steps (sampleShared.run pre).hist) :=
  ⟨by decide, by rfl,
    snapshot_atomic sampleShared (by decide) sampleSchedule 0 1
      [{ Id := idB.String, Value := 7 }, { Id := idA.String, Value := 9 }] (by rfl)⟩

/-! ## Direction of an update move -/

/-- Where the lower bound falls once the element at `i` is cut from a sorted list: not left
of `i` for a value above the cut element, not right of `i` otherwise, and for the cut
element's own value at the lower bound of the whole list, where that value first occurs. -/
theorem cut_lowerBound_direction (vals : List StorageValue)
    (hs : vals.Pairwise (fun a b => a ≤ b)) (i : Nat) (hi : i < vals.length)
    (v : StorageValue) (j : Nat) (hj : IsLowerBound (sliceCut vals i) v j) :
    (vals[i] < v → i ≤ j) ∧ (v ≤ vals[i] → j ≤ i) ∧
    (v = vals[i] → IsLowerBound vals v j ∧ vals[j]? = some v) := by
  rw [sliceCut_eq_eraseIdx] at hj
  have hlen : (vals.eraseIdx i).length = vals.length - 1 := by
    rw [List.length_eraseIdx, if_pos hi]
  obtain ⟨hj1, hj2, hj3⟩ := hj
  have sorted := List.pairwise_iff_getElem.mp hs
  have hle_of : ∀ (a b : Nat) (ha : a < vals.length) (hb : b < vals.length), a ≤ b →
      vals[a] ≤ vals[b] := by
    intro a b ha hb hab
    rcases Nat.lt_or_eq_of_le hab with h | h
    · exact sorted a b ha hb h
    · subst h; exact le_refl _
  have part1 : vals[i] < v → i ≤ j := by
    intro hlt
    by_contra hc
    have hji : j < i := Nat.lt_of_not_le hc
    have hjl : j < (vals.eraseIdx i).length := by omega
    have hmem : (vals.eraseIdx i)[j] ∈ (vals.eraseIdx i).drop j :=
      List.mem_drop_iff_getElem.mpr ⟨0, by omega, by simp⟩
    have h1 := hj3 _ hmem
    rw [List.getElem_eraseIdx_of_lt vals i j hjl hji] at h1
    have h2 := hle_of j i (by omega) hi (Nat.le_of_lt hji)
    exact absurd (lt_of_le_of_lt (le_trans h1 h2) hlt) (lt_irrefl _)
  have part2 : v ≤ vals[i] → j ≤ i := by
    intro hle
    by_contra hc
    have hij : i < j := Nat.lt_of_not_le hc
    have hil : i < (vals.eraseIdx i).length := by omega
    have hmem : (vals.eraseIdx i)[i] ∈ (vals.eraseIdx i).take j :=
      List.mem_take_iff_getElem.mpr ⟨i, by simp; omega, rfl⟩
    have h1 := hj2 _ hmem
    rw [List.getElem_eraseIdx_of_ge vals i i hil (Nat.le_refl i)] at h1
    have h2 := hle_of i (i + 1) hi (by omega) (Nat.le_succ i)
    exact absurd (lt_of_lt_of_le h1 (le_trans hle h2)) (lt_irrefl _)
  refine ⟨part1, part2, ?_⟩
  intro he
  have hji : j ≤ i := part2 (le_of_eq he)
  have hdrop : ∀ m (hm : m < vals.length), j ≤ m → v ≤ vals[m] := by
    intro m hm hjm
    rcases Nat.lt_or_ge m i with h | h
    · have hml : m < (vals.eraseIdx i).length := by omega
      have hmem : (vals.eraseIdx i)[m] ∈ (vals.eraseIdx i).drop j :=
        List.mem_drop_iff_getElem.mpr ⟨m - j, by omega, by
          congr 1; omega⟩
      have h1 := hj3 _ hmem
      rwa [List.getElem_eraseIdx_of_lt vals i m hml h] at h1
    · rw [he]
      exact hle_of i m hi hm h
  have hjlen : j < vals.length := by omega
  refine ⟨⟨by omega, ?_, ?_⟩, ?_⟩
  · intro x hx
    obtain ⟨k, hk, rfl⟩ := List.mem_take_iff_getElem.mp hx
    have hkj : k < j := by
      have := hk
      simp only [lt_inf_iff] at this
      exact this.1
    have hkl : k < (vals.eraseIdx i).length := by omega
    have hmem : (vals.eraseIdx i)[k] ∈ (vals.eraseIdx i).take j :=
      List.mem_take_iff_getElem.mpr ⟨k, by simp; omega, rfl⟩
    have h1 := hj2 _ hmem
    rwa [List.getElem_eraseIdx_of_lt vals i k hkl (by omega)] at h1
  · intro x hx
    obtain ⟨k, hk, rfl⟩ := List.mem_drop_iff_getElem.mp hx
    exact hdrop (j + k) (by omega) (Nat.le_add_right j k)
  · rw [List.getElem?_eq_getElem hjlen]
    congr 1
    refine le_antisymm ?_ (hdrop j hjlen (Nat.le_refl j))
    rw [he]
    exact hle_of j i hjlen hi hji

/-- C31. Direction of an update move: on a storage satisfying the invariants, `set` of an id
whose by-id entry `item` is live returns `Update` with `Index` the position of the item; its
`NewIndex` is not below `Index` when the new value is greater than the item's old value and
not above `Index` when the new value is less than or equal to it; with the old value itself,
`NewIndex` is the lower bound of that value in the list before the call, the leftmost
position holding an item of that value. -/
theorem update_direction (s : Storage) (itemId : UUID) (v : StorageValue) (c : ClientId)
    (t : Time) (item : Nat) (hinv : s.Inv)
    (hsome : mapLookup s.idDataMatch itemId.String = some item)
    (hlive : (s.deref item).IsDeleted = false) :
    ∃ (old_idx new_idx : Nat) (s1 : Storage),
      s.set itemId v c t = .ok (s1, some
        { Typ := UpdateOperationType, Index := (old_idx : Nat), NewIndex := (new_idx : Nat),
          Id := itemId.String, Value := v }) ∧
      s.list[old_idx]? = some item ∧
      ((s.deref item).Value < v → old_idx ≤ new_idx) ∧
      (v ≤ (s.deref item).Value → new_idx ≤ old_idx) ∧
      (v = (s.deref item).Value →
        IsLowerBound (s.items.map (fun it => it.Value)) v new_idx ∧
        (s.items[new_idx]?.map (fun it => it.Value)) = some v) := by
  obtain ⟨i, hi, hget, hf⟩ := hinv.findItemIdx_live itemId.String item hsome hlive
  have hnd := hinv.nodup
  have hnot : item ∉ sliceCut s.list i := hget ▸ not_mem_cut_of_nodup s.list i hi hnd
  have hvalid : item < s.mem.length := hinv.listValid item (hget ▸ List.getElem_mem hi)
  have hsorted : (s.list.map (fun p => (s.deref p).Value)).Pairwise (fun a b => a ≤ b) :=
    hinv.2.2.1
  have hcut : ((sliceCut s.list i).map (fun p => (s.deref p).Value)).Pairwise
      (fun a b => a ≤ b) := by
    rw [map_sliceCut]
    exact List.Pairwise.sublist (sliceCut_sublist _ i) hsorted
  have hlb := lowerBoundIdx_spec ((sliceCut s.list i).map (fun p => (s.deref p).Value)) v hcut
  rw [map_sliceCut] at hlb
  have hi2 : i < (s.list.map (fun p => (s.deref p).Value)).length := by
    rw [List.length_map]; exact hi
  have hval : (s.list.map (fun p => (s.deref p).Value))[i] = (s.deref item).Value := by
    rw [List.getElem_map, hget]
  obtain ⟨d1, d2, d3⟩ := cut_lowerBound_direction _ hsorted i hi2 v _ hlb
  rw [hval] at d1 d2 d3
  rw [← map_sliceCut] at d1 d2 d3
  refine ⟨i, lowerBoundIdx ((sliceCut s.list i).map (fun p => (s.deref p).Value)) v, _,
    set_existing_eq s itemId v c t item i hsome hf hvalid hnot,
    by rw [List.getElem?_eq_getElem hi, hget], d1, d2, ?_⟩
  intro he
  obtain ⟨e1, e2⟩ := d3 he
  rw [items_map_value]
  refine ⟨e1, ?_⟩
  rw [← List.getElem?_map, items_map_value]
  exact e2

theorem update_direction_witness :
    (∃ s1, sampleTies.set idB 4 9 9 = .ok (s1, some
      { Typ := UpdateOperationType, Index := 1, NewIndex := 0, Id := idB.String,
        Value := 4 })) ∧
    (sampleTies.deref 1).Value = 4 ∧
    ∃ (old_idx new_idx : Nat) (s1 : Storage),
      sampleTies.set idB 4 9 9 = .ok (s1, some
        { Typ := UpdateOperationType, Index := (old_idx : Nat), NewIndex := (new_idx : Nat),
          Id := idB.String, Value := 4 }) ∧
      sampleTies.list[old_idx]? = some 1 ∧
      ((sampleTies.deref 1).Value < 4 → old_idx ≤ new_idx) ∧
      ((4 : StorageValue) ≤ (sampleTies.deref 1).Value → new_idx ≤ old_idx) ∧
      ((4 : StorageValue) = (sampleTies.deref 1).Value →
        IsLowerBound (sampleTies.items.map (fun it => it.Value)) 4 new_idx ∧
        (sampleTies.items[new_idx]?.map (fun it => it.Value)) = some 4) :=
  ⟨⟨_, by rfl⟩, by rfl,
    update_direction sampleTies idB 4 9 9 1 (by decide) (by decide) (by decide)⟩

/-! ## `GetOutputDiffWithLatest` on every client version -/

/-- The loop of `GetOutputDiffWithLatest` aborts when it starts at a negative index that is
not above `latestVersion`. -/
theorem diffLoop_negative (docs : List Document) (latest : Int) (fuel : Nat) (start : Int)
    (acc : List ListOperation) (hf : 0 < fuel) (hs : start < 0) (hl : start ≤ latest) :
    diffLoop docs latest fuel start acc = .error "runtime error: index out of range" := by
  obtain ⟨n, rfl⟩ : ∃ n, fuel = n + 1 := ⟨fuel - 1, by omega⟩
  unfold diffLoop
  rw [if_pos hl, if_pos (Or.inl hs)]

/-- Which client versions make `GetOutputDiffWithLatest` abort: in every history reached from
a constructor, the call on a 64-bit version `v` returns a pair exactly when
`-1 ≤ v < 2^63 - 1`; for `v ≤ -2` and for `v = 2^63 - 1` the start index `v + 1` is negative
(after wrapping, for the latter), passes `IsVersionValid`, and `documents` is indexed there. -/
theorem getOutputDiff_returns_iff (h : DocumentHistory) (hr : h.ReachableAny) (v : Int)
    (hlo : -(2 ^ 63) ≤ v) (hhi : v < 2 ^ 63) :
    ((∃ r, h.GetOutputDiffWithLatest v = .ok r) ↔ (-1 ≤ v ∧ v < 2 ^ 63 - 1)) ∧
    (¬ (-1 ≤ v ∧ v < 2 ^ 63 - 1) →
      h.GetOutputDiffWithLatest v = .error "runtime error: index out of range") := by
  have hshape := reachableAny_latest h hr
  have hlat : 0 ≤ h.latestVersion := by
    rcases hshape with he | ⟨hne, hl⟩
    · rw [he]; exact le_refl _
    · have := List.length_pos.mpr hne
      omega
  have habort : ¬ (-1 ≤ v ∧ v < 2 ^ 63 - 1) →
      h.GetOutputDiffWithLatest v = .error "runtime error: index out of range" := by
    intro hn
    have hst : wrapInt (v + 1) < 0 := by
      unfold wrapInt
      omega
    have hvalid : h.IsVersionValid (wrapInt (v + 1)) = true := by
      simp only [DocumentHistory.IsVersionValid, decide_eq_true_eq]
      omega
    unfold DocumentHistory.GetOutputDiffWithLatest
    simp only [hvalid, Bool.not_true, Bool.false_eq_true, if_false]
    rw [diffLoop_negative _ _ _ _ _ (by omega) hst (by omega)]
  refine ⟨⟨?_, ?_⟩, habort⟩
  · rintro ⟨r, hr1⟩
    by_contra hn
    rw [habort hn] at hr1
    cases hr1
  · rintro ⟨h1, h2⟩
    rcases Int.lt_or_le v 0 with hneg | hpos
    · have hv : v = -1 := by omega
      subst hv
      have hw : wrapInt (-1 + 1) = 0 := by decide
      unfold DocumentHistory.GetOutputDiffWithLatest DocumentHistory.IsVersionValid
      simp only [hw]
      rcases hshape with he | ⟨hne, hl⟩
      · rw [he]
        exact ⟨_, rfl⟩
      · have hpos : 0 < h.documents.length := List.length_pos.mpr hne
        have c : (0 : Int) < ((h.documents.length : Nat) : Int) := by omega
        simp only [c, decide_True, Bool.not_true, Bool.false_eq_true, if_false]
        have hfuel : (h.latestVersion - 0 + 1).toNat = h.documents.length := by omega
        rw [hfuel, hl]
        have := diffLoop_eq h.documents h.documents.length 0 [] (Nat.zero_le _) (by omega)
        simp only [Nat.cast_zero] at this
        rw [this]
        exact ⟨_, rfl⟩
    · have hc := getOutputDiff_contract h hr v hpos h2
      rcases Int.lt_or_le v h.latestVersion with hlt | hge
      · exact ⟨_, hc.2 hlt⟩
      · exact ⟨_, hc.1 hge⟩

theorem getOutputDiff_returns_iff_witness :
    ((∃ r, sampleSeeded2.GetOutputDiffWithLatest (-1) = .ok r) ↔
      ((-1 : Int) ≤ -1 ∧ (-1 : Int) < 2 ^ 63 - 1)) ∧
    (¬ ((-1 : Int) ≤ -1 ∧ (-1 : Int) < 2 ^ 63 - 1) →
      sampleSeeded2.GetOutputDiffWithLatest (-1)
        = .error "runtime error: index out of range") :=
  getOutputDiff_returns_iff sampleSeeded2
    (Or.inr ⟨sampleObjs, DocumentHistory.Steps.step _ _ _ sampleCommit2
      (DocumentHistory.Steps.refl _) (by rfl)⟩) (-1) (by decide) (by decide)

/-- C32 at a negative client version. On the history of the v0 seed after one `AddVersion`
(`latest = 1`) the client version `-2` gives the start index `-1`, which `IsVersionValid`
accepts, and the loop indexes `documents` at `-1`: `GetOutputDiffWithLatest`, and
`GetListUpdates` which forwards the request's version unchecked, abort instead of returning
a pair. The same happens on the empty history of `NewDocumentHistory()`. -/
theorem getOutputDiff_negative_version :
    sampleSeeded2.ReachableAny ∧
    sampleSeeded2.IsVersionValid (wrapInt (-2 + 1)) = true ∧
    sampleSeeded2.GetOutputDiffWithLatest (-2) = .error "runtime error: index out of range" ∧
    (SortedListService.mk sampleSeeded2 []).GetListUpdates { Version := -2 }
        { Version := 0, Operations := [] }
      = .error "runtime error: index out of range" ∧
    NewDocumentHistory.GetOutputDiffWithLatest (-2)
      = .error "runtime error: index out of range" := by
  refine ⟨Or.inr ⟨sampleObjs, DocumentHistory.Steps.step _ _ _ sampleCommit2
      (DocumentHistory.Steps.refl _) (by rfl)⟩, by decide, by rfl, by rfl, by rfl⟩

/-! ## The storage refines a last-writer-wins map -/

theorem valueOf_of_none (s : Storage) (key : String)
    (h : mapLookup s.idDataMatch key = none) : s.valueOf key = none := by
  simp only [Storage.valueOf, h]

theorem valueOf_of_some (s : Storage) (key : String) (p : Nat)
    (h : mapLookup s.idDataMatch key = some p) :
    s.valueOf key = if (s.deref p).IsDeleted then none else some (s.deref p).Value := by
  simp only [Storage.valueOf, h]

/-- Two keys of one by-id entry are the same key. -/
theorem key_of_pointer (s : Storage) (hinv : s.Inv) (k1 k2 : String) (p : Nat)
    (h1 : mapLookup s.idDataMatch k1 = some p) (h2 : mapLookup s.idDataMatch k2 = some p) :
    k1 = k2 := by
  have a := hinv.2.1 (k1, p) (mapLookup_mem _ _ _ h1)
  have b := hinv.2.1 (k2, p) (mapLookup_mem _ _ _ h2)
  simp only at a b
  rw [← a, ← b]

/-- The map read does not depend on the object memory and the list. -/
theorem valueOf_congr (s s1 : Storage) (key : String)
    (hm : s1.idDataMatch = s.idDataMatch)
    (hd : ∀ p, mapLookup s.idDataMatch key = some p → s1.deref p = s.deref p) :
    s1.valueOf key = s.valueOf key := by
  unfold Storage.valueOf
  rw [hm]
  cases hl : mapLookup s.idDataMatch key with
  | none => rfl
  | some p => simp only [hd p hl]

/-- One returning operation acts on the values held by the storage as the naive map step. -/
theorem apply_valueOf (s : Storage) (op : StorageOperation) (s1 : Storage)
    (r : Option ListOperation) (hinv : s.Inv) (h : op.Apply s = .ok (s1, r)) :
    s1.valueOf = naiveStep s.valueOf (some op) := by
  funext key
  cases op with
  | Set o =>
    change s.set o.Id o.Value o.UpdatedBy o.UpdatedAt = .ok (s1, r) at h
    simp only [naiveStep]
    cases hl : mapLookup s.idDataMatch o.Id.String with
    | none =>
      rw [set_new_eq s o.Id o.Value o.UpdatedBy o.UpdatedAt hinv.listValid hl] at h
      simp only [Except.ok.injEq, Prod.mk.injEq] at h
      obtain ⟨hs, _⟩ := h
      subst hs
      by_cases hk : key = o.Id.String
      · subst hk
        rw [if_pos rfl]
        rw [valueOf_of_some _ _ s.mem.length (by
          show mapLookup (s.idDataMatch ++ [(o.Id.String, s.mem.length)]) o.Id.String = _
          rw [mapLookup_append_of_none _ _ _ hl, mapLookup_single, if_pos rfl])]
        rw [deref_append_new]
        rfl
      · rw [if_neg hk]
        unfold Storage.valueOf
        show (match mapLookup (s.idDataMatch ++ [(o.Id.String, s.mem.length)]) key with
          | none => none
          | some p => _) = _
        rw [mapLookup_append_single_ne _ _ _ _ hk]
        cases hq : mapLookup s.idDataMatch key with
        | none => rfl
        | some p =>
          have hp : p < s.mem.length := hinv.1 (key, p) (mapLookup_mem _ _ _ hq)
          simp only
          rw [deref_append_old s.mem s.list s.idDataMatch _ _ _ p hp]
    | some item =>
      cases hf : s.findItemIdx item with
      | error e =>
        unfold Storage.set at h
        simp [hl, hf] at h
      | ok i =>
        obtain ⟨hi, hget, hlive⟩ := hinv.locate o.Id.String item i hl hf
        have hnot : item ∉ sliceCut s.list i :=
          hget ▸ not_mem_cut_of_nodup s.list i hi hinv.nodup
        have hvalid : item < s.mem.length := hinv.listValid item (hget ▸ List.getElem_mem hi)
        rw [set_existing_eq s o.Id o.Value o.UpdatedBy o.UpdatedAt item i hl hf hvalid hnot] at h
        simp only [Except.ok.injEq, Prod.mk.injEq] at h
        obtain ⟨hs, _⟩ := h
        subst hs
        by_cases hk : key = o.Id.String
        · subst hk
          rw [if_pos rfl]
          unfold Storage.valueOf
          simp only [hl]
          rw [deref_set_same s item _ _ _ hvalid]
          simp only [hlive, Bool.false_eq_true, if_false]
        · rw [if_neg hk]
          refine valueOf_congr s _ key rfl ?_
          intro p hp
          exact deref_set_other s item p _ _ _
            (fun e => hk (key_of_pointer s hinv _ _ item (e ▸ hp) hl))
  | Delete o =>
    change s.delete o.Id o.DeletedBy o.DeletedAt = .ok (s1, r) at h
    simp only [naiveStep]
    cases hl : mapLookup s.idDataMatch o.Id.String with
    | none =>
      rw [delete_noop_eq s o.Id o.DeletedBy o.DeletedAt (Or.inl hl)] at h
      simp only [Except.ok.injEq, Prod.mk.injEq] at h
      obtain ⟨hs, _⟩ := h
      subst hs
      by_cases hk : key = o.Id.String
      · subst hk
        rw [if_pos rfl, valueOf_of_none _ _ hl]
      · rw [if_neg hk]
    | some item =>
      cases hdel : (s.deref item).IsDeleted with
      | true =>
        rw [delete_noop_eq s o.Id o.DeletedBy o.DeletedAt (Or.inr ⟨item, hl, hdel⟩)] at h
        simp only [Except.ok.injEq, Prod.mk.injEq] at h
        obtain ⟨hs, _⟩ := h
        subst hs
        by_cases hk : key = o.Id.String
        · subst hk
          rw [if_pos rfl, valueOf_of_some _ _ item hl, hdel]
          rfl
        · rw [if_neg hk]
      | false =>
        obtain ⟨i, hi, hget, hf⟩ := hinv.findItemIdx_live o.Id.String item hl hdel
        have hvalid : item < s.mem.length := hinv.listValid item (hget ▸ List.getElem_mem hi)
        rw [delete_live_eq s o.Id o.DeletedBy o.DeletedAt item i hl hdel hf] at h
        simp only [Except.ok.injEq, Prod.mk.injEq] at h
        obtain ⟨hs, _⟩ := h
        subst hs
        by_cases hk : key = o.Id.String
        · subst hk
          rw [if_pos rfl]
          unfold Storage.valueOf
          simp only [hl]
          rw [deref_set_same s item _ _ _ hvalid]
          rfl
        · rw [if_neg hk]
          refine valueOf_congr s _ key rfl ?_
          intro p hp
          exact deref_set_other s item p _ _ _
            (fun e => hk (key_of_pointer s hinv _ _ item (e ▸ hp) hl))

/-- A returning `ApplyOperations` acts on the values held by the storage as the naive map. -/
theorem applyOperations_valueOf (ops : List (Option StorageOperation)) :
    ∀ (s s1 : Storage) (out : List ListOperation), s.Inv →
      s.ApplyOperations ops = .ok (s1, out) →
      s1.valueOf = ops.foldl naiveStep s.valueOf := by
  induction ops with
  | nil =>
    intro s s1 out _ h
    rw [applyOperations_nil] at h
    simp only [Except.ok.injEq, Prod.mk.injEq] at h
    rw [← h.1]
    rfl
  | cons o ops ih =>
    intro s s1 out hinv h
    cases o with
    | none =>
      rw [applyOperations_cons_none] at h
      exact ih s s1 out hinv h
    | some op =>
      rw [applyOperations_cons_some] at h
      cases ha : op.Apply s with
      | error e => rw [ha] at h; simp at h
      | ok pr =>
        obtain ⟨s2, r⟩ := pr
        rw [ha] at h
        simp only at h
        cases hb : s2.ApplyOperations ops with
        | error e => rw [hb] at h; simp at h
        | ok pr2 =>
          obtain ⟨s3, out2⟩ := pr2
          rw [hb] at h
          simp only [Except.ok.injEq, Prod.mk.injEq] at h
          rw [← h.1, List.foldl_cons, ← apply_valueOf s op s2 r hinv ha]
          exact ih s2 s3 out2 (apply_step s op s2 r hinv ha).1 hb

/-- Under the invariants the export lists each held value once: its ids do not repeat, and
a pair is exported exactly when the storage holds that value for that id. -/
theorem export_valueOf (s : Storage) (hinv : s.Inv) :
    (s.Export.map (fun it => it.Id)).Nodup ∧
    ∀ (id : String) (v : StorageValue),
      ({ Id := id, Value := v } : ListItem) ∈ s.Export ↔ s.valueOf id = some v := by
  have hnd := hinv.nodup
  obtain ⟨_, hkey, _, hlm, hll⟩ := hinv
  rw [Export_eq_map]
  refine ⟨?_, ?_⟩
  · rw [List.map_map]
    refine List.Nodup.map_on ?_ hnd
    intro p hp q hq e
    simp only [Function.comp, Storage.view] at e
    have a := (hlm p hp).1
    have b := (hlm q hq).1
    rw [e, b] at a
    exact (Option.some.inj a).symm
  · intro id v
    constructor
    · intro hmem
      obtain ⟨p, hp, e⟩ := List.mem_map.mp hmem
      simp only [Storage.view, ListItem.mk.injEq] at e
      obtain ⟨hl, hlive⟩ := hlm p hp
      rw [e.1] at hl
      rw [valueOf_of_some _ _ p hl, hlive, e.2]
      rfl
    · intro hv
      unfold Storage.valueOf at hv
      cases hl : mapLookup s.idDataMatch id with
      | none => simp [hl] at hv
      | some p =>
        simp only [hl] at hv
        cases hdel : (s.deref p).IsDeleted with
        | true => simp [hdel] at hv
        | false =>
          simp only [hdel, Bool.false_eq_true, if_false, Option.some.injEq] at hv
          have hc := hll (id, p) (mapLookup_mem _ _ _ hl) hdel
          have hmem : p ∈ s.list := List.count_pos_iff.mp (by
            simp only at hc
            rw [hc]; exact Nat.one_pos)
          have hk := hkey (id, p) (mapLookup_mem _ _ _ hl)
          simp only at hk
          exact List.mem_map.mpr ⟨p, hmem, by simp only [Storage.view, hk, hv]⟩

/-- The naive map after a run: the last operation that writes a key decides its value. -/
theorem naiveRun_last (pre post : List (Option StorageOperation)) (op : StorageOperation)
    (key : String) (hpost : ∀ o ∈ post, touches key o = false)
    (hop : touches key (some op) = true) :
    naiveRun (pre ++ some op :: post) key =
      match op with
      | .Set o => some o.Value
      | .Delete _ => none := by
  have hfold : ∀ (l : List (Option StorageOperation)) (m : String → Option StorageValue),
      (∀ o ∈ l, touches key o = false) → l.foldl naiveStep m key = m key := by
    intro l
    induction l with
    | nil => intro m _; rfl
    | cons o l ih =>
      intro m hl
      rw [List.foldl_cons, ih _ (fun x hx => hl x (List.mem_cons_of_mem _ hx))]
      have ho := hl o (List.mem_cons_self _ _)
      cases o with
      | none => rfl
      | some op1 =>
        cases op1 with
        | Set o1 =>
          simp only [touches, beq_eq_false_iff_ne, ne_eq] at ho
          simp only [naiveStep]
          rw [if_neg (fun e => ho (Eq.symm e))]
        | Delete o1 =>
          simp only [touches, beq_eq_false_iff_ne, ne_eq] at ho
          simp only [naiveStep]
          rw [if_neg (fun e => ho (Eq.symm e))]
  unfold naiveRun
  rw [List.foldl_append, List.foldl_cons, hfold post _ hpost]
  cases op with
  | Set o =>
    simp only [touches, beq_iff_eq] at hop
    simp only [naiveStep, hop, if_true]
  | Delete o =>
    simp only [touches, beq_iff_eq] at hop
    simp only [naiveStep, hop, if_true]

/-- C33. The storage refines a last-writer-wins key-value map: for every sequence of
operations on which `ApplyOperations` returns from `NewStorage()`, the ids of the export do
not repeat, and a pair `(id, v)` is in the export exactly when the naive map, in which
`Set(id, v)` stores `v` for `id` and `Delete(id)` marks `id` removed, holds `v` for `id`
after the same sequence. -/
theorem storage_refines_map (ops : List (Option StorageOperation)) (s1 : Storage)
    (out : List ListOperation) (h : NewStorage.ApplyOperations ops = .ok (s1, out)) :
    (s1.Export.map (fun it => it.Id)).Nodup ∧
    ∀ (id : String) (v : StorageValue),
      ({ Id := id, Value := v } : ListItem) ∈ s1.Export ↔ naiveRun ops id = some v := by
  have hinv : s1.Inv := (applyOperations_replay ops NewStorage s1 out inv_NewStorage h).1
  have hv := applyOperations_valueOf ops NewStorage s1 out inv_NewStorage h
  have h0 : NewStorage.valueOf = fun _ => none := rfl
  obtain ⟨hnd, hex⟩ := export_valueOf s1 hinv
  refine ⟨hnd, fun id v => ?_⟩
  rw [hex id v, hv, h0]
  rfl

theorem storage_refines_map_witness :
    NewStorage.ApplyOperations sampleRun = .ok (sampleRunAfter, sampleRunEdits) ∧
    sampleRunAfter.Export
      = [{ Id := idC.String, Value := 10 }, { Id := idA.String, Value := 15 }] ∧
    naiveRun sampleRun idA.String = some 15 ∧ naiveRun sampleRun idB.String = none ∧
    naiveRun sampleRun idC.String = some 10 ∧
    ((sampleRunAfter.Export.map (fun it => it.Id)).Nodup ∧
    ∀ (id : String) (v : StorageValue),
      ({ Id := id, Value := v } : ListItem) ∈ sampleRunAfter.Export ↔
        naiveRun sampleRun id = some v) :=
  ⟨by rfl, by rfl, by rfl, by rfl, by rfl,
    storage_refines_map sampleRun sampleRunAfter sampleRunEdits (by rfl)⟩

end Collab
